import Mathlib

/-!
# Context-free grammars, Chomsky normal form and CYK

A shallow embedding of the `FL` library (`Common`, `Grammar`,
`ContextFreeGrammar`, `CYK`) and theorems about it.

Modelling conventions.

* A `Symbol` is its `rawValue` (a C++ `int`), modelled as an `Int`.
* An `Alphabet` (`std::unordered_set<Symbol>`) is a list that is only ever
  inspected through membership and extended through `List.insert`.
* A `std::vector` is a `List`; `v[i]` is `List.getD v i _`.
* A C++ exception is the error side of `Except Exception`.
* A member function that mutates `*this` takes the grammar and returns the new one.
-/

namespace FL

/-! ## Common.hpp -/

/-- The raw value of a `Symbol`. -/
abbrev Symbol := Int

/-- The constant `Symbol::maxValue`, the largest `int`. -/
def Symbol.maxValue : Int := 2147483647

/-- The type `Alphabet = std::unordered_set<Symbol>`. -/
abbrev Alphabet := List Symbol

/-- The type `Word = std::vector<Symbol>`. -/
abbrev Word := List Symbol

/-- The constant `emptyWord` of `Constants.hpp`. -/
def emptyWord : Word := []

/-- Indexing `word[i]` of a `std::vector<Symbol>`. -/
def Word.at (w : Word) (i : Nat) : Symbol := w.getD i 0

/-- The exceptions thrown by the library. -/
inductive Exception where
  | IncorrectGrammarException
  | GrammarOutOfSymbolsException
  | NonContextFreeGrammarException
  | FoundLongRuleException
deriving DecidableEq, Repr

/-! ## Grammar.hpp / Grammar.cpp -/

/-- The struct `Grammar::Rule`. -/
structure Rule where
  lhs : Word
  rhs : Word
deriving DecidableEq, Repr

/-- The data members of `Grammar` (and of `ContextFreeGrammar`, which adds none). -/
structure Grammar where
  terminals : Alphabet
  nonterminals : Alphabet
  startSymbol : Symbol
  rules : List Rule
  maxSymbol : Symbol
deriving DecidableEq, Repr

namespace Grammar

/-- `Grammar::symbolIsTerminal`. -/
def symbolIsTerminal (g : Grammar) (s : Symbol) : Bool := decide (s ∈ g.terminals)

/-- `Grammar::symbolIsNonterminal`. -/
def symbolIsNonterminal (g : Grammar) (s : Symbol) : Bool := decide (s ∈ g.nonterminals)

/-- `Grammar::symbolIsCorrect`. -/
def symbolIsCorrect (g : Grammar) (s : Symbol) : Bool :=
  g.symbolIsTerminal s || g.symbolIsNonterminal s

/-- `Grammar::isContextFree`: the loop over the rules with its early `return false`. -/
def isContextFree (g : Grammar) : Bool :=
  g.rules.all fun r =>
    !(decide (r.lhs.length > 1) || (decide (r.lhs.length = 1) && !g.symbolIsNonterminal (r.lhs.at 0)))

/-- The first loop of `Grammar::ruleIsCorrect`, over the symbols of `rule.rhs`. -/
def ruleIsCorrect.rhsLoop (g : Grammar) : Word → Bool
  | [] => true
  | s :: rest => if !g.symbolIsCorrect s then false else rhsLoop g rest

/-- The second loop of `Grammar::ruleIsCorrect`, over the symbols of `rule.lhs`,
carrying the flag `lhsHasNonterminals`. -/
def ruleIsCorrect.lhsLoop (g : Grammar) : Word → Bool → Bool
  | [], lhsHasNonterminals => lhsHasNonterminals
  | s :: rest, lhsHasNonterminals =>
    if !g.symbolIsCorrect s then false
    else lhsLoop g rest (if g.symbolIsNonterminal s then true else lhsHasNonterminals)

/-- `Grammar::ruleIsCorrect`. -/
def ruleIsCorrect (g : Grammar) (rule : Rule) : Bool :=
  if rule.lhs.isEmpty then false
  else if !ruleIsCorrect.rhsLoop g rule.rhs then false
  else ruleIsCorrect.lhsLoop g rule.lhs false

/-- `Grammar::isCorrect`. -/
def isCorrect (g : Grammar) : Bool :=
  if !g.symbolIsNonterminal g.startSymbol then false
  else if g.terminals.any (fun s => g.symbolIsNonterminal s) then false
  else g.rules.all (fun rule => g.ruleIsCorrect rule)

/-- The constructor `Grammar::Grammar`: the members are initialised with `_maxSymbol(0)`,
the grammar is checked, and `_maxSymbol` becomes the largest raw value of the two
alphabets (or stays `0`). -/
def new (terminals nonterminals : Alphabet) (startSymbol : Symbol) (rules : List Rule) :
    Except Exception Grammar :=
  let g : Grammar := ⟨terminals, nonterminals, startSymbol, rules, 0⟩
  if !g.isCorrect then
    throw Exception.IncorrectGrammarException
  else
    let m1 := terminals.foldl (fun m s => max m s) g.maxSymbol
    let m2 := nonterminals.foldl (fun m s => max m s) m1
    pure { g with maxSymbol := m2 }

/-- `Grammar::addNewTerminal`: returns the minted symbol and the updated grammar. -/
def addNewTerminal (g : Grammar) : Except Exception (Symbol × Grammar) :=
  if g.maxSymbol = Symbol.maxValue then
    throw Exception.GrammarOutOfSymbolsException
  else
    let m := g.maxSymbol + 1
    pure (m, { g with terminals := g.terminals.insert m, maxSymbol := m })

/-- `Grammar::addNewNonterminal`: returns the minted symbol and the updated grammar. -/
def addNewNonterminal (g : Grammar) : Except Exception (Symbol × Grammar) :=
  if g.maxSymbol = Symbol.maxValue then
    throw Exception.GrammarOutOfSymbolsException
  else
    let m := g.maxSymbol + 1
    pure (m, { g with nonterminals := g.nonterminals.insert m, maxSymbol := m })

end Grammar

/-- `Grammar::Rule::Rule(std::string const&, std::string const&)` on ASCII strings. -/
def Rule.ofStrings (lhs rhs : String) : Rule :=
  ⟨lhs.toList.map (fun c => (c.toNat : Int)), rhs.toList.map (fun c => (c.toNat : Int))⟩

/-- `Symbol::Symbol(char)` on an ASCII character. -/
def Symbol.ofChar (c : Char) : Symbol := (c.toNat : Int)

/-! ## ContextFreeGrammar.hpp / ContextFreeGrammar.cpp -/

instance : Inhabited Rule := ⟨⟨[], []⟩⟩

namespace ContextFreeGrammar

/-- The constructor `ContextFreeGrammar(terminals, nonterminals, startSymbol, rules)`. -/
def new (terminals nonterminals : Alphabet) (startSymbol : Symbol) (rules : List Rule) :
    Except Exception Grammar := do
  let g ← Grammar.new terminals nonterminals startSymbol rules
  if !g.isContextFree then
    throw Exception.NonContextFreeGrammarException
  else
    pure g

/-- The constructor `ContextFreeGrammar(Grammar const&)`: copies the grammar. -/
def ofGrammar (grammar : Grammar) : Except Exception Grammar :=
  if !grammar.isContextFree then
    throw Exception.NonContextFreeGrammarException
  else
    pure grammar

/-- The condition under which the loop of `isNormalized` returns `false` at a rule. -/
def isNormalized.violates (g : Grammar) (r : Rule) : Bool :=
  decide (r.rhs.length > 2) ||
  (decide (r.rhs.length = 1) && g.symbolIsNonterminal (r.rhs.at 0)) ||
  (decide (r.rhs.length = 2) && (
    g.symbolIsTerminal (r.rhs.at 0) || g.symbolIsTerminal (r.rhs.at 1) ||
    decide (r.rhs.at 0 = g.startSymbol) || decide (r.rhs.at 1 = g.startSymbol))) ||
  (r.rhs.isEmpty && decide (r.lhs.at 0 ≠ g.startSymbol))

/-- `ContextFreeGrammar::isNormalized`. -/
def isNormalized (g : Grammar) : Bool :=
  g.rules.all fun r => !isNormalized.violates g r

/-- `ContextFreeGrammar::hasLongRules`. -/
def hasLongRules (g : Grammar) : Bool :=
  g.rules.any fun r => decide (r.rhs.length > 2)

/-- Appends a rule (`_rules.emplace_back`). -/
def pushRule (g : Grammar) (r : Rule) : Grammar := { g with rules := g.rules ++ [r] }

/-- The inner loop `for (j = 1; j < rhs.size() - 2; ++j)` of `removeLongRules`;
the first argument counts the iterations that remain. -/
def removeLongRules.chain (rhs : Word) : Nat → Nat → Grammar → Except Exception Grammar
  | 0, _, g => pure g
  | k + 1, j, g => do
    let (n, g1) ← g.addNewNonterminal
    let back := g1.rules.getLastD default
    chain rhs k (j + 1) (pushRule g1 ⟨[back.rhs.at 1], [rhs.at j, n]⟩)

/-- The loop `for (i = size - 1; i >= 0; --i)` of `removeLongRules`; `loop (i + 1) g`
runs the body at index `i` and goes on downwards. -/
def removeLongRules.loop : Nat → Grammar → Except Exception Grammar
  | 0, g => pure g
  | i + 1, g =>
    let r := g.rules.getD i default
    if r.rhs.length ≤ 2 then loop i g
    else do
      let (n, g1) ← g.addNewNonterminal
      let g2 := pushRule g1 ⟨r.lhs, [r.rhs.at 0, n]⟩
      let g3 ← removeLongRules.chain r.rhs (r.rhs.length - 3) 1 g2
      let back := g3.rules.getLastD default
      let g4 := pushRule g3 ⟨[back.rhs.at 1], [r.rhs.at (r.rhs.length - 2), r.rhs.getLastD 0]⟩
      loop i { g4 with rules := g4.rules.eraseIdx i }

/-- `ContextFreeGrammar::removeLongRules`. -/
def removeLongRules (g : Grammar) : Except Exception Grammar :=
  removeLongRules.loop g.rules.length g

/-- The loop `for (size_t setSize = set.size();; setSize = set.size())` that
`findEpsilonGenerators`, `findGeneratingNonterminals` and `findReachableNonterminals` share:
it runs `pass` over the set and stops (`break`) as soon as a pass leaves the size of the
set unchanged. The first argument bounds the number of passes. -/
def untilStable (pass : List Symbol → List Symbol) : Nat → List Symbol → List Symbol
  | 0, set => set
  | fuel + 1, set =>
    let set1 := pass set
    if set.length = set1.length then set1 else untilStable pass fuel set1

/-- One run of the inner `for` over the rules in the fixpoint loop of `findEpsilonGenerators`. -/
def findEpsilonGenerators.pass (rules : List Rule) (generators : List Symbol) : List Symbol :=
  rules.foldl (fun gens r =>
    if r.rhs.isEmpty then gens
    else if (r.rhs.length = 2 ∧ r.rhs.at 0 ∈ gens ∧ r.rhs.at 1 ∈ gens) ∨
        (r.rhs.length = 1 ∧ r.rhs.at 0 ∈ gens) then
      gens.insert (r.lhs.at 0)
    else gens) generators


/-- The first loop of `findEpsilonGenerators`: the lhs of the empty rules. -/
def findEpsilonGenerators.seed (rules : List Rule) : List Symbol :=
  rules.foldl (fun gens r => if r.rhs.isEmpty then gens.insert (r.lhs.at 0) else gens) []

/-- `ContextFreeGrammar::findEpsilonGenerators`. Every pass but the last inserts the lhs
of some rule into the set, so `rules.length + 1` passes are enough for the loop to stop
through its `break`. -/
def findEpsilonGenerators (g : Grammar) : Except Exception (List Symbol) :=
  if hasLongRules g then
    throw Exception.FoundLongRuleException
  else
    pure (untilStable (findEpsilonGenerators.pass g.rules) (g.rules.length + 1)
      (findEpsilonGenerators.seed g.rules))

/-- The loop `for (i = size - 1; i >= 0; --i)` of `removeEmptyRules`. -/
def removeEmptyRules.loop (epsilonGenerators : List Symbol) : Nat → List Rule → List Rule
  | 0, rules => rules
  | i + 1, rules =>
    let r := rules.getD i default
    let rules1 := if r.rhs.isEmpty then rules.eraseIdx i else rules
    if r.rhs.length < 2 then loop epsilonGenerators i rules1
    else
      let rules2 :=
        if r.rhs.at 0 ∈ epsilonGenerators then rules1 ++ [⟨r.lhs, [r.rhs.at 1]⟩] else rules1
      let rules3 :=
        if r.rhs.at 1 ∈ epsilonGenerators then rules2 ++ [⟨r.lhs, [r.rhs.at 0]⟩] else rules2
      loop epsilonGenerators i rules3

/-- `ContextFreeGrammar::removeEmptyRules`. -/
def removeEmptyRules (g : Grammar) : Except Exception Grammar :=
  if hasLongRules g then
    throw Exception.FoundLongRuleException
  else do
    let epsilonGenerators ← findEpsilonGenerators g
    let g1 : Grammar :=
      { g with rules := removeEmptyRules.loop epsilonGenerators g.rules.length g.rules }
    if g1.startSymbol ∈ epsilonGenerators then do
      let (newStartSymbol, g2) ← g1.addNewNonterminal
      let g3 := pushRule g2 ⟨[newStartSymbol], emptyWord⟩
      let g4 := pushRule g3 ⟨[newStartSymbol], [g3.startSymbol]⟩
      pure { g4 with startSymbol := newStartSymbol }
    else
      pure g1

/-- The local state of `findChainedPairs`: the vector `pairs`, the set of the pairs that
the map `isChainedPair` sends to `true` (`isChainedPair[a][b] = true` inserts `(a, b)`),
and the flag `foundNewPairs`. -/
structure ChainState where
  pairs : List (Symbol × Symbol)
  isChainedPair : List (Symbol × Symbol)
  foundNewPairs : Bool
deriving DecidableEq, Repr

/-- Inserts a pair into a set of pairs. -/
def insertPair (p : Symbol × Symbol) (set : List (Symbol × Symbol)) : List (Symbol × Symbol) :=
  if p ∈ set then set else p :: set

/-- The first loop of `findChainedPairs`: a pair for every unit rule. -/
def findChainedPairs.seed (g : Grammar) : ChainState :=
  g.rules.foldl (fun st r =>
    if r.rhs.length = 1 ∧ g.symbolIsNonterminal (r.rhs.at 0) = true then
      ⟨st.pairs ++ [(r.lhs.at 0, r.rhs.at 0)], insertPair (r.lhs.at 0, r.rhs.at 0) st.isChainedPair,
        st.foundNewPairs⟩
    else st) ⟨[], [], true⟩

/-- The loop `for (i = pairs.size() - 1; i >= 0; --i)` of `findChainedPairs` for the
unit rule `lhs0 → rhs0`. -/
def findChainedPairs.inner (lhs0 rhs0 : Symbol) : Nat → ChainState → ChainState
  | 0, st => st
  | i + 1, st =>
    let p := st.pairs.getD i (0, 0)
    if p.2 ≠ lhs0 ∨ (p.1, rhs0) ∈ st.isChainedPair then inner lhs0 rhs0 i st
    else inner lhs0 rhs0 i ⟨st.pairs ++ [(p.1, rhs0)], insertPair (p.1, rhs0) st.isChainedPair, true⟩

/-- One run of the `for` over the rules inside the fixpoint loop of `findChainedPairs`. -/
def findChainedPairs.pass (g : Grammar) (st : ChainState) : ChainState :=
  g.rules.foldl (fun st r =>
    if r.rhs.length ≠ 1 ∨ g.symbolIsNonterminal (r.rhs.at 0) = false then st
    else findChainedPairs.inner (r.lhs.at 0) (r.rhs.at 0) st.pairs.length st) st

/-- The loop `for (bool foundNewPairs = true; foundNewPairs;)` of `findChainedPairs`.
The first argument bounds the number of passes. -/
def findChainedPairs.loop (g : Grammar) : Nat → ChainState → ChainState
  | 0, st => st
  | fuel + 1, st =>
    let st1 := findChainedPairs.pass g { st with foundNewPairs := false }
    if st1.foundNewPairs then loop g fuel st1 else st1

/-- `ContextFreeGrammar::findChainedPairs`. Every pass but the last marks a new pair
`(lhs of a unit rule, rhs of a unit rule)`, so `rules.length * rules.length + 1` passes
are enough. -/
def findChainedPairs (g : Grammar) : List (Symbol × Symbol) :=
  (findChainedPairs.loop g (g.rules.length * g.rules.length + 1) (findChainedPairs.seed g)).pairs

/-- The first loop of `removeChainRules`: erases the unit rules, from the back. -/
def removeChainRules.eraseLoop (g : Grammar) : Nat → List Rule → List Rule
  | 0, rules => rules
  | i + 1, rules =>
    let r := rules.getD i default
    if r.rhs.length = 1 ∧ g.symbolIsNonterminal (r.rhs.at 0) = true then
      eraseLoop g i (rules.eraseIdx i)
    else eraseLoop g i rules

/-- The inner loop of `removeChainRules` for the chained pair `(start, last)`. -/
def removeChainRules.addLoop (start last : Symbol) : Nat → List Rule → List Rule
  | 0, rules => rules
  | i + 1, rules =>
    let r := rules.getD i default
    if r.lhs.at 0 = last then addLoop start last i (rules ++ [⟨[start], r.rhs⟩])
    else addLoop start last i rules

/-- `ContextFreeGrammar::removeChainRules`. -/
def removeChainRules (g : Grammar) : Grammar :=
  let chainedPairs := findChainedPairs g
  let rules1 := removeChainRules.eraseLoop g g.rules.length g.rules
  let rules2 := chainedPairs.foldl
    (fun rules p => removeChainRules.addLoop p.1 p.2 rules.length rules) rules1
  { g with rules := rules2 }

/-- The first loop of `findGeneratingNonterminals`. -/
def findGeneratingNonterminals.seed (g : Grammar) : List Symbol :=
  g.rules.foldl (fun nts r =>
    if r.rhs.isEmpty ∨
        (r.rhs.length = 1 ∧ g.symbolIsTerminal (r.rhs.at 0) = true) ∨
        (r.rhs.length = 2 ∧ g.symbolIsTerminal (r.rhs.at 0) = true ∧
          g.symbolIsTerminal (r.rhs.at 1) = true) then
      nts.insert (r.lhs.at 0)
    else nts) []

/-- The flag `allRHSNonterminalsAreGenerating` (and likewise the negation of
`shouldBeRemoved` restricted to the rhs): no symbol of `rhs` is a nonterminal outside
`nonterminals`. -/
def allRHSNonterminalsIn (g : Grammar) (nonterminals : List Symbol) (rhs : Word) : Bool :=
  rhs.all fun symbol => !(g.symbolIsNonterminal symbol && !decide (symbol ∈ nonterminals))

/-- One run of the `for` over the rules inside the fixpoint loop of
`findGeneratingNonterminals`. -/
def findGeneratingNonterminals.pass (g : Grammar) (nonterminals : List Symbol) : List Symbol :=
  g.rules.foldl (fun nts r =>
    if allRHSNonterminalsIn g nts r.rhs then nts.insert (r.lhs.at 0) else nts) nonterminals

/-- `ContextFreeGrammar::findGeneratingNonterminals`. Every pass but the last inserts the
lhs of some rule, so `rules.length + 1` passes are enough. -/
def findGeneratingNonterminals (g : Grammar) : Except Exception (List Symbol) :=
  if hasLongRules g then
    throw Exception.FoundLongRuleException
  else
    pure (untilStable (findGeneratingNonterminals.pass g) (g.rules.length + 1)
      (findGeneratingNonterminals.seed g))

/-- The erasing loop shared by `removeNonGeneratingRules` and `removeNonReachableRules`:
from the back, a rule is erased when its lhs symbol is outside `keep` or some nonterminal
of its rhs is. -/
def removeRulesOutside (g : Grammar) (keep : List Symbol) : Nat → List Rule → List Rule
  | 0, rules => rules
  | i + 1, rules =>
    let r := rules.getD i default
    let shouldBeRemoved := !decide (r.lhs.at 0 ∈ keep) || !allRHSNonterminalsIn g keep r.rhs
    if shouldBeRemoved then removeRulesOutside g keep i (rules.eraseIdx i)
    else removeRulesOutside g keep i rules

/-- `ContextFreeGrammar::removeNonGeneratingRules`. -/
def removeNonGeneratingRules (g : Grammar) : Except Exception Grammar := do
  let generatingNonterminals ← findGeneratingNonterminals g
  pure { g with rules := removeRulesOutside g generatingNonterminals g.rules.length g.rules }

/-- One run of the `for` over the rules inside the fixpoint loop of
`findReachableNonterminals`. -/
def findReachableNonterminals.pass (g : Grammar) (nonterminals : List Symbol) : List Symbol :=
  g.rules.foldl (fun nts r =>
    if r.lhs.at 0 ∈ nts then
      r.rhs.foldl (fun nts symbol =>
        if g.symbolIsNonterminal symbol then nts.insert symbol else nts) nts
    else nts) nonterminals

/-- `ContextFreeGrammar::findReachableNonterminals`. Every pass but the last inserts a
nonterminal of the grammar, so `nonterminals.length + 1` passes are enough. -/
def findReachableNonterminals (g : Grammar) : List Symbol :=
  untilStable (findReachableNonterminals.pass g) (g.nonterminals.length + 1) [g.startSymbol]

/-- `ContextFreeGrammar::removeNonReachableRules`. -/
def removeNonReachableRules (g : Grammar) : Grammar :=
  { g with rules := removeRulesOutside g (findReachableNonterminals g) g.rules.length g.rules }

/-- The loop `for (i = size - 1; i >= 0; --i)` of `removeMixedRules`. -/
def removeMixedRules.loop : Nat → Grammar → Except Exception Grammar
  | 0, g => pure g
  | i + 1, g =>
    let r := g.rules.getD i default
    if r.rhs.length < 2 ∨
        (g.symbolIsNonterminal (r.rhs.at 0) = true ∧ g.symbolIsNonterminal (r.rhs.at 1) = true) then
      loop i g
    else if g.symbolIsNonterminal (r.rhs.at 0) = true ∧ g.symbolIsTerminal (r.rhs.at 1) = true then do
      let (n, g1) ← g.addNewNonterminal
      let g2 := pushRule g1 ⟨r.lhs, [r.rhs.at 0, n]⟩
      let back := g2.rules.getLastD default
      let g3 := pushRule g2 ⟨[back.rhs.at 1], [r.rhs.at 1]⟩
      loop i { g3 with rules := g3.rules.eraseIdx i }
    else if g.symbolIsTerminal (r.rhs.at 0) = true ∧ g.symbolIsNonterminal (r.rhs.at 1) = true then do
      let (n, g1) ← g.addNewNonterminal
      let g2 := pushRule g1 ⟨r.lhs, [n, r.rhs.at 1]⟩
      let back := g2.rules.getLastD default
      let g3 := pushRule g2 ⟨[back.rhs.at 0], [r.rhs.at 0]⟩
      loop i { g3 with rules := g3.rules.eraseIdx i }
    else do
      let (n0, g1) ← g.addNewNonterminal
      let (n1, g2) ← g1.addNewNonterminal
      let newRule : Rule := ⟨r.lhs, [n0, n1]⟩
      let g3 := pushRule g2 ⟨[newRule.rhs.at 0], [r.rhs.at 0]⟩
      let g4 := pushRule g3 ⟨[newRule.rhs.at 1], [r.rhs.at 1]⟩
      let g5 := pushRule g4 newRule
      loop i { g5 with rules := g5.rules.eraseIdx i }

/-- `ContextFreeGrammar::removeMixedRules`. -/
def removeMixedRules (g : Grammar) : Except Exception Grammar :=
  if hasLongRules g then
    throw Exception.FoundLongRuleException
  else
    removeMixedRules.loop g.rules.length g

/-- `ContextFreeGrammar::normalize`. -/
def normalize (g : Grammar) : Except Exception Grammar :=
  if isNormalized g then
    pure g
  else do
    let g1 ← removeLongRules g
    let g2 ← removeEmptyRules g1
    let g3 := removeChainRules g2
    let g4 ← removeNonGeneratingRules g3
    let g5 := removeNonReachableRules g4
    removeMixedRules g5

/-- `ContextFreeGrammar::normalized`. -/
def normalized (g : Grammar) : Except Exception Grammar :=
  normalize g

end ContextFreeGrammar

/-! ## The object after a call

The functions above give the grammar that a call leaves when it succeeds. The functions of
this section give, for the member functions that throw, the members of the object after the
call in both cases: when the call returns and when it throws. -/

/-- The outcome of a call of a member function on a grammar: the members of the object
after the call, also when the call throws, and the returned value or the exception. -/
structure Outcome (α : Type) where
  object : Grammar
  result : Except Exception α

/-- What follows a call in the body of a member function: it runs on the object that the
call left; when the call throws, nothing follows and the object stays as the call left
it. -/
def Outcome.andThen {α β : Type} (o : Outcome α) (f : α → Grammar → Outcome β) : Outcome β :=
  match o.result with
  | Except.ok a => f a o.object
  | Except.error e => ⟨o.object, Except.error e⟩

namespace InPlace

/-- `Grammar::addNewTerminal`, on the object: the `throw` stands before the two writes
`++_maxSymbol.rawValue` and `_terminals.emplace(...)`. -/
def addNewTerminal (g : Grammar) : Outcome Symbol :=
  if g.maxSymbol = Symbol.maxValue then
    ⟨g, throw Exception.GrammarOutOfSymbolsException⟩
  else
    let g1 : Grammar := { g with maxSymbol := g.maxSymbol + 1 }
    let g2 : Grammar := { g1 with terminals := g1.terminals.insert g1.maxSymbol }
    ⟨g2, pure g2.maxSymbol⟩

/-- `Grammar::addNewNonterminal`, on the object: the `throw` stands before the two writes
`++_maxSymbol.rawValue` and `_nonterminals.emplace(...)`. -/
def addNewNonterminal (g : Grammar) : Outcome Symbol :=
  if g.maxSymbol = Symbol.maxValue then
    ⟨g, throw Exception.GrammarOutOfSymbolsException⟩
  else
    let g1 : Grammar := { g with maxSymbol := g.maxSymbol + 1 }
    let g2 : Grammar := { g1 with nonterminals := g1.nonterminals.insert g1.maxSymbol }
    ⟨g2, pure g2.maxSymbol⟩

/-- `ContextFreeGrammar::findEpsilonGenerators`, a `const` member function: it has no
write to the object. -/
def findEpsilonGenerators (g : Grammar) : Outcome (List Symbol) :=
  ⟨g, ContextFreeGrammar.findEpsilonGenerators g⟩

/-- `ContextFreeGrammar::removeEmptyRules`, on the object. The rules are written by the
loop before `addNewNonterminal` is called, so that a call that throws there leaves the
rewritten rules. -/
def removeEmptyRules (g : Grammar) : Outcome Unit :=
  if ContextFreeGrammar.hasLongRules g then
    ⟨g, throw Exception.FoundLongRuleException⟩
  else
    (findEpsilonGenerators g).andThen fun epsilonGenerators g0 =>
      let rules1 :=
        ContextFreeGrammar.removeEmptyRules.loop epsilonGenerators g0.rules.length g0.rules
      let g1 : Grammar := { g0 with rules := rules1 }
      if g1.startSymbol ∈ epsilonGenerators then
        (addNewNonterminal g1).andThen fun newStartSymbol g2 =>
          let g3 := ContextFreeGrammar.pushRule g2 ⟨[newStartSymbol], emptyWord⟩
          let g4 := ContextFreeGrammar.pushRule g3 ⟨[newStartSymbol], [g3.startSymbol]⟩
          ⟨{ g4 with startSymbol := newStartSymbol }, pure ()⟩
      else
        ⟨g1, pure ()⟩

/-- `ContextFreeGrammar::findGeneratingNonterminals`, a `const` member function: it has no
write to the object. -/
def findGeneratingNonterminals (g : Grammar) : Outcome (List Symbol) :=
  ⟨g, ContextFreeGrammar.findGeneratingNonterminals g⟩

/-- `ContextFreeGrammar::removeNonGeneratingRules`, on the object. -/
def removeNonGeneratingRules (g : Grammar) : Outcome Unit :=
  (findGeneratingNonterminals g).andThen fun generatingNonterminals g0 =>
    let rules1 :=
      ContextFreeGrammar.removeRulesOutside g0 generatingNonterminals g0.rules.length g0.rules
    ⟨{ g0 with rules := rules1 }, pure ()⟩

/-- The loop `for (i = size - 1; i >= 0; --i)` of `removeMixedRules`, on the object. Each
`addNewNonterminal()` is evaluated before the `emplace_back` whose argument it is; in the
last branch the second call runs on the object that the first one left. -/
def removeMixedRules.loop : Nat → Grammar → Outcome Unit
  | 0, g => ⟨g, pure ()⟩
  | i + 1, g =>
    let r := g.rules.getD i default
    if r.rhs.length < 2 ∨
        (g.symbolIsNonterminal (r.rhs.at 0) = true ∧ g.symbolIsNonterminal (r.rhs.at 1) = true) then
      loop i g
    else if g.symbolIsNonterminal (r.rhs.at 0) = true ∧ g.symbolIsTerminal (r.rhs.at 1) = true then
      (addNewNonterminal g).andThen fun n g1 =>
        let g2 := ContextFreeGrammar.pushRule g1 ⟨r.lhs, [r.rhs.at 0, n]⟩
        let back := g2.rules.getLastD default
        let g3 := ContextFreeGrammar.pushRule g2 ⟨[back.rhs.at 1], [r.rhs.at 1]⟩
        loop i { g3 with rules := g3.rules.eraseIdx i }
    else if g.symbolIsTerminal (r.rhs.at 0) = true ∧ g.symbolIsNonterminal (r.rhs.at 1) = true then
      (addNewNonterminal g).andThen fun n g1 =>
        let g2 := ContextFreeGrammar.pushRule g1 ⟨r.lhs, [n, r.rhs.at 1]⟩
        let back := g2.rules.getLastD default
        let g3 := ContextFreeGrammar.pushRule g2 ⟨[back.rhs.at 0], [r.rhs.at 0]⟩
        loop i { g3 with rules := g3.rules.eraseIdx i }
    else
      (addNewNonterminal g).andThen fun n0 g1 =>
        (addNewNonterminal g1).andThen fun n1 g2 =>
          let newRule : Rule := ⟨r.lhs, [n0, n1]⟩
          let g3 := ContextFreeGrammar.pushRule g2 ⟨[newRule.rhs.at 0], [r.rhs.at 0]⟩
          let g4 := ContextFreeGrammar.pushRule g3 ⟨[newRule.rhs.at 1], [r.rhs.at 1]⟩
          let g5 := ContextFreeGrammar.pushRule g4 newRule
          loop i { g5 with rules := g5.rules.eraseIdx i }

/-- `ContextFreeGrammar::removeMixedRules`, on the object. -/
def removeMixedRules (g : Grammar) : Outcome Unit :=
  if ContextFreeGrammar.hasLongRules g then
    ⟨g, throw Exception.FoundLongRuleException⟩
  else
    removeMixedRules.loop g.rules.length g

end InPlace

/-! ## CYK.hpp / CYK.cpp -/

/-- A `std::unordered_map<Symbol, β>`, as the list of its entries (at most one per key). -/
abbrev SymbolMap (β : Type) := List (Symbol × β)

namespace SymbolMap

/-- Looks a key up (`find`); `none` when the key is absent. -/
def get? {β : Type} (m : SymbolMap β) (k : Symbol) : Option β :=
  match m with
  | [] => none
  | (k1, v) :: rest => if k1 = k then some v else get? rest k

/-- The assignment `m[k] = v`. -/
def set {β : Type} (m : SymbolMap β) (k : Symbol) (v : β) : SymbolMap β :=
  match m with
  | [] => [(k, v)]
  | (k1, v1) :: rest => if k1 = k then (k, v) :: rest else (k1, v1) :: set rest k v

end SymbolMap

/-- The class `CYK`: its only data member is `_grammar`. -/
structure CYK where
  grammar : Grammar
deriving DecidableEq, Repr

namespace CYK

/-- The type `CYK::Table`. -/
abbrev Table := SymbolMap (List (List Bool))

/-- The constructor `CYK::CYK`: stores `grammar.normalized()`. -/
def new (grammar : Grammar) : Except Exception CYK := do
  let normalized ← ContextFreeGrammar.normalized grammar
  pure ⟨normalized⟩

/-- `CYK::acceptsEmptyWord`. -/
def acceptsEmptyWord (c : CYK) : Bool :=
  c.grammar.rules.any fun r => decide (r.lhs.at 0 = c.grammar.startSymbol) && r.rhs.isEmpty

/-- `CYK::findDirectChildren`: returns `(terminalChildren, nonterminalChildren)`.
`m[k].insert(x)` and `m[k].emplace_back(x)` start from the empty container when the
key is absent. -/
def findDirectChildren (c : CYK) : SymbolMap Alphabet × SymbolMap (List Word) :=
  let init : SymbolMap Alphabet × SymbolMap (List Word) :=
    c.grammar.nonterminals.foldl (fun m nonterminal =>
      (m.1.set nonterminal [], m.2.set nonterminal [])) ([], [])
  c.grammar.rules.foldl (fun m r =>
    if r.rhs.length = 1 ∧ c.grammar.symbolIsTerminal (r.rhs.at 0) = true then
      (m.1.set (r.lhs.at 0) (((m.1.get? (r.lhs.at 0)).getD []).insert (r.rhs.at 0)), m.2)
    else if r.rhs.length = 2 then
      (m.1, m.2.set (r.lhs.at 0) (((m.2.get? (r.lhs.at 0)).getD []) ++ [r.rhs]))
    else m) init

/-- Reads `generatesSubword[nonterminal][i][j]`; `none` when the row of the nonterminal
was never allocated or an index is out of range (undefined behaviour in the source). -/
def Table.read (t : Table) (nonterminal : Symbol) (i j : Nat) : Option Bool := do
  let matrix ← t.get? nonterminal
  let row ← matrix[i]?
  row[j]?

/-- Writes `generatesSubword[nonterminal][i][j] = value`; `none` when the row of the
nonterminal was never allocated or an index is out of range. -/
def Table.write (t : Table) (nonterminal : Symbol) (i j : Nat) (value : Bool) :
    Option Table := do
  let matrix ← t.get? nonterminal
  let row ← matrix[i]?
  if j < row.length then
    pure (t.set nonterminal (matrix.set i (row.set j value)))
  else
    none

/-- The loop over `i` in `initTable` that fills the diagonal of the row of `nonterminal`. -/
def initTable.diagonal (word : Word) (children : Alphabet) (nonterminal : Symbol) :
    Nat → Table → Option Table
  | 0, t => some t
  | k + 1, t => do
    let i := word.length - (k + 1)
    let t1 ← Table.write t nonterminal i i (decide (word.at i ∈ children))
    diagonal word children nonterminal k t1

/-- `CYK::initTable`; `terminalChildren.at(nonterminal)` fails on an absent key. -/
def initTable (c : CYK) (word : Word) (terminalChildren : SymbolMap Alphabet) : Option Table :=
  c.grammar.nonterminals.foldlM (fun (t : Table) nonterminal => do
    let t1 := t.set nonterminal (List.replicate word.length (List.replicate word.length false))
    let children ← terminalChildren.get? nonterminal
    initTable.diagonal word children nonterminal word.length t1) []

/-- The loop `for (i = subwordStart; i + 1 < subwordStart + subwordSize; ++i)` of
`checkIfNonterminalGeneratesSubword` for one `rhs`; the first argument counts the
iterations that remain. The `&&` reads its second operand only when the first is true. -/
def checkIfNonterminalGeneratesSubword.splits (rhs : Word) (t : Table)
    (subwordStart subwordSize : Nat) : Nat → Nat → Bool → Option Bool
  | 0, _, canGenerate => some canGenerate
  | k + 1, i, canGenerate => do
    let left ← Table.read t (rhs.at 0) subwordStart i
    let both ←
      if left then Table.read t (rhs.at 1) (i + 1) (subwordStart + subwordSize - 1)
      else pure false
    splits rhs t subwordStart subwordSize k (i + 1) (canGenerate || both)

/-- `CYK::checkIfNonterminalGeneratesSubword`; `nonterminalChildren.at(nonterminal)` fails
on an absent key. -/
def checkIfNonterminalGeneratesSubword (nonterminal : Symbol)
    (nonterminalChildren : SymbolMap (List Word)) (generatesSubword : Table)
    (subwordStart subwordSize : Nat) : Option Table := do
  let children ← nonterminalChildren.get? nonterminal
  let canGenerate ← children.foldlM (fun canGenerate rhs =>
    checkIfNonterminalGeneratesSubword.splits rhs generatesSubword subwordStart subwordSize
      (subwordSize - 1) subwordStart canGenerate) false
  Table.write generatesSubword nonterminal subwordStart (subwordStart + subwordSize - 1)
    canGenerate

/-- `CYK::calculateTableValues`. -/
def calculateTableValues (c : CYK) (word : Word) : Option Table := do
  let children := c.findDirectChildren
  let generatesSubword ← c.initTable word children.1
  (List.range' 2 (word.length - 1)).foldlM (fun t subwordSize =>
    (List.range (word.length + 1 - subwordSize)).foldlM (fun t subwordStart =>
      c.grammar.nonterminals.foldlM (fun t nonterminal =>
        checkIfNonterminalGeneratesSubword nonterminal children.2 t subwordStart subwordSize)
        t) t) generatesSubword

/-- `CYK::predict`, on the word whose characters were converted to symbols. -/
def predict (c : CYK) (word : Word) : Option Bool :=
  if word.isEmpty then
    some c.acceptsEmptyWord
  else do
    let generatesSubword ← c.calculateTableValues word
    Table.read generatesSubword c.grammar.startSymbol 0 (word.length - 1)

end CYK

/-! ## Derivations and languages -/

/-- One rewriting step with the rules `rules`: an occurrence of the lhs of a rule in `u`
is replaced by its rhs. -/
def Produces (rules : List Rule) (u v : Word) : Prop :=
  ∃ r ∈ rules, ∃ p q : Word, u = p ++ r.lhs ++ q ∧ v = p ++ r.rhs ++ q

/-- Derivation in any number of steps. -/
def Derives (rules : List Rule) : Word → Word → Prop :=
  Relation.ReflTransGen (Produces rules)

/-- The word `w` consists of terminals of `g`. -/
def Grammar.IsTerminalWord (g : Grammar) (w : Word) : Prop := ∀ s ∈ w, s ∈ g.terminals

/-- The start symbol of `g` derives `w` with the rules of `g`. -/
def Grammar.StartDerives (g : Grammar) (w : Word) : Prop :=
  Derives g.rules [g.startSymbol] w

/-- The word `w` belongs to the language of `g`: it is a word of terminals that the start
symbol derives. -/
def Grammar.Generates (g : Grammar) (w : Word) : Prop :=
  g.IsTerminalWord w ∧ g.StartDerives w

/-- The invariant of the grammars that the constructor of `ContextFreeGrammar` accepts and
that the normalization passes maintain. -/
structure WellFormed (g : Grammar) : Prop where
  start_mem : g.startSymbol ∈ g.nonterminals
  disjoint : ∀ s ∈ g.terminals, s ∉ g.nonterminals
  rule_lhs : ∀ r ∈ g.rules, ∃ a ∈ g.nonterminals, r.lhs = [a]
  rule_rhs : ∀ r ∈ g.rules, ∀ x ∈ r.rhs, x ∈ g.terminals ∨ x ∈ g.nonterminals
  le_max : ∀ x, x ∈ g.terminals ∨ x ∈ g.nonterminals → x ≤ g.maxSymbol

/-! ## Example grammars -/

/-- The grammar `{'a'}, {'A'}, 'A', {A → a}` of `TEST(CYK, EmptyWord)`. -/
def exampleSingle : Grammar := ⟨[97], [65], 65, [⟨[65], [97]⟩], 97⟩

/-- The grammar `{'a'}, {'A', 'B'}, 'A', {A → a, A → B, B → ε}` of `TEST(CYK, EmptyWord)`. -/
def exampleEmptyWord : Grammar :=
  ⟨[97], [65, 66], 65, [⟨[65], [97]⟩, ⟨[65], [66]⟩, ⟨[66], []⟩], 97⟩

/-- The grammar `{'a'}, {'S'}, 'S', {S → SS, S → a}`. -/
def exampleSquare : Grammar := ⟨[97], [83], 83, [⟨[83], [83, 83]⟩, ⟨[83], [97]⟩], 97⟩

/-- The grammar `{'(', ')'}, {'S'}, 'S', {S → SS, S → ε, S → (S)}` of
`TEST(CYK, TableCreation)`. -/
def exampleParentheses : Grammar :=
  ⟨[40, 41], [83], 83, [⟨[83], [83, 83]⟩, ⟨[83], []⟩, ⟨[83], [40, 83, 41]⟩], 83⟩

/-- The grammar that `normalized()` computes from `exampleParentheses`. -/
def exampleParenthesesNormalized : Grammar :=
  ⟨[40, 41], [94, 93, 92, 91, 90, 89, 88, 87, 86, 85, 84, 83], 85,
    [⟨[83], [83, 83]⟩, ⟨[84], [41]⟩, ⟨[85], []⟩, ⟨[83], [83, 83]⟩, ⟨[83], [83, 83]⟩,
      ⟨[83], [83, 83]⟩, ⟨[85], [83, 83]⟩, ⟨[85], [83, 83]⟩, ⟨[85], [83, 83]⟩,
      ⟨[85], [83, 83]⟩, ⟨[85], [86, 84]⟩, ⟨[86], [40]⟩, ⟨[85], [87, 84]⟩, ⟨[87], [40]⟩,
      ⟨[85], [88, 84]⟩, ⟨[88], [40]⟩, ⟨[85], [89, 84]⟩, ⟨[89], [40]⟩, ⟨[83], [90, 84]⟩,
      ⟨[90], [40]⟩, ⟨[83], [91, 84]⟩, ⟨[91], [40]⟩, ⟨[83], [92, 84]⟩, ⟨[92], [40]⟩,
      ⟨[84], [83, 93]⟩, ⟨[93], [41]⟩, ⟨[83], [94, 84]⟩, ⟨[94], [40]⟩], 94⟩

/-- The grammar `{'a', 'b'}, {'S', 'A', 'B'}, 'S', {S → AB, A → a, B → b}`. -/
def exampleTwoLetters : Grammar :=
  ⟨[97, 98], [83, 65, 66], 83, [⟨[83], [65, 66]⟩, ⟨[65], [97]⟩, ⟨[66], [98]⟩], 98⟩

open ContextFreeGrammar

/-! ## Definitions used in the proofs -/

/-- Replaces every symbol `x` of `u` by the word `h x`. -/
def substWord (h : Symbol → Word) (u : Word) : Word := u.flatMap h

/-- Derivation by parse forests, for rules whose lhs is a single symbol: `Gen rules u w`
holds when `w` is obtained from `u` by expanding some of its symbols, any number of times. -/
inductive Gen (rules : List Rule) : Word → Word → Prop
  | nil : Gen rules [] []
  | skip (a : Symbol) {u w : Word} : Gen rules u w → Gen rules (a :: u) (a :: w)
  | expand {a : Symbol} {rhs u w1 w2 : Word} :
      (⟨[a], rhs⟩ : Rule) ∈ rules → Gen rules rhs w1 → Gen rules u w2 →
      Gen rules (a :: u) (w1 ++ w2)

/-- All symbols of the rules are at most `m`. -/
def RulesBelow (m : Symbol) (rules : List Rule) : Prop :=
  ∀ r ∈ rules, (∀ x ∈ r.lhs, x ≤ m) ∧ (∀ x ∈ r.rhs, x ≤ m)

/-- The two rule lists derive the same words from the same words, as far as words over
the symbols up to `m` are concerned. -/
def EquivBelow (m : Symbol) (rules1 rules2 : List Rule) : Prop :=
  ∀ u w : Word, (∀ x ∈ u, x ≤ m) → (∀ x ∈ w, x ≤ m) →
    (Derives rules2 u w ↔ Derives rules1 u w)

/-- The chain of binary rules that replaces the rule `lhs → rhs`, with the new symbols
`n`, `n + 1`, … -/
def binarize : Word → Word → Symbol → List Rule
  | lhs, x :: y :: z :: rest, n => ⟨lhs, [x, n]⟩ :: binarize [n] (y :: z :: rest) (n + 1)
  | lhs, [], _ => [⟨lhs, []⟩]
  | lhs, [x], _ => [⟨lhs, [x]⟩]
  | lhs, [x, y], _ => [⟨lhs, [x, y]⟩]

/-- The grammar `g1` is `g` with new nonterminals, namely the symbols between the two
symbol counters; the rules are not compared. -/
structure Extends (g g1 : Grammar) : Prop where
  terminals_eq : g1.terminals = g.terminals
  start_eq : g1.startSymbol = g.startSymbol
  max_le : g.maxSymbol ≤ g1.maxSymbol
  mem_nonterminals : ∀ x, x ∈ g1.nonterminals ↔
    (x ∈ g.nonterminals ∨ (g.maxSymbol < x ∧ x ≤ g1.maxSymbol))

/-- The rules that `removeEmptyRules` appends for the rule `r`: for an rhs of two symbols,
the rule without its first symbol when that one is an epsilon-generator, then the rule
without its second symbol when that one is. -/
def epsilonShortcuts (epsilonGenerators : List Symbol) (r : Rule) : List Rule :=
  if r.rhs.length < 2 then []
  else
    (if r.rhs.at 0 ∈ epsilonGenerators then [(⟨r.lhs, [r.rhs.at 1]⟩ : Rule)] else []) ++
    (if r.rhs.at 1 ∈ epsilonGenerators then [(⟨r.lhs, [r.rhs.at 0]⟩ : Rule)] else [])

/-- `DropSymbols E u1 u`: the word `u1` is `u` without some occurrences of symbols of `E`. -/
inductive DropSymbols (E : List Symbol) : Word → Word → Prop
  | nil : DropSymbols E [] []
  | keep (a : Symbol) {u1 u : Word} : DropSymbols E u1 u → DropSymbols E (a :: u1) (a :: u)
  | drop {a : Symbol} {u1 u : Word} : a ∈ E → DropSymbols E u1 u → DropSymbols E u1 (a :: u)

/-- Empty rules only exist for the start symbol, and when one exists the start symbol
occurs in no rhs. -/
def EpsilonFree (g : Grammar) : Prop :=
  ∀ r ∈ g.rules, r.rhs = [] → r.lhs = [g.startSymbol] ∧ ∀ r1 ∈ g.rules, g.startSymbol ∉ r1.rhs

/-- The grammar `g1` has the terminals of `g` and its start symbol derives the same words
of terminals. -/
structure SameLanguage (g g1 : Grammar) : Prop where
  terminals_eq : g1.terminals = g.terminals
  derives_iff : ∀ w, g.IsTerminalWord w → (g1.StartDerives w ↔ g.StartDerives w)

/-- The unit-rule relation of `g`: some rule `a → b` has a single nonterminal as rhs. -/
def UnitStep (g : Grammar) (a b : Symbol) : Prop :=
  ∃ r ∈ g.rules, r.lhs.at 0 = a ∧ r.rhs.length = 1 ∧ r.rhs.at 0 = b ∧
    g.symbolIsNonterminal b = true

/-- The invariant of the state of `findChainedPairs`. -/
structure ChainInvariant (g : Grammar) (st : ChainState) : Prop where
  mem_iff : ∀ p, p ∈ st.pairs ↔ p ∈ st.isChainedPair
  nodup : st.isChainedPair.Nodup
  mem_product : ∀ p ∈ st.isChainedPair,
    p ∈ List.product (g.rules.map fun r => r.lhs.at 0) (g.rules.map fun r => r.rhs.at 0)
  sound : ∀ p ∈ st.pairs, Relation.TransGen (UnitStep g) p.1 p.2

/-- No rule has a single nonterminal as its rhs. -/
def NoUnitRules (g : Grammar) : Prop :=
  ∀ r ∈ g.rules, ¬ (r.rhs.length = 1 ∧ r.rhs.at 0 ∈ g.nonterminals)

/-- Every rhs of two symbols consists of two nonterminals. -/
def PairsAreNonterminals (g : Grammar) : Prop :=
  ∀ r ∈ g.rules, r.rhs.length = 2 → r.rhs.at 0 ∈ g.nonterminals ∧ r.rhs.at 1 ∈ g.nonterminals

/-- What `removeMixedRules` guarantees of a rule `r1` that it pushes while it replaces the
rule `r` of `g`, the grammar being `g1` after the round. -/
structure MixedRuleOK (g g1 : Grammar) (r r1 : Rule) : Prop where
  lhs : ∃ a ∈ g1.nonterminals, r1.lhs = [a]
  shape : (r1.rhs.length = 2 ∧ r1.rhs.at 0 ∈ g1.nonterminals ∧ r1.rhs.at 1 ∈ g1.nonterminals) ∨
    (r1.rhs.length = 1 ∧ r1.rhs.at 0 ∈ g.terminals)
  origin : ∀ x ∈ r1.rhs, x ∈ r.rhs ∨ g.maxSymbol < x

/-- The shape of the grammars that `normalized()` returns, on which CYK relies: no rhs is
longer than 2, an rhs of length 1 is a terminal, an rhs of length 2 consists of
nonterminals, and an empty rule only exists for the start symbol, which then occurs in no
rhs. -/
structure ChomskyShape (g : Grammar) : Prop where
  wellFormed : WellFormed g
  short : ∀ r ∈ g.rules, r.rhs.length ≤ 2
  epsilonFree : EpsilonFree g
  noUnit : NoUnitRules g
  pairs : PairsAreNonterminals g

/-- Derivation trees of a grammar in Chomsky normal form: `CnfGen g A w` holds when `A`
derives the non-empty word of terminals `w` through rules `A → a` and `A → B C`. -/
inductive CnfGen (g : Grammar) : Symbol → Word → Prop
  | leaf {A a : Symbol} : (⟨[A], [a]⟩ : Rule) ∈ g.rules → a ∈ g.terminals → CnfGen g A [a]
  | node {A B C : Symbol} {u v : Word} : (⟨[A], [B, C]⟩ : Rule) ∈ g.rules →
      CnfGen g B u → CnfGen g C v → CnfGen g A (u ++ v)

/-- `CnfList g u w`: the word `w` splits into one piece for each symbol of `u`, the symbol
itself when it is a terminal, a word it derives by `CnfGen` otherwise. -/
inductive CnfList (g : Grammar) : Word → Word → Prop
  | nil : CnfList g [] []
  | consT {a : Symbol} {u w : Word} : a ∈ g.terminals → CnfList g u w →
      CnfList g (a :: u) (a :: w)
  | consN {A : Symbol} {u w1 w2 : Word} : CnfGen g A w1 → CnfList g u w2 →
      CnfList g (A :: u) (w1 ++ w2)

/-- The subword of `w` of length `len` that starts at index `start`. -/
def subword (w : Word) (start len : Nat) : Word := (w.drop start).take len

/-- The cell `[N][i][j]` of the table `t` is allocated and holds whether `N` derives the
subword of `w` from index `i` to index `j`. -/
def CellOK (g : Grammar) (w : Word) (t : CYK.Table) (N : Symbol) (i j : Nat) : Prop :=
  ∃ b, CYK.Table.read t N i j = some b ∧ (b = true ↔ CnfGen g N (subword w i (j + 1 - i)))

/-- Every nonterminal of `g` has an `n × n` matrix in the table `t`. -/
def Allocated (g : Grammar) (n : Nat) (t : CYK.Table) : Prop :=
  ∀ N ∈ g.nonterminals, ∀ i j, i < n → j < n → ∃ b, CYK.Table.read t N i j = some b

/-- The cells of the subwords of `w` shorter than `len` are right in the table `t`. -/
def OKBelow (g : Grammar) (w : Word) (t : CYK.Table) (len : Nat) : Prop :=
  ∀ N ∈ g.nonterminals, ∀ i j, i ≤ j → j < w.length → j + 1 - i < len → CellOK g w t N i j

/-- Scans `w` from left to right from the running balance `b`, with +1 for `(` and -1 for
`)`, any other symbol leaving the balance as it is: true when the running balance never
goes negative and ends at 0. -/
def balanceScan : Int → Word → Bool
  | b, [] => decide (b = 0)
  | b, x :: xs =>
    if (if x = 40 then b + 1 else if x = 41 then b - 1 else b) < 0 then false
    else balanceScan (if x = 40 then b + 1 else if x = 41 then b - 1 else b) xs

/-- The word `w` is balanced: the scan from the balance 0 succeeds. -/
def isBalanced (w : Word) : Bool := balanceScan 0 w

/-- The sentential form `S ) S ) ... ) S` with `k` closing parentheses, from which the
words that close `k` pending parentheses are derived. -/
def pendingForm : Nat → Word
  | 0 => [83]
  | k + 1 => 83 :: 41 :: pendingForm k

/-- A successful call of `addNewTerminal` or of `addNewNonterminal` takes the grammar `g`
to the grammar `g1`. -/
def MintStep (g g1 : Grammar) : Prop :=
  (∃ x, g.addNewTerminal = Except.ok (x, g1)) ∨ (∃ x, g.addNewNonterminal = Except.ok (x, g1))

/-- The invariant of the symbol counter `_maxSymbol`: it is not negative, it is `0` or a
symbol of one of the alphabets, and no symbol of the alphabets is above it. -/
structure CounterInvariant (g : Grammar) : Prop where
  nonneg : 0 ≤ g.maxSymbol
  mem : g.maxSymbol = 0 ∨ g.maxSymbol ∈ g.terminals ∨ g.maxSymbol ∈ g.nonterminals
  le_max : ∀ x, x ∈ g.terminals ∨ x ∈ g.nonterminals → x ≤ g.maxSymbol

/-- The outcome of a call as the functions that return the new grammar give it: the
returned value with the object after the call, or the exception. -/
def Outcome.returned {α : Type} (o : Outcome α) : Except Exception (α × Grammar) :=
  match o.result with
  | Except.ok a => Except.ok (a, o.object)
  | Except.error e => Except.error e

/-- The outcome of a call of a `void` member function as the functions that return the new
grammar give it: the object after the call, or the exception. -/
def Outcome.grammar (o : Outcome Unit) : Except Exception Grammar :=
  match o.result with
  | Except.ok _ => Except.ok o.object
  | Except.error e => Except.error e

/-- The chain that replaces the long rule `r = A → X1 … Xk`: the `k - 1` rules
`A → X1 N1`, `N1 → X2 N2`, …, `N(k−2) → X(k−1) Xk`, with the new symbols `N1 = n`,
`N2 = n + 1`, …, `N(k−2) = n + k − 3`. -/
def chainOf (r : Rule) (n : Symbol) : List Rule :=
  (⟨r.lhs, [r.rhs.at 0, n]⟩ ::
    (List.range (r.rhs.length - 3)).map fun (j : Nat) =>
      (⟨[n + (j : Int)], [r.rhs.at (j + 1), n + (j : Int) + 1]⟩ : Rule)) ++
    [⟨[n + ((r.rhs.length - 3 : Nat) : Int)],
      [r.rhs.at (r.rhs.length - 2), r.rhs.at (r.rhs.length - 1)]⟩]

/-- The new symbols `N1, …, N(k−2)` of `chainOf r n`. -/
def chainSymbols (r : Rule) (n : Symbol) : List Symbol :=
  (List.range (r.rhs.length - 2)).map fun (j : Nat) => n + (j : Int)

/-- The chains of the rules `rules`, one after the other, each with new symbols of its
own: the first chain takes them from `n` on, the next one from where the former stopped. -/
def chainsFrom : List Rule → Symbol → List Rule
  | [], _ => []
  | r :: rest, n => chainOf r n ++ chainsFrom rest (n + ((r.rhs.length - 2 : Nat) : Int))

/-- The new symbols of `chainsFrom rules n`, chain after chain. -/
def chainSymbolsFrom : List Rule → Symbol → List Symbol
  | [], _ => []
  | r :: rest, n =>
    chainSymbols r n ++ chainSymbolsFrom rest (n + ((r.rhs.length - 2 : Nat) : Int))

/-- The number of symbols that the chains of the rules `rules` need. -/
def mintedCount (rules : List Rule) : Nat := (rules.map fun r => r.rhs.length - 2).sum

/-- The closure conditions of the set of epsilon-generators: the set holds the lhs of every
empty rule, and the lhs of every rule whose rhs has one or two symbols, all of the set. -/
def EpsilonClosed (g : Grammar) (S : Symbol → Prop) : Prop :=
  (∀ r ∈ g.rules, r.rhs = [] → S (r.lhs.at 0)) ∧
  ∀ r ∈ g.rules, (r.rhs.length = 1 ∨ r.rhs.length = 2) → (∀ x ∈ r.rhs, S x) → S (r.lhs.at 0)

/-- The grammar of the test of `findEpsilonGenerators`:
`S → A | C`, `A → ε | BA`, `B → A`, `C → ab`. -/
def exampleEpsilon : Grammar :=
  ⟨[97, 98], [83, 65, 66, 67], 83,
    [⟨[83], [65]⟩, ⟨[65], []⟩, ⟨[65], [66, 65]⟩, ⟨[66], [65]⟩, ⟨[83], [67]⟩,
      ⟨[67], [97, 98]⟩], 98⟩

/-- The grammar of the test of `removeEmptyRules`:
`S → A | C`, `A → ε | BA`, `B → A`, `C → ab | ε`. -/
def exampleEmptyRules : Grammar :=
  ⟨[97, 98], [83, 65, 66, 67], 83,
    [⟨[83], [65]⟩, ⟨[65], []⟩, ⟨[65], [66, 65]⟩, ⟨[66], [65]⟩, ⟨[83], [67]⟩,
      ⟨[67], [97, 98]⟩, ⟨[67], []⟩], 98⟩

/-- The unit-rule relation of a grammar whose rules have a single symbol as lhs: the
grammar has the rule `a → b`, and `b` is a nonterminal. -/
def HasUnitRule (g : Grammar) (a b : Symbol) : Prop :=
  (⟨[a], [b]⟩ : Rule) ∈ g.rules ∧ b ∈ g.nonterminals

/-- The rhs of the rule is a single nonterminal. -/
def IsUnitRule (g : Grammar) (r : Rule) : Prop := ∃ b ∈ g.nonterminals, r.rhs = [b]

/-- The grammar of the test of `findChainedPairs`:
`S → A | C`, `A → BA`, `B → A`, `C → ab | B`. -/
def exampleChains : Grammar :=
  ⟨[97, 98], [83, 65, 66, 67], 83,
    [⟨[83], [65]⟩, ⟨[65], [66, 65]⟩, ⟨[66], [65]⟩, ⟨[83], [67]⟩, ⟨[67], [97, 98]⟩,
      ⟨[67], [66]⟩], 98⟩

/-- The grammar of the test of `removeChainRules`:
`S → A | C`, `A → B`, `B → a`, `C → b`. -/
def exampleUnits : Grammar :=
  ⟨[97, 98], [83, 65, 66, 67], 83,
    [⟨[83], [65]⟩, ⟨[65], [66]⟩, ⟨[66], [97]⟩, ⟨[83], [67]⟩, ⟨[67], [98]⟩], 98⟩

/-- The symbol `x` derives some word of terminals of `g` (possibly the empty word). -/
def Generating (g : Grammar) (x : Symbol) : Prop :=
  ∃ w, g.IsTerminalWord w ∧ Derives g.rules [x] w

/-- The rules that `removeNonGeneratingRules` and `removeNonReachableRules` are to keep for
the set `keep`: the lhs symbol is in `keep`, and so is every nonterminal of the rhs. -/
def keepsRule (g : Grammar) (keep : List Symbol) (r : Rule) : Bool :=
  decide (r.lhs.at 0 ∈ keep ∧ ∀ x ∈ r.rhs, x ∈ g.nonterminals → x ∈ keep)

/-- The grammar of the test of `findGeneratingNonterminals`:
`S → A`, `A → B`, `B → a`, `C → b | D`. -/
def exampleGenerating : Grammar :=
  ⟨[97, 98], [83, 65, 66, 67, 68], 83,
    [⟨[83], [65]⟩, ⟨[65], [66]⟩, ⟨[66], [97]⟩, ⟨[67], [98]⟩, ⟨[67], [68]⟩], 98⟩

/-- The grammar of the test of `removeNonGeneratingRules`:
`S → A`, `A → B`, `B → a`, `C → b | D`, `D → AD`. -/
def exampleNonGenerating : Grammar :=
  ⟨[97, 98], [83, 65, 66, 67, 68], 83,
    [⟨[83], [65]⟩, ⟨[65], [66]⟩, ⟨[66], [97]⟩, ⟨[67], [98]⟩, ⟨[67], [68]⟩,
      ⟨[68], [65, 68]⟩], 98⟩

/-- One step of rule expansion: `b` is a nonterminal of the rhs of a rule `a → rhs`. -/
def Expands (g : Grammar) (a b : Symbol) : Prop :=
  ∃ rhs, (⟨[a], rhs⟩ : Rule) ∈ g.rules ∧ b ∈ rhs ∧ b ∈ g.nonterminals

/-- The symbol `x` is reachable from the start symbol by rule expansion. -/
def Reachable (g : Grammar) (x : Symbol) : Prop :=
  Relation.ReflTransGen (Expands g) g.startSymbol x

/-- The closure conditions of the set of the reachable nonterminals: the set holds the
start symbol and, for every rule whose lhs is in the set, every nonterminal of its rhs. -/
def ReachClosed (g : Grammar) (S : Symbol → Prop) : Prop :=
  S g.startSymbol ∧
  ∀ a rhs, (⟨[a], rhs⟩ : Rule) ∈ g.rules → S a → ∀ x ∈ rhs, x ∈ g.nonterminals → S x

/-- The grammar of the tests of `findReachableNonterminals` and `removeNonReachableRules`:
`S → A`, `A → BC`, `B → a`, `C → b | EA`, `D → CA`, `F → DD`. -/
def exampleReachable : Grammar :=
  ⟨[97, 98], [83, 65, 66, 67, 68, 69, 70], 83,
    [⟨[83], [65]⟩, ⟨[65], [66, 67]⟩, ⟨[66], [97]⟩, ⟨[67], [98]⟩, ⟨[68], [67, 65]⟩,
      ⟨[70], [68, 68]⟩, ⟨[67], [69, 65]⟩], 98⟩

/-- The rhs of `r` has two symbols, at least one of which is a terminal. -/
def hasTerminalInPair (terminals : Alphabet) (r : Rule) : Bool :=
  decide (r.rhs.length = 2 ∧ (r.rhs.at 0 ∈ terminals ∨ r.rhs.at 1 ∈ terminals))

/-- The rules that replace the rule `r = A → X Y` with a terminal among `X`, `Y`, the next
new symbol being `n`: `A → X n`, `n → Y` when only `Y` is a terminal; `A → n Y`, `n → X`
when only `X` is a terminal; `n → X`, `n + 1 → Y`, `A → n (n + 1)` when both are. -/
def unmixOf (terminals : Alphabet) (r : Rule) (n : Symbol) : List Rule :=
  if r.rhs.at 0 ∉ terminals then [⟨r.lhs, [r.rhs.at 0, n]⟩, ⟨[n], [r.rhs.at 1]⟩]
  else if r.rhs.at 1 ∉ terminals then [⟨r.lhs, [n, r.rhs.at 1]⟩, ⟨[n], [r.rhs.at 0]⟩]
  else [⟨[n], [r.rhs.at 0]⟩, ⟨[n + 1], [r.rhs.at 1]⟩, ⟨r.lhs, [n, n + 1]⟩]

/-- The number of occurrences of terminals in the rhs of `r`. -/
def terminalCount (terminals : Alphabet) (r : Rule) : Nat :=
  r.rhs.countP fun x => decide (x ∈ terminals)

/-- The replacements of the rules `rules`, one after the other, each with new symbols of
its own: the first takes them from `n` on, the next one from where the former stopped. -/
def unmixFrom (terminals : Alphabet) : List Rule → Symbol → List Rule
  | [], _ => []
  | r :: rest, n =>
    unmixOf terminals r n ++ unmixFrom terminals rest (n + (terminalCount terminals r : Int))

/-- The number of occurrences of terminals in the rhs of the rules `rules`. -/
def terminalTotal (terminals : Alphabet) (rules : List Rule) : Nat :=
  (rules.map (terminalCount terminals)).sum

/-- The grammar of the test of `removeMixedRules`:
`S → A | ab | AB`, `A → Aa`, `B → bB`. -/
def exampleMixed : Grammar :=
  ⟨[97, 98], [83, 65, 66], 83,
    [⟨[83], [65]⟩, ⟨[83], [97, 98]⟩, ⟨[83], [65, 66]⟩, ⟨[65], [65, 97]⟩, ⟨[66], [98, 66]⟩],
    98⟩

/-- The result of `removeMixedRules` on `exampleMixed`: `S → A | AB | ef`, `B → cB`,
`c → b`, `A → Ad`, `d → a`, `e → a`, `f → b`, with the new symbols `c = 99`, `d = 100`,
`e = 101`, `f = 102`. -/
def exampleMixedResult : Grammar :=
  ⟨[97, 98], [102, 101, 100, 99, 83, 65, 66], 83,
    [⟨[83], [65]⟩, ⟨[83], [65, 66]⟩, ⟨[66], [99, 66]⟩, ⟨[99], [98]⟩, ⟨[65], [65, 100]⟩,
      ⟨[100], [97]⟩, ⟨[101], [97]⟩, ⟨[102], [98]⟩, ⟨[83], [101, 102]⟩], 102⟩

/-- The start symbol occurs in the rhs of no rule. -/
def StartFree (g : Grammar) : Prop := ∀ r ∈ g.rules, g.startSymbol ∉ r.rhs

/-- Every symbol of an rhs of `rules2` is a symbol of an rhs of `rules1`, or is above `m`. -/
def RhsFrom (m : Symbol) (rules1 rules2 : List Rule) : Prop :=
  ∀ r2 ∈ rules2, ∀ x ∈ r2.rhs, (∃ r1 ∈ rules1, x ∈ r1.rhs) ∨ m < x

/-! ## Validation -/

theorem Word.at_cons_zero (a : Symbol) (w : Word) : Word.at (a :: w) 0 = a := rfl

theorem Word.at_cons_succ (a : Symbol) (w : Word) (i : Nat) :
    Word.at (a :: w) (i + 1) = Word.at w i := rfl

namespace Grammar

theorem symbolIsTerminal_iff (g : Grammar) (s : Symbol) :
    g.symbolIsTerminal s = true ↔ s ∈ g.terminals := by
  simp [symbolIsTerminal]

theorem symbolIsNonterminal_iff (g : Grammar) (s : Symbol) :
    g.symbolIsNonterminal s = true ↔ s ∈ g.nonterminals := by
  simp [symbolIsNonterminal]

theorem symbolIsCorrect_iff (g : Grammar) (s : Symbol) :
    g.symbolIsCorrect s = true ↔ (s ∈ g.terminals ∨ s ∈ g.nonterminals) := by
  simp [symbolIsCorrect, symbolIsTerminal, symbolIsNonterminal]

theorem rhsLoop_iff (g : Grammar) (w : Word) :
    ruleIsCorrect.rhsLoop g w = true ↔ ∀ x ∈ w, x ∈ g.terminals ∨ x ∈ g.nonterminals := by
  induction w with
  | nil => simp [ruleIsCorrect.rhsLoop]
  | cons a w ih =>
    by_cases h : g.symbolIsCorrect a = true
    · have h1 := (symbolIsCorrect_iff g a).1 h
      simp [ruleIsCorrect.rhsLoop, h, ih, h1]
    · have h1 : ¬ (a ∈ g.terminals ∨ a ∈ g.nonterminals) := fun hh => h ((symbolIsCorrect_iff g a).2 hh)
      simp only [Bool.not_eq_true] at h
      simp only [ruleIsCorrect.rhsLoop, h, Bool.not_false, if_true, Bool.false_eq_true, false_iff]
      intro hh
      exact h1 (hh a (List.mem_cons_self a w))

theorem lhsLoop_iff (g : Grammar) (w : Word) (flag : Bool) :
    ruleIsCorrect.lhsLoop g w flag = true ↔
      (∀ x ∈ w, x ∈ g.terminals ∨ x ∈ g.nonterminals) ∧
        (flag = true ∨ ∃ x ∈ w, x ∈ g.nonterminals) := by
  induction w generalizing flag with
  | nil => simp [ruleIsCorrect.lhsLoop]
  | cons a w ih =>
    by_cases h : g.symbolIsCorrect a = true
    · have h1 := (symbolIsCorrect_iff g a).1 h
      by_cases h2 : g.symbolIsNonterminal a = true
      · have h3 := (symbolIsNonterminal_iff g a).1 h2
        simp [ruleIsCorrect.lhsLoop, h, ih, h1, h2, h3]
      · have h3 : a ∉ g.nonterminals := fun hh => h2 ((symbolIsNonterminal_iff g a).2 hh)
        have h4 : a ∈ g.terminals := h1.resolve_right h3
        simp only [Bool.not_eq_true] at h2
        simp [ruleIsCorrect.lhsLoop, h, ih, h1, h2, h3, h4]
    · have h1 : ¬ (a ∈ g.terminals ∨ a ∈ g.nonterminals) := fun hh => h ((symbolIsCorrect_iff g a).2 hh)
      simp only [Bool.not_eq_true] at h
      simp only [ruleIsCorrect.lhsLoop, h, Bool.not_false, if_true, Bool.false_eq_true, false_iff]
      intro hh
      exact h1 (hh.1 a (List.mem_cons_self a w))

theorem ruleIsCorrect_iff (g : Grammar) (r : Rule) :
    g.ruleIsCorrect r = true ↔
      r.lhs ≠ [] ∧ (∀ x ∈ r.rhs, x ∈ g.terminals ∨ x ∈ g.nonterminals) ∧
        (∀ x ∈ r.lhs, x ∈ g.terminals ∨ x ∈ g.nonterminals) ∧ ∃ x ∈ r.lhs, x ∈ g.nonterminals := by
  unfold ruleIsCorrect
  by_cases h0 : r.lhs = []
  · simp [h0]
  · have h0' : r.lhs.isEmpty = false := by simpa using h0
    by_cases h1 : ruleIsCorrect.rhsLoop g r.rhs = true
    · have h1' := (rhsLoop_iff g r.rhs).1 h1
      simp only [h0', h1, Bool.false_eq_true, if_false, Bool.not_true, lhsLoop_iff]
      constructor
      · rintro ⟨ha, hb⟩
        exact ⟨h0, h1', ha, by simpa using hb⟩
      · rintro ⟨_, _, ha, hb⟩
        exact ⟨ha, Or.inr hb⟩
    · have h1' := fun hh => h1 ((rhsLoop_iff g r.rhs).2 hh)
      simp only [Bool.not_eq_true] at h1
      simp only [h0', h1, Bool.false_eq_true, if_false, Bool.not_false, if_true, false_iff]
      rintro ⟨_, hh, _⟩
      exact h1' hh

theorem isCorrect_iff (g : Grammar) :
    g.isCorrect = true ↔
      g.startSymbol ∈ g.nonterminals ∧ (∀ s ∈ g.terminals, s ∉ g.nonterminals) ∧
        ∀ r ∈ g.rules, g.ruleIsCorrect r = true := by
  unfold isCorrect
  by_cases h0 : g.startSymbol ∈ g.nonterminals
  · by_cases h1 : ∀ s ∈ g.terminals, s ∉ g.nonterminals
    · have : (g.terminals.any fun s => g.symbolIsNonterminal s) = false := by
        simp [symbolIsNonterminal]; exact h1
      simp [symbolIsNonterminal, h0, this]
    · have : (g.terminals.any fun s => g.symbolIsNonterminal s) = true := by
        simp [symbolIsNonterminal]
        push_neg at h1; exact h1
      simp [symbolIsNonterminal, h0, this]
  · simp [symbolIsNonterminal, h0]

theorem isContextFree_iff (g : Grammar) :
    g.isContextFree = true ↔
      ∀ r ∈ g.rules, r.lhs.length ≤ 1 ∧ (r.lhs.length = 1 → r.lhs.at 0 ∈ g.nonterminals) := by
  simp only [isContextFree, symbolIsNonterminal, List.all_eq_true, Bool.not_eq_true',
    Bool.or_eq_false_iff, Bool.and_eq_false_iff, decide_eq_false_iff_not, Bool.not_eq_false',
    decide_eq_true_eq, not_lt]
  constructor
  · intro h r hr
    refine ⟨(h r hr).1, fun h1 => ?_⟩
    rcases (h r hr).2 with h2 | h2
    · exact absurd h1 h2
    · exact h2
  · intro h r hr
    refine ⟨(h r hr).1, ?_⟩
    by_cases h1 : r.lhs.length = 1
    · exact Or.inr ((h r hr).2 h1)
    · exact Or.inl h1

theorem new_eq (ts nts : Alphabet) (s : Symbol) (rs : List Rule) :
    Grammar.new ts nts s rs =
      if (⟨ts, nts, s, rs, 0⟩ : Grammar).isCorrect = true then
        Except.ok ⟨ts, nts, s, rs, nts.foldl (fun m s => max m s) (ts.foldl (fun m s => max m s) 0)⟩
      else Except.error Exception.IncorrectGrammarException := by
  unfold Grammar.new
  by_cases h : (⟨ts, nts, s, rs, 0⟩ : Grammar).isCorrect = true
  · simp [h]; rfl
  · simp only [Bool.not_eq_true] at h
    simp [h]; rfl

theorem le_foldl_max (l : List Symbol) (m0 : Symbol) :
    m0 ≤ l.foldl (fun m s => max m s) m0 ∧ ∀ x ∈ l, x ≤ l.foldl (fun m s => max m s) m0 := by
  induction l generalizing m0 with
  | nil => simp
  | cons a l ih =>
    simp only [List.foldl_cons, List.mem_cons, forall_eq_or_imp]
    have h := ih (max m0 a)
    refine ⟨le_trans (le_max_left m0 a) h.1, le_trans (le_max_right m0 a) h.1, h.2⟩

theorem new_ok_iff_correct (ts nts : Alphabet) (s : Symbol) (rs : List Rule) (g : Grammar) :
    Grammar.new ts nts s rs = Except.ok g ↔
      (⟨ts, nts, s, rs, 0⟩ : Grammar).isCorrect = true ∧
        g = ⟨ts, nts, s, rs, nts.foldl (fun m s => max m s) (ts.foldl (fun m s => max m s) 0)⟩ := by
  rw [new_eq]
  by_cases h : (⟨ts, nts, s, rs, 0⟩ : Grammar).isCorrect = true
  · simp only [h, if_true, true_and, Except.ok.injEq]
    exact eq_comm
  · simp [h]

end Grammar

theorem ContextFreeGrammar.new_ok_iff (ts nts : Alphabet) (s : Symbol) (rs : List Rule)
    (g : Grammar) :
    ContextFreeGrammar.new ts nts s rs = Except.ok g ↔
      Grammar.new ts nts s rs = Except.ok g ∧ g.isContextFree = true := by
  unfold ContextFreeGrammar.new
  cases h : Grammar.new ts nts s rs with
  | error e => simp [bind, Except.bind]
  | ok g1 =>
    by_cases h1 : g1.isContextFree = true
    · simp only [bind, Except.bind, h1, Bool.not_true, Bool.false_eq_true, if_false, pure,
        Except.pure, Except.ok.injEq]
      constructor
      · intro hh; subst hh; exact ⟨rfl, h1⟩
      · intro hh; exact hh.1
    · simp only [Bool.not_eq_true] at h1
      simp only [bind, Except.bind, h1, Bool.not_false, if_true, throw, throwThe,
        MonadExceptOf.throw, Except.ok.injEq, false_iff, reduceCtorEq]
      rintro ⟨hh, h2⟩
      subst hh
      simp [h1] at h2

theorem wellFormed_of_new {ts nts : Alphabet} {s : Symbol} {rs : List Rule} {g : Grammar}
    (h : ContextFreeGrammar.new ts nts s rs = Except.ok g) : WellFormed g := by
  obtain ⟨h1, hcf⟩ := (ContextFreeGrammar.new_ok_iff ts nts s rs g).1 h
  obtain ⟨hc, hg⟩ := (Grammar.new_ok_iff_correct ts nts s rs g).1 h1
  have hc' : g.isCorrect = true := by
    rw [hg]
    obtain ⟨a1, a2, a3⟩ := (Grammar.isCorrect_iff _).1 hc
    refine (Grammar.isCorrect_iff _).2 ⟨a1, a2, fun r hr => ?_⟩
    exact (Grammar.ruleIsCorrect_iff _ r).2
      ((Grammar.ruleIsCorrect_iff (⟨ts, nts, s, rs, 0⟩ : Grammar) r).1 (a3 r hr))
  obtain ⟨hs, hd, hr⟩ := (Grammar.isCorrect_iff g).1 hc'
  have hcf' := (Grammar.isContextFree_iff g).1 hcf
  refine ⟨hs, hd, ?_, ?_, ?_⟩
  · intro r hr1
    obtain ⟨hne, -, -, -⟩ := (Grammar.ruleIsCorrect_iff g r).1 (hr r hr1)
    obtain ⟨hle, hnt⟩ := hcf' r hr1
    match hl : r.lhs with
    | [] => exact absurd hl hne
    | [a] =>
      have := hnt (by simp [hl])
      simp only [hl, Word.at_cons_zero] at this
      exact ⟨a, this, rfl⟩
    | a :: b :: rest => simp [hl] at hle
  · intro r hr1
    exact ((Grammar.ruleIsCorrect_iff g r).1 (hr r hr1)).2.1
  · intro x hx
    rw [hg]
    simp only
    rw [hg] at hx
    simp only at hx
    rcases hx with hx | hx
    · exact le_trans ((Grammar.le_foldl_max ts 0).2 x hx) (Grammar.le_foldl_max nts _).1
    · exact (Grammar.le_foldl_max nts _).2 x hx

/-! ## Construction and `isNormalized` -/

/-- C8: `Grammar(terminals, nonterminals, startSymbol, rules)` throws
`IncorrectGrammarException` exactly when the start symbol is not a nonterminal, or some
terminal is also a nonterminal, or some rule has an empty lhs, an lhs or rhs symbol outside
both alphabets, or an lhs without nonterminal; on every other input it succeeds and stores
the four arguments. -/
theorem Grammar.new_throws_iff_incorrect (ts nts : Alphabet) (s : Symbol) (rs : List Rule) :
    (Grammar.new ts nts s rs = Except.error Exception.IncorrectGrammarException ↔
      (s ∉ nts ∨ (∃ t ∈ ts, t ∈ nts) ∨
        ∃ r ∈ rs, r.lhs = [] ∨ (∃ x ∈ r.lhs, x ∉ ts ∧ x ∉ nts) ∨
          (∃ x ∈ r.rhs, x ∉ ts ∧ x ∉ nts) ∨ (∀ x ∈ r.lhs, x ∉ nts))) ∧
    (Grammar.new ts nts s rs = Except.error Exception.IncorrectGrammarException ∨
      ∃ m, Grammar.new ts nts s rs = Except.ok ⟨ts, nts, s, rs, m⟩) := by
  rw [Grammar.new_eq]
  by_cases h : (⟨ts, nts, s, rs, 0⟩ : Grammar).isCorrect = true
  · simp only [h, if_true, reduceCtorEq, false_iff, false_or]
    refine ⟨?_, ⟨_, rfl⟩⟩
    obtain ⟨h1, h2, h3⟩ := (Grammar.isCorrect_iff _).1 h
    simp only at h1 h2 h3
    rintro (hh | ⟨t, ht, ht'⟩ | ⟨r, hr, hh⟩)
    · exact hh h1
    · exact h2 t ht ht'
    · obtain ⟨a1, a2, a3, a4⟩ := (Grammar.ruleIsCorrect_iff _ r).1 (h3 r hr)
      simp only at a2 a3 a4
      rcases hh with hh | ⟨x, hx, hx1, hx2⟩ | ⟨x, hx, hx1, hx2⟩ | hh
      · exact a1 hh
      · rcases a3 x hx with h5 | h5
        · exact hx1 h5
        · exact hx2 h5
      · rcases a2 x hx with h5 | h5
        · exact hx1 h5
        · exact hx2 h5
      · obtain ⟨x, hx, hx1⟩ := a4
        exact hh x hx hx1
  · simp only [h, if_false, true_iff, true_or, and_true, Bool.false_eq_true]
    by_contra hcon
    push_neg at hcon
    obtain ⟨h1, h2, h3⟩ := hcon
    apply h
    refine (Grammar.isCorrect_iff _).2 ⟨h1, h2, fun r hr => ?_⟩
    obtain ⟨a1, a2, a3, a4⟩ := h3 r hr
    refine (Grammar.ruleIsCorrect_iff _ r).2 ⟨a1, ?_, ?_, a4⟩
    · intro x hx
      by_cases hx1 : x ∈ ts
      · exact Or.inl hx1
      · exact Or.inr (a3 x hx hx1)
    · intro x hx
      by_cases hx1 : x ∈ ts
      · exact Or.inl hx1
      · exact Or.inr (a2 x hx hx1)

theorem ContextFreeGrammar.ofGrammar_eq (g : Grammar) :
    ContextFreeGrammar.ofGrammar g =
      if g.isContextFree = true then Except.ok g
      else Except.error Exception.NonContextFreeGrammarException := by
  unfold ContextFreeGrammar.ofGrammar
  by_cases h : g.isContextFree = true
  · simp [h]; rfl
  · simp only [Bool.not_eq_true] at h
    simp [h]; rfl

theorem ContextFreeGrammar.new_eq_ofGrammar {ts nts : Alphabet} {s : Symbol} {rs : List Rule}
    {g : Grammar} (h : Grammar.new ts nts s rs = Except.ok g) :
    ContextFreeGrammar.new ts nts s rs = ContextFreeGrammar.ofGrammar g := by
  unfold ContextFreeGrammar.new ContextFreeGrammar.ofGrammar
  rw [h]
  rfl

theorem isContextFree_false_iff {ts nts : Alphabet} {s : Symbol} {rs : List Rule}
    {g : Grammar} (h : Grammar.new ts nts s rs = Except.ok g) :
    g.isContextFree = false ↔ ∃ r ∈ rs, ¬ ∃ a ∈ nts, r.lhs = [a] := by
  obtain ⟨hc, hg⟩ := (Grammar.new_ok_iff_correct ts nts s rs g).1 h
  obtain ⟨-, -, hr⟩ := (Grammar.isCorrect_iff _).1 hc
  simp only at hr
  have hrules : g.rules = rs := by rw [hg]
  have hnts : g.nonterminals = nts := by rw [hg]
  rw [← Bool.not_eq_true, Grammar.isContextFree_iff, hrules, hnts]
  constructor
  · intro hh
    by_contra hcon
    push_neg at hcon
    apply hh
    intro r hr1
    obtain ⟨a, ha, hl⟩ := hcon r hr1
    rw [hl]
    exact ⟨by simp, fun _ => ha⟩
  · rintro ⟨r, hr1, hh⟩ hcon
    apply hh
    obtain ⟨hle, hnt⟩ := hcon r hr1
    obtain ⟨hne, -⟩ := (Grammar.ruleIsCorrect_iff _ r).1 (hr r hr1)
    match hl : r.lhs with
    | [] => exact absurd hl hne
    | [a] =>
      have := hnt (by simp [hl])
      simp only [hl, Word.at_cons_zero] at this
      exact ⟨a, this, rfl⟩
    | a :: b :: rest => simp [hl] at hle

/-- C9: on arguments that form a valid `Grammar` `g`, both constructors of
`ContextFreeGrammar` throw `NonContextFreeGrammarException` exactly when the lhs of some
rule is not a single nonterminal, and otherwise they succeed with `g`, whose terminals,
nonterminals, start symbol and rules are the arguments. -/
theorem ContextFreeGrammar.new_throws_iff_nonContextFree (ts nts : Alphabet) (s : Symbol)
    (rs : List Rule) (g : Grammar) (h : Grammar.new ts nts s rs = Except.ok g) :
    (ContextFreeGrammar.new ts nts s rs =
        Except.error Exception.NonContextFreeGrammarException ↔
      ∃ r ∈ rs, ¬ ∃ a ∈ nts, r.lhs = [a]) ∧
    (ContextFreeGrammar.ofGrammar g = Except.error Exception.NonContextFreeGrammarException ↔
      ∃ r ∈ rs, ¬ ∃ a ∈ nts, r.lhs = [a]) ∧
    ((¬ ∃ r ∈ rs, ¬ ∃ a ∈ nts, r.lhs = [a]) →
      ContextFreeGrammar.new ts nts s rs = Except.ok g ∧
        ContextFreeGrammar.ofGrammar g = Except.ok g) ∧
    g.terminals = ts ∧ g.nonterminals = nts ∧ g.startSymbol = s ∧ g.rules = rs := by
  have hcf := isContextFree_false_iff h
  rw [ContextFreeGrammar.new_eq_ofGrammar h, ContextFreeGrammar.ofGrammar_eq]
  obtain ⟨-, hg⟩ := (Grammar.new_ok_iff_correct ts nts s rs g).1 h
  have hfields : g.terminals = ts ∧ g.nonterminals = nts ∧ g.startSymbol = s ∧ g.rules = rs := by
    rw [hg]; exact ⟨rfl, rfl, rfl, rfl⟩
  by_cases h1 : g.isContextFree = true
  · have h2 : ¬ ∃ r ∈ rs, ¬ ∃ a ∈ nts, r.lhs = [a] := by
      rw [← hcf, h1]; simp
    simp only [h1, if_true, reduceCtorEq, false_iff]
    exact ⟨h2, h2, fun _ => by simp, hfields⟩
  · have h1' : g.isContextFree = false := by simpa using h1
    have h2 := hcf.1 h1'
    simp only [h1', Bool.false_eq_true, if_false, true_iff]
    exact ⟨h2, h2, fun hh => absurd h2 hh, hfields⟩

theorem ContextFreeGrammar.new_throws_iff_nonContextFree_witness :
    (ContextFreeGrammar.new [97] [65] 65 [⟨[65], [97]⟩] =
        Except.error Exception.NonContextFreeGrammarException ↔
      ∃ r ∈ [(⟨[65], [97]⟩ : Rule)], ¬ ∃ a ∈ [(65 : Symbol)], r.lhs = [a]) ∧
    (ContextFreeGrammar.ofGrammar exampleSingle =
        Except.error Exception.NonContextFreeGrammarException ↔
      ∃ r ∈ [(⟨[65], [97]⟩ : Rule)], ¬ ∃ a ∈ [(65 : Symbol)], r.lhs = [a]) ∧
    ((¬ ∃ r ∈ [(⟨[65], [97]⟩ : Rule)], ¬ ∃ a ∈ [(65 : Symbol)], r.lhs = [a]) →
      ContextFreeGrammar.new [97] [65] 65 [⟨[65], [97]⟩] = Except.ok exampleSingle ∧
        ContextFreeGrammar.ofGrammar exampleSingle = Except.ok exampleSingle) ∧
    exampleSingle.terminals = [97] ∧ exampleSingle.nonterminals = [65] ∧
      exampleSingle.startSymbol = 65 ∧ exampleSingle.rules = [⟨[65], [97]⟩] :=
  ContextFreeGrammar.new_throws_iff_nonContextFree [97] [65] 65 [⟨[65], [97]⟩] exampleSingle (by rfl)

theorem violates_false_iff {g : Grammar} (hg : WellFormed g) {r : Rule} (hr : r ∈ g.rules) :
    isNormalized.violates g r = false ↔
      ((∃ t ∈ g.terminals, r.rhs = [t]) ∨
        (∃ a ∈ g.nonterminals, ∃ b ∈ g.nonterminals,
          r.rhs = [a, b] ∧ a ≠ g.startSymbol ∧ b ≠ g.startSymbol) ∨
        (r.rhs = [] ∧ r.lhs = [g.startSymbol])) := by
  obtain ⟨x, hx, hl⟩ := hg.rule_lhs r hr
  have hrhs := hg.rule_rhs r hr
  unfold isNormalized.violates
  match hrr : r.rhs with
  | [] =>
    simp [hl, Word.at_cons_zero]
  | [a] =>
    have ha : a ∈ g.terminals ∨ a ∈ g.nonterminals := hrhs a (by simp [hrr])
    simp only [List.length_singleton, gt_iff_lt, Nat.one_lt_ofNat, decide_True, Bool.true_and,
      Word.at_cons_zero, Grammar.symbolIsNonterminal]
    simp
    constructor
    · intro h1
      exact ha.resolve_right h1
    · intro h1 h2
      exact hg.disjoint a h1 h2
  | [a, b] =>
    have ha : a ∈ g.terminals ∨ a ∈ g.nonterminals := hrhs a (by simp [hrr])
    have hb : b ∈ g.terminals ∨ b ∈ g.nonterminals := hrhs b (by simp [hrr])
    simp [Word.at_cons_zero, Word.at_cons_succ, Grammar.symbolIsTerminal]
    constructor
    · rintro ⟨⟨⟨h1, h2⟩, h3⟩, h4⟩
      exact ⟨a, ha.resolve_left h1, b, hb.resolve_left h2, ⟨rfl, rfl⟩, h3, h4⟩
    · rintro ⟨a1, h1, b1, h2, ⟨rfl, rfl⟩, h3, h4⟩
      exact ⟨⟨⟨fun hh => hg.disjoint a hh h1, fun hh => hg.disjoint b hh h2⟩, h3⟩, h4⟩
  | a :: b :: c :: rest =>
    simp

theorem violates_true_iff (g : Grammar) (r : Rule) :
    isNormalized.violates g r = true ↔
      (r.rhs.length > 2 ∨ (∃ a ∈ g.nonterminals, r.rhs = [a]) ∨
        (∃ a b, r.rhs = [a, b] ∧
          (a ∈ g.terminals ∨ b ∈ g.terminals ∨ a = g.startSymbol ∨ b = g.startSymbol)) ∨
        (r.rhs = [] ∧ r.lhs.at 0 ≠ g.startSymbol)) := by
  unfold isNormalized.violates
  match hrr : r.rhs with
  | [] => simp
  | [a] => simp [Word.at_cons_zero, Grammar.symbolIsNonterminal]
  | [a, b] =>
    simp [Word.at_cons_zero, Word.at_cons_succ, Grammar.symbolIsTerminal]
    constructor
    · intro hh
      refine ⟨a, b, ⟨rfl, rfl⟩, ?_⟩
      rcases hh with ((h1 | h1) | h1) | h1
      · exact Or.inl h1
      · exact Or.inr (Or.inl h1)
      · exact Or.inr (Or.inr (Or.inl h1))
      · exact Or.inr (Or.inr (Or.inr h1))
    · rintro ⟨a1, b1, ⟨rfl, rfl⟩, h1 | h1 | h1 | h1⟩
      · exact Or.inl (Or.inl (Or.inl h1))
      · exact Or.inl (Or.inl (Or.inr h1))
      · exact Or.inl (Or.inr h1)
      · exact Or.inr h1
  | a :: b :: c :: rest => simp

/-- C10: for a valid context-free grammar, `isNormalized()` is true exactly when every rule
has as rhs one terminal, or two nonterminals different from the start symbol, or nothing
while its lhs is the start symbol; and it is false exactly when some rule has an rhs longer
than 2, an rhs that is one nonterminal, an rhs of length 2 that contains a terminal or the
start symbol, or an empty rhs with an lhs other than the start symbol. -/
theorem isNormalized_iff_shapes (ts nts : Alphabet) (s : Symbol) (rs : List Rule) (g : Grammar)
    (h : ContextFreeGrammar.new ts nts s rs = Except.ok g) :
    (isNormalized g = true ↔
      ∀ r ∈ g.rules,
        (∃ t ∈ g.terminals, r.rhs = [t]) ∨
        (∃ a ∈ g.nonterminals, ∃ b ∈ g.nonterminals,
          r.rhs = [a, b] ∧ a ≠ g.startSymbol ∧ b ≠ g.startSymbol) ∨
        (r.rhs = [] ∧ r.lhs = [g.startSymbol])) ∧
    (isNormalized g = false ↔
      ∃ r ∈ g.rules,
        r.rhs.length > 2 ∨ (∃ a ∈ g.nonterminals, r.rhs = [a]) ∨
        (∃ a b, r.rhs = [a, b] ∧
          (a ∈ g.terminals ∨ b ∈ g.terminals ∨ a = g.startSymbol ∨ b = g.startSymbol)) ∨
        (r.rhs = [] ∧ r.lhs ≠ [g.startSymbol])) := by
  have hg := wellFormed_of_new h
  constructor
  · simp only [isNormalized, List.all_eq_true, Bool.not_eq_true']
    constructor
    · intro hh r hr
      exact (violates_false_iff hg hr).1 (hh r hr)
    · intro hh r hr
      exact (violates_false_iff hg hr).2 (hh r hr)
  · rw [← Bool.not_eq_true]
    simp only [isNormalized, List.all_eq_true, Bool.not_eq_true', not_forall,
      Bool.not_eq_false]
    constructor
    · rintro ⟨r, hr, hv⟩
      refine ⟨r, hr, ?_⟩
      obtain ⟨x, hx, hl⟩ := hg.rule_lhs r hr
      rcases (violates_true_iff g r).1 hv with h1 | h1 | h1 | ⟨h1, h2⟩
      · exact Or.inl h1
      · exact Or.inr (Or.inl h1)
      · exact Or.inr (Or.inr (Or.inl h1))
      · refine Or.inr (Or.inr (Or.inr ⟨h1, ?_⟩))
        intro hh
        rw [hh] at h2
        exact h2 rfl
    · rintro ⟨r, hr, hv⟩
      refine ⟨r, hr, (violates_true_iff g r).2 ?_⟩
      obtain ⟨x, hx, hl⟩ := hg.rule_lhs r hr
      rcases hv with h1 | h1 | h1 | ⟨h1, h2⟩
      · exact Or.inl h1
      · exact Or.inr (Or.inl h1)
      · exact Or.inr (Or.inr (Or.inl h1))
      · refine Or.inr (Or.inr (Or.inr ⟨h1, ?_⟩))
        intro hh
        apply h2
        rw [hl] at hh ⊢
        rw [Word.at_cons_zero] at hh
        rw [hh]

theorem isNormalized_iff_shapes_witness :
    (isNormalized exampleSingle = true ↔
      ∀ r ∈ exampleSingle.rules,
        (∃ t ∈ exampleSingle.terminals, r.rhs = [t]) ∨
        (∃ a ∈ exampleSingle.nonterminals, ∃ b ∈ exampleSingle.nonterminals,
          r.rhs = [a, b] ∧ a ≠ exampleSingle.startSymbol ∧ b ≠ exampleSingle.startSymbol) ∨
        (r.rhs = [] ∧ r.lhs = [exampleSingle.startSymbol])) ∧
    (isNormalized exampleSingle = false ↔
      ∃ r ∈ exampleSingle.rules,
        r.rhs.length > 2 ∨ (∃ a ∈ exampleSingle.nonterminals, r.rhs = [a]) ∨
        (∃ a b, r.rhs = [a, b] ∧
          (a ∈ exampleSingle.terminals ∨ b ∈ exampleSingle.terminals ∨
            a = exampleSingle.startSymbol ∨ b = exampleSingle.startSymbol)) ∨
        (r.rhs = [] ∧ r.lhs ≠ [exampleSingle.startSymbol])) :=
  isNormalized_iff_shapes [97] [65] 65 [⟨[65], [97]⟩] exampleSingle (by rfl)

/-- C4: on a grammar with `isNormalized() == true`, `normalize()` returns at once: the
grammar (terminals, nonterminals, start symbol, rule list and symbol counter) is unchanged,
and `normalized()` is the grammar itself. -/
theorem normalize_of_isNormalized (g : Grammar) (h : isNormalized g = true) :
    ContextFreeGrammar.normalize g = Except.ok g ∧ normalized g = Except.ok g := by
  unfold normalized ContextFreeGrammar.normalize
  simp only [h, if_true]
  exact ⟨rfl, rfl⟩

theorem normalize_of_isNormalized_witness :
    isNormalized exampleSingle = true ∧
      ContextFreeGrammar.normalize exampleSingle = Except.ok exampleSingle ∧
      normalized exampleSingle = Except.ok exampleSingle :=
  ⟨by rfl, normalize_of_isNormalized exampleSingle (by rfl)⟩

/-- C3 fails on `{'a'}, {'S'}, 'S', {S → SS, S → a}`: the grammar is valid, `normalized()`
succeeds and returns it unchanged, and `isNormalized()` is false on the result. -/
theorem normalized_exampleSquare_not_isNormalized :
    ContextFreeGrammar.new [97] [83] 83 [⟨[83], [83, 83]⟩, ⟨[83], [97]⟩] =
        Except.ok exampleSquare ∧
      normalized exampleSquare = Except.ok exampleSquare ∧
      isNormalized exampleSquare = false :=
  ⟨by rfl, by rfl, by rfl⟩

theorem predict_nil (c : CYK) : c.predict [] = some c.acceptsEmptyWord := rfl

theorem acceptsEmptyWord_iff (c : CYK) :
    c.acceptsEmptyWord = true ↔
      ∃ r ∈ c.grammar.rules, r.lhs.at 0 = c.grammar.startSymbol ∧ r.rhs = [] := by
  simp [CYK.acceptsEmptyWord]

theorem CYK.new_ok_iff_normalized (g : Grammar) (c : CYK) :
    CYK.new g = Except.ok c ↔ normalized g = Except.ok c.grammar := by
  unfold CYK.new
  cases h : normalized g with
  | error e => simp [bind, Except.bind]
  | ok n =>
    simp only [bind, Except.bind, pure, Except.pure, Except.ok.injEq]
    constructor
    · intro hh; rw [← hh]
    · intro hh; cases c; simp only at hh; rw [hh]

/-- C5 as stated fails on `{'a'}, {'A', 'B'}, 'A', {A → a, A → B, B → ε}`: the grammar is
valid, `CYK(g).predict("")` is true, and no rule of `g` has the start symbol as its lhs and
an empty rhs. -/
theorem predict_nil_exampleEmptyWord :
    ContextFreeGrammar.new [97] [65, 66] 65 [⟨[65], [97]⟩, ⟨[65], [66]⟩, ⟨[66], []⟩] =
        Except.ok exampleEmptyWord ∧
      (∃ c, CYK.new exampleEmptyWord = Except.ok c ∧ c.predict [] = some true) ∧
      ¬ ∃ r ∈ exampleEmptyWord.rules, r.lhs = [exampleEmptyWord.startSymbol] ∧ r.rhs = [] := by
  refine ⟨by rfl, ⟨⟨⟨[97], [98, 65, 66], 98, [⟨[98], []⟩, ⟨[98], [97]⟩], 98⟩⟩, by rfl, by rfl⟩, ?_⟩
  simp [exampleEmptyWord]

/-! ## Derivations -/

theorem Derives.refl (rules : List Rule) (u : Word) : Derives rules u u :=
  Relation.ReflTransGen.refl

theorem Derives.trans {rules : List Rule} {u v w : Word} (h1 : Derives rules u v)
    (h2 : Derives rules v w) : Derives rules u w :=
  Relation.ReflTransGen.trans h1 h2

theorem Produces.append_left_step {rules : List Rule} {u v : Word} (p : Word)
    (h : Produces rules u v) : Produces rules (p ++ u) (p ++ v) := by
  obtain ⟨r, hr, p1, q1, hu, hv⟩ := h
  exact ⟨r, hr, p ++ p1, q1, by simp [hu], by simp [hv]⟩

theorem Produces.append_right_step {rules : List Rule} {u v : Word} (q : Word)
    (h : Produces rules u v) : Produces rules (u ++ q) (v ++ q) := by
  obtain ⟨r, hr, p1, q1, hu, hv⟩ := h
  exact ⟨r, hr, p1, q1 ++ q, by simp [hu], by simp [hv]⟩

theorem Derives.append_left {rules : List Rule} {u v : Word} (p : Word)
    (h : Derives rules u v) : Derives rules (p ++ u) (p ++ v) := by
  induction h with
  | refl => exact Derives.refl _ _
  | tail _ hstep ih => exact Relation.ReflTransGen.tail ih (hstep.append_left_step p)

theorem Derives.append_right {rules : List Rule} {u v : Word} (q : Word)
    (h : Derives rules u v) : Derives rules (u ++ q) (v ++ q) := by
  induction h with
  | refl => exact Derives.refl _ _
  | tail _ hstep ih => exact Relation.ReflTransGen.tail ih (hstep.append_right_step q)

theorem Derives.append {rules : List Rule} {u1 v1 u2 v2 : Word} (h1 : Derives rules u1 v1)
    (h2 : Derives rules u2 v2) : Derives rules (u1 ++ u2) (v1 ++ v2) :=
  (h1.append_right u2).trans (h2.append_left v1)

theorem Derives.of_rule {rules : List Rule} {r : Rule} (hr : r ∈ rules) :
    Derives rules r.lhs r.rhs :=
  Relation.ReflTransGen.single ⟨r, hr, [], [], by simp, by simp⟩

theorem Derives.of_mem {rules : List Rule} {l r : Word} (hr : (⟨l, r⟩ : Rule) ∈ rules) :
    Derives rules l r :=
  Derives.of_rule hr

theorem substWord_nil (h : Symbol → Word) : substWord h [] = [] := rfl

theorem substWord_cons (h : Symbol → Word) (a : Symbol) (u : Word) :
    substWord h (a :: u) = h a ++ substWord h u := by
  simp [substWord]

theorem substWord_append (h : Symbol → Word) (u v : Word) :
    substWord h (u ++ v) = substWord h u ++ substWord h v := by
  simp [substWord]

theorem substWord_eq_self {h : Symbol → Word} {u : Word} (hu : ∀ x ∈ u, h x = [x]) :
    substWord h u = u := by
  induction u with
  | nil => rfl
  | cons a u ih =>
    rw [substWord_cons, hu a (List.mem_cons_self a u),
      ih (fun x hx => hu x (List.mem_cons_of_mem a hx))]
    rfl

/-- Simulation: when the image under `h` of every rule of `rules1` is a derivation of
`rules2`, the image of every derivation of `rules1` is a derivation of `rules2`. -/
theorem Derives.simulate {rules1 Q : List Rule} (h : Symbol → Word)
    (H : ∀ r ∈ rules1, Derives Q (substWord h r.lhs) (substWord h r.rhs)) {u v : Word}
    (huv : Derives rules1 u v) : Derives Q (substWord h u) (substWord h v) := by
  induction huv with
  | refl => exact Derives.refl _ _
  | tail _ hstep ih =>
    obtain ⟨r, hr, p, q, hu, hv⟩ := hstep
    refine ih.trans ?_
    rw [hu, hv]
    simp only [substWord_append]
    exact ((H r hr).append_left _).append_right _

/-- Derivations only depend on the set of rules, and grow with it as far as the rules of
the smaller set are derivations of the larger one. -/
theorem Derives.of_rules {rules1 rules2 : List Rule}
    (H : ∀ r ∈ rules1, Derives rules2 r.lhs r.rhs) {u v : Word}
    (huv : Derives rules1 u v) : Derives rules2 u v := by
  have h1 := Derives.simulate (fun x => [x]) (Q := rules2) (by
    intro r hr
    rw [substWord_eq_self (fun x _ => rfl), substWord_eq_self (fun x _ => rfl)]
    exact H r hr) huv
  rwa [substWord_eq_self (fun x _ => rfl), substWord_eq_self (fun x _ => rfl)] at h1

theorem Derives.mono {rules1 rules2 : List Rule} (H : ∀ r ∈ rules1, r ∈ rules2) {u v : Word}
    (huv : Derives rules1 u v) : Derives rules2 u v :=
  Derives.of_rules (fun r hr => Derives.of_rule (H r hr)) huv

/-! ## Parse forests -/

theorem Gen.refl_gen (rules : List Rule) (u : Word) : Gen rules u u := by
  induction u with
  | nil => exact Gen.nil
  | cons a u ih => exact Gen.skip a ih

theorem Gen.append_gen {rules : List Rule} {u1 w1 u2 w2 : Word} (h1 : Gen rules u1 w1)
    (h2 : Gen rules u2 w2) : Gen rules (u1 ++ u2) (w1 ++ w2) := by
  induction h1 with
  | nil => exact h2
  | skip a _ ih => exact Gen.skip a ih
  | expand hr hrhs _ _ ih =>
    rw [List.cons_append, List.append_assoc]
    exact Gen.expand hr hrhs ih

theorem Gen.split {rules : List Rule} {x y w : Word} (h : Gen rules (x ++ y) w) :
    ∃ w1 w2, w = w1 ++ w2 ∧ Gen rules x w1 ∧ Gen rules y w2 := by
  induction x generalizing w with
  | nil => exact ⟨[], w, rfl, Gen.nil, h⟩
  | cons a x ih =>
    rw [List.cons_append] at h
    cases h with
    | skip _ h1 =>
      obtain ⟨w1, w2, hw, h2, h3⟩ := ih h1
      exact ⟨a :: w1, w2, by simp [hw], Gen.skip a h2, h3⟩
    | expand hr hrhs h1 =>
      obtain ⟨w1, w2, hw, h2, h3⟩ := ih h1
      exact ⟨_ ++ w1, w2, by simp [hw], Gen.expand hr hrhs h2, h3⟩

theorem Gen.nil_left_gen {rules : List Rule} {w : Word} (h : Gen rules [] w) : w = [] := by
  cases h
  rfl

theorem Gen.single {rules : List Rule} {a : Symbol} {rhs w : Word}
    (hr : (⟨[a], rhs⟩ : Rule) ∈ rules) (h : Gen rules rhs w) : Gen rules [a] w := by
  have := Gen.expand hr h Gen.nil
  simpa using this

/-- A parse forest with one root either keeps its root or expands it by a rule. -/
theorem Gen.single_inv {rules : List Rule} {a : Symbol} {w : Word} (h : Gen rules [a] w) :
    w = [a] ∨ ∃ rhs, (⟨[a], rhs⟩ : Rule) ∈ rules ∧ Gen rules rhs w := by
  cases h with
  | skip _ h1 => left; rw [h1.nil_left_gen]
  | expand hr hrhs h1 =>
    right
    rw [h1.nil_left_gen, List.append_nil]
    exact ⟨_, hr, hrhs⟩

theorem Gen.derives {rules : List Rule} {u w : Word} (h : Gen rules u w) :
    Derives rules u w := by
  induction h with
  | nil => exact Derives.refl _ _
  | skip a _ ih => exact ih.append_left [a]
  | expand hr _ _ ih1 ih2 =>
    have h1 : Derives rules [_] _ := (Derives.of_mem hr).trans ih1
    exact Derives.append h1 ih2

theorem Gen.of_produces {rules : List Rule} (hcf : ∀ r ∈ rules, ∃ a, r.lhs = [a])
    {u v w : Word} (h1 : Produces rules u v) (h2 : Gen rules v w) : Gen rules u w := by
  obtain ⟨r, hr, p, q, hu, hv⟩ := h1
  obtain ⟨a, ha⟩ := hcf r hr
  rw [hv, List.append_assoc] at h2
  obtain ⟨w1, w23, hw, hp, h23⟩ := h2.split
  obtain ⟨w2, w3, hw', hrhs, hq⟩ := h23.split
  rw [hu, hw, hw', ha, List.append_assoc]
  refine Gen.append_gen hp ?_
  have hr' : (⟨[a], r.rhs⟩ : Rule) ∈ rules := by
    rw [← ha]; exact hr
  exact Gen.expand hr' hrhs hq

theorem Gen.of_derives {rules : List Rule} (hcf : ∀ r ∈ rules, ∃ a, r.lhs = [a])
    {u w : Word} (h : Derives rules u w) : Gen rules u w := by
  induction h using Relation.ReflTransGen.head_induction_on with
  | refl => exact Gen.refl_gen _ _
  | head hstep _ ih => exact Gen.of_produces hcf hstep ih

theorem gen_iff_derives {rules : List Rule} (hcf : ∀ r ∈ rules, ∃ a, r.lhs = [a])
    (u w : Word) : Gen rules u w ↔ Derives rules u w :=
  ⟨Gen.derives, Gen.of_derives hcf⟩

theorem Gen.mono_gen {rules1 rules2 : List Rule} (H : ∀ r ∈ rules1, r ∈ rules2) {u w : Word}
    (h : Gen rules1 u w) : Gen rules2 u w := by
  induction h with
  | nil => exact Gen.nil
  | skip a _ ih => exact Gen.skip a ih
  | expand hr _ _ ih1 ih2 => exact Gen.expand (H _ hr) ih1 ih2

/-! ## Replacing a part of a right-hand side by a new symbol -/

theorem EquivBelow.refl_equiv (m : Symbol) (rules : List Rule) : EquivBelow m rules rules :=
  fun _ _ _ _ => Iff.rfl

theorem EquivBelow.trans_equiv {m1 m2 : Symbol} {rules1 rules2 rules3 : List Rule} (hm : m1 ≤ m2)
    (h1 : EquivBelow m1 rules1 rules2) (h2 : EquivBelow m2 rules2 rules3) :
    EquivBelow m1 rules1 rules3 := by
  intro u w hu hw
  exact (h2 u w (fun x hx => le_trans (hu x hx) hm) (fun x hx => le_trans (hw x hx) hm)).trans
    (h1 u w hu hw)

theorem EquivBelow.of_mem_iff (m : Symbol) {rules1 rules2 : List Rule}
    (h : ∀ r, r ∈ rules1 ↔ r ∈ rules2) : EquivBelow m rules1 rules2 :=
  fun _ _ _ _ => ⟨Derives.mono (fun r hr => (h r).2 hr), Derives.mono (fun r hr => (h r).1 hr)⟩

theorem RulesBelow.mono_below {m1 m2 : Symbol} {rules : List Rule} (hm : m1 ≤ m2)
    (h : RulesBelow m1 rules) : RulesBelow m2 rules :=
  fun r hr => ⟨fun x hx => le_trans ((h r hr).1 x hx) hm, fun x hx => le_trans ((h r hr).2 x hx) hm⟩

/-- The rule `A → p rest q` may be replaced by `A → p n q` and `n → rest` for a new symbol
`n`, without changing the derivations between words over the old symbols. -/
theorem split_rule_equiv {rules1 rules2 : List Rule} {A p : Word} (rest : Word) {q : Word}
    {n m : Symbol}
    (hn : m < n) (hbelow : RulesBelow m rules1)
    (h1 : (⟨A, p ++ rest ++ q⟩ : Rule) ∈ rules1)
    (h2 : ∀ r ∈ rules1, r = ⟨A, p ++ rest ++ q⟩ ∨ r ∈ rules2)
    (h3 : (⟨A, p ++ [n] ++ q⟩ : Rule) ∈ rules2) (h3' : (⟨[n], rest⟩ : Rule) ∈ rules2)
    (h4 : ∀ r ∈ rules2, r ∈ rules1 ∨ r = ⟨A, p ++ [n] ++ q⟩ ∨ r = ⟨[n], rest⟩) :
    EquivBelow m rules1 rules2 := by
  have hid : ∀ v : Word, (∀ x ∈ v, x ≤ m) →
      substWord (fun x => if x = n then rest else [x]) v = v := by
    intro v hv
    apply substWord_eq_self
    intro x hx
    have : x ≠ n := fun hh => by
      have := hv x hx
      rw [hh] at this
      exact absurd hn (not_lt.2 this)
    simp [this]
  have hA := (hbelow _ h1).1
  have hrhs := (hbelow _ h1).2
  simp only [List.mem_append] at hrhs
  have hp : ∀ x ∈ p, x ≤ m := fun x hx => hrhs x (Or.inl (Or.inl hx))
  have hrest : ∀ x ∈ rest, x ≤ m := fun x hx => hrhs x (Or.inl (Or.inr hx))
  have hq : ∀ x ∈ q, x ≤ m := fun x hx => hrhs x (Or.inr hx)
  intro u w hu hw
  constructor
  · intro hd
    have := Derives.simulate (fun x => if x = n then rest else [x]) (Q := rules1) (by
      intro r hr
      rcases h4 r hr with h5 | h5 | h5
      · rw [hid _ (hbelow r h5).1, hid _ (hbelow r h5).2]
        exact Derives.of_rule h5
      · rw [h5]
        simp only [substWord_append, hid _ hA, hid _ hp, hid _ hq]
        have : substWord (fun x => if x = n then rest else [x]) [n] = rest := by
          simp [substWord]
        rw [this]
        exact Derives.of_mem h1
      · rw [h5]
        have : substWord (fun x => if x = n then rest else [x]) [n] = rest := by
          simp [substWord]
        simp only [this, hid _ hrest]
        exact Derives.refl _ _) hd
    rwa [hid _ hu, hid _ hw] at this
  · intro hd
    refine Derives.of_rules ?_ hd
    intro r hr
    rcases h2 r hr with h5 | h5
    · rw [h5]
      refine (Derives.of_mem h3).trans ?_
      exact ((Derives.of_mem h3').append_left p).append_right q
    · exact Derives.of_rule h5

theorem binarize_short (lhs rhs : Word) (n : Symbol) (h : rhs.length ≤ 2) :
    binarize lhs rhs n = [⟨lhs, rhs⟩] := by
  match rhs with
  | [] => rfl
  | [x] => rfl
  | [x, y] => rfl
  | x :: y :: z :: rest => simp at h

/-- The chain of binary rules derives what the rule it replaces does. -/
theorem binarize_equiv (rhs : Word) :
    ∀ (lhs : Word) (m : Symbol) (rules1 rules2 : List Rule), RulesBelow m rules1 →
      (⟨lhs, rhs⟩ : Rule) ∈ rules1 →
      (∀ r ∈ rules1, r = ⟨lhs, rhs⟩ ∨ r ∈ rules2) →
      (∀ r ∈ binarize lhs rhs (m + 1), r ∈ rules2) →
      (∀ r ∈ rules2, r ∈ rules1 ∨ r ∈ binarize lhs rhs (m + 1)) →
      EquivBelow m rules1 rules2 := by
  induction rhs with
  | nil =>
    intro lhs m rules1 rules2 _ h1 ha hb hc
    apply EquivBelow.of_mem_iff
    intro r
    simp only [binarize, List.mem_singleton, forall_eq] at hb hc
    constructor
    · intro hr
      rcases ha r hr with h | h
      · rw [h]; exact hb
      · exact h
    · intro hr
      rcases hc r hr with h | h
      · exact h
      · rw [h]; exact h1
  | cons x rest ih =>
    intro lhs m rules1 rules2 hbelow h1 ha hb hc
    match rest, ih with
    | [], _ =>
      apply EquivBelow.of_mem_iff
      intro r
      simp only [binarize, List.mem_singleton, forall_eq] at hb hc
      constructor
      · intro hr
        rcases ha r hr with h | h
        · rw [h]; exact hb
        · exact h
      · intro hr
        rcases hc r hr with h | h
        · exact h
        · rw [h]; exact h1
    | [y], _ =>
      apply EquivBelow.of_mem_iff
      intro r
      simp only [binarize, List.mem_singleton, forall_eq] at hb hc
      constructor
      · intro hr
        rcases ha r hr with h | h
        · rw [h]; exact hb
        · exact h
      · intro hr
        rcases hc r hr with h | h
        · exact h
        · rw [h]; exact h1
    | y :: z :: rest', ih =>
      simp only [binarize, List.mem_cons, forall_eq_or_imp] at hb hc
      obtain ⟨hb1, hb2⟩ := hb
      -- the intermediate rule list
      have hsplit : EquivBelow m rules1
          (⟨[m + 1], y :: z :: rest'⟩ :: ⟨lhs, [x, m + 1]⟩ :: rules1.filter (fun r => decide (r ∈ rules2))) := by
        refine split_rule_equiv (y :: z :: rest') (A := lhs) (p := [x]) (q := [])
          (n := m + 1) (by linarith) hbelow (by simpa using h1) ?_ (by simp) (by simp) ?_
        · intro r hr
          rcases ha r hr with h | h
          · left; simpa using h
          · right
            simp only [List.mem_cons, List.mem_filter, decide_eq_true_eq]
            exact Or.inr (Or.inr ⟨hr, h⟩)
        · intro r hr
          simp only [List.mem_cons, List.mem_filter, decide_eq_true_eq] at hr
          rcases hr with h | h | h
          · right; right; exact h
          · right; left; simpa using h
          · left; exact h.1
      have hbelow1 := (hbelow _ h1)
      have hmid : EquivBelow (m + 1)
          (⟨[m + 1], y :: z :: rest'⟩ :: ⟨lhs, [x, m + 1]⟩ :: rules1.filter (fun r => decide (r ∈ rules2)))
          rules2 := by
        refine ih [m + 1] (m + 1) _ rules2 ?_ (by simp) ?_ hb2 ?_
        · intro r hr
          simp only [List.mem_cons, List.mem_filter, decide_eq_true_eq] at hr
          rcases hr with h | h | h
          · rw [h]
            refine ⟨by simp, fun a ha' => ?_⟩
            exact le_trans (hbelow1.2 a (List.mem_cons_of_mem x ha')) (by linarith)
          · rw [h]
            refine ⟨fun a ha' => le_trans (hbelow1.1 a ha') (by linarith), fun a ha' => ?_⟩
            simp only [List.mem_cons, List.mem_singleton, List.not_mem_nil, or_false] at ha'
            rcases ha' with h' | h'
            · rw [h']; exact le_trans (hbelow1.2 x (List.mem_cons_self x _)) (by linarith)
            · rw [h']
          · exact (hbelow.mono_below (by linarith : m ≤ m + 1)) r h.1
        · intro r hr
          simp only [List.mem_cons, List.mem_filter, decide_eq_true_eq] at hr
          rcases hr with h | h | h
          · left; exact h
          · right; rw [h]; exact hb1
          · right; exact h.2
        · intro r hr
          rcases hc r hr with h | h | h
          · left
            simp only [List.mem_cons, List.mem_filter, decide_eq_true_eq]
            exact Or.inr (Or.inr ⟨h, hr⟩)
          · left
            simp only [List.mem_cons]
            exact Or.inr (Or.inl h)
          · right; exact h
      exact EquivBelow.trans_equiv (by linarith) hsplit hmid

/-! ## `removeLongRules` -/

theorem Extends.refl_extends (g : Grammar) : Extends g g :=
  ⟨rfl, rfl, le_refl _, fun x => by
    constructor
    · intro h; exact Or.inl h
    · rintro (h | ⟨h1, h2⟩)
      · exact h
      · exact absurd h1 (not_lt.2 h2)⟩

theorem Extends.trans_extends {g1 g2 g3 : Grammar} (h1 : Extends g1 g2) (h2 : Extends g2 g3) :
    Extends g1 g3 := by
  refine ⟨h2.terminals_eq.trans h1.terminals_eq, h2.start_eq.trans h1.start_eq,
    le_trans h1.max_le h2.max_le, fun x => ?_⟩
  rw [h2.mem_nonterminals, h1.mem_nonterminals]
  have a := h1.max_le
  have b := h2.max_le
  constructor
  · rintro ((h | ⟨h3, h4⟩) | ⟨h3, h4⟩)
    · exact Or.inl h
    · exact Or.inr ⟨h3, le_trans h4 b⟩
    · exact Or.inr ⟨lt_of_le_of_lt a h3, h4⟩
  · rintro (h | ⟨h3, h4⟩)
    · exact Or.inl (Or.inl h)
    · by_cases h5 : x ≤ g2.maxSymbol
      · exact Or.inl (Or.inr ⟨h3, h5⟩)
      · exact Or.inr ⟨not_le.1 h5, h4⟩

theorem Extends.of_rules_eq {g g1 g2 : Grammar} (h : Extends g g1)
    (ht : g2.terminals = g1.terminals) (hn : g2.nonterminals = g1.nonterminals)
    (hs : g2.startSymbol = g1.startSymbol) (hm : g2.maxSymbol = g1.maxSymbol) :
    Extends g g2 :=
  ⟨ht.trans h.terminals_eq, hs.trans h.start_eq, hm ▸ h.max_le, fun x => by
    rw [hn, hm]; exact h.mem_nonterminals x⟩

theorem addNewNonterminal_eq (g : Grammar) :
    g.addNewNonterminal =
      if g.maxSymbol = Symbol.maxValue then
        Except.error Exception.GrammarOutOfSymbolsException
      else
        Except.ok (g.maxSymbol + 1,
          { g with nonterminals := g.nonterminals.insert (g.maxSymbol + 1),
                   maxSymbol := g.maxSymbol + 1 }) := rfl

theorem addNewNonterminal_ok {g g1 : Grammar} {n : Symbol}
    (h : g.addNewNonterminal = Except.ok (n, g1)) :
    n = g.maxSymbol + 1 ∧ g1.terminals = g.terminals ∧ g1.startSymbol = g.startSymbol ∧
      g1.rules = g.rules ∧ g1.maxSymbol = g.maxSymbol + 1 ∧
      g1.nonterminals = g.nonterminals.insert (g.maxSymbol + 1) := by
  rw [addNewNonterminal_eq] at h
  by_cases h1 : g.maxSymbol = Symbol.maxValue
  · simp [h1] at h
  · simp only [h1, if_false, Except.ok.injEq, Prod.mk.injEq] at h
    obtain ⟨h2, h3⟩ := h
    subst h3
    exact ⟨h2.symm, rfl, rfl, rfl, rfl, rfl⟩

theorem addNewNonterminal_extends {g g1 : Grammar} {n : Symbol}
    (h : g.addNewNonterminal = Except.ok (n, g1)) : Extends g g1 := by
  obtain ⟨-, h1, h2, -, h4, h5⟩ := addNewNonterminal_ok h
  refine ⟨h1, h2, by rw [h4]; linarith, fun x => ?_⟩
  rw [h5, h4, List.mem_insert_iff]
  constructor
  · rintro (hx | hx)
    · right; rw [hx]; exact ⟨by linarith, le_refl _⟩
    · exact Or.inl hx
  · rintro (hx | ⟨hx1, hx2⟩)
    · exact Or.inr hx
    · left
      exact le_antisymm hx2 (Int.add_one_le_of_lt hx1)

theorem Word.at_append_length (pre s : Word) (y : Symbol) :
    Word.at (pre ++ y :: s) pre.length = y := by
  induction pre with
  | nil => rfl
  | cons a pre ih => simpa [Word.at] using ih

theorem binarize_mem (rhs : Word) :
    ∀ (l : Word) (n : Symbol) (r : Rule), r ∈ binarize l rhs n →
      (r.lhs = l ∨ ∃ k, r.lhs = [k] ∧ n ≤ k ∧ k + 2 < n + (rhs.length : Int)) ∧
      (∀ x ∈ r.rhs, x ∈ rhs ∨ (n ≤ x ∧ x + 2 < n + (rhs.length : Int))) ∧
      (2 ≤ rhs.length → r.rhs.length = 2) := by
  induction rhs with
  | nil =>
    intro l n r hr
    simp only [binarize, List.mem_singleton] at hr
    subst hr
    simp
  | cons x rest ih =>
    intro l n r hr
    match rest, ih with
    | [], _ =>
      simp only [binarize, List.mem_singleton] at hr
      subst hr
      simp
    | [y], _ =>
      simp only [binarize, List.mem_singleton] at hr
      subst hr
      simp
    | y :: z :: rest', ih =>
      simp only [binarize, List.mem_cons] at hr
      rcases hr with hr | hr
      · subst hr
        refine ⟨Or.inl rfl, ?_, fun _ => rfl⟩
        intro a ha
        simp only [List.mem_cons, List.mem_singleton, List.not_mem_nil, or_false] at ha
        rcases ha with ha | ha
        · left; rw [ha]; exact List.mem_cons_self _ _
        · right
          rw [ha]
          refine ⟨le_refl _, ?_⟩
          simp only [List.length_cons]
          push_cast
          have : (0 : Int) ≤ (rest'.length : Int) := Int.natCast_nonneg _
          linarith
      · obtain ⟨h1, h2, h3⟩ := ih [n] (n + 1) r hr
        have hlen : ((x :: y :: z :: rest').length : Int) = ((y :: z :: rest').length : Int) + 1 := by
          simp only [List.length_cons]; push_cast; ring
        have hpos : (0 : Int) ≤ (rest'.length : Int) := Int.natCast_nonneg _
        have hlen2 : ((y :: z :: rest').length : Int) = (rest'.length : Int) + 2 := by
          simp only [List.length_cons]; push_cast; ring
        refine ⟨?_, ?_, fun _ => h3 (by simp)⟩
        · right
          rcases h1 with h1 | ⟨k, hk, hk1, hk2⟩
          · exact ⟨n, h1, le_refl _, by rw [hlen, hlen2]; linarith⟩
          · exact ⟨k, hk, by linarith, by rw [hlen]; linarith⟩
        · intro a ha
          rcases h2 a ha with h | ⟨h, h'⟩
          · left; exact List.mem_cons_of_mem _ h
          · right; exact ⟨by linarith, by rw [hlen]; linarith⟩

/-- The inner loop of `removeLongRules` pushes the chain `binarize` describes, but for its
last rule, which the statement after the loop pushes. -/
theorem removeLongRules_chain_spec (rhs : Word) :
    ∀ (c j : Nat) (g g3 : Grammar) (R : List Rule) (l0 : Word) (x0 n0 : Symbol) (pre s : Word),
      g.rules = R ++ [⟨l0, [x0, n0]⟩] → rhs = pre ++ s → pre.length = j → s.length = c + 2 →
      removeLongRules.chain rhs c j g = Except.ok g3 →
      Extends g g3 ∧ g3.maxSymbol = g.maxSymbol + (c : Int) ∧
        g3.rules ++ [⟨[(g3.rules.getLastD default).rhs.at 1],
            [rhs.at (rhs.length - 2), rhs.getLastD 0]⟩] =
          g.rules ++ binarize [n0] s (g.maxSymbol + 1) := by
  intro c
  induction c with
  | zero =>
    intro j g g3 R l0 x0 n0 pre s hR hrhs hpre hs hchain
    simp only [removeLongRules.chain, pure, Except.pure, Except.ok.injEq] at hchain
    subst hchain
    refine ⟨Extends.refl_extends g, by simp, ?_⟩
    match s, hs with
    | [y, z], _ =>
      have h1 : rhs.length - 2 = pre.length := by rw [hrhs]; simp
      have h2 : rhs.at (rhs.length - 2) = y := by
        rw [h1, hrhs]; exact Word.at_append_length pre [z] y
      have h3 : rhs.getLastD 0 = z := by rw [hrhs]; simp
      rw [h2, h3, hR]
      simp [binarize, Word.at_cons_zero, Word.at_cons_succ]
  | succ c ih =>
    intro j g g3 R l0 x0 n0 pre s hR hrhs hpre hs hchain
    match s, hs with
    | y :: z :: w :: rest', hs =>
      rw [removeLongRules.chain] at hchain
      cases hmint : g.addNewNonterminal with
      | error e => rw [hmint] at hchain; simp [bind, Except.bind] at hchain
      | ok p =>
        obtain ⟨n, g1⟩ := p
        rw [hmint] at hchain
        simp only [bind, Except.bind] at hchain
        obtain ⟨hn, ht, hst, hrules, hmax, hnts⟩ := addNewNonterminal_ok hmint
        have hback : ((g1.rules.getLastD default).rhs.at 1) = n0 := by
          rw [hrules, hR]; simp [Word.at_cons_zero, Word.at_cons_succ]
        have hatj : rhs.at j = y := by
          rw [hrhs, ← hpre]; exact Word.at_append_length pre _ y
        rw [hback, hatj] at hchain
        have hR' : (pushRule g1 ⟨[n0], [y, n]⟩).rules = (R ++ [⟨l0, [x0, n0]⟩]) ++ [⟨[n0], [y, n]⟩] := by
          simp [pushRule, hrules, hR]
        obtain ⟨e1, e2, e3⟩ := ih (j + 1) (pushRule g1 ⟨[n0], [y, n]⟩) g3 _ [n0] y n
          (pre ++ [y]) (z :: w :: rest') hR' (by rw [hrhs]; simp) (by simp [hpre])
          (by simpa using hs) hchain
        have hext1 : Extends g (pushRule g1 ⟨[n0], [y, n]⟩) :=
          (addNewNonterminal_extends hmint).of_rules_eq rfl rfl rfl rfl
        refine ⟨hext1.trans_extends e1, ?_, ?_⟩
        · rw [e2]
          simp only [pushRule, hmax]
          push_cast
          ring
        · rw [e3, hR']
          simp only [pushRule, hmax, hR, binarize, hn]
          simp

theorem getD_append_length {α : Type} (pre post : List α) (r d : α) :
    (pre ++ r :: post).getD pre.length d = r := by
  induction pre with
  | nil => rfl
  | cons a pre ih => simpa using ih

theorem eraseIdx_append_length {α : Type} (pre post : List α) (r : α) :
    (pre ++ r :: post).eraseIdx pre.length = pre ++ post := by
  induction pre with
  | nil => rfl
  | cons a pre ih => simpa using ih

theorem exists_concat_of_length_succ {α : Type} {pre : List α} {i : Nat}
    (h : pre.length = i + 1) : ∃ pre1 r, pre = pre1 ++ [r] ∧ pre1.length = i := by
  rcases List.eq_nil_or_concat pre with h1 | ⟨pre1, r, h1⟩
  · rw [h1] at h; simp at h
  · rw [List.concat_eq_append] at h1
    refine ⟨pre1, r, h1, ?_⟩
    rw [h1] at h
    simpa using h

theorem WellFormed.rulesBelow {g : Grammar} (hg : WellFormed g) :
    RulesBelow g.maxSymbol g.rules := by
  intro r hr
  obtain ⟨a, ha, hl⟩ := hg.rule_lhs r hr
  refine ⟨fun x hx => ?_, fun x hx => hg.le_max x (hg.rule_rhs r hr x hx)⟩
  rw [hl] at hx
  simp only [List.mem_singleton] at hx
  rw [hx]
  exact hg.le_max a (Or.inr ha)

theorem WellFormed.start_le {g : Grammar} (hg : WellFormed g) : g.startSymbol ≤ g.maxSymbol :=
  hg.le_max _ (Or.inr hg.start_mem)

/-- Well-formedness survives when new nonterminals are minted and the rules are replaced
by rules over the old and new symbols whose lhs is a nonterminal. -/
theorem WellFormed.of_extends {g g1 : Grammar} (hg : WellFormed g) (hext : Extends g g1)
    (hrules : ∀ r ∈ g1.rules, (∃ a ∈ g1.nonterminals, r.lhs = [a]) ∧
      ∀ x ∈ r.rhs, x ∈ g1.terminals ∨ x ∈ g1.nonterminals) : WellFormed g1 := by
  refine ⟨?_, ?_, fun r hr => (hrules r hr).1, fun r hr => (hrules r hr).2, ?_⟩
  · rw [hext.mem_nonterminals, hext.start_eq]
    exact Or.inl hg.start_mem
  · intro s hs hs'
    rw [hext.terminals_eq] at hs
    rw [hext.mem_nonterminals] at hs'
    rcases hs' with h | ⟨h, -⟩
    · exact hg.disjoint s hs h
    · exact absurd (hg.le_max s (Or.inl hs)) (not_le.2 h)
  · intro x hx
    rw [hext.terminals_eq, hext.mem_nonterminals] at hx
    rcases hx with h | h | ⟨-, h⟩
    · exact le_trans (hg.le_max x (Or.inl h)) hext.max_le
    · exact le_trans (hg.le_max x (Or.inr h)) hext.max_le
    · exact h

theorem Extends.mem_of_mem {g g1 : Grammar} (h : Extends g g1) {x : Symbol}
    (hx : x ∈ g.terminals ∨ x ∈ g.nonterminals) : x ∈ g1.terminals ∨ x ∈ g1.nonterminals := by
  rcases hx with hx | hx
  · left; rw [h.terminals_eq]; exact hx
  · right; rw [h.mem_nonterminals]; exact Or.inl hx

/-- One round of the loop of `removeLongRules` on a long rule: the rule at index `i` is
replaced by its chain of binary rules. -/
theorem removeLongRules_step {g g3 g1 : Grammar} {n : Symbol} {r : Rule}
    (hlong : ¬ r.rhs.length ≤ 2)
    (hmint : g.addNewNonterminal = Except.ok (n, g1))
    (hchain : removeLongRules.chain r.rhs (r.rhs.length - 3) 1
      (pushRule g1 ⟨r.lhs, [r.rhs.at 0, n]⟩) = Except.ok g3) :
    Extends g g3 ∧ g3.maxSymbol + 2 = g.maxSymbol + (r.rhs.length : Int) ∧
      (pushRule g3 ⟨[(g3.rules.getLastD default).rhs.at 1],
          [r.rhs.at (r.rhs.length - 2), r.rhs.getLastD 0]⟩).rules =
        g.rules ++ binarize r.lhs r.rhs (g.maxSymbol + 1) := by
  obtain ⟨hn, ht, hst, hrules1, hmax, hnts⟩ := addNewNonterminal_ok hmint
  match hrhs : r.rhs with
  | [] => simp [hrhs] at hlong
  | [x] => simp [hrhs] at hlong
  | [x, y] => simp [hrhs] at hlong
  | x :: y :: z :: rest =>
    rw [hrhs] at hchain
    have hR : (pushRule g1 ⟨r.lhs, [Word.at (x :: y :: z :: rest) 0, n]⟩).rules =
        g.rules ++ [⟨r.lhs, [x, n]⟩] := by
      simp [pushRule, hrules1, Word.at_cons_zero]
    obtain ⟨e1, e2, e3⟩ := removeLongRules_chain_spec (x :: y :: z :: rest)
      ((x :: y :: z :: rest).length - 3) 1 _ g3 g.rules r.lhs x n [x] (y :: z :: rest)
      hR rfl rfl (by simp) hchain
    have hext1 : Extends g (pushRule g1 ⟨r.lhs, [Word.at (x :: y :: z :: rest) 0, n]⟩) :=
      (addNewNonterminal_extends hmint).of_rules_eq rfl rfl rfl rfl
    refine ⟨hext1.trans_extends e1, ?_, ?_⟩
    · rw [e2]
      simp only [pushRule, hmax, List.length_cons]
      have : rest.length + 1 + 1 + 1 - 3 = rest.length := by omega
      rw [this]
      push_cast
      ring
    · simp only [pushRule]
      rw [e3, hR]
      simp only [pushRule, hmax, binarize, hn]
      simp

theorem removeLongRules_loop_spec :
    ∀ (i : Nat) (g g' : Grammar) (pre post : List Rule),
      WellFormed g → g.rules = pre ++ post → pre.length = i →
      (∀ r ∈ post, r.rhs.length ≤ 2) →
      removeLongRules.loop i g = Except.ok g' →
      WellFormed g' ∧ Extends g g' ∧ (∀ r ∈ g'.rules, r.rhs.length ≤ 2) ∧
        EquivBelow g.maxSymbol g.rules g'.rules := by
  intro i
  induction i with
  | zero =>
    intro g g' pre post hg hrules hpre hpost hloop
    simp only [removeLongRules.loop, pure, Except.pure, Except.ok.injEq] at hloop
    subst hloop
    have : pre = [] := List.length_eq_zero.1 hpre
    rw [this, List.nil_append] at hrules
    exact ⟨hg, Extends.refl_extends g, by rw [hrules]; exact hpost, EquivBelow.refl_equiv _ _⟩
  | succ i ih =>
    intro g g' pre post hg hrules hpre hpost hloop
    obtain ⟨pre1, r, hpre1, hlen1⟩ := exists_concat_of_length_succ hpre
    have hrules' : g.rules = pre1 ++ r :: post := by rw [hrules, hpre1]; simp
    have hget : g.rules.getD i default = r := by
      rw [hrules', ← hlen1]; exact getD_append_length pre1 post r default
    rw [removeLongRules.loop] at hloop
    simp only [hget] at hloop
    by_cases hshort : r.rhs.length ≤ 2
    · simp only [hshort, if_true] at hloop
      refine ih g g' pre1 (r :: post) hg hrules' hlen1 ?_ hloop
      intro r' hr'
      rcases List.mem_cons.1 hr' with h | h
      · rw [h]; exact hshort
      · exact hpost r' h
    · simp only [hshort, if_false] at hloop
      cases hmint : g.addNewNonterminal with
      | error e => rw [hmint] at hloop; simp [bind, Except.bind] at hloop
      | ok p =>
        obtain ⟨n, g1⟩ := p
        rw [hmint] at hloop
        simp only [bind, Except.bind] at hloop
        cases hchain : removeLongRules.chain r.rhs (r.rhs.length - 3) 1
            (pushRule g1 ⟨r.lhs, [r.rhs.at 0, n]⟩) with
        | error e => rw [hchain] at hloop; simp at hloop
        | ok g3 =>
          rw [hchain] at hloop
          simp only at hloop
          obtain ⟨hext, hmax3, hrules4⟩ := removeLongRules_step hshort hmint hchain
          have herase : (g.rules ++ binarize r.lhs r.rhs (g.maxSymbol + 1)).eraseIdx i =
              pre1 ++ (post ++ binarize r.lhs r.rhs (g.maxSymbol + 1)) := by
            rw [hrules', ← hlen1, List.append_assoc, List.cons_append, eraseIdx_append_length]
          rw [hrules4, herase] at hloop
          have hloop' : removeLongRules.loop i ⟨g3.terminals, g3.nonterminals, g3.startSymbol,
              pre1 ++ (post ++ binarize r.lhs r.rhs (g.maxSymbol + 1)), g3.maxSymbol⟩ =
                Except.ok g' := hloop
          -- the grammar after this round
          have hr_mem : r ∈ g.rules := by rw [hrules']; simp
          obtain ⟨a, ha, hla⟩ := hg.rule_lhs r hr_mem
          have hbin := binarize_mem r.rhs r.lhs (g.maxSymbol + 1)
          have hlen3 : 3 ≤ r.rhs.length := by omega
          have hfresh : ∀ k : Symbol, g.maxSymbol + 1 ≤ k → k + 2 < g.maxSymbol + 1 + (r.rhs.length : Int) →
              k ∈ g3.nonterminals := by
            intro k hk1 hk2
            rw [hext.mem_nonterminals]
            right
            have : k < g3.maxSymbol + 1 := by linarith
            exact ⟨by linarith, Int.lt_add_one_iff.1 this⟩
          have hwf5 : WellFormed ⟨g3.terminals, g3.nonterminals, g3.startSymbol,
              pre1 ++ (post ++ binarize r.lhs r.rhs (g.maxSymbol + 1)), g3.maxSymbol⟩ := by
            refine hg.of_extends (hext.of_rules_eq rfl rfl rfl rfl) ?_
            intro r' hr'
            simp only [List.mem_append] at hr'
            have hold : r' ∈ g.rules → (∃ a ∈ g3.nonterminals, r'.lhs = [a]) ∧
                ∀ x ∈ r'.rhs, x ∈ g3.terminals ∨ x ∈ g3.nonterminals := by
              intro h
              obtain ⟨b, hb, hlb⟩ := hg.rule_lhs r' h
              exact ⟨⟨b, (hext.mem_nonterminals b).2 (Or.inl hb), hlb⟩,
                fun x hx => hext.mem_of_mem (hg.rule_rhs r' h x hx)⟩
            rcases hr' with h | h | h
            · exact hold (by rw [hrules']; simp [h])
            · exact hold (by rw [hrules']; simp [h])
            · obtain ⟨b1, b2, -⟩ := hbin r' h
              constructor
              · rcases b1 with b1 | ⟨k, hk, hk1, hk2⟩
                · exact ⟨a, (hext.mem_nonterminals a).2 (Or.inl ha), by rw [b1, hla]⟩
                · exact ⟨k, hfresh k hk1 hk2, hk⟩
              · intro x hx
                rcases b2 x hx with b2 | ⟨hk1, hk2⟩
                · exact hext.mem_of_mem (hg.rule_rhs r hr_mem x b2)
                · exact Or.inr (hfresh x hk1 hk2)
          obtain ⟨c1, c2, c3, c4⟩ := ih _ g' pre1 (post ++ binarize r.lhs r.rhs (g.maxSymbol + 1))
            hwf5 rfl hlen1 (by
              intro r' hr'
              rcases List.mem_append.1 hr' with h | h
              · exact hpost r' h
              · exact le_of_eq ((hbin r' h).2.2 (by omega))) hloop'
          have hext5 : Extends g ⟨g3.terminals, g3.nonterminals, g3.startSymbol,
              pre1 ++ (post ++ binarize r.lhs r.rhs (g.maxSymbol + 1)), g3.maxSymbol⟩ :=
            hext.of_rules_eq rfl rfl rfl rfl
          refine ⟨c1, hext5.trans_extends c2, c3, ?_⟩
          refine EquivBelow.trans_equiv hext.max_le ?_ c4
          refine binarize_equiv r.rhs r.lhs g.maxSymbol g.rules _ hg.rulesBelow hr_mem ?_ ?_ ?_
          · intro r' hr'
            rw [hrules'] at hr'
            simp only [List.mem_append, List.mem_cons] at hr' ⊢
            rcases hr' with h | h | h
            · exact Or.inr (Or.inl h)
            · exact Or.inl h
            · exact Or.inr (Or.inr (Or.inl h))
          · intro r' hr'
            simp only [List.mem_append]
            exact Or.inr (Or.inr hr')
          · intro r' hr'
            rw [hrules']
            simp only [List.mem_append, List.mem_cons] at hr' ⊢
            rcases hr' with h | h | h
            · exact Or.inl (Or.inl h)
            · exact Or.inl (Or.inr (Or.inr h))
            · exact Or.inr h

/-- `removeLongRules` keeps the grammar well-formed, only adds nonterminals, leaves no rhs
longer than 2, and keeps the derivations between words over the old symbols. -/
theorem removeLongRules_spec {g g' : Grammar} (hg : WellFormed g)
    (h : removeLongRules g = Except.ok g') :
    WellFormed g' ∧ Extends g g' ∧ (∀ r ∈ g'.rules, r.rhs.length ≤ 2) ∧
      EquivBelow g.maxSymbol g.rules g'.rules :=
  removeLongRules_loop_spec g.rules.length g g' g.rules [] hg (by simp) rfl (by simp) h

/-! ## The fixpoint loops -/

theorem foldl_suffix {α : Type} (f : List Symbol → α → List Symbol)
    (hf : ∀ s r, s <:+ f s r) (l : List α) (s : List Symbol) : s <:+ l.foldl f s := by
  induction l generalizing s with
  | nil => exact List.suffix_refl s
  | cons r l ih => exact (hf s r).trans (ih (f s r))

theorem foldl_invariant {α β : Type} (f : β → α → β) (Q : β → Prop) (l : List α)
    (hf : ∀ s r, r ∈ l → Q s → Q (f s r)) (s : β) (hs : Q s) : Q (l.foldl f s) := by
  induction l generalizing s with
  | nil => exact hs
  | cons r l ih =>
    exact ih (fun s r' hr' => hf s r' (List.mem_cons_of_mem r hr')) (f s r)
      (hf s r (List.mem_cons_self r l) hs)

/-- A pass that left the set unchanged left it unchanged at every rule. -/
theorem foldl_eq_self {α : Type} (f : List Symbol → α → List Symbol)
    (hf : ∀ s r, s <:+ f s r) (l : List α) (s : List Symbol) (h : l.foldl f s = s) :
    ∀ r ∈ l, f s r = s := by
  induction l generalizing s with
  | nil => intro r hr; simp at hr
  | cons r0 l ih =>
    rw [List.foldl_cons] at h
    have h1 : s <:+ f s r0 := hf s r0
    have h2 : f s r0 <:+ l.foldl f (f s r0) := foldl_suffix f hf l (f s r0)
    rw [h] at h2
    have h3 : f s r0 = s := (h1.eq_of_length (le_antisymm h1.length_le h2.length_le)).symm
    rw [h3] at h
    intro r hr
    rcases List.mem_cons.1 hr with h4 | h4
    · rw [h4]; exact h3
    · exact ih s h r h4

theorem mem_of_insert_eq_self {a : Symbol} {s : List Symbol} (h : s.insert a = s) : a ∈ s := by
  by_contra hcon
  rw [List.insert_of_not_mem hcon] at h
  have := congrArg List.length h
  simp at this

theorem untilStable_suffix (pass : List Symbol → List Symbol) (hsuf : ∀ s, s <:+ pass s) :
    ∀ (fuel : Nat) (s : List Symbol), s <:+ untilStable pass fuel s := by
  intro fuel
  induction fuel with
  | zero => intro s; exact List.suffix_refl s
  | succ fuel ih =>
    intro s
    rw [untilStable]
    split
    · exact hsuf s
    · exact (hsuf s).trans (ih (pass s))

/-- With enough passes allowed, the loop stops through its `break`: its result is left
unchanged by one more pass. Every property that the passes maintain holds of it. -/
theorem untilStable_spec (pass : List Symbol → List Symbol) (bound : Nat)
    (P : List Symbol → Prop) (hsuf : ∀ s, s <:+ pass s) (hP : ∀ s, P s → P (pass s))
    (hbound : ∀ s, P s → s.length ≤ bound) :
    ∀ (fuel : Nat) (s : List Symbol), P s → bound < fuel + s.length →
      P (untilStable pass fuel s) ∧
        pass (untilStable pass fuel s) = untilStable pass fuel s := by
  intro fuel
  induction fuel with
  | zero =>
    intro s hs hlt
    have := hbound s hs
    omega
  | succ fuel ih =>
    intro s hs hlt
    rw [untilStable]
    by_cases hlen : s.length = (pass s).length
    · simp only [hlen, if_true]
      have heq : s = pass s := (hsuf s).eq_of_length hlen
      refine ⟨hP s hs, ?_⟩
      rw [← heq, ← heq]
    · simp only [hlen, if_false]
      have hle := (hsuf s).length_le
      exact ih (pass s) (hP s hs) (by omega)

theorem nodup_subset_length_le {s U : List Symbol} (hs : s.Nodup) (hsub : s ⊆ U) :
    s.length ≤ U.length :=
  (List.Nodup.subperm hs hsub).length_le

/-! ## `findEpsilonGenerators` -/

theorem hasLongRules_false_iff (g : Grammar) :
    hasLongRules g = false ↔ ∀ r ∈ g.rules, r.rhs.length ≤ 2 := by
  simp [hasLongRules]

theorem findEpsilonGenerators_eq {g : Grammar} (h : hasLongRules g = false) :
    findEpsilonGenerators g = Except.ok
      (untilStable (findEpsilonGenerators.pass g.rules) (g.rules.length + 1)
        (findEpsilonGenerators.seed g.rules)) := by
  unfold findEpsilonGenerators
  simp only [h, Bool.false_eq_true, if_false]
  rfl

theorem findEpsilonGenerators.pass_suffix (rules : List Rule) (s : List Symbol) :
    s <:+ findEpsilonGenerators.pass rules s := by
  apply foldl_suffix
  intro s r
  split
  · exact List.suffix_refl s
  · split
    · exact List.suffix_insert _ s
    · exact List.suffix_refl s

/-- The invariant of the set of epsilon-generators under construction. -/
theorem findEpsilonGenerators.invariant {g : Grammar} (hg : WellFormed g) :
    let P := fun s : List Symbol => s.Nodup ∧ s ⊆ g.rules.map (fun r => r.lhs.at 0) ∧
      ∀ x ∈ s, Derives g.rules [x] []
    P (findEpsilonGenerators.seed g.rules) ∧
      ∀ s, P s → P (findEpsilonGenerators.pass g.rules s) := by
  intro P
  have hlhs : ∀ r ∈ g.rules, r.lhs = [r.lhs.at 0] := by
    intro r hr
    obtain ⟨a, -, ha⟩ := hg.rule_lhs r hr
    rw [ha]; rfl
  have hins : ∀ (s : List Symbol) (r : Rule), r ∈ g.rules → P s →
      Derives g.rules [r.lhs.at 0] [] → P (s.insert (r.lhs.at 0)) := by
    intro s r hr ⟨h1, h2, h3⟩ hd
    refine ⟨h1.insert, ?_, ?_⟩
    · intro x hx
      rcases List.mem_insert_iff.1 hx with h | h
      · rw [h]; exact List.mem_map_of_mem _ hr
      · exact h2 h
    · intro x hx
      rcases List.mem_insert_iff.1 hx with h | h
      · rw [h]; exact hd
      · exact h3 x h
  constructor
  · apply foldl_invariant
    · intro s r hr hs
      split
      · rename_i hempty
        apply hins s r hr hs
        have := Derives.of_rule hr
        rw [hlhs r hr, List.isEmpty_iff.1 hempty] at this
        exact this
      · exact hs
    · exact ⟨List.nodup_nil, by simp, by simp⟩
  · intro s hs
    apply foldl_invariant (Q := P)
    · intro s r hr hs
      split
      · exact hs
      · split
        · rename_i hcond
          apply hins s r hr hs
          have hd := Derives.of_rule hr
          rw [hlhs r hr] at hd
          refine hd.trans ?_
          rcases hcond with ⟨hlen, h0, h1⟩ | ⟨hlen, h0⟩
          · match hrr : r.rhs, hlen with
            | [b, c], _ =>
              rw [hrr] at h0 h1
              simp only [Word.at_cons_zero, Word.at_cons_succ] at h0 h1
              have := Derives.append (hs.2.2 b h0) (hs.2.2 c h1)
              simpa using this
          · match hrr : r.rhs, hlen with
            | [b], _ =>
              rw [hrr] at h0
              simp only [Word.at_cons_zero] at h0
              exact hs.2.2 b h0
        · exact hs
    · exact hs

theorem findEpsilonGenerators.seed_mem_aux (rules : List Rule) (s0 : List Symbol) :
    ∀ r ∈ rules, r.rhs = [] → r.lhs.at 0 ∈ rules.foldl
      (fun gens r => if r.rhs.isEmpty then gens.insert (r.lhs.at 0) else gens) s0 := by
  induction rules generalizing s0 with
  | nil => intro r hr; simp at hr
  | cons r0 rules ih =>
    intro r hr hrhs
    rw [List.foldl_cons]
    rcases List.mem_cons.1 hr with h | h
    · have hsuf : (if r0.rhs.isEmpty = true then s0.insert (r0.lhs.at 0) else s0) <:+
          rules.foldl (fun gens r => if r.rhs.isEmpty = true then gens.insert (r.lhs.at 0) else gens)
            (if r0.rhs.isEmpty = true then s0.insert (r0.lhs.at 0) else s0) := by
        apply foldl_suffix
        intro s r
        split
        · exact List.suffix_insert _ s
        · exact List.suffix_refl s
      apply hsuf.subset
      rw [← h]
      simp [hrhs]
    · exact ih _ r h hrhs

theorem findEpsilonGenerators.seed_mem (rules : List Rule) :
    ∀ r ∈ rules, r.rhs = [] → r.lhs.at 0 ∈ findEpsilonGenerators.seed rules :=
  findEpsilonGenerators.seed_mem_aux rules []

/-- The result of `findEpsilonGenerators`: a set `E` that contains the lhs of the empty
rules, is closed under the rules with an rhs of one or two symbols of `E`, and only holds
symbols that derive the empty word. -/
theorem findEpsilonGenerators_spec {g : Grammar} (hg : WellFormed g)
    (hshort : ∀ r ∈ g.rules, r.rhs.length ≤ 2) :
    ∃ E, findEpsilonGenerators g = Except.ok E ∧
      (∀ x, x ∈ E ↔ Derives g.rules [x] []) := by
  have hlong : hasLongRules g = false := (hasLongRules_false_iff g).2 hshort
  refine ⟨_, findEpsilonGenerators_eq hlong, ?_⟩
  obtain ⟨hseed, hpass⟩ := findEpsilonGenerators.invariant hg
  obtain ⟨hP, hfix⟩ := untilStable_spec (findEpsilonGenerators.pass g.rules) g.rules.length _
    (findEpsilonGenerators.pass_suffix g.rules) hpass
    (fun s hs => by
      have := nodup_subset_length_le hs.1 hs.2.1
      simpa using this)
    (g.rules.length + 1) (findEpsilonGenerators.seed g.rules) hseed (by omega)
  have hsufE := untilStable_suffix (findEpsilonGenerators.pass g.rules)
    (findEpsilonGenerators.pass_suffix g.rules) (g.rules.length + 1)
    (findEpsilonGenerators.seed g.rules)
  generalize untilStable (findEpsilonGenerators.pass g.rules) (g.rules.length + 1)
    (findEpsilonGenerators.seed g.rules) = E at hP hfix hsufE
  have hclosed := foldl_eq_self _ (by
    intro s r
    split
    · exact List.suffix_refl s
    · split
      · exact List.suffix_insert _ s
      · exact List.suffix_refl s) g.rules E hfix
  intro x
  refine ⟨hP.2.2 x, fun hd => ?_⟩
  have hcf : ∀ r ∈ g.rules, ∃ a, r.lhs = [a] := fun r hr => by
    obtain ⟨a, -, ha⟩ := hg.rule_lhs r hr
    exact ⟨a, ha⟩
  have hgen := Gen.of_derives hcf hd
  have key : ∀ u w, Gen g.rules u w → w = [] → ∀ y ∈ u, y ∈ E := by
    intro u w hgen
    induction hgen with
    | nil => intro _ y hy; simp at hy
    | skip a _ _ => intro h; simp at h
    | @expand a rhs u w1 w2 hr _ _ ih1 ih2 =>
      intro hw y hy
      have hw1 : w1 = [] := (List.append_eq_nil.1 hw).1
      have hw2 : w2 = [] := (List.append_eq_nil.1 hw).2
      rcases List.mem_cons.1 hy with h | h
      · rw [h]
        have hrhsE := ih1 hw1
        have hsh := hshort _ hr
        simp only at hsh
        match rhs, hr, hrhsE, hsh with
        | [], hr, hrhsE, _ =>
          apply hsufE.subset
          have := findEpsilonGenerators.seed_mem g.rules _ hr rfl
          simpa only [Word.at_cons_zero] using this
        | [b], hr, hrhsE, _ =>
          have hb : b ∈ E := hrhsE b (by simp)
          have := hclosed _ hr
          simp only [List.isEmpty_cons, Bool.false_eq_true, if_false, List.length_singleton,
            Word.at_cons_zero, hb, and_true, OfNat.one_ne_ofNat, false_and, false_or,
            if_true] at this
          exact mem_of_insert_eq_self this
        | [b, c], hr, hrhsE, _ =>
          have hb : b ∈ E := hrhsE b (by simp)
          have hc : c ∈ E := hrhsE c (by simp)
          have := hclosed _ hr
          simp only [List.isEmpty_cons, Bool.false_eq_true, if_false, List.length_cons,
            List.length_singleton, Word.at_cons_zero, Word.at_cons_succ, hb, hc, and_true,
            true_or, if_true, List.length_nil] at this
          exact mem_of_insert_eq_self this
        | b :: c :: d :: rest, _, _, hsh =>
          simp at hsh
      · exact ih2 hw2 y h
  exact key [x] [] hgen rfl x (by simp)

/-! ## `removeEmptyRules` -/

/-- The loop of `removeEmptyRules` in closed form: the rules with a non-empty rhs in their
order, then the shortcuts of the rules, last rule first. -/
theorem removeEmptyRules_loop_eq (eps : List Symbol) :
    ∀ (i : Nat) (pre post : List Rule), pre.length = i →
      removeEmptyRules.loop eps i (pre ++ post) =
        pre.filter (fun r => !r.rhs.isEmpty) ++ post ++
          pre.reverse.flatMap (epsilonShortcuts eps) := by
  intro i
  induction i with
  | zero =>
    intro pre post hpre
    have : pre = [] := List.length_eq_zero.1 hpre
    subst this
    simp [removeEmptyRules.loop]
  | succ i ih =>
    intro pre post hpre
    obtain ⟨pre1, r, hpre1, hlen1⟩ := exists_concat_of_length_succ hpre
    subst hpre1
    have hget : (pre1 ++ [r] ++ post).getD i default = r := by
      rw [List.append_assoc, ← hlen1]; exact getD_append_length pre1 post r default
    have herase : (pre1 ++ [r] ++ post).eraseIdx i = pre1 ++ post := by
      rw [List.append_assoc, ← hlen1]; exact eraseIdx_append_length pre1 post r
    rw [removeEmptyRules.loop]
    simp only [hget, herase]
    match hrr : r.rhs with
    | [] =>
      simp only [List.isEmpty_nil, if_true, List.length_nil, Nat.ofNat_pos]
      rw [ih pre1 post hlen1]
      simp [hrr, epsilonShortcuts]
    | [b] =>
      simp only [List.isEmpty_cons, Bool.false_eq_true, if_false, List.length_singleton,
        Nat.one_lt_ofNat, if_true]
      rw [List.append_assoc, ih pre1 ([r] ++ post) hlen1]
      simp [hrr, epsilonShortcuts]
    | b :: c :: rest =>
      have h2 : ¬ (b :: c :: rest).length < 2 := by simp
      simp only [List.isEmpty_cons, Bool.false_eq_true, if_false, h2]
      have hsc : epsilonShortcuts eps r =
          (if b ∈ eps then [(⟨r.lhs, [c]⟩ : Rule)] else []) ++
            (if c ∈ eps then [(⟨r.lhs, [b]⟩ : Rule)] else []) := by
        simp [epsilonShortcuts, hrr, Word.at_cons_zero, Word.at_cons_succ]
      simp only [Word.at_cons_zero, Word.at_cons_succ]
      have key : ∀ extra : List Rule,
          removeEmptyRules.loop eps i (pre1 ++ [r] ++ post ++ extra) =
            (pre1 ++ [r]).filter (fun r => !r.rhs.isEmpty) ++ post ++
              (extra ++ pre1.reverse.flatMap (epsilonShortcuts eps)) := by
        intro extra
        have : pre1 ++ [r] ++ post ++ extra = pre1 ++ ([r] ++ post ++ extra) := by simp
        rw [this, ih pre1 _ hlen1]
        simp [hrr]
      have hrev : (pre1 ++ [r]).reverse.flatMap (epsilonShortcuts eps) =
          epsilonShortcuts eps r ++ pre1.reverse.flatMap (epsilonShortcuts eps) := by
        simp
      rw [hrev, hsc]
      by_cases hb : b ∈ eps <;> by_cases hc : c ∈ eps
      · simp only [hb, hc, if_true]
        have := key [⟨r.lhs, [c]⟩, ⟨r.lhs, [b]⟩]
        simpa using this
      · simp only [hb, hc, if_true, if_false]
        have := key [⟨r.lhs, [c]⟩]
        simpa using this
      · simp only [hb, hc, if_true, if_false]
        have := key [⟨r.lhs, [b]⟩]
        simpa using this
      · simp only [hb, hc, if_false]
        have := key []
        simpa using this

theorem removeEmptyRules_loop_mem (eps : List Symbol) (rules : List Rule) (r : Rule) :
    r ∈ removeEmptyRules.loop eps rules.length rules ↔
      (r ∈ rules ∧ r.rhs ≠ []) ∨ ∃ r0 ∈ rules, r ∈ epsilonShortcuts eps r0 := by
  have := removeEmptyRules_loop_eq eps rules.length rules [] rfl
  rw [List.append_nil] at this
  rw [this]
  simp only [List.append_nil, List.mem_append, List.mem_filter, Bool.not_eq_true',
    List.isEmpty_eq_false, List.mem_flatMap, List.mem_reverse]

theorem mem_epsilonShortcuts {eps : List Symbol} {r r0 : Rule} (h : r ∈ epsilonShortcuts eps r0) :
    ∃ b c, r0.rhs.length ≥ 2 ∧ r0.rhs.at 0 = b ∧ r0.rhs.at 1 = c ∧
      ((b ∈ eps ∧ r = ⟨r0.lhs, [c]⟩) ∨ (c ∈ eps ∧ r = ⟨r0.lhs, [b]⟩)) := by
  unfold epsilonShortcuts at h
  by_cases hlen : r0.rhs.length < 2
  · simp [hlen] at h
  · simp only [hlen, if_false, List.mem_append] at h
    refine ⟨r0.rhs.at 0, r0.rhs.at 1, by omega, rfl, rfl, ?_⟩
    rcases h with h | h
    · by_cases hb : r0.rhs.at 0 ∈ eps
      · simp only [hb, if_true, List.mem_singleton] at h
        exact Or.inl ⟨hb, h⟩
      · simp [hb] at h
    · by_cases hc : r0.rhs.at 1 ∈ eps
      · simp only [hc, if_true, List.mem_singleton] at h
        exact Or.inr ⟨hc, h⟩
      · simp [hc] at h

theorem DropSymbols.nil_right {E : List Symbol} {u1 : Word} (h : DropSymbols E u1 []) :
    u1 = [] := by
  cases h
  rfl

theorem DropSymbols.subset {E : List Symbol} {u1 u : Word} (h : DropSymbols E u1 u) :
    ∀ x ∈ u1, x ∈ u := by
  induction h with
  | nil => intro x hx; exact hx
  | keep a _ ih =>
    intro x hx
    rcases List.mem_cons.1 hx with h | h
    · rw [h]; exact List.mem_cons_self _ _
    · exact List.mem_cons_of_mem _ (ih x h)
  | drop _ _ ih => intro x hx; exact List.mem_cons_of_mem _ (ih x hx)

theorem Word.at_mem {w : Word} {i : Nat} (h : i < w.length) : Word.at w i ∈ w := by
  unfold Word.at
  rw [List.getD_eq_getElem _ _ h]
  exact List.getElem_mem h

theorem WellFormed.lhs_singleton {g : Grammar} (hg : WellFormed g) :
    ∀ r ∈ g.rules, ∃ a, r.lhs = [a] := fun r hr => by
  obtain ⟨a, -, ha⟩ := hg.rule_lhs r hr
  exact ⟨a, ha⟩

/-- Every rule left or appended by the loop of `removeEmptyRules` comes from a rule of the
grammar: same lhs, a non-empty rhs made of symbols of the old rhs. -/
theorem removeEmptyRules_loop_origin (eps : List Symbol) (rules : List Rule) (r : Rule)
    (hr : r ∈ removeEmptyRules.loop eps rules.length rules) :
    ∃ r0 ∈ rules, r.lhs = r0.lhs ∧ (∀ x ∈ r.rhs, x ∈ r0.rhs) ∧ r.rhs ≠ [] ∧
      r.rhs.length ≤ r0.rhs.length := by
  rcases (removeEmptyRules_loop_mem eps rules r).1 hr with ⟨h1, h2⟩ | ⟨r0, h0, h⟩
  · exact ⟨r, h1, rfl, fun x hx => hx, h2, le_refl _⟩
  · obtain ⟨b, c, hlen, hb, hc, h⟩ := mem_epsilonShortcuts h
    refine ⟨r0, h0, ?_⟩
    rcases h with ⟨-, h⟩ | ⟨-, h⟩
    · rw [h]
      refine ⟨rfl, ?_, by simp, by simp; omega⟩
      intro x hx
      simp only [List.mem_singleton] at hx
      rw [hx, ← hc]
      exact Word.at_mem (by omega)
    · rw [h]
      refine ⟨rfl, ?_, by simp, by simp; omega⟩
      intro x hx
      simp only [List.mem_singleton] at hx
      rw [hx, ← hb]
      exact Word.at_mem (by omega)

theorem two_of_length_ge {w : Word} (h : w.length ≥ 2) (hle : w.length ≤ 2) :
    w = [Word.at w 0, Word.at w 1] := by
  match w, h, hle with
  | [b, c], _, _ => rfl

/-- Soundness of the loop of `removeEmptyRules`: its rules are derivations of the grammar,
when the symbols of `eps` derive the empty word. -/
theorem removeEmptyRules_loop_sound {eps : List Symbol} {rules : List Rule}
    (hshort : ∀ r ∈ rules, r.rhs.length ≤ 2)
    (heps : ∀ x ∈ eps, Derives rules [x] []) (r : Rule)
    (hr : r ∈ removeEmptyRules.loop eps rules.length rules) : Derives rules r.lhs r.rhs := by
  rcases (removeEmptyRules_loop_mem eps rules r).1 hr with ⟨h1, -⟩ | ⟨r0, h0, h⟩
  · exact Derives.of_rule h1
  · obtain ⟨b, c, hlen, hb, hc, h⟩ := mem_epsilonShortcuts h
    have hrhs : r0.rhs = [b, c] := by
      rw [← hb, ← hc]; exact two_of_length_ge hlen (hshort r0 h0)
    have hd := Derives.of_rule h0
    rw [hrhs] at hd
    rcases h with ⟨hbe, h⟩ | ⟨hce, h⟩
    · rw [h]
      refine hd.trans ?_
      have := (heps b hbe).append_right [c]
      simpa using this
    · rw [h]
      refine hd.trans ?_
      have := (heps c hce).append_left [b]
      simpa using this

/-- A rule whose rhs lost epsilon-generators, but not all its symbols, is among the rules
that the loop of `removeEmptyRules` leaves or appends. -/
theorem removeEmptyRules_loop_shortcut {eps : List Symbol} {rules : List Rule}
    (hshort : ∀ r ∈ rules, r.rhs.length ≤ 2) {l rhs rhs1 : Word}
    (hr : (⟨l, rhs⟩ : Rule) ∈ rules) (hdrop : DropSymbols eps rhs1 rhs) (hne : rhs1 ≠ []) :
    (⟨l, rhs1⟩ : Rule) ∈ removeEmptyRules.loop eps rules.length rules := by
  rw [removeEmptyRules_loop_mem]
  have hlen := hshort _ hr
  simp only at hlen
  match rhs, hr, hdrop, hlen with
  | [], _, hdrop, _ => exact absurd hdrop.nil_right hne
  | [b], hr, hdrop, _ =>
    cases hdrop with
    | keep _ h1 =>
      rw [h1.nil_right]
      exact Or.inl ⟨hr, by simp⟩
    | drop _ h1 => exact absurd h1.nil_right hne
  | [b, c], hr, hdrop, _ =>
    have hsc : epsilonShortcuts eps ⟨l, [b, c]⟩ =
        (if b ∈ eps then [(⟨l, [c]⟩ : Rule)] else []) ++
          (if c ∈ eps then [(⟨l, [b]⟩ : Rule)] else []) := by
      simp [epsilonShortcuts, Word.at_cons_zero, Word.at_cons_succ]
    cases hdrop with
    | keep _ h1 =>
      cases h1 with
      | keep _ h2 =>
        rw [h2.nil_right]
        exact Or.inl ⟨hr, by simp⟩
      | drop hc h2 =>
        rw [h2.nil_right]
        refine Or.inr ⟨_, hr, ?_⟩
        rw [hsc]
        simp [hc]
    | drop hb h1 =>
      cases h1 with
      | keep _ h2 =>
        rw [h2.nil_right]
        refine Or.inr ⟨_, hr, ?_⟩
        rw [hsc]
        simp [hb]
      | drop _ h2 => exact absurd h2.nil_right hne
  | b :: c :: d :: rest, _, _, hlen => simp at hlen

/-- Completeness of the loop of `removeEmptyRules`: what the grammar derives from `u`, the
new rules derive from `u` without some of its epsilon-generators. -/
theorem removeEmptyRules_loop_complete {eps : List Symbol} {rules : List Rule}
    (hshort : ∀ r ∈ rules, r.rhs.length ≤ 2)
    (heps : ∀ x, Derives rules [x] [] → x ∈ eps) {u w : Word} (h : Gen rules u w) :
    ∃ u1, DropSymbols eps u1 u ∧ Gen (removeEmptyRules.loop eps rules.length rules) u1 w := by
  induction h with
  | nil => exact ⟨[], DropSymbols.nil, Gen.nil⟩
  | skip a _ ih =>
    obtain ⟨u1, h1, h2⟩ := ih
    exact ⟨a :: u1, DropSymbols.keep a h1, Gen.skip a h2⟩
  | @expand a rhs u w1 w2 hr hrhs _ ih1 ih2 =>
    obtain ⟨rhs1, h1, h2⟩ := ih1
    obtain ⟨u1, h3, h4⟩ := ih2
    by_cases hne : rhs1 = []
    · rw [hne] at h2
      have hw1 : w1 = [] := h2.nil_left_gen
      have ha : a ∈ eps := by
        apply heps
        rw [hw1] at hrhs
        exact (Gen.single hr hrhs).derives
      refine ⟨u1, DropSymbols.drop ha h3, ?_⟩
      rw [hw1]
      exact h4
    · exact ⟨a :: u1, DropSymbols.keep a h3,
        Gen.expand (removeEmptyRules_loop_shortcut hshort hr h1 hne) h2 h4⟩

theorem removeEmptyRules_eq {g : Grammar} {E : List Symbol}
    (hshort : ∀ r ∈ g.rules, r.rhs.length ≤ 2) (hE : findEpsilonGenerators g = Except.ok E) :
    removeEmptyRules g =
      if g.startSymbol ∈ E then
        if g.maxSymbol = Symbol.maxValue then
          Except.error Exception.GrammarOutOfSymbolsException
        else
          Except.ok ⟨g.terminals, g.nonterminals.insert (g.maxSymbol + 1), g.maxSymbol + 1,
            removeEmptyRules.loop E g.rules.length g.rules ++
              [⟨[g.maxSymbol + 1], []⟩, ⟨[g.maxSymbol + 1], [g.startSymbol]⟩],
            g.maxSymbol + 1⟩
      else
        Except.ok ⟨g.terminals, g.nonterminals, g.startSymbol,
          removeEmptyRules.loop E g.rules.length g.rules, g.maxSymbol⟩ := by
  have hlong : hasLongRules g = false := (hasLongRules_false_iff g).2 hshort
  unfold removeEmptyRules
  simp only [hlong, Bool.false_eq_true, if_false, hE, bind, Except.bind]
  by_cases hs : g.startSymbol ∈ E
  · simp only [hs, if_true, addNewNonterminal_eq]
    by_cases hm : g.maxSymbol = Symbol.maxValue
    · simp only [hm, if_true]
    · simp only [hm, if_false, pure, Except.pure, pushRule, emptyWord, List.append_assoc,
        List.singleton_append]
  · simp only [hs, if_false]
    rfl

theorem symbol_le_succ (m : Symbol) : m ≤ m + 1 := by linarith

theorem SameLanguage.refl_language (g : Grammar) : SameLanguage g g :=
  ⟨rfl, fun _ _ => Iff.rfl⟩

theorem SameLanguage.trans_language {g1 g2 g3 : Grammar} (h1 : SameLanguage g1 g2)
    (h2 : SameLanguage g2 g3) : SameLanguage g1 g3 :=
  ⟨h2.terminals_eq.trans h1.terminals_eq, fun w hw =>
    (h2.derives_iff w (by
      intro s hs
      rw [h1.terminals_eq]
      exact hw s hs)).trans (h1.derives_iff w hw)⟩

theorem WellFormed.terminalWord_le {g : Grammar} (hg : WellFormed g) {w : Word}
    (hw : g.IsTerminalWord w) : ∀ x ∈ w, x ≤ g.maxSymbol :=
  fun x hx => hg.le_max x (Or.inl (hw x hx))

theorem SameLanguage.of_equivBelow {g g1 : Grammar} (hg : WellFormed g)
    (ht : g1.terminals = g.terminals) (hs : g1.startSymbol = g.startSymbol)
    (h : EquivBelow g.maxSymbol g.rules g1.rules) : SameLanguage g g1 := by
  refine ⟨ht, fun w hw => ?_⟩
  unfold Grammar.StartDerives
  rw [hs]
  refine h [g.startSymbol] w ?_ (hg.terminalWord_le hw)
  intro x hx
  simp only [List.mem_singleton] at hx
  rw [hx]
  exact hg.start_le

/-- `removeEmptyRules`, on a well-formed grammar without long rules: the result is
well-formed, has no long rule, has an empty rule at most for its start symbol, which then
occurs in no rhs, and generates the same language. -/
theorem removeEmptyRules_spec {g g' : Grammar} (hg : WellFormed g)
    (hshort : ∀ r ∈ g.rules, r.rhs.length ≤ 2) (h : removeEmptyRules g = Except.ok g') :
    WellFormed g' ∧ (∀ r ∈ g'.rules, r.rhs.length ≤ 2) ∧ EpsilonFree g' ∧
      SameLanguage g g' := by
  obtain ⟨E, hE, hEiff⟩ := findEpsilonGenerators_spec hg hshort
  rw [removeEmptyRules_eq hshort hE] at h
  have horigin := removeEmptyRules_loop_origin E g.rules
  have hsound := removeEmptyRules_loop_sound hshort (fun x hx => (hEiff x).1 hx)
  have hcomplete : ∀ {u w : Word}, Gen g.rules u w → ∃ u1, DropSymbols E u1 u ∧
      Gen (removeEmptyRules.loop E g.rules.length g.rules) u1 w :=
    fun hgen => removeEmptyRules_loop_complete hshort (fun x hx => (hEiff x).2 hx) hgen
  have hcf := hg.lhs_singleton
  -- facts about the rules of the loop
  have hlhs1 : ∀ r ∈ removeEmptyRules.loop E g.rules.length g.rules,
      ∃ a ∈ g.nonterminals, r.lhs = [a] := by
    intro r hr
    obtain ⟨r0, h0, h1, -⟩ := horigin r hr
    obtain ⟨a, ha, hl⟩ := hg.rule_lhs r0 h0
    exact ⟨a, ha, h1.trans hl⟩
  have hrhs1 : ∀ r ∈ removeEmptyRules.loop E g.rules.length g.rules,
      ∀ x ∈ r.rhs, x ∈ g.terminals ∨ x ∈ g.nonterminals := by
    intro r hr x hx
    obtain ⟨r0, h0, -, h2, -⟩ := horigin r hr
    exact hg.rule_rhs r0 h0 x (h2 x hx)
  have hshort1 : ∀ r ∈ removeEmptyRules.loop E g.rules.length g.rules, r.rhs.length ≤ 2 := by
    intro r hr
    obtain ⟨r0, h0, -, -, -, h4⟩ := horigin r hr
    exact le_trans h4 (hshort r0 h0)
  have hne1 : ∀ r ∈ removeEmptyRules.loop E g.rules.length g.rules, r.rhs ≠ [] := by
    intro r hr
    obtain ⟨r0, h0, -, -, h3, -⟩ := horigin r hr
    exact h3
  -- derivations from the old start symbol
  have hstart : ∀ w : Word, Derives g.rules [g.startSymbol] w →
      (w = [] ∧ g.startSymbol ∈ E) ∨
        Derives (removeEmptyRules.loop E g.rules.length g.rules) [g.startSymbol] w := by
    intro w hd
    obtain ⟨u1, h1, h2⟩ := hcomplete (Gen.of_derives hcf hd)
    cases h1 with
    | keep _ h3 =>
      rw [h3.nil_right] at h2
      exact Or.inr h2.derives
    | drop hs h3 =>
      rw [h3.nil_right] at h2
      exact Or.inl ⟨h2.nil_left_gen, hs⟩
  by_cases hs : g.startSymbol ∈ E
  · simp only [hs, if_true] at h
    by_cases hm : g.maxSymbol = Symbol.maxValue
    · simp [hm] at h
    · simp only [hm, if_false, Except.ok.injEq] at h
      subst h
      have hnew : ∀ x, x ∈ g.terminals ∨ x ∈ g.nonterminals → x ≠ g.maxSymbol + 1 := by
        intro x hx hcon
        have := hg.le_max x hx
        rw [hcon] at this
        linarith
      refine ⟨⟨?_, ?_, ?_, ?_, ?_⟩, ?_, ?_, ⟨rfl, ?_⟩⟩
      · simp
      · intro s hs1 hs2
        simp only [List.mem_insert_iff] at hs2
        rcases hs2 with h1 | h1
        · exact hnew s (Or.inl hs1) h1
        · exact hg.disjoint s hs1 h1
      · intro r hr
        simp only [List.mem_append, List.mem_cons, List.mem_singleton, List.not_mem_nil,
          or_false] at hr
        rcases hr with h1 | h1 | h1
        · obtain ⟨a, ha, hl⟩ := hlhs1 r h1
          exact ⟨a, List.mem_insert_of_mem ha, hl⟩
        · rw [h1]; exact ⟨_, List.mem_insert_self _ _, rfl⟩
        · rw [h1]; exact ⟨_, List.mem_insert_self _ _, rfl⟩
      · intro r hr x hx
        simp only [List.mem_append, List.mem_cons, List.mem_singleton, List.not_mem_nil,
          or_false] at hr
        rcases hr with h1 | h1 | h1
        · rcases hrhs1 r h1 x hx with h2 | h2
          · exact Or.inl h2
          · exact Or.inr (List.mem_insert_of_mem h2)
        · rw [h1] at hx; simp at hx
        · rw [h1] at hx
          simp only [List.mem_singleton] at hx
          rw [hx]
          exact Or.inr (List.mem_insert_of_mem hg.start_mem)
      · intro x hx
        simp only [List.mem_insert_iff] at hx
        rcases hx with h1 | h1 | h1
        · exact le_trans (hg.le_max x (Or.inl h1)) (symbol_le_succ g.maxSymbol)
        · rw [h1]
        · exact le_trans (hg.le_max x (Or.inr h1)) (symbol_le_succ g.maxSymbol)
      · intro r hr
        simp only [List.mem_append, List.mem_cons, List.mem_singleton, List.not_mem_nil,
          or_false] at hr
        rcases hr with h1 | h1 | h1
        · exact hshort1 r h1
        · rw [h1]; simp
        · rw [h1]; simp
      · intro r hr hempty
        simp only [List.mem_append, List.mem_cons, List.mem_singleton, List.not_mem_nil,
          or_false] at hr
        rcases hr with h1 | h1 | h1
        · exact absurd hempty (hne1 r h1)
        · refine ⟨by rw [h1], ?_⟩
          intro r1 hr1 hmem
          simp only [List.mem_append, List.mem_cons, List.mem_singleton, List.not_mem_nil,
            or_false] at hr1
          rcases hr1 with h2 | h2 | h2
          · exact hnew _ (hrhs1 r1 h2 _ hmem) rfl
          · rw [h2] at hmem; simp at hmem
          · rw [h2] at hmem
            simp only [List.mem_singleton] at hmem
            exact hnew _ (Or.inr hg.start_mem) hmem.symm
        · rw [h1] at hempty; simp at hempty
      · intro w hw
        unfold Grammar.StartDerives
        simp only
        have hwle := hg.terminalWord_le hw
        constructor
        · intro hd
          have hid : ∀ v : Word, (∀ x ∈ v, x ≤ g.maxSymbol) →
              substWord (fun x => if x = g.maxSymbol + 1 then [g.startSymbol] else [x]) v = v := by
            intro v hv
            apply substWord_eq_self
            intro x hx
            have : x ≠ g.maxSymbol + 1 := fun hh => by
              have := hv x hx
              rw [hh] at this
              linarith
            simp [this]
          have hnewS : substWord (fun x => if x = g.maxSymbol + 1 then [g.startSymbol] else [x])
              [g.maxSymbol + 1] = [g.startSymbol] := by
            simp [substWord]
          have := Derives.simulate
            (fun x => if x = g.maxSymbol + 1 then [g.startSymbol] else [x])
            (Q := g.rules) (by
              intro r hr
              simp only [List.mem_append, List.mem_cons, List.mem_singleton, List.not_mem_nil,
                or_false] at hr
              rcases hr with h1 | h1 | h1
              · obtain ⟨a, ha, hl⟩ := hlhs1 r h1
                rw [hid r.lhs (by
                  intro x hx
                  rw [hl] at hx
                  simp only [List.mem_singleton] at hx
                  rw [hx]
                  exact hg.le_max a (Or.inr ha)),
                  hid r.rhs (fun x hx => hg.le_max x (hrhs1 r h1 x hx))]
                exact hsound r h1
              · rw [h1]
                simp only [hnewS, substWord_nil]
                exact (hEiff _).1 hs
              · rw [h1]
                simp only [hnewS]
                rw [hid [g.startSymbol] (by
                  intro x hx
                  simp only [List.mem_singleton] at hx
                  rw [hx]; exact hg.start_le)]
                exact Derives.refl _ _) hd
          rwa [hnewS, hid w hwle] at this
        · intro hd
          rcases hstart w hd with ⟨h1, -⟩ | h1
          · rw [h1]
            exact Derives.of_mem (l := [g.maxSymbol + 1]) (r := []) (by simp)
          · refine (Derives.of_mem (l := [g.maxSymbol + 1]) (r := [g.startSymbol])
              (by simp)).trans ?_
            exact Derives.mono (fun r hr => List.mem_append_left _ hr) h1
  · simp only [hs, if_false, Except.ok.injEq] at h
    subst h
    refine ⟨⟨hg.start_mem, hg.disjoint, hlhs1, hrhs1, hg.le_max⟩, hshort1, ?_, ⟨rfl, ?_⟩⟩
    · intro r hr hempty
      exact absurd hempty (hne1 r hr)
    · intro w _
      unfold Grammar.StartDerives
      simp only
      constructor
      · intro hd
        exact Derives.of_rules hsound hd
      · intro hd
        rcases hstart w hd with ⟨-, h1⟩ | h1
        · exact absurd h1 hs
        · exact h1

/-! ## `findChainedPairs` -/

theorem getD_append_of_lt {α : Type} (l1 l2 : List α) (d : α) {k : Nat} (h : k < l1.length) :
    (l1 ++ l2).getD k d = l1.getD k d := by
  rw [List.getD_eq_getElem _ _ h, List.getD_eq_getElem _ _ (by simp; omega),
    List.getElem_append_left h]

theorem getD_mem {α : Type} (l : List α) (d : α) {k : Nat} (h : k < l.length) :
    l.getD k d ∈ l := by
  rw [List.getD_eq_getElem _ _ h]
  exact List.getElem_mem h

theorem mem_insertPair (p q : Symbol × Symbol) (l : List (Symbol × Symbol)) :
    q ∈ insertPair p l ↔ q = p ∨ q ∈ l := by
  unfold insertPair
  by_cases h : p ∈ l
  · simp only [h, if_true]
    constructor
    · exact fun hq => Or.inr hq
    · rintro (hq | hq)
      · rw [hq]; exact h
      · exact hq
  · simp [h]

theorem nodup_insertPair (p : Symbol × Symbol) {l : List (Symbol × Symbol)} (hl : l.Nodup) :
    (insertPair p l).Nodup := by
  unfold insertPair
  by_cases h : p ∈ l
  · simp [h, hl]
  · simp [h, hl]

theorem suffix_insertPair (p : Symbol × Symbol) (l : List (Symbol × Symbol)) :
    l <:+ insertPair p l := by
  unfold insertPair
  by_cases h : p ∈ l
  · simp [h]
  · simp only [h, if_false]
    exact List.suffix_cons p l

theorem ChainInvariant.add {g : Grammar} {st : ChainState} (hinv : ChainInvariant g st)
    {a b : Symbol} (found : Bool)
    (ha : a ∈ g.rules.map fun r => r.lhs.at 0) (hb : b ∈ g.rules.map fun r => r.rhs.at 0)
    (hsound : Relation.TransGen (UnitStep g) a b) :
    ChainInvariant g ⟨st.pairs ++ [(a, b)], insertPair (a, b) st.isChainedPair, found⟩ := by
  refine ⟨?_, nodup_insertPair _ hinv.nodup, ?_, ?_⟩
  · intro p
    simp only [List.mem_append, List.mem_singleton, mem_insertPair, hinv.mem_iff]
    exact or_comm
  · intro p hp
    rcases (mem_insertPair _ _ _).1 hp with h | h
    · rw [h]; exact List.mem_product.2 ⟨ha, hb⟩
    · exact hinv.mem_product p h
  · intro p hp
    rcases List.mem_append.1 hp with h | h
    · exact hinv.sound p h
    · simp only [List.mem_singleton] at h
      rw [h]; exact hsound

theorem ChainInvariant.first_mem {g : Grammar} {st : ChainState} (hinv : ChainInvariant g st)
    {p : Symbol × Symbol} (hp : p ∈ st.pairs) : p.1 ∈ g.rules.map fun r => r.lhs.at 0 :=
  (List.mem_product.1 (hinv.mem_product p ((hinv.mem_iff p).1 hp))).1

theorem ChainInvariant.length_le {g : Grammar} {st : ChainState} (hinv : ChainInvariant g st) :
    st.isChainedPair.length ≤ g.rules.length * g.rules.length := by
  have h1 := (List.Nodup.subperm hinv.nodup (fun p hp => hinv.mem_product p hp)).length_le
  have h2 : (List.product (g.rules.map fun r => r.lhs.at 0)
      (g.rules.map fun r => r.rhs.at 0)).length =
        (g.rules.map fun r => r.lhs.at 0).length * (g.rules.map fun r => r.rhs.at 0).length :=
    List.length_product _ _
  rw [h2] at h1
  simpa using h1

theorem UnitStep.mem_rhs {g : Grammar} {a b : Symbol} (h : UnitStep g a b) :
    a ∈ (g.rules.map fun r => r.lhs.at 0) ∧ b ∈ (g.rules.map fun r => r.rhs.at 0) := by
  obtain ⟨r, hr, h1, -, h2, -⟩ := h
  exact ⟨List.mem_map.2 ⟨r, hr, h1⟩, List.mem_map.2 ⟨r, hr, h2⟩⟩

/-- The inner loop of `findChainedPairs` for the unit rule `lhs0 → rhs0`. -/
theorem findChainedPairs_inner_spec {g : Grammar} {lhs0 rhs0 : Symbol}
    (hunit : UnitStep g lhs0 rhs0) :
    ∀ (i : Nat) (st : ChainState), i ≤ st.pairs.length → ChainInvariant g st →
      ChainInvariant g (findChainedPairs.inner lhs0 rhs0 i st) ∧
      st.isChainedPair <:+ (findChainedPairs.inner lhs0 rhs0 i st).isChainedPair ∧
      st.pairs <+: (findChainedPairs.inner lhs0 rhs0 i st).pairs ∧
      (st.foundNewPairs = true → (findChainedPairs.inner lhs0 rhs0 i st).foundNewPairs = true) ∧
      ((findChainedPairs.inner lhs0 rhs0 i st).foundNewPairs = false →
        findChainedPairs.inner lhs0 rhs0 i st = st ∧
          ∀ k < i, (st.pairs.getD k (0, 0)).2 = lhs0 →
            ((st.pairs.getD k (0, 0)).1, rhs0) ∈ st.isChainedPair) ∧
      (st.foundNewPairs = false →
        (findChainedPairs.inner lhs0 rhs0 i st).foundNewPairs = true →
        st.isChainedPair.length < (findChainedPairs.inner lhs0 rhs0 i st).isChainedPair.length) := by
  intro i
  induction i with
  | zero =>
    intro st _ hinv
    have h0 : findChainedPairs.inner lhs0 rhs0 0 st = st := rfl
    rw [h0]
    refine ⟨hinv, List.suffix_refl _, List.prefix_refl _, fun h => h, fun _ => ⟨rfl, ?_⟩, ?_⟩
    · intro k hk; omega
    · intro h1 h2; rw [h1] at h2; simp at h2
  | succ i ih =>
    intro st hi hinv
    rw [findChainedPairs.inner]
    by_cases hskip : (st.pairs.getD i (0, 0)).2 ≠ lhs0 ∨
        ((st.pairs.getD i (0, 0)).1, rhs0) ∈ st.isChainedPair
    · simp only [hskip, if_true]
      obtain ⟨h1, h2, h3, h4, h5, h6⟩ := ih st (by omega) hinv
      refine ⟨h1, h2, h3, h4, fun hf => ⟨(h5 hf).1, fun k hk hk2 => ?_⟩, h6⟩
      by_cases hki : k = i
      · rw [hki] at hk2 ⊢
        rcases hskip with hs | hs
        · exact absurd hk2 hs
        · exact hs
      · exact (h5 hf).2 k (by omega) hk2
    · simp only [hskip, if_false]
      push_neg at hskip
      obtain ⟨hp2, hnot⟩ := hskip
      have hpmem : st.pairs.getD i (0, 0) ∈ st.pairs := getD_mem _ _ (by omega)
      have hinv2 : ChainInvariant g ⟨st.pairs ++ [((st.pairs.getD i (0, 0)).1, rhs0)],
          insertPair ((st.pairs.getD i (0, 0)).1, rhs0) st.isChainedPair, true⟩ := by
        refine hinv.add true (hinv.first_mem hpmem) hunit.mem_rhs.2 ?_
        have := hinv.sound _ hpmem
        rw [hp2] at this
        exact Relation.TransGen.tail this hunit
      obtain ⟨h1, h2, h3, h4, h5, h6⟩ := ih _ (by simp; omega) hinv2
      have hsuf : st.isChainedPair <:+ insertPair ((st.pairs.getD i (0, 0)).1, rhs0) st.isChainedPair :=
        suffix_insertPair _ _
      have hlen : st.isChainedPair.length <
          (insertPair ((st.pairs.getD i (0, 0)).1, rhs0) st.isChainedPair).length := by
        unfold insertPair
        rw [if_neg hnot]
        exact Nat.lt_succ_self _
      have hfound := h4 rfl
      refine ⟨h1, hsuf.trans h2, (List.prefix_append _ _).trans h3, fun _ => hfound, ?_, ?_⟩
      · intro hf
        rw [hfound] at hf
        simp at hf
      · intro _ _
        exact lt_of_lt_of_le hlen h2.length_le

/-- One pass of `findChainedPairs` over the rules. -/
theorem findChainedPairs_pass_spec (g : Grammar) :
    ∀ (rules : List Rule) (st : ChainState), (∀ r ∈ rules, r ∈ g.rules) →
      ChainInvariant g st →
      ChainInvariant g (rules.foldl (fun st r =>
        if r.rhs.length ≠ 1 ∨ g.symbolIsNonterminal (r.rhs.at 0) = false then st
        else findChainedPairs.inner (r.lhs.at 0) (r.rhs.at 0) st.pairs.length st) st) ∧
      st.isChainedPair <:+ (rules.foldl (fun st r =>
        if r.rhs.length ≠ 1 ∨ g.symbolIsNonterminal (r.rhs.at 0) = false then st
        else findChainedPairs.inner (r.lhs.at 0) (r.rhs.at 0) st.pairs.length st) st).isChainedPair ∧
      st.pairs <+: (rules.foldl (fun st r =>
        if r.rhs.length ≠ 1 ∨ g.symbolIsNonterminal (r.rhs.at 0) = false then st
        else findChainedPairs.inner (r.lhs.at 0) (r.rhs.at 0) st.pairs.length st) st).pairs ∧
      (st.foundNewPairs = true → (rules.foldl (fun st r =>
        if r.rhs.length ≠ 1 ∨ g.symbolIsNonterminal (r.rhs.at 0) = false then st
        else findChainedPairs.inner (r.lhs.at 0) (r.rhs.at 0) st.pairs.length st) st).foundNewPairs
          = true) ∧
      ((rules.foldl (fun st r =>
        if r.rhs.length ≠ 1 ∨ g.symbolIsNonterminal (r.rhs.at 0) = false then st
        else findChainedPairs.inner (r.lhs.at 0) (r.rhs.at 0) st.pairs.length st) st).foundNewPairs
          = false →
        (rules.foldl (fun st r =>
          if r.rhs.length ≠ 1 ∨ g.symbolIsNonterminal (r.rhs.at 0) = false then st
          else findChainedPairs.inner (r.lhs.at 0) (r.rhs.at 0) st.pairs.length st) st) = st ∧
        ∀ r ∈ rules, r.rhs.length = 1 → g.symbolIsNonterminal (r.rhs.at 0) = true →
          ∀ p ∈ st.pairs, p.2 = r.lhs.at 0 → (p.1, r.rhs.at 0) ∈ st.isChainedPair) ∧
      (st.foundNewPairs = false → (rules.foldl (fun st r =>
        if r.rhs.length ≠ 1 ∨ g.symbolIsNonterminal (r.rhs.at 0) = false then st
        else findChainedPairs.inner (r.lhs.at 0) (r.rhs.at 0) st.pairs.length st) st).foundNewPairs
          = true →
        st.isChainedPair.length < (rules.foldl (fun st r =>
          if r.rhs.length ≠ 1 ∨ g.symbolIsNonterminal (r.rhs.at 0) = false then st
          else findChainedPairs.inner (r.lhs.at 0) (r.rhs.at 0) st.pairs.length st)
            st).isChainedPair.length) := by
  intro rules
  induction rules with
  | nil =>
    intro st _ hinv
    simp only [List.foldl_nil]
    refine ⟨hinv, List.suffix_refl _, List.prefix_refl _, fun h => h, fun _ => ⟨trivial, ?_⟩, ?_⟩
    · intro r hr; simp at hr
    · intro h1 h2; rw [h1] at h2; simp at h2
  | cons r rules ih =>
    intro st hsub hinv
    rw [List.foldl_cons]
    have hsub' : ∀ r' ∈ rules, r' ∈ g.rules := fun r' hr' => hsub r' (List.mem_cons_of_mem r hr')
    by_cases hnon : r.rhs.length ≠ 1 ∨ g.symbolIsNonterminal (r.rhs.at 0) = false
    · simp only [hnon, if_true]
      obtain ⟨h1, h2, h3, h4, h5, h6⟩ := ih st hsub' hinv
      refine ⟨h1, h2, h3, h4, fun hf => ⟨(h5 hf).1, ?_⟩, h6⟩
      intro r' hr' hlen hnt
      rcases List.mem_cons.1 hr' with h | h
      · rw [h] at hlen hnt
        rcases hnon with hn | hn
        · exact absurd hlen hn
        · rw [hn] at hnt; simp at hnt
      · exact (h5 hf).2 r' h hlen hnt
    · simp only [hnon, if_false]
      push_neg at hnon
      obtain ⟨hlen, hnt⟩ := hnon
      have hnt' : g.symbolIsNonterminal (r.rhs.at 0) = true := by simpa using hnt
      have hunit : UnitStep g (r.lhs.at 0) (r.rhs.at 0) :=
        ⟨r, hsub r (List.mem_cons_self r rules), rfl, hlen, rfl, hnt'⟩
      obtain ⟨a1, a2, a3, a4, a5, a6⟩ :=
        findChainedPairs_inner_spec hunit st.pairs.length st (le_refl _) hinv
      obtain ⟨h1, h2, h3, h4, h5, h6⟩ := ih _ hsub' a1
      refine ⟨h1, a2.trans h2, a3.trans h3, fun hf => h4 (a4 hf), ?_, ?_⟩
      · intro hf
        have hmid : (findChainedPairs.inner (r.lhs.at 0) (r.rhs.at 0) st.pairs.length
            st).foundNewPairs = false := by
          by_contra hcon
          have := h4 (by simpa using hcon)
          rw [this] at hf
          simp at hf
        obtain ⟨b1, b2⟩ := a5 hmid
        obtain ⟨c1, c2⟩ := h5 hf
        rw [b1] at c1 c2
        refine ⟨by rw [b1]; exact c1, ?_⟩
        intro r' hr' hlen' hnt'' p hp hp2
        rcases List.mem_cons.1 hr' with h | h
        · rw [h]
          obtain ⟨k, hk, hkp⟩ := List.getElem_of_mem hp
          have := b2 k hk (by rw [List.getD_eq_getElem _ _ hk, hkp, hp2, h])
          rwa [List.getD_eq_getElem _ _ hk, hkp] at this
        · exact c2 r' h hlen' hnt'' p hp hp2
      · intro hf0 hf1
        by_cases hmid : (findChainedPairs.inner (r.lhs.at 0) (r.rhs.at 0) st.pairs.length
            st).foundNewPairs = true
        · exact lt_of_lt_of_le (a6 hf0 hmid) h2.length_le
        · have hmid' : (findChainedPairs.inner (r.lhs.at 0) (r.rhs.at 0) st.pairs.length
              st).foundNewPairs = false := by simpa using hmid
          exact lt_of_le_of_lt a2.length_le (h6 hmid' hf1)

theorem ChainInvariant.reset {g : Grammar} {st : ChainState} (hinv : ChainInvariant g st)
    (found : Bool) : ChainInvariant g { st with foundNewPairs := found } :=
  ⟨hinv.mem_iff, hinv.nodup, hinv.mem_product, hinv.sound⟩

/-- The loop of `findChainedPairs` stops with an unproductive pass when it is allowed
enough passes; the pairs are then closed under the unit rules. -/
theorem findChainedPairs_loop_spec (g : Grammar) :
    ∀ (fuel : Nat) (st : ChainState), ChainInvariant g st →
      g.rules.length * g.rules.length < fuel + st.isChainedPair.length →
      ChainInvariant g (findChainedPairs.loop g fuel st) ∧
      st.pairs <+: (findChainedPairs.loop g fuel st).pairs ∧
      ∀ r ∈ g.rules, r.rhs.length = 1 → g.symbolIsNonterminal (r.rhs.at 0) = true →
        ∀ p ∈ (findChainedPairs.loop g fuel st).pairs, p.2 = r.lhs.at 0 →
          (p.1, r.rhs.at 0) ∈ (findChainedPairs.loop g fuel st).pairs := by
  intro fuel
  induction fuel with
  | zero =>
    intro st hinv hlt
    have := hinv.length_le
    omega
  | succ fuel ih =>
    intro st hinv hlt
    rw [findChainedPairs.loop]
    obtain ⟨h1, h2, h3, -, h5, h6⟩ := findChainedPairs_pass_spec g g.rules
      { st with foundNewPairs := false } (fun r hr => hr) (hinv.reset false)
    have hpass : findChainedPairs.pass g { st with foundNewPairs := false } =
        g.rules.foldl (fun st r =>
          if r.rhs.length ≠ 1 ∨ g.symbolIsNonterminal (r.rhs.at 0) = false then st
          else findChainedPairs.inner (r.lhs.at 0) (r.rhs.at 0) st.pairs.length st)
          { st with foundNewPairs := false } := rfl
    rw [← hpass] at h1 h2 h3 h5 h6
    by_cases hfound : (findChainedPairs.pass g { st with foundNewPairs := false }).foundNewPairs
        = true
    · simp only [hfound, if_true]
      have hlen := h6 rfl hfound
      simp only at hlen
      obtain ⟨c1, c2, c3⟩ := ih _ h1 (by omega)
      exact ⟨c1, h3.trans c2, c3⟩
    · have hfound' : (findChainedPairs.pass g { st with foundNewPairs := false }).foundNewPairs
          = false := by simpa using hfound
      simp only [hfound', Bool.false_eq_true, if_false]
      obtain ⟨b1, b2⟩ := h5 hfound'
      refine ⟨h1, h3, ?_⟩
      intro r hr hlen hnt p hp hp2
      rw [b1] at hp ⊢
      exact (hinv.mem_iff _).2 (b2 r hr hlen hnt p hp hp2)

theorem findChainedPairs_seed_spec (g : Grammar) :
    ∀ (rules : List Rule) (st : ChainState), (∀ r ∈ rules, r ∈ g.rules) →
      ChainInvariant g st →
      ChainInvariant g (rules.foldl (fun st r =>
        if r.rhs.length = 1 ∧ g.symbolIsNonterminal (r.rhs.at 0) = true then
          ⟨st.pairs ++ [(r.lhs.at 0, r.rhs.at 0)],
            insertPair (r.lhs.at 0, r.rhs.at 0) st.isChainedPair, st.foundNewPairs⟩
        else st) st) ∧
      st.pairs <+: (rules.foldl (fun st r =>
        if r.rhs.length = 1 ∧ g.symbolIsNonterminal (r.rhs.at 0) = true then
          ⟨st.pairs ++ [(r.lhs.at 0, r.rhs.at 0)],
            insertPair (r.lhs.at 0, r.rhs.at 0) st.isChainedPair, st.foundNewPairs⟩
        else st) st).pairs ∧
      ∀ r ∈ rules, r.rhs.length = 1 → g.symbolIsNonterminal (r.rhs.at 0) = true →
        (r.lhs.at 0, r.rhs.at 0) ∈ (rules.foldl (fun st r =>
          if r.rhs.length = 1 ∧ g.symbolIsNonterminal (r.rhs.at 0) = true then
            ⟨st.pairs ++ [(r.lhs.at 0, r.rhs.at 0)],
              insertPair (r.lhs.at 0, r.rhs.at 0) st.isChainedPair, st.foundNewPairs⟩
          else st) st).pairs := by
  intro rules
  induction rules with
  | nil =>
    intro st _ hinv
    exact ⟨hinv, List.prefix_refl _, fun r hr => by simp at hr⟩
  | cons r rules ih =>
    intro st hsub hinv
    rw [List.foldl_cons]
    have hsub' : ∀ r' ∈ rules, r' ∈ g.rules := fun r' hr' => hsub r' (List.mem_cons_of_mem r hr')
    by_cases hunit : r.rhs.length = 1 ∧ g.symbolIsNonterminal (r.rhs.at 0) = true
    · simp only [hunit, and_self, if_true]
      have hstep : UnitStep g (r.lhs.at 0) (r.rhs.at 0) :=
        ⟨r, hsub r (List.mem_cons_self r rules), rfl, hunit.1, rfl, hunit.2⟩
      have hinv1 := hinv.add st.foundNewPairs hstep.mem_rhs.1 hstep.mem_rhs.2
        (Relation.TransGen.single hstep)
      obtain ⟨c1, c2, c3⟩ := ih _ hsub' hinv1
      refine ⟨c1, (List.prefix_append _ _).trans c2, ?_⟩
      intro r' hr' hlen hnt
      rcases List.mem_cons.1 hr' with h | h
      · rw [h]
        exact c2.subset (by simp)
      · exact c3 r' h hlen hnt
    · simp only [hunit, if_false]
      obtain ⟨c1, c2, c3⟩ := ih st hsub' hinv
      refine ⟨c1, c2, ?_⟩
      intro r' hr' hlen hnt
      rcases List.mem_cons.1 hr' with h | h
      · rw [h] at hlen hnt
        exact absurd ⟨hlen, hnt⟩ hunit
      · exact c3 r' h hlen hnt

/-- The result of `findChainedPairs` is the transitive closure of the unit-rule relation. -/
theorem findChainedPairs_spec (g : Grammar) (a b : Symbol) :
    (a, b) ∈ findChainedPairs g ↔ Relation.TransGen (UnitStep g) a b := by
  have hinv0 : ChainInvariant g ⟨[], [], true⟩ :=
    ⟨fun p => Iff.rfl, List.nodup_nil, fun p hp => by simp at hp, fun p hp => by simp at hp⟩
  obtain ⟨s1, -, s3⟩ := findChainedPairs_seed_spec g g.rules ⟨[], [], true⟩ (fun r hr => hr) hinv0
  have hseed : findChainedPairs.seed g = g.rules.foldl (fun st r =>
      if r.rhs.length = 1 ∧ g.symbolIsNonterminal (r.rhs.at 0) = true then
        ⟨st.pairs ++ [(r.lhs.at 0, r.rhs.at 0)],
          insertPair (r.lhs.at 0, r.rhs.at 0) st.isChainedPair, st.foundNewPairs⟩
      else st) ⟨[], [], true⟩ := rfl
  rw [← hseed] at s1 s3
  obtain ⟨l1, l2, l3⟩ := findChainedPairs_loop_spec g (g.rules.length * g.rules.length + 1)
    (findChainedPairs.seed g) s1 (by omega)
  unfold findChainedPairs
  constructor
  · intro h
    exact l1.sound _ h
  · intro h
    induction h with
    | single hstep =>
      obtain ⟨r, hr, h1, h2, h3, h4⟩ := hstep
      rw [← h1, ← h3]
      exact l2.subset (s3 r hr h2 (by rw [h3]; exact h4))
    | tail _ hstep ih =>
      obtain ⟨r, hr, h1, h2, h3, h4⟩ := hstep
      rw [← h3]
      exact l3 r hr h2 (by rw [h3]; exact h4) _ ih h1.symm

/-! ## `removeChainRules` -/

/-- The first loop of `removeChainRules` in closed form. -/
theorem removeChainRules_eraseLoop_eq (g : Grammar) :
    ∀ (i : Nat) (pre post : List Rule), pre.length = i →
      removeChainRules.eraseLoop g i (pre ++ post) =
        pre.filter (fun r => !decide (r.rhs.length = 1 ∧ g.symbolIsNonterminal (r.rhs.at 0) = true))
          ++ post := by
  intro i
  induction i with
  | zero =>
    intro pre post hpre
    have : pre = [] := List.length_eq_zero.1 hpre
    subst this
    simp [removeChainRules.eraseLoop]
  | succ i ih =>
    intro pre post hpre
    obtain ⟨pre1, r, hpre1, hlen1⟩ := exists_concat_of_length_succ hpre
    subst hpre1
    have hget : (pre1 ++ [r] ++ post).getD i default = r := by
      rw [List.append_assoc, ← hlen1]; exact getD_append_length pre1 post r default
    have herase : (pre1 ++ [r] ++ post).eraseIdx i = pre1 ++ post := by
      rw [List.append_assoc, ← hlen1]; exact eraseIdx_append_length pre1 post r
    rw [removeChainRules.eraseLoop]
    simp only [hget, herase]
    by_cases hunit : r.rhs.length = 1 ∧ g.symbolIsNonterminal (r.rhs.at 0) = true
    · simp only [hunit, and_self, if_true]
      rw [ih pre1 post hlen1]
      simp [hunit]
    · simp only [hunit, if_false]
      rw [List.append_assoc, ih pre1 ([r] ++ post) hlen1]
      have hf : [r].filter (fun r => !decide (r.rhs.length = 1 ∧
          g.symbolIsNonterminal (r.rhs.at 0) = true)) = [r] := by
        rw [List.filter_cons_of_pos (by
          simp only [Bool.not_eq_true', decide_eq_false_iff_not]
          exact hunit)]
        rfl
      rw [List.filter_append, hf]
      simp

/-- The inner loop of `removeChainRules` in closed form. -/
theorem removeChainRules_addLoop_eq (start last : Symbol) :
    ∀ (i : Nat) (pre post : List Rule), pre.length = i →
      removeChainRules.addLoop start last i (pre ++ post) =
        pre ++ post ++ (pre.reverse.filter (fun r => decide (r.lhs.at 0 = last))).map
          (fun r => (⟨[start], r.rhs⟩ : Rule)) := by
  intro i
  induction i with
  | zero =>
    intro pre post hpre
    have : pre = [] := List.length_eq_zero.1 hpre
    subst this
    simp [removeChainRules.addLoop]
  | succ i ih =>
    intro pre post hpre
    obtain ⟨pre1, r, hpre1, hlen1⟩ := exists_concat_of_length_succ hpre
    subst hpre1
    have hget : (pre1 ++ [r] ++ post).getD i default = r := by
      rw [List.append_assoc, ← hlen1]; exact getD_append_length pre1 post r default
    rw [removeChainRules.addLoop]
    simp only [hget]
    by_cases hl : r.lhs.at 0 = last
    · simp only [hl, if_true]
      have : pre1 ++ [r] ++ post ++ [(⟨[start], r.rhs⟩ : Rule)] =
          pre1 ++ ([r] ++ post ++ [(⟨[start], r.rhs⟩ : Rule)]) := by simp
      rw [this, ih pre1 _ hlen1]
      simp [hl]
    · simp only [hl, if_false]
      rw [List.append_assoc, ih pre1 ([r] ++ post) hlen1]
      simp [hl]

theorem removeChainRules_addLoop_mem (start last : Symbol) (rules : List Rule) (r1 : Rule) :
    r1 ∈ removeChainRules.addLoop start last rules.length rules ↔
      r1 ∈ rules ∨ ∃ r ∈ rules, r.lhs.at 0 = last ∧ r1 = ⟨[start], r.rhs⟩ := by
  have := removeChainRules_addLoop_eq start last rules.length rules [] rfl
  rw [List.append_nil] at this
  rw [this]
  simp only [List.append_nil, List.mem_append, List.mem_map, List.mem_filter, List.mem_reverse,
    decide_eq_true_eq]
  constructor
  · rintro (h | ⟨r, ⟨h1, h2⟩, h3⟩)
    · exact Or.inl h
    · exact Or.inr ⟨r, h1, h2, h3.symm⟩
  · rintro (h | ⟨r, h1, h2, h3⟩)
    · exact Or.inl h
    · exact Or.inr ⟨r, ⟨h1, h2⟩, h3.symm⟩

/-- The rules after the second loop of `removeChainRules` over pairs of a transitive
relation: the rules before it and, for every pair `(a, b)` and rule `b → γ` before it, the
rule `a → γ`. -/
theorem removeChainRules_fold_mem (rel : Symbol → Symbol → Prop)
    (htrans : ∀ a b c, rel a b → rel b c → rel a c) (rules1 : List Rule) :
    ∀ (pairs : List (Symbol × Symbol)) (cur : List Rule),
      (∀ p ∈ pairs, rel p.1 p.2) →
      (∀ r ∈ rules1, r ∈ cur) →
      (∀ r1 ∈ cur, r1 ∈ rules1 ∨ ∃ a b, rel a b ∧ ∃ r ∈ rules1, r.lhs.at 0 = b ∧
        r1 = ⟨[a], r.rhs⟩) →
      (∀ r ∈ rules1, r ∈ pairs.foldl
        (fun rules p => removeChainRules.addLoop p.1 p.2 rules.length rules) cur) ∧
      (∀ r1 ∈ pairs.foldl
          (fun rules p => removeChainRules.addLoop p.1 p.2 rules.length rules) cur,
        r1 ∈ rules1 ∨ ∃ a b, rel a b ∧ ∃ r ∈ rules1, r.lhs.at 0 = b ∧ r1 = ⟨[a], r.rhs⟩) ∧
      (∀ p ∈ pairs, ∀ r ∈ rules1, r.lhs.at 0 = p.2 → (⟨[p.1], r.rhs⟩ : Rule) ∈ pairs.foldl
        (fun rules p => removeChainRules.addLoop p.1 p.2 rules.length rules) cur) ∧
      (∀ r ∈ cur, r ∈ pairs.foldl
        (fun rules p => removeChainRules.addLoop p.1 p.2 rules.length rules) cur) := by
  intro pairs
  induction pairs with
  | nil =>
    intro cur _ h1 h2
    exact ⟨h1, h2, fun p hp => by simp at hp, fun r hr => hr⟩
  | cons p pairs ih =>
    intro cur hrel h1 h2
    rw [List.foldl_cons]
    have hrel' : ∀ q ∈ pairs, rel q.1 q.2 := fun q hq => hrel q (List.mem_cons_of_mem p hq)
    have hp := hrel p (List.mem_cons_self p pairs)
    have hmem := removeChainRules_addLoop_mem p.1 p.2 cur
    obtain ⟨c1, c2, c3, c4⟩ := ih (removeChainRules.addLoop p.1 p.2 cur.length cur) hrel'
      (fun r hr => (hmem r).2 (Or.inl (h1 r hr)))
      (by
        intro r1 hr1
        rcases (hmem r1).1 hr1 with h | ⟨r, hr, hl, hr1'⟩
        · exact h2 r1 h
        · rcases h2 r hr with h | ⟨a, b, hab, r0, hr0, hl0, hr'⟩
          · exact Or.inr ⟨p.1, p.2, hp, r, h, hl, hr1'⟩
          · right
            rw [hr', Word.at_cons_zero] at hl
            rw [hr'] at hr1'
            refine ⟨p.1, b, htrans _ _ _ hp (by rw [← hl]; exact hab), r0, hr0, hl0, hr1'⟩)
    refine ⟨c1, c2, ?_, fun r hr => c4 r ((hmem r).2 (Or.inl hr))⟩
    intro q hq r hr hl
    rcases List.mem_cons.1 hq with h | h
    · rw [h]
      exact c4 _ ((hmem _).2 (Or.inr ⟨r, h1 r hr, by rw [hl, h], rfl⟩))
    · exact c3 q h r hr hl

theorem symbolIsNonterminal_eq_true (g : Grammar) (x : Symbol) :
    g.symbolIsNonterminal x = true ↔ x ∈ g.nonterminals := by
  simp [Grammar.symbolIsNonterminal]

/-- The rules of `removeChainRules g`: the rules of `g` that are not unit rules and, for
every such rule `b → γ` and every `a` that reaches `b` through unit rules, the rule
`a → γ`. -/
theorem removeChainRules_mem (g : Grammar) (r1 : Rule) :
    r1 ∈ (removeChainRules g).rules ↔
      (r1 ∈ g.rules ∧ ¬ (r1.rhs.length = 1 ∧ r1.rhs.at 0 ∈ g.nonterminals)) ∨
      ∃ a b, Relation.TransGen (UnitStep g) a b ∧ ∃ r ∈ g.rules,
        ¬ (r.rhs.length = 1 ∧ r.rhs.at 0 ∈ g.nonterminals) ∧ r.lhs.at 0 = b ∧
          r1 = ⟨[a], r.rhs⟩ := by
  have herase := removeChainRules_eraseLoop_eq g g.rules.length g.rules [] rfl
  simp only [List.append_nil] at herase
  have hmem1 : ∀ r, r ∈ removeChainRules.eraseLoop g g.rules.length g.rules ↔
      (r ∈ g.rules ∧ ¬ (r.rhs.length = 1 ∧ r.rhs.at 0 ∈ g.nonterminals)) := by
    intro r
    rw [herase]
    simp only [List.mem_filter, Bool.not_eq_true', decide_eq_false_iff_not,
      symbolIsNonterminal_eq_true]
  obtain ⟨c1, c2, c3, -⟩ := removeChainRules_fold_mem (Relation.TransGen (UnitStep g))
    (fun a b c h1 h2 => Relation.TransGen.trans h1 h2)
    (removeChainRules.eraseLoop g g.rules.length g.rules) (findChainedPairs g)
    (removeChainRules.eraseLoop g g.rules.length g.rules)
    (fun p hp => (findChainedPairs_spec g p.1 p.2).1 hp) (fun r hr => hr)
    (fun r hr => Or.inl hr)
  have hrules : (removeChainRules g).rules = (findChainedPairs g).foldl
      (fun rules p => removeChainRules.addLoop p.1 p.2 rules.length rules)
      (removeChainRules.eraseLoop g g.rules.length g.rules) := rfl
  rw [hrules]
  constructor
  · intro h
    rcases c2 r1 h with h1 | ⟨a, b, hab, r, hr, hl, hr1⟩
    · exact Or.inl ((hmem1 r1).1 h1)
    · exact Or.inr ⟨a, b, hab, r, ((hmem1 r).1 hr).1, ((hmem1 r).1 hr).2, hl, hr1⟩
  · rintro (h | ⟨a, b, hab, r, hr, hnu, hl, hr1⟩)
    · exact c1 r1 ((hmem1 r1).2 h)
    · rw [hr1]
      exact c3 (a, b) ((findChainedPairs_spec g a b).2 hab) r ((hmem1 r).2 ⟨hr, hnu⟩) hl

theorem one_of_length_eq {w : Word} (h : w.length = 1) : w = [Word.at w 0] := by
  match w, h with
  | [b], _ => rfl

theorem WellFormed.lhs_eq {g : Grammar} (hg : WellFormed g) {r : Rule} (hr : r ∈ g.rules) :
    r.lhs = [r.lhs.at 0] ∧ r.lhs.at 0 ∈ g.nonterminals := by
  obtain ⟨a, ha, hl⟩ := hg.rule_lhs r hr
  rw [hl]
  exact ⟨rfl, ha⟩

theorem UnitStep.rule_mem {g : Grammar} (hg : WellFormed g) {a b : Symbol}
    (h : UnitStep g a b) :
    (⟨[a], [b]⟩ : Rule) ∈ g.rules ∧ a ∈ g.nonterminals ∧ b ∈ g.nonterminals := by
  obtain ⟨r, hr, h1, h2, h3, h4⟩ := h
  obtain ⟨hl, hn⟩ := hg.lhs_eq hr
  have hrhs := one_of_length_eq h2
  rw [h1] at hl hn
  rw [h3] at hrhs
  have : r = ⟨[a], [b]⟩ := by
    cases r
    simp only at hl hrhs
    rw [hl, hrhs]
  rw [← this]
  exact ⟨hr, hn, (symbolIsNonterminal_eq_true g b).1 h4⟩

theorem derives_of_transGen_unitStep {g : Grammar} (hg : WellFormed g) {a b : Symbol}
    (h : Relation.TransGen (UnitStep g) a b) :
    Derives g.rules [a] [b] ∧ a ∈ g.nonterminals ∧
      ∃ r ∈ g.rules, r.rhs = [b] := by
  induction h with
  | single hstep =>
    obtain ⟨h1, h2, -⟩ := hstep.rule_mem hg
    exact ⟨Derives.of_mem h1, h2, _, h1, rfl⟩
  | tail _ hstep ih =>
    obtain ⟨h1, -, -⟩ := hstep.rule_mem hg
    exact ⟨ih.1.trans (Derives.of_mem h1), ih.2.1, _, h1, rfl⟩

/-- `removeChainRules`, on a well-formed grammar: the result is well-formed, has no unit
rule, keeps the bound 2 on the rhs and the restriction on empty rules, and generates the
same language. -/
theorem removeChainRules_spec {g : Grammar} (hg : WellFormed g)
    (hshort : ∀ r ∈ g.rules, r.rhs.length ≤ 2) (heps : EpsilonFree g) :
    WellFormed (removeChainRules g) ∧ (∀ r ∈ (removeChainRules g).rules, r.rhs.length ≤ 2) ∧
      EpsilonFree (removeChainRules g) ∧ NoUnitRules (removeChainRules g) ∧
      SameLanguage g (removeChainRules g) := by
  have hmem := removeChainRules_mem g
  have ht : (removeChainRules g).terminals = g.terminals := rfl
  have hn : (removeChainRules g).nonterminals = g.nonterminals := rfl
  have hs : (removeChainRules g).startSymbol = g.startSymbol := rfl
  have hm : (removeChainRules g).maxSymbol = g.maxSymbol := rfl
  -- every new rule takes its rhs from an old rule that is not a unit rule
  have horigin : ∀ r1 ∈ (removeChainRules g).rules, ∃ r ∈ g.rules,
      ¬ (r.rhs.length = 1 ∧ r.rhs.at 0 ∈ g.nonterminals) ∧ r1.rhs = r.rhs ∧
      (∃ a ∈ g.nonterminals, r1.lhs = [a]) ∧ Derives g.rules r1.lhs r1.rhs ∧
      (r1 = r ∨ ∃ r0 ∈ g.rules, r0.rhs = [r.lhs.at 0]) := by
    intro r1 hr1
    rcases (hmem r1).1 hr1 with ⟨h1, h2⟩ | ⟨a, b, hab, r, hr, hnu, hl, hr1'⟩
    · exact ⟨r1, h1, h2, rfl, hg.rule_lhs r1 h1, Derives.of_rule h1, Or.inl rfl⟩
    · obtain ⟨d1, d2, d3⟩ := derives_of_transGen_unitStep hg hab
      refine ⟨r, hr, hnu, by rw [hr1'], ⟨a, d2, by rw [hr1']⟩, ?_, Or.inr (by rw [hl]; exact d3)⟩
      rw [hr1']
      refine d1.trans ?_
      have := Derives.of_rule hr
      rwa [(hg.lhs_eq hr).1, hl] at this
  have hwf : WellFormed (removeChainRules g) := by
    refine ⟨hg.start_mem, hg.disjoint, ?_, ?_, hg.le_max⟩
    · intro r1 hr1
      obtain ⟨r, -, -, -, h4, -⟩ := horigin r1 hr1
      exact h4
    · intro r1 hr1 x hx
      obtain ⟨r, hr, -, h3, -⟩ := horigin r1 hr1
      rw [h3] at hx
      exact hg.rule_rhs r hr x hx
  refine ⟨hwf, ?_, ?_, ?_, ⟨ht, ?_⟩⟩
  · intro r1 hr1
    obtain ⟨r, hr, -, h3, -⟩ := horigin r1 hr1
    rw [h3]; exact hshort r hr
  · intro r1 hr1 hempty
    obtain ⟨r, hr, -, h3, -, -, h6⟩ := horigin r1 hr1
    rw [h3] at hempty
    obtain ⟨e1, e2⟩ := heps r hr hempty
    constructor
    · rcases h6 with h | ⟨r0, hr0, hr0'⟩
      · rw [h]; exact e1
      · exfalso
        rw [e1, Word.at_cons_zero] at hr0'
        exact e2 r0 hr0 (by rw [hr0']; simp)
    · intro r2 hr2
      obtain ⟨r', hr', -, h3', -⟩ := horigin r2 hr2
      rw [h3']
      exact e2 r' hr'
  · intro r1 hr1
    obtain ⟨r, hr, h2, h3, -⟩ := horigin r1 hr1
    rw [h3]
    exact h2
  · intro w hw
    unfold Grammar.StartDerives
    rw [hs]
    constructor
    · intro hd
      exact Derives.of_rules (fun r1 hr1 => (horigin r1 hr1).choose_spec.2.2.2.2.1) hd
    · intro hd
      have hgen := Gen.of_derives hg.lhs_singleton hd
      have key : ∀ u v, Gen g.rules u v → (∀ x ∈ v, x ∉ g.nonterminals) →
          Gen (removeChainRules g).rules u v := by
        intro u v hgen
        induction hgen with
        | nil => intro _; exact Gen.nil
        | skip a _ ih =>
          intro hv
          exact Gen.skip a (ih (fun x hx => hv x (List.mem_cons_of_mem a hx)))
        | @expand a rhs u w1 w2 hr _ _ ih1 ih2 =>
          intro hv
          have h1 := ih1 (fun x hx => hv x (List.mem_append_left _ hx))
          have h2 := ih2 (fun x hx => hv x (List.mem_append_right _ hx))
          by_cases hunit : rhs.length = 1 ∧ rhs.at 0 ∈ g.nonterminals
          · have hrhs := one_of_length_eq hunit.1
            rw [hrhs] at h1 hr
            have hstep : UnitStep g a (rhs.at 0) :=
              ⟨_, hr, rfl, rfl, rfl, (symbolIsNonterminal_eq_true g _).2 hunit.2⟩
            rcases h1.single_inv with h3 | ⟨γ, hγ, hgenγ⟩
            · exfalso
              exact hv (rhs.at 0) (List.mem_append_left _ (by rw [h3]; simp)) hunit.2
            · refine Gen.expand ?_ hgenγ h2
              rcases (hmem _).1 hγ with ⟨c1, c2⟩ | ⟨a', b', hab, r, hr', hnu, hl, hr1'⟩
              · exact (hmem _).2 (Or.inr ⟨a, rhs.at 0, Relation.TransGen.single hstep,
                  _, c1, c2, rfl, rfl⟩)
              · simp only [Rule.mk.injEq, List.cons.injEq, and_true] at hr1'
                obtain ⟨e1, e2⟩ := hr1'
                refine (hmem _).2 (Or.inr ⟨a, b', ?_, r, hr', hnu, hl, by rw [e2]⟩)
                rw [← e1] at hab
                exact Relation.TransGen.head hstep hab
          · exact Gen.expand ((hmem _).2 (Or.inl ⟨hr, hunit⟩)) h1 h2
      exact (key _ _ hgen (fun x hx hx' => hg.disjoint x (hw x hx) hx')).derives

/-! ## `removeNonGeneratingRules` and `removeNonReachableRules` -/

theorem filter_singleton_pos {α : Type} {p : α → Bool} {r : α} (h : p r = true) :
    [r].filter p = [r] := by
  simp [List.filter, h]

theorem filter_singleton_neg {α : Type} {p : α → Bool} {r : α} (h : ¬ p r = true) :
    [r].filter p = [] := by
  simp [List.filter, h]

/-- The erasing loop of `removeNonGeneratingRules` and `removeNonReachableRules` in closed
form: a filter. -/
theorem removeRulesOutside_eq (g : Grammar) (keep : List Symbol) :
    ∀ (i : Nat) (pre post : List Rule), pre.length = i →
      removeRulesOutside g keep i (pre ++ post) =
        pre.filter (fun r => decide (r.lhs.at 0 ∈ keep) && allRHSNonterminalsIn g keep r.rhs)
          ++ post := by
  intro i
  induction i with
  | zero =>
    intro pre post hpre
    have : pre = [] := List.length_eq_zero.1 hpre
    subst this
    simp [removeRulesOutside]
  | succ i ih =>
    intro pre post hpre
    obtain ⟨pre1, r, hpre1, hlen1⟩ := exists_concat_of_length_succ hpre
    subst hpre1
    have hget : (pre1 ++ [r] ++ post).getD i default = r := by
      rw [List.append_assoc, ← hlen1]; exact getD_append_length pre1 post r default
    have herase : (pre1 ++ [r] ++ post).eraseIdx i = pre1 ++ post := by
      rw [List.append_assoc, ← hlen1]; exact eraseIdx_append_length pre1 post r
    rw [removeRulesOutside]
    simp only [hget, herase]
    by_cases hkeep : (decide (r.lhs.at 0 ∈ keep) && allRHSNonterminalsIn g keep r.rhs) = true
    · have hrem : (!decide (r.lhs.at 0 ∈ keep) || !allRHSNonterminalsIn g keep r.rhs) = false := by
        rw [← Bool.not_and, hkeep]; rfl
      simp only [hrem, Bool.false_eq_true, if_false]
      rw [List.append_assoc, ih pre1 ([r] ++ post) hlen1, List.filter_append,
        filter_singleton_pos (p := fun r : Rule => decide (r.lhs.at 0 ∈ keep) &&
          allRHSNonterminalsIn g keep r.rhs) hkeep]
      simp
    · have hrem : (!decide (r.lhs.at 0 ∈ keep) || !allRHSNonterminalsIn g keep r.rhs) = true := by
        rw [← Bool.not_and]
        simp only [Bool.not_eq_true] at hkeep
        rw [hkeep]; rfl
      simp only [hrem, if_true]
      rw [ih pre1 post hlen1, List.filter_append,
        filter_singleton_neg (p := fun r : Rule => decide (r.lhs.at 0 ∈ keep) &&
          allRHSNonterminalsIn g keep r.rhs) hkeep]
      simp

theorem allRHSNonterminalsIn_iff (g : Grammar) (keep : List Symbol) (rhs : Word) :
    allRHSNonterminalsIn g keep rhs = true ↔ ∀ x ∈ rhs, x ∈ g.nonterminals → x ∈ keep := by
  simp only [allRHSNonterminalsIn, Grammar.symbolIsNonterminal, List.all_eq_true,
    Bool.not_eq_true', Bool.and_eq_false_iff, decide_eq_false_iff_not, Bool.not_eq_false',
    decide_eq_true_eq]
  constructor
  · intro h x hx hxn
    rcases h x hx with h1 | h1
    · exact absurd hxn h1
    · exact h1
  · intro h x hx
    by_cases hxn : x ∈ g.nonterminals
    · exact Or.inr (h x hx hxn)
    · exact Or.inl hxn

theorem removeRulesOutside_mem (g : Grammar) (keep : List Symbol) (r : Rule) :
    r ∈ removeRulesOutside g keep g.rules.length g.rules ↔
      r ∈ g.rules ∧ r.lhs.at 0 ∈ keep ∧ ∀ x ∈ r.rhs, x ∈ g.nonterminals → x ∈ keep := by
  have := removeRulesOutside_eq g keep g.rules.length g.rules [] rfl
  simp only [List.append_nil] at this
  rw [this]
  simp only [List.mem_filter, Bool.and_eq_true, decide_eq_true_eq, allRHSNonterminalsIn_iff]

theorem WellFormed.of_rules_subset {g g1 : Grammar} (hg : WellFormed g)
    (ht : g1.terminals = g.terminals) (hn : g1.nonterminals = g.nonterminals)
    (hs : g1.startSymbol = g.startSymbol) (hm : g1.maxSymbol = g.maxSymbol)
    (hsub : ∀ r ∈ g1.rules, r ∈ g.rules) : WellFormed g1 := by
  refine ⟨by rw [hn, hs]; exact hg.start_mem, by rw [ht, hn]; exact hg.disjoint, ?_, ?_, ?_⟩
  · intro r hr; rw [hn]; exact hg.rule_lhs r (hsub r hr)
  · intro r hr; rw [ht, hn]; exact hg.rule_rhs r (hsub r hr)
  · rw [ht, hn, hm]; exact hg.le_max

theorem EpsilonFree.of_rules_subset_eps {g g1 : Grammar} (h : EpsilonFree g)
    (hs : g1.startSymbol = g.startSymbol) (hsub : ∀ r ∈ g1.rules, r ∈ g.rules) :
    EpsilonFree g1 := by
  intro r hr hempty
  obtain ⟨h1, h2⟩ := h r (hsub r hr) hempty
  rw [hs]
  exact ⟨h1, fun r1 hr1 => h2 r1 (hsub r1 hr1)⟩

theorem NoUnitRules.of_rules_subset_unit {g g1 : Grammar} (h : NoUnitRules g)
    (hn : g1.nonterminals = g.nonterminals) (hsub : ∀ r ∈ g1.rules, r ∈ g.rules) :
    NoUnitRules g1 := by
  intro r hr
  rw [hn]
  exact h r (hsub r hr)

theorem findGeneratingNonterminals_eq {g : Grammar} (h : hasLongRules g = false) :
    findGeneratingNonterminals g = Except.ok
      (untilStable (findGeneratingNonterminals.pass g) (g.rules.length + 1)
        (findGeneratingNonterminals.seed g)) := by
  unfold findGeneratingNonterminals
  simp only [h, Bool.false_eq_true, if_false]
  rfl

theorem findGeneratingNonterminals.pass_suffix_generating (g : Grammar) (s : List Symbol) :
    s <:+ findGeneratingNonterminals.pass g s := by
  apply foldl_suffix
  intro s r
  split
  · exact List.suffix_insert _ s
  · exact List.suffix_refl s

theorem nodup_subset_insert {s U : List Symbol} {a : Symbol} (hs : s.Nodup ∧ s ⊆ U)
    (ha : a ∈ U) : (s.insert a).Nodup ∧ s.insert a ⊆ U := by
  refine ⟨hs.1.insert, ?_⟩
  intro x hx
  rcases List.mem_insert_iff.1 hx with h | h
  · rw [h]; exact ha
  · exact hs.2 h

/-- The set that `findGeneratingNonterminals` returns is closed under the rules: the lhs
of a rule whose rhs nonterminals all belong to it belongs to it. -/
theorem findGeneratingNonterminals_closed {g : Grammar}
    (hshort : ∀ r ∈ g.rules, r.rhs.length ≤ 2) :
    ∃ G, findGeneratingNonterminals g = Except.ok G ∧
      ∀ r ∈ g.rules, (∀ x ∈ r.rhs, x ∈ g.nonterminals → x ∈ G) → r.lhs.at 0 ∈ G := by
  have hlong : hasLongRules g = false := (hasLongRules_false_iff g).2 hshort
  refine ⟨_, findGeneratingNonterminals_eq hlong, ?_⟩
  have hseed : (findGeneratingNonterminals.seed g).Nodup ∧
      findGeneratingNonterminals.seed g ⊆ g.rules.map (fun r => r.lhs.at 0) := by
    apply foldl_invariant (Q := fun s : List Symbol =>
      s.Nodup ∧ s ⊆ g.rules.map (fun r => r.lhs.at 0))
    · intro s r hr hs
      split
      · exact nodup_subset_insert hs (List.mem_map_of_mem _ hr)
      · exact hs
    · exact ⟨List.nodup_nil, by simp⟩
  have hpass : ∀ s : List Symbol, (s.Nodup ∧ s ⊆ g.rules.map (fun r => r.lhs.at 0)) →
      ((findGeneratingNonterminals.pass g s).Nodup ∧
        findGeneratingNonterminals.pass g s ⊆ g.rules.map (fun r => r.lhs.at 0)) := by
    intro s hs
    apply foldl_invariant (Q := fun s : List Symbol =>
      s.Nodup ∧ s ⊆ g.rules.map (fun r => r.lhs.at 0))
    · intro s r hr hs
      split
      · exact nodup_subset_insert hs (List.mem_map_of_mem _ hr)
      · exact hs
    · exact hs
  obtain ⟨-, hfix⟩ := untilStable_spec (findGeneratingNonterminals.pass g) g.rules.length _
    (findGeneratingNonterminals.pass_suffix_generating g) hpass
    (fun s hs => by
      have := nodup_subset_length_le hs.1 hs.2
      simpa using this)
    (g.rules.length + 1) (findGeneratingNonterminals.seed g) hseed (by omega)
  generalize untilStable (findGeneratingNonterminals.pass g) (g.rules.length + 1)
    (findGeneratingNonterminals.seed g) = G at hfix
  have hclosed := foldl_eq_self _ (by
    intro s r
    split
    · exact List.suffix_insert _ s
    · exact List.suffix_refl s) g.rules G hfix
  intro r hr hall
  have := hclosed r hr
  simp only [(allRHSNonterminalsIn_iff g G r.rhs).2 hall, if_true] at this
  exact mem_of_insert_eq_self this

theorem removeNonGeneratingRules_eq {g : Grammar} {G : List Symbol}
    (hG : findGeneratingNonterminals g = Except.ok G) :
    removeNonGeneratingRules g = Except.ok ⟨g.terminals, g.nonterminals, g.startSymbol,
      removeRulesOutside g G g.rules.length g.rules, g.maxSymbol⟩ := by
  unfold removeNonGeneratingRules
  rw [hG]
  rfl

/-- `removeNonGeneratingRules`, on a well-formed grammar without long rules: it succeeds
with a sublist of the rules and generates the same language. -/
theorem removeNonGeneratingRules_spec {g : Grammar} (hg : WellFormed g)
    (hshort : ∀ r ∈ g.rules, r.rhs.length ≤ 2) :
    ∃ g', removeNonGeneratingRules g = Except.ok g' ∧ g'.terminals = g.terminals ∧
      g'.nonterminals = g.nonterminals ∧ g'.startSymbol = g.startSymbol ∧
      g'.maxSymbol = g.maxSymbol ∧ (∀ r ∈ g'.rules, r ∈ g.rules) ∧ SameLanguage g g' := by
  obtain ⟨G, hG, hclosed⟩ := findGeneratingNonterminals_closed hshort
  refine ⟨_, removeNonGeneratingRules_eq hG, rfl, rfl, rfl, rfl, ?_, ⟨rfl, ?_⟩⟩
  · intro r hr
    exact ((removeRulesOutside_mem g G r).1 hr).1
  · intro w hw
    unfold Grammar.StartDerives
    simp only
    constructor
    · intro hd
      exact Derives.mono (fun r hr => ((removeRulesOutside_mem g G r).1 hr).1) hd
    · intro hd
      have hgen := Gen.of_derives hg.lhs_singleton hd
      have key : ∀ u v, Gen g.rules u v → g.IsTerminalWord v →
          (∀ x ∈ u, x ∈ g.nonterminals → x ∈ G) ∧
            Gen (removeRulesOutside g G g.rules.length g.rules) u v := by
        intro u v hgen
        induction hgen with
        | nil => intro _; exact ⟨fun x hx => by simp at hx, Gen.nil⟩
        | skip a _ ih =>
          intro hv
          obtain ⟨h1, h2⟩ := ih (fun x hx => hv x (List.mem_cons_of_mem a hx))
          refine ⟨?_, Gen.skip a h2⟩
          intro x hx hxn
          rcases List.mem_cons.1 hx with h | h
          · rw [h] at hxn
            exact absurd hxn (hg.disjoint a (hv a (List.mem_cons_self a _)))
          · exact h1 x h hxn
        | @expand a rhs u w1 w2 hr _ _ ih1 ih2 =>
          intro hv
          obtain ⟨h1, h2⟩ := ih1 (fun x hx => hv x (List.mem_append_left _ hx))
          obtain ⟨h3, h4⟩ := ih2 (fun x hx => hv x (List.mem_append_right _ hx))
          have ha : a ∈ G := by
            have := hclosed _ hr h1
            simpa [Word.at_cons_zero] using this
          refine ⟨?_, Gen.expand ((removeRulesOutside_mem g G _).2 ⟨hr, ?_, h1⟩) h2 h4⟩
          · intro x hx hxn
            rcases List.mem_cons.1 hx with h | h
            · rw [h]; exact ha
            · exact h3 x h hxn
          · simpa [Word.at_cons_zero] using ha
      exact (key _ _ hgen hw).2.derives

theorem findReachableNonterminals.inner_suffix (g : Grammar) (rhs : Word) (s : List Symbol) :
    s <:+ rhs.foldl (fun nts symbol =>
      if g.symbolIsNonterminal symbol then nts.insert symbol else nts) s := by
  apply foldl_suffix
  intro s x
  split
  · exact List.suffix_insert _ s
  · exact List.suffix_refl s

theorem findReachableNonterminals.pass_suffix_reachable (g : Grammar) (s : List Symbol) :
    s <:+ findReachableNonterminals.pass g s := by
  apply foldl_suffix
  intro s r
  split
  · exact findReachableNonterminals.inner_suffix g r.rhs s
  · exact List.suffix_refl s

/-- The set that `findReachableNonterminals` returns holds the start symbol and, with the
lhs of a rule, the nonterminals of its rhs. -/
theorem findReachableNonterminals_closed (g : Grammar) :
    g.startSymbol ∈ findReachableNonterminals g ∧
      ∀ r ∈ g.rules, r.lhs.at 0 ∈ findReachableNonterminals g →
        ∀ x ∈ r.rhs, x ∈ g.nonterminals → x ∈ findReachableNonterminals g := by
  have hinner : ∀ (rhs : Word) (s : List Symbol),
      (s.Nodup ∧ s ⊆ g.startSymbol :: g.nonterminals) →
      ((rhs.foldl (fun nts symbol =>
        if g.symbolIsNonterminal symbol then nts.insert symbol else nts) s).Nodup ∧
      rhs.foldl (fun nts symbol =>
        if g.symbolIsNonterminal symbol then nts.insert symbol else nts) s ⊆
          g.startSymbol :: g.nonterminals) := by
    intro rhs s hs
    apply foldl_invariant (Q := fun s : List Symbol =>
      s.Nodup ∧ s ⊆ g.startSymbol :: g.nonterminals)
    · intro s x _ hs
      split
      · rename_i hx
        exact nodup_subset_insert hs
          (List.mem_cons_of_mem _ ((symbolIsNonterminal_eq_true g x).1 hx))
      · exact hs
    · exact hs
  have hpass : ∀ s : List Symbol, (s.Nodup ∧ s ⊆ g.startSymbol :: g.nonterminals) →
      ((findReachableNonterminals.pass g s).Nodup ∧
        findReachableNonterminals.pass g s ⊆ g.startSymbol :: g.nonterminals) := by
    intro s hs
    apply foldl_invariant (Q := fun s : List Symbol =>
      s.Nodup ∧ s ⊆ g.startSymbol :: g.nonterminals)
    · intro s r _ hs
      split
      · exact hinner r.rhs s hs
      · exact hs
    · exact hs
  obtain ⟨-, hfix⟩ := untilStable_spec (findReachableNonterminals.pass g)
    (g.nonterminals.length + 1) _
    (findReachableNonterminals.pass_suffix_reachable g) hpass
    (fun s hs => by
      have := nodup_subset_length_le hs.1 hs.2
      simpa using this)
    (g.nonterminals.length + 1) [g.startSymbol] ⟨by simp, by simp⟩ (by simp)
  have hsuf := untilStable_suffix (findReachableNonterminals.pass g)
    (findReachableNonterminals.pass_suffix_reachable g) (g.nonterminals.length + 1) [g.startSymbol]
  unfold findReachableNonterminals
  generalize untilStable (findReachableNonterminals.pass g) (g.nonterminals.length + 1)
    [g.startSymbol] = Rch at hfix hsuf
  refine ⟨hsuf.subset (by simp), ?_⟩
  have hclosed := foldl_eq_self _ (by
    intro s r
    split
    · exact findReachableNonterminals.inner_suffix g r.rhs s
    · exact List.suffix_refl s) g.rules Rch hfix
  intro r hr hl x hx hxn
  have h1 := hclosed r hr
  simp only [hl, if_true] at h1
  have h2 := foldl_eq_self _ (by
    intro s x
    split
    · exact List.suffix_insert _ s
    · exact List.suffix_refl s) r.rhs Rch h1 x hx
  simp only [(symbolIsNonterminal_eq_true g x).2 hxn, if_true] at h2
  exact mem_of_insert_eq_self h2

/-- `removeNonReachableRules`, on a well-formed grammar: the result has a sublist of the
rules and generates the same language. -/
theorem removeNonReachableRules_spec {g : Grammar} (hg : WellFormed g) :
    (∀ r ∈ (removeNonReachableRules g).rules, r ∈ g.rules) ∧
      SameLanguage g (removeNonReachableRules g) := by
  have hmem := removeRulesOutside_mem g (findReachableNonterminals g)
  obtain ⟨hstart, hclosed⟩ := findReachableNonterminals_closed g
  have hrules : (removeNonReachableRules g).rules =
      removeRulesOutside g (findReachableNonterminals g) g.rules.length g.rules := rfl
  refine ⟨fun r hr => ((hmem r).1 (hrules ▸ hr)).1, ⟨rfl, ?_⟩⟩
  intro w _
  unfold Grammar.StartDerives
  rw [hrules]
  have hs : (removeNonReachableRules g).startSymbol = g.startSymbol := rfl
  rw [hs]
  constructor
  · intro hd
    exact Derives.mono (fun r hr => ((hmem r).1 hr).1) hd
  · intro hd
    have hgen := Gen.of_derives hg.lhs_singleton hd
    have key : ∀ u v, Gen g.rules u v →
        (∀ x ∈ u, x ∈ g.nonterminals → x ∈ findReachableNonterminals g) →
        Gen (removeRulesOutside g (findReachableNonterminals g) g.rules.length g.rules) u v := by
      intro u v hgen
      induction hgen with
      | nil => intro _; exact Gen.nil
      | skip a _ ih =>
        intro hu
        exact Gen.skip a (ih (fun x hx => hu x (List.mem_cons_of_mem a hx)))
      | @expand a rhs u w1 w2 hr _ _ ih1 ih2 =>
        intro hu
        have han : a ∈ g.nonterminals := by
          have := (hg.lhs_eq hr).2
          simpa [Word.at_cons_zero] using this
        have ha : a ∈ findReachableNonterminals g := hu a (List.mem_cons_self a u) han
        have hrhs : ∀ x ∈ rhs, x ∈ g.nonterminals → x ∈ findReachableNonterminals g :=
          hclosed _ hr (by simpa [Word.at_cons_zero] using ha)
        refine Gen.expand ((hmem _).2 ⟨hr, by simpa [Word.at_cons_zero] using ha, hrhs⟩)
          (ih1 hrhs) (ih2 (fun x hx => hu x (List.mem_cons_of_mem a hx)))
    refine (key _ _ hgen ?_).derives
    intro x hx _
    simp only [List.mem_singleton] at hx
    rw [hx]
    exact hstart

/-! ## `removeMixedRules` -/

theorem extends_mint_one (g : Grammar) (rules : List Rule) :
    Extends g ⟨g.terminals, g.nonterminals.insert (g.maxSymbol + 1), g.startSymbol, rules,
      g.maxSymbol + 1⟩ := by
  refine ⟨rfl, rfl, symbol_le_succ _, fun x => ?_⟩
  simp only [List.mem_insert_iff]
  constructor
  · rintro (hx | hx)
    · right; rw [hx]; exact ⟨by linarith, le_refl _⟩
    · exact Or.inl hx
  · rintro (hx | ⟨hx1, hx2⟩)
    · exact Or.inr hx
    · left
      exact le_antisymm hx2 (Int.add_one_le_of_lt hx1)

theorem extends_mint_two (g : Grammar) (rules : List Rule) :
    Extends g ⟨g.terminals, (g.nonterminals.insert (g.maxSymbol + 1)).insert (g.maxSymbol + 1 + 1),
      g.startSymbol, rules, g.maxSymbol + 1 + 1⟩ := by
  have h1 := extends_mint_one g rules
  have h2 := extends_mint_one ⟨g.terminals, g.nonterminals.insert (g.maxSymbol + 1),
    g.startSymbol, rules, g.maxSymbol + 1⟩ rules
  exact h1.trans_extends h2

/-- The properties of the grammar that a round of `removeMixedRules` maintains, from
those of the rules it pushes. -/
theorem mixed_step_ok {g g1 : Grammar} {pre post fresh : List Rule} {r : Rule}
    (hg : WellFormed g) (hrules : g.rules = pre ++ r :: post) (hext : Extends g g1)
    (hrules1 : g1.rules = pre ++ (post ++ fresh)) (_hrhs : r.rhs.length = 2)
    (hfresh : ∀ r1 ∈ fresh, MixedRuleOK g g1 r r1) :
    WellFormed g1 ∧ (NoUnitRules g → NoUnitRules g1) ∧ (EpsilonFree g → EpsilonFree g1) ∧
      ((∀ r ∈ g.rules, r.rhs.length ≤ 2) → ∀ r ∈ g1.rules, r.rhs.length ≤ 2) ∧
      ((∀ r ∈ post, r.rhs.length = 2 →
          r.rhs.at 0 ∈ g.nonterminals ∧ r.rhs.at 1 ∈ g.nonterminals) →
        ∀ r ∈ post ++ fresh, r.rhs.length = 2 →
          r.rhs.at 0 ∈ g1.nonterminals ∧ r.rhs.at 1 ∈ g1.nonterminals) := by
  have hr_mem : r ∈ g.rules := by rw [hrules]; simp
  have hold : ∀ r1 ∈ g1.rules, r1 ∈ g.rules ∨ r1 ∈ fresh := by
    intro r1 hr1
    rw [hrules1] at hr1
    rw [hrules]
    simp only [List.mem_append, List.mem_cons] at hr1 ⊢
    rcases hr1 with h | h | h
    · exact Or.inl (Or.inl h)
    · exact Or.inl (Or.inr (Or.inr h))
    · exact Or.inr h
  have hterm : ∀ x ∈ g.terminals, x ∉ g1.nonterminals := by
    intro x hx hx1
    rcases (hext.mem_nonterminals x).1 hx1 with h | ⟨h, -⟩
    · exact hg.disjoint x hx h
    · exact absurd (hg.le_max x (Or.inl hx)) (not_le.2 h)
  have hlen : ∀ r1 ∈ fresh, r1.rhs.length ≤ 2 ∧ r1.rhs ≠ [] := by
    intro r1 hr1
    rcases (hfresh r1 hr1).shape with ⟨h, -⟩ | ⟨h, -⟩
    · exact ⟨by omega, fun hh => by rw [hh] at h; simp at h⟩
    · exact ⟨by omega, fun hh => by rw [hh] at h; simp at h⟩
  have hwf : WellFormed g1 := by
    refine hg.of_extends hext ?_
    intro r1 hr1
    rcases hold r1 hr1 with h | h
    · obtain ⟨a, ha, hl⟩ := hg.rule_lhs r1 h
      exact ⟨⟨a, (hext.mem_nonterminals a).2 (Or.inl ha), hl⟩,
        fun x hx => hext.mem_of_mem (hg.rule_rhs r1 h x hx)⟩
    · refine ⟨(hfresh r1 h).lhs, ?_⟩
      intro x hx
      rcases (hfresh r1 h).shape with ⟨h1, h2, h3⟩ | ⟨h1, h2⟩
      · have := two_of_length_ge (le_of_eq h1.symm) (le_of_eq h1)
        rw [this] at hx
        simp only [List.mem_cons, List.mem_singleton, List.not_mem_nil, or_false] at hx
        rcases hx with hx | hx
        · rw [hx]; exact Or.inr h2
        · rw [hx]; exact Or.inr h3
      · have := one_of_length_eq h1
        rw [this] at hx
        simp only [List.mem_singleton] at hx
        rw [hx, hext.terminals_eq]
        exact Or.inl h2
  refine ⟨hwf, ?_, ?_, ?_, ?_⟩
  · intro hnu r1 hr1 hunit
    rcases hold r1 hr1 with h | h
    · apply hnu r1 h
      refine ⟨hunit.1, ?_⟩
      rcases (hext.mem_nonterminals _).1 hunit.2 with h1 | ⟨h1, -⟩
      · exact h1
      · have hmem : r1.rhs.at 0 ∈ r1.rhs := Word.at_mem (by omega)
        exact absurd (hg.le_max _ (hg.rule_rhs r1 h _ hmem)) (not_le.2 h1)
    · rcases (hfresh r1 h).shape with ⟨h1, -⟩ | ⟨-, h2⟩
      · omega
      · exact hterm _ h2 hunit.2
  · intro heps r1 hr1 hempty
    rcases hold r1 hr1 with h | h
    · obtain ⟨e1, e2⟩ := heps r1 h hempty
      rw [hext.start_eq]
      refine ⟨e1, ?_⟩
      intro r2 hr2 hmem
      rcases hold r2 hr2 with h' | h'
      · exact e2 r2 h' hmem
      · rcases (hfresh r2 h').origin _ hmem with h3 | h3
        · exact e2 r hr_mem h3
        · exact absurd hg.start_le (not_le.2 h3)
    · exact absurd hempty (hlen r1 h).2
  · intro hshort r1 hr1
    rcases hold r1 hr1 with h | h
    · exact hshort r1 h
    · exact (hlen r1 h).1
  · intro hpost r1 hr1 hlen2
    rcases List.mem_append.1 hr1 with h | h
    · obtain ⟨h1, h2⟩ := hpost r1 h hlen2
      exact ⟨(hext.mem_nonterminals _).2 (Or.inl h1), (hext.mem_nonterminals _).2 (Or.inl h2)⟩
    · rcases (hfresh r1 h).shape with ⟨-, h2, h3⟩ | ⟨h1, -⟩
      · exact ⟨h2, h3⟩
      · omega

/-- Replacing one symbol `t` of the rhs of a rule by a new nonterminal with the rule
`n → t` keeps the derivations over the old symbols. -/
theorem mixed_equiv_one {rules pre post : List Rule} {l p q : Word} {t m : Symbol}
    (hbelow : RulesBelow m rules) (hrules : rules = pre ++ ⟨l, p ++ [t] ++ q⟩ :: post) :
    EquivBelow m rules
      (pre ++ (post ++ [⟨l, p ++ [m + 1] ++ q⟩, ⟨[m + 1], [t]⟩])) := by
  refine split_rule_equiv [t] (A := l) (p := p) (q := q) (n := m + 1)
    (by linarith) hbelow (by rw [hrules]; simp) ?_ (by simp) (by simp) ?_
  · intro r hr
    rw [hrules] at hr
    simp only [List.mem_append, List.mem_cons] at hr ⊢
    rcases hr with h | h | h
    · exact Or.inr (Or.inl h)
    · exact Or.inl h
    · exact Or.inr (Or.inr (Or.inl h))
  · intro r hr
    rw [hrules]
    simp only [List.mem_append, List.mem_cons, List.mem_singleton, List.not_mem_nil,
      or_false] at hr ⊢
    rcases hr with h | h | h | h
    · exact Or.inl (Or.inl h)
    · exact Or.inl (Or.inr (Or.inr h))
    · exact Or.inr (Or.inl h)
    · exact Or.inr (Or.inr h)

/-- Replacing both symbols of the rhs of a rule by new nonterminals keeps the derivations
over the old symbols. -/
theorem mixed_equiv_two {rules pre post : List Rule} {l : Word} {t1 t2 m : Symbol}
    (hbelow : RulesBelow m rules) (hrules : rules = pre ++ ⟨l, [t1, t2]⟩ :: post) :
    EquivBelow m rules
      (pre ++ (post ++ [⟨[m + 1], [t1]⟩, ⟨[m + 1 + 1], [t2]⟩, ⟨l, [m + 1, m + 1 + 1]⟩])) := by
  have hr0 : (⟨l, [t1, t2]⟩ : Rule) ∈ rules := by rw [hrules]; simp
  have hb0 := hbelow _ hr0
  have hmid : EquivBelow m rules
      (⟨l, [m + 1, t2]⟩ :: ⟨[m + 1], [t1]⟩ :: (pre ++ post)) := by
    refine split_rule_equiv [t1] (A := l) (p := []) (q := [t2]) (n := m + 1)
      (by linarith) hbelow (by simpa using hr0) ?_ (by simp) (by simp) ?_
    · intro r hr
      rw [hrules] at hr
      simp only [List.mem_append, List.mem_cons] at hr ⊢
      rcases hr with h | h | h
      · exact Or.inr (Or.inr (Or.inr (Or.inl h)))
      · exact Or.inl h
      · exact Or.inr (Or.inr (Or.inr (Or.inr h)))
    · intro r hr
      rw [hrules]
      simp only [List.mem_append, List.mem_cons] at hr ⊢
      rcases hr with h | h | h | h
      · exact Or.inr (Or.inl h)
      · exact Or.inr (Or.inr h)
      · exact Or.inl (Or.inl h)
      · exact Or.inl (Or.inr (Or.inr h))
  have hbelow1 : RulesBelow (m + 1) (⟨l, [m + 1, t2]⟩ :: ⟨[m + 1], [t1]⟩ :: (pre ++ post)) := by
    intro r hr
    simp only [List.mem_cons, List.mem_append] at hr
    have hle : m ≤ m + 1 := symbol_le_succ m
    rcases hr with h | h | h
    · rw [h]
      refine ⟨fun x hx => le_trans (hb0.1 x hx) hle, fun x hx => ?_⟩
      simp only [List.mem_cons, List.mem_singleton, List.not_mem_nil, or_false] at hx
      rcases hx with hx | hx
      · rw [hx]
      · rw [hx]; exact le_trans (hb0.2 t2 (by simp)) hle
    · rw [h]
      refine ⟨fun x hx => by simp only [List.mem_singleton] at hx; rw [hx], fun x hx => ?_⟩
      simp only [List.mem_singleton] at hx
      rw [hx]; exact le_trans (hb0.2 t1 (by simp)) hle
    · exact (hbelow.mono_below hle) r (by rw [hrules]; simp only [List.mem_append, List.mem_cons]; tauto)
  have hlast : EquivBelow (m + 1) (⟨l, [m + 1, t2]⟩ :: ⟨[m + 1], [t1]⟩ :: (pre ++ post))
      (pre ++ (post ++ [⟨[m + 1], [t1]⟩, ⟨[m + 1 + 1], [t2]⟩, ⟨l, [m + 1, m + 1 + 1]⟩])) := by
    refine split_rule_equiv [t2] (A := l) (p := [m + 1]) (q := []) (n := m + 1 + 1)
      (by linarith) hbelow1 (by simp) ?_ (by simp) (by simp) ?_
    · intro r hr
      simp only [List.mem_append, List.mem_cons, List.mem_singleton, List.not_mem_nil,
        or_false] at hr ⊢
      rcases hr with h | h | h | h
      · exact Or.inl (by simpa using h)
      · exact Or.inr (Or.inr (Or.inr (Or.inl h)))
      · exact Or.inr (Or.inl h)
      · exact Or.inr (Or.inr (Or.inl h))
    · intro r hr
      simp only [List.mem_append, List.mem_cons, List.mem_singleton, List.not_mem_nil,
        or_false] at hr ⊢
      rcases hr with h | h | h | h | h
      · exact Or.inl (Or.inr (Or.inr (Or.inl h)))
      · exact Or.inl (Or.inr (Or.inr (Or.inr h)))
      · exact Or.inl (Or.inr (Or.inl h))
      · exact Or.inr (Or.inr h)
      · exact Or.inr (Or.inl (by simpa using h))
  exact EquivBelow.trans_equiv (symbol_le_succ m) hmid hlast

theorem symbolIsTerminal_eq_true (g : Grammar) (x : Symbol) :
    g.symbolIsTerminal x = true ↔ x ∈ g.terminals := by
  simp [Grammar.symbolIsTerminal]

theorem removeMixedRules_loop_spec :
    ∀ (i : Nat) (g g' : Grammar) (pre post : List Rule),
      WellFormed g → (∀ r ∈ g.rules, r.rhs.length ≤ 2) → g.rules = pre ++ post →
      pre.length = i →
      (∀ r ∈ post, r.rhs.length = 2 →
        r.rhs.at 0 ∈ g.nonterminals ∧ r.rhs.at 1 ∈ g.nonterminals) →
      removeMixedRules.loop i g = Except.ok g' →
      WellFormed g' ∧ Extends g g' ∧ EquivBelow g.maxSymbol g.rules g'.rules ∧
        (∀ r ∈ g'.rules, r.rhs.length ≤ 2) ∧ PairsAreNonterminals g' ∧
        (NoUnitRules g → NoUnitRules g') ∧ (EpsilonFree g → EpsilonFree g') := by
  intro i
  induction i with
  | zero =>
    intro g g' pre post hg hshort hrules hpre hpost hloop
    simp only [removeMixedRules.loop, pure, Except.pure, Except.ok.injEq] at hloop
    subst hloop
    have : pre = [] := List.length_eq_zero.1 hpre
    rw [this, List.nil_append] at hrules
    exact ⟨hg, Extends.refl_extends g, EquivBelow.refl_equiv _ _, hshort, by
      intro r hr; rw [hrules] at hr; exact hpost r hr, fun h => h, fun h => h⟩
  | succ i ih =>
    intro g g' pre post hg hshort hrules hpre hpost hloop
    obtain ⟨pre1, r, hpre1, hlen1⟩ := exists_concat_of_length_succ hpre
    have hrules' : g.rules = pre1 ++ r :: post := by rw [hrules, hpre1]; simp
    have hget : g.rules.getD i default = r := by
      rw [hrules', ← hlen1]; exact getD_append_length pre1 post r default
    have hr_mem : r ∈ g.rules := by rw [hrules']; simp
    obtain ⟨a, ha, hla⟩ := hg.rule_lhs r hr_mem
    rw [removeMixedRules.loop] at hloop
    simp only [hget] at hloop
    by_cases hskip : r.rhs.length < 2 ∨ (g.symbolIsNonterminal (r.rhs.at 0) = true ∧
        g.symbolIsNonterminal (r.rhs.at 1) = true)
    · simp only [hskip, if_true] at hloop
      refine ih g g' pre1 (r :: post) hg hshort hrules' hlen1 ?_ hloop
      intro r1 hr1 hlen2
      rcases List.mem_cons.1 hr1 with h | h
      · rw [h] at hlen2 ⊢
        rcases hskip with hs | ⟨hs1, hs2⟩
        · omega
        · exact ⟨(symbolIsNonterminal_eq_true g _).1 hs1, (symbolIsNonterminal_eq_true g _).1 hs2⟩
      · exact hpost r1 h hlen2
    · simp only [hskip, if_false] at hloop
      push_neg at hskip
      obtain ⟨hlen2, hnotNN⟩ := hskip
      have hlen : r.rhs.length = 2 := le_antisymm (hshort r hr_mem) hlen2
      have hrhs := two_of_length_ge hlen2 (hshort r hr_mem)
      have hb := hg.rule_rhs r hr_mem (r.rhs.at 0) (Word.at_mem (by omega))
      have hc := hg.rule_rhs r hr_mem (r.rhs.at 1) (Word.at_mem (by omega))
      have hrdef : r = ⟨[a], [r.rhs.at 0, r.rhs.at 1]⟩ := by
        cases r
        simp only at hla hrhs ⊢
        rw [hla]
        rw [Rule.mk.injEq]
        exact ⟨rfl, hrhs⟩
      by_cases hm : g.maxSymbol = Symbol.maxValue
      · exfalso
        simp only [addNewNonterminal_eq, hm, if_true, bind, Except.bind] at hloop
        split at hloop
        · simp at hloop
        · split at hloop
          · simp at hloop
          · simp at hloop
      · have hmint : g.addNewNonterminal = Except.ok (g.maxSymbol + 1,
            ⟨g.terminals, g.nonterminals.insert (g.maxSymbol + 1), g.startSymbol, g.rules,
              g.maxSymbol + 1⟩) := by
          rw [addNewNonterminal_eq]; simp [hm]
        have hfreshmem : g.maxSymbol + 1 ∈ g.nonterminals.insert (g.maxSymbol + 1) :=
          List.mem_insert_self _ _
        by_cases hNT : g.symbolIsNonterminal (r.rhs.at 0) = true ∧
            g.symbolIsTerminal (r.rhs.at 1) = true
        · -- nonterminal, terminal
          simp only [hNT, and_self, if_true, hmint, bind, Except.bind] at hloop
          have hb' := (symbolIsNonterminal_eq_true g _).1 hNT.1
          have hc' := (symbolIsTerminal_eq_true g _).1 hNT.2
          have hr5 : (g.rules ++ [(⟨r.lhs, [r.rhs.at 0, g.maxSymbol + 1]⟩ : Rule)] ++
              [(⟨[g.maxSymbol + 1], [r.rhs.at 1]⟩ : Rule)]).eraseIdx i =
                pre1 ++ (post ++ [⟨r.lhs, [r.rhs.at 0] ++ [g.maxSymbol + 1] ++ []⟩,
                  ⟨[g.maxSymbol + 1], [r.rhs.at 1]⟩]) := by
            rw [hrules', ← hlen1]
            simp only [List.append_assoc, List.cons_append, List.nil_append,
              List.singleton_append, List.append_nil]
            exact eraseIdx_append_length pre1 _ r
          have hloop' : removeMixedRules.loop i ⟨g.terminals,
              g.nonterminals.insert (g.maxSymbol + 1), g.startSymbol,
              pre1 ++ (post ++ [⟨r.lhs, [r.rhs.at 0] ++ [g.maxSymbol + 1] ++ []⟩,
                ⟨[g.maxSymbol + 1], [r.rhs.at 1]⟩]), g.maxSymbol + 1⟩ = Except.ok g' := by
            rw [← hr5]
            simpa [pushRule, Word.at_cons_zero, Word.at_cons_succ] using hloop
          have hext := extends_mint_one g (pre1 ++ (post ++
            [⟨r.lhs, [r.rhs.at 0] ++ [g.maxSymbol + 1] ++ []⟩, ⟨[g.maxSymbol + 1], [r.rhs.at 1]⟩]))
          obtain ⟨s1, s2, s3, s4, s5⟩ := mixed_step_ok hg hrules' hext rfl hlen (by
            intro r1 hr1
            simp only [List.mem_cons, List.mem_singleton, List.not_mem_nil, or_false] at hr1
            rcases hr1 with h | h
            · rw [h]
              refine ⟨⟨a, List.mem_insert_of_mem ha, hla⟩, Or.inl ⟨rfl, ?_, ?_⟩, ?_⟩
              · exact List.mem_insert_of_mem hb'
              · exact hfreshmem
              · intro x hx
                simp only [List.append_nil, List.singleton_append, List.mem_cons,
                  List.mem_singleton, List.not_mem_nil, or_false] at hx
                rcases hx with hx | hx
                · left; rw [hx]; exact Word.at_mem (by omega)
                · right; rw [hx]; linarith
            · rw [h]
              refine ⟨⟨_, hfreshmem, rfl⟩, Or.inr ⟨rfl, hc'⟩, ?_⟩
              intro x hx
              simp only [List.mem_singleton] at hx
              left; rw [hx]; exact Word.at_mem (by omega))
          obtain ⟨c1, c2, c3, c4, c5, c6, c7⟩ := ih _ g' pre1 _ s1 (s4 hshort) rfl hlen1
            (s5 hpost) hloop'
          refine ⟨c1, hext.trans_extends c2, ?_, c4, c5, fun h => c6 (s2 h), fun h => c7 (s3 h)⟩
          refine EquivBelow.trans_equiv hext.max_le ?_ c3
          exact mixed_equiv_one (p := [r.rhs.at 0]) (q := []) hg.rulesBelow (by
            rw [hrules']
            congr 2
            simpa using hrdef.trans (by rw [hla]))
        · simp only [hNT, if_false] at hloop
          by_cases hTN : g.symbolIsTerminal (r.rhs.at 0) = true ∧
              g.symbolIsNonterminal (r.rhs.at 1) = true
          · -- terminal, nonterminal
            simp only [hTN, and_self, if_true, hmint, bind, Except.bind] at hloop
            have hb' := (symbolIsTerminal_eq_true g _).1 hTN.1
            have hc' := (symbolIsNonterminal_eq_true g _).1 hTN.2
            have hr5 : (g.rules ++ [(⟨r.lhs, [g.maxSymbol + 1, r.rhs.at 1]⟩ : Rule)] ++
                [(⟨[g.maxSymbol + 1], [r.rhs.at 0]⟩ : Rule)]).eraseIdx i =
                  pre1 ++ (post ++ [⟨r.lhs, [] ++ [g.maxSymbol + 1] ++ [r.rhs.at 1]⟩,
                    ⟨[g.maxSymbol + 1], [r.rhs.at 0]⟩]) := by
              rw [hrules', ← hlen1]
              simp only [List.append_assoc, List.cons_append, List.nil_append,
                List.singleton_append, List.append_nil]
              exact eraseIdx_append_length pre1 _ r
            have hloop' : removeMixedRules.loop i ⟨g.terminals,
                g.nonterminals.insert (g.maxSymbol + 1), g.startSymbol,
                pre1 ++ (post ++ [⟨r.lhs, [] ++ [g.maxSymbol + 1] ++ [r.rhs.at 1]⟩,
                  ⟨[g.maxSymbol + 1], [r.rhs.at 0]⟩]), g.maxSymbol + 1⟩ = Except.ok g' := by
              rw [← hr5]
              simpa [pushRule, Word.at_cons_zero, Word.at_cons_succ] using hloop
            have hext := extends_mint_one g (pre1 ++ (post ++
              [⟨r.lhs, [] ++ [g.maxSymbol + 1] ++ [r.rhs.at 1]⟩, ⟨[g.maxSymbol + 1], [r.rhs.at 0]⟩]))
            obtain ⟨s1, s2, s3, s4, s5⟩ := mixed_step_ok hg hrules' hext rfl hlen (by
              intro r1 hr1
              simp only [List.mem_cons, List.mem_singleton, List.not_mem_nil, or_false] at hr1
              rcases hr1 with h | h
              · rw [h]
                refine ⟨⟨a, List.mem_insert_of_mem ha, hla⟩, Or.inl ⟨rfl, ?_, ?_⟩, ?_⟩
                · exact hfreshmem
                · exact List.mem_insert_of_mem hc'
                · intro x hx
                  simp only [List.nil_append, List.singleton_append, List.mem_cons,
                    List.mem_singleton, List.not_mem_nil, or_false] at hx
                  rcases hx with hx | hx
                  · right; rw [hx]; linarith
                  · left; rw [hx]; exact Word.at_mem (by omega)
              · rw [h]
                refine ⟨⟨_, hfreshmem, rfl⟩, Or.inr ⟨rfl, hb'⟩, ?_⟩
                intro x hx
                simp only [List.mem_singleton] at hx
                left; rw [hx]; exact Word.at_mem (by omega))
            obtain ⟨c1, c2, c3, c4, c5, c6, c7⟩ := ih _ g' pre1 _ s1 (s4 hshort) rfl hlen1
              (s5 hpost) hloop'
            refine ⟨c1, hext.trans_extends c2, ?_, c4, c5, fun h => c6 (s2 h), fun h => c7 (s3 h)⟩
            refine EquivBelow.trans_equiv hext.max_le ?_ c3
            exact mixed_equiv_one (p := []) (q := [r.rhs.at 1]) hg.rulesBelow (by
              rw [hrules']
              congr 2
              simpa using hrdef.trans (by rw [hla]))
          · -- terminal, terminal
            simp only [hTN, if_false, hmint, bind, Except.bind] at hloop
            have hb' : r.rhs.at 0 ∈ g.terminals := by
              rcases hb with h | h
              · exact h
              · exfalso
                have h1 := (symbolIsNonterminal_eq_true g _).2 h
                rcases hc with h' | h'
                · exact hNT ⟨h1, (symbolIsTerminal_eq_true g _).2 h'⟩
                · exact absurd ((symbolIsNonterminal_eq_true g _).2 h') (hnotNN h1)
            have hc' : r.rhs.at 1 ∈ g.terminals := by
              rcases hc with h | h
              · exact h
              · exfalso
                exact hTN ⟨(symbolIsTerminal_eq_true g _).2 hb',
                  (symbolIsNonterminal_eq_true g _).2 h⟩
            have hm2 : ¬ (g.maxSymbol + 1 = Symbol.maxValue) ∨
                g.maxSymbol + 1 = Symbol.maxValue := by tauto
            rcases hm2 with hm2 | hm2
            · have hmint2 : Grammar.addNewNonterminal ⟨g.terminals,
                  g.nonterminals.insert (g.maxSymbol + 1), g.startSymbol, g.rules,
                  g.maxSymbol + 1⟩ = Except.ok (g.maxSymbol + 1 + 1,
                    ⟨g.terminals, (g.nonterminals.insert (g.maxSymbol + 1)).insert
                      (g.maxSymbol + 1 + 1), g.startSymbol, g.rules, g.maxSymbol + 1 + 1⟩) := by
                rw [addNewNonterminal_eq]; simp [hm2]
              simp only [hmint2] at hloop
              have hr5 : (g.rules ++ [(⟨[g.maxSymbol + 1], [r.rhs.at 0]⟩ : Rule)] ++
                  [(⟨[g.maxSymbol + 1 + 1], [r.rhs.at 1]⟩ : Rule)] ++
                  [(⟨r.lhs, [g.maxSymbol + 1, g.maxSymbol + 1 + 1]⟩ : Rule)]).eraseIdx i =
                    pre1 ++ (post ++ [⟨[g.maxSymbol + 1], [r.rhs.at 0]⟩,
                      ⟨[g.maxSymbol + 1 + 1], [r.rhs.at 1]⟩,
                      ⟨r.lhs, [g.maxSymbol + 1, g.maxSymbol + 1 + 1]⟩]) := by
                rw [hrules', ← hlen1]
                simp only [List.append_assoc, List.cons_append, List.nil_append,
                  List.singleton_append, List.append_nil]
                exact eraseIdx_append_length pre1 _ r
              have hloop' : removeMixedRules.loop i ⟨g.terminals,
                  (g.nonterminals.insert (g.maxSymbol + 1)).insert (g.maxSymbol + 1 + 1),
                  g.startSymbol,
                  pre1 ++ (post ++ [⟨[g.maxSymbol + 1], [r.rhs.at 0]⟩,
                    ⟨[g.maxSymbol + 1 + 1], [r.rhs.at 1]⟩,
                    ⟨r.lhs, [g.maxSymbol + 1, g.maxSymbol + 1 + 1]⟩]),
                  g.maxSymbol + 1 + 1⟩ = Except.ok g' := by
                rw [← hr5]
                simpa [pushRule, Word.at_cons_zero, Word.at_cons_succ] using hloop
              have hext := extends_mint_two g (pre1 ++ (post ++
                [⟨[g.maxSymbol + 1], [r.rhs.at 0]⟩, ⟨[g.maxSymbol + 1 + 1], [r.rhs.at 1]⟩,
                  ⟨r.lhs, [g.maxSymbol + 1, g.maxSymbol + 1 + 1]⟩]))
              have hf1 : g.maxSymbol + 1 ∈
                  (g.nonterminals.insert (g.maxSymbol + 1)).insert (g.maxSymbol + 1 + 1) :=
                List.mem_insert_of_mem hfreshmem
              have hf2 : g.maxSymbol + 1 + 1 ∈
                  (g.nonterminals.insert (g.maxSymbol + 1)).insert (g.maxSymbol + 1 + 1) :=
                List.mem_insert_self _ _
              obtain ⟨s1, s2, s3, s4, s5⟩ := mixed_step_ok hg hrules' hext rfl hlen (by
                intro r1 hr1
                simp only [List.mem_cons, List.mem_singleton, List.not_mem_nil, or_false] at hr1
                rcases hr1 with h | h | h
                · rw [h]
                  refine ⟨⟨_, hf1, rfl⟩, Or.inr ⟨rfl, hb'⟩, ?_⟩
                  intro x hx
                  simp only [List.mem_singleton] at hx
                  left; rw [hx]; exact Word.at_mem (by omega)
                · rw [h]
                  refine ⟨⟨_, hf2, rfl⟩, Or.inr ⟨rfl, hc'⟩, ?_⟩
                  intro x hx
                  simp only [List.mem_singleton] at hx
                  left; rw [hx]; exact Word.at_mem (by omega)
                · rw [h]
                  refine ⟨⟨a, List.mem_insert_of_mem (List.mem_insert_of_mem ha), hla⟩,
                    Or.inl ⟨rfl, hf1, hf2⟩, ?_⟩
                  intro x hx
                  simp only [List.mem_cons, List.mem_singleton, List.not_mem_nil, or_false] at hx
                  rcases hx with hx | hx
                  · right; rw [hx]; linarith
                  · right; rw [hx]; linarith)
              obtain ⟨c1, c2, c3, c4, c5, c6, c7⟩ := ih _ g' pre1 _ s1 (s4 hshort) rfl hlen1
                (s5 hpost) hloop'
              refine ⟨c1, hext.trans_extends c2, ?_, c4, c5, fun h => c6 (s2 h), fun h => c7 (s3 h)⟩
              refine EquivBelow.trans_equiv hext.max_le ?_ c3
              exact mixed_equiv_two hg.rulesBelow (by
                rw [hrules']
                congr 2
                exact hrdef.trans (by rw [hla]))
            · exfalso
              simp [addNewNonterminal_eq, hm2] at hloop

/-- `removeMixedRules`, on a well-formed grammar without long rules: the result is
well-formed, every rhs of two symbols consists of nonterminals, the other shapes survive,
and the derivations between words over the old symbols are the same. -/
theorem removeMixedRules_spec {g g' : Grammar} (hg : WellFormed g)
    (hshort : ∀ r ∈ g.rules, r.rhs.length ≤ 2) (h : removeMixedRules g = Except.ok g') :
    WellFormed g' ∧ Extends g g' ∧ EquivBelow g.maxSymbol g.rules g'.rules ∧
      (∀ r ∈ g'.rules, r.rhs.length ≤ 2) ∧ PairsAreNonterminals g' ∧
      (NoUnitRules g → NoUnitRules g') ∧ (EpsilonFree g → EpsilonFree g') := by
  have hlong : hasLongRules g = false := (hasLongRules_false_iff g).2 hshort
  unfold removeMixedRules at h
  simp only [hlong, Bool.false_eq_true, if_false] at h
  exact removeMixedRules_loop_spec g.rules.length g g' g.rules [] hg hshort (by simp) rfl
    (by simp) h

/-! ## `normalize` -/

theorem chomskyShape_of_isNormalized {g : Grammar} (hg : WellFormed g)
    (h : isNormalized g = true) : ChomskyShape g := by
  have hshape : ∀ r ∈ g.rules,
      (∃ t ∈ g.terminals, r.rhs = [t]) ∨
      (∃ a ∈ g.nonterminals, ∃ b ∈ g.nonterminals,
        r.rhs = [a, b] ∧ a ≠ g.startSymbol ∧ b ≠ g.startSymbol) ∨
      (r.rhs = [] ∧ r.lhs = [g.startSymbol]) := by
    intro r hr
    simp only [isNormalized, List.all_eq_true, Bool.not_eq_true'] at h
    exact (violates_false_iff hg hr).1 (h r hr)
  refine ⟨hg, ?_, ?_, ?_, ?_⟩
  · intro r hr
    rcases hshape r hr with ⟨t, -, h1⟩ | ⟨a, -, b, -, h1, -⟩ | ⟨h1, -⟩ <;> simp [h1]
  · intro r hr hempty
    rcases hshape r hr with ⟨t, -, h1⟩ | ⟨a, -, b, -, h1, -⟩ | ⟨-, h2⟩
    · rw [h1] at hempty; simp at hempty
    · rw [h1] at hempty; simp at hempty
    · refine ⟨h2, ?_⟩
      intro r1 hr1 hmem
      rcases hshape r1 hr1 with ⟨t, ht, h1⟩ | ⟨a, -, b, -, h1, ha, hb⟩ | ⟨h1, -⟩
      · rw [h1] at hmem
        simp only [List.mem_singleton] at hmem
        rw [← hmem] at ht
        exact hg.disjoint _ ht hg.start_mem
      · rw [h1] at hmem
        simp only [List.mem_cons, List.mem_singleton, List.not_mem_nil, or_false] at hmem
        rcases hmem with h3 | h3
        · exact ha h3.symm
        · exact hb h3.symm
      · rw [h1] at hmem; simp at hmem
  · intro r hr hunit
    rcases hshape r hr with ⟨t, ht, h1⟩ | ⟨a, -, b, -, h1, -⟩ | ⟨h1, -⟩
    · rw [h1, Word.at_cons_zero] at hunit
      exact hg.disjoint t ht hunit.2
    · rw [h1] at hunit; simp at hunit
    · rw [h1] at hunit; simp at hunit
  · intro r hr hlen
    rcases hshape r hr with ⟨t, -, h1⟩ | ⟨a, ha, b, hb, h1, -⟩ | ⟨h1, -⟩
    · rw [h1] at hlen; simp at hlen
    · rw [h1]; exact ⟨ha, hb⟩
    · rw [h1] at hlen; simp at hlen

/-- `normalize` (and `normalized`), on a well-formed grammar: when it succeeds, the result
has the shape that CYK relies on and generates the same language. -/
theorem normalize_spec {g g' : Grammar} (hg : WellFormed g)
    (h : ContextFreeGrammar.normalize g = Except.ok g') :
    ChomskyShape g' ∧ SameLanguage g g' := by
  unfold ContextFreeGrammar.normalize at h
  by_cases hnorm : isNormalized g = true
  · simp only [hnorm, if_true, pure, Except.pure, Except.ok.injEq] at h
    subst h
    exact ⟨chomskyShape_of_isNormalized hg hnorm, SameLanguage.refl_language g⟩
  · simp only [hnorm, if_false, bind, Except.bind] at h
    cases h1 : removeLongRules g with
    | error e => rw [h1] at h; simp at h
    | ok g1 =>
      rw [h1] at h
      simp only at h
      obtain ⟨wf1, ext1, short1, eq1⟩ := removeLongRules_spec hg h1
      have lang1 : SameLanguage g g1 :=
        SameLanguage.of_equivBelow hg ext1.terminals_eq ext1.start_eq eq1
      cases h2 : removeEmptyRules g1 with
      | error e => rw [h2] at h; simp at h
      | ok g2 =>
        rw [h2] at h
        simp only at h
        obtain ⟨wf2, short2, eps2, lang2⟩ := removeEmptyRules_spec wf1 short1 h2
        obtain ⟨wf3, short3, eps3, nu3, lang3⟩ := removeChainRules_spec wf2 short2 eps2
        obtain ⟨g4, h4, t4, n4, s4, m4, sub4, lang4⟩ := removeNonGeneratingRules_spec wf3 short3
        rw [h4] at h
        simp only at h
        have wf4 : WellFormed g4 := wf3.of_rules_subset t4 n4 s4 m4 sub4
        have short4 : ∀ r ∈ g4.rules, r.rhs.length ≤ 2 := fun r hr => short3 r (sub4 r hr)
        have eps4 : EpsilonFree g4 := eps3.of_rules_subset_eps s4 sub4
        have nu4 : NoUnitRules g4 := nu3.of_rules_subset_unit n4 sub4
        obtain ⟨sub5, lang5⟩ := removeNonReachableRules_spec wf4
        have wf5 : WellFormed (removeNonReachableRules g4) :=
          wf4.of_rules_subset rfl rfl rfl rfl sub5
        have short5 : ∀ r ∈ (removeNonReachableRules g4).rules, r.rhs.length ≤ 2 :=
          fun r hr => short4 r (sub5 r hr)
        have eps5 : EpsilonFree (removeNonReachableRules g4) := eps4.of_rules_subset_eps rfl sub5
        have nu5 : NoUnitRules (removeNonReachableRules g4) := nu4.of_rules_subset_unit rfl sub5
        obtain ⟨wf6, ext6, eq6, short6, pairs6, nu6, eps6⟩ := removeMixedRules_spec wf5 short5 h
        have lang6 : SameLanguage (removeNonReachableRules g4) g' :=
          SameLanguage.of_equivBelow wf5 ext6.terminals_eq ext6.start_eq eq6
        exact ⟨⟨wf6, short6, eps6 eps5, nu6 nu5, pairs6⟩,
          ((((lang1.trans_language lang2).trans_language lang3).trans_language lang4).trans_language lang5).trans_language lang6⟩

/-! ## Derivations in a grammar of Chomsky shape -/

theorem CnfGen.ne_nil {g : Grammar} {A : Symbol} {w : Word} (h : CnfGen g A w) : w ≠ [] := by
  induction h with
  | leaf _ _ => simp
  | node _ _ _ ih1 _ =>
    intro hh
    exact ih1 (List.append_eq_nil.1 hh).1

theorem CnfGen.terminalWord {g : Grammar} {A : Symbol} {w : Word} (h : CnfGen g A w) :
    g.IsTerminalWord w := by
  induction h with
  | leaf _ ha =>
    intro s hs
    simp only [List.mem_singleton] at hs
    rw [hs]; exact ha
  | node _ _ _ ih1 ih2 =>
    intro s hs
    rcases List.mem_append.1 hs with h | h
    · exact ih1 s h
    · exact ih2 s h

theorem CnfGen.gen {g : Grammar} {A : Symbol} {w : Word} (h : CnfGen g A w) :
    Gen g.rules [A] w := by
  induction h with
  | leaf hr _ => exact Gen.single hr (Gen.refl_gen _ _)
  | node hr _ _ ih1 ih2 =>
    refine Gen.single hr ?_
    exact Gen.append_gen ih1 ih2

theorem CnfGen.lhs_mem {g : Grammar} (hg : WellFormed g) {A : Symbol} {w : Word}
    (h : CnfGen g A w) : A ∈ g.nonterminals := by
  cases h with
  | leaf hr _ =>
    have := (hg.lhs_eq hr).2
    simpa [Word.at_cons_zero] using this
  | node hr _ _ =>
    have := (hg.lhs_eq hr).2
    simpa [Word.at_cons_zero] using this

/-- In a grammar of Chomsky shape only the start symbol can derive the empty word, and
only by an empty rule. -/
theorem ChomskyShape.nullable {g : Grammar} (hg : ChomskyShape g) {u w : Word}
    (h : Gen g.rules u w) (hw : w = []) :
    ∀ x ∈ u, (⟨[x], []⟩ : Rule) ∈ g.rules ∧ x = g.startSymbol := by
  induction h with
  | nil => intro x hx; simp at hx
  | skip a _ _ => simp at hw
  | @expand a rhs u w1 w2 hr _ _ ih1 ih2 =>
    have hw1 : w1 = [] := (List.append_eq_nil.1 hw).1
    have hw2 : w2 = [] := (List.append_eq_nil.1 hw).2
    intro x hx
    rcases List.mem_cons.1 hx with h | h
    · rw [h]
      match rhs, hr, ih1 hw1 with
      | [], hr, _ =>
        have := (hg.epsilonFree _ hr rfl).1
        simp only [List.cons.injEq, and_true] at this
        exact ⟨hr, this⟩
      | b :: rest, hr, ih =>
        exfalso
        obtain ⟨h1, h2⟩ := ih b (List.mem_cons_self b rest)
        have := (hg.epsilonFree _ h1 rfl).2 _ hr
        apply this
        rw [← h2]
        exact List.mem_cons_self b rest
    · exact ih2 hw2 x h

theorem CnfList.nil_left_cnf {g : Grammar} {w : Word} (h : CnfList g [] w) : w = [] := by
  cases h
  rfl

/-- A rule with a non-empty rhs, applied to pieces derived by `CnfGen`, gives `CnfGen`. -/
theorem ChomskyShape.cnfGen_of_rule {g : Grammar} (hg : ChomskyShape g) {a : Symbol}
    {rhs w : Word} (hr : (⟨[a], rhs⟩ : Rule) ∈ g.rules) (hne : rhs ≠ [])
    (h : CnfList g rhs w) : CnfGen g a w := by
  have hshort := hg.short _ hr
  simp only at hshort
  match rhs, hr, hne, h, hshort with
  | [t], hr, _, h, _ =>
    have ht : t ∉ g.nonterminals := by
      intro htn
      exact hg.noUnit _ hr ⟨rfl, by simpa [Word.at_cons_zero] using htn⟩
    cases h with
    | consT htt h1 =>
      rw [h1.nil_left_cnf]
      exact CnfGen.leaf hr htt
    | consN h1 _ => exact absurd (h1.lhs_mem hg.wellFormed) ht
  | [b, c], hr, _, h, _ =>
    obtain ⟨hb, hc⟩ := hg.pairs _ hr rfl
    simp only [Word.at_cons_zero, Word.at_cons_succ] at hb hc
    cases h with
    | consT htt _ => exact absurd hb (hg.wellFormed.disjoint b htt)
    | consN h1 h2 =>
      cases h2 with
      | consT htt _ => exact absurd hc (hg.wellFormed.disjoint c htt)
      | consN h3 h4 =>
        rw [h4.nil_left_cnf, List.append_nil]
        exact CnfGen.node hr h1 h3
  | b :: c :: d :: rest, _, _, _, hshort => simp at hshort

theorem ChomskyShape.no_empty_rule_of_mem_rhs {g : Grammar} (hg : ChomskyShape g) {r : Rule}
    (hr : r ∈ g.rules) {x : Symbol} (hx : x ∈ r.rhs) : (⟨[x], []⟩ : Rule) ∉ g.rules := by
  intro hcon
  obtain ⟨h1, h2⟩ := hg.epsilonFree _ hcon rfl
  simp only [List.cons.injEq, and_true] at h1
  rw [h1] at hx
  exact h2 r hr hx

/-- In a grammar of Chomsky shape, a derivation of a word of terminals from symbols
without empty rule splits into `CnfGen` derivations. -/
theorem ChomskyShape.cnfList_of_gen {g : Grammar} (hg : ChomskyShape g) {u w : Word}
    (h : Gen g.rules u w) (hw : g.IsTerminalWord w) :
    (∀ x ∈ u, (⟨[x], []⟩ : Rule) ∉ g.rules) → CnfList g u w := by
  induction h with
  | nil => intro _; exact CnfList.nil
  | skip a _ ih =>
    intro hu
    exact CnfList.consT (hw a (List.mem_cons_self a _))
      (ih (fun x hx => hw x (List.mem_cons_of_mem a hx))
        (fun x hx => hu x (List.mem_cons_of_mem a hx)))
  | @expand a rhs u w1 w2 hr _ _ ih1 ih2 =>
    intro hu
    have hne : rhs ≠ [] := by
      intro hh
      rw [hh] at hr
      exact hu a (List.mem_cons_self a u) hr
    have h1 := ih1 (fun x hx => hw x (List.mem_append_left _ hx))
      (fun x hx => hg.no_empty_rule_of_mem_rhs hr hx)
    have h2 := ih2 (fun x hx => hw x (List.mem_append_right _ hx))
      (fun x hx => hu x (List.mem_cons_of_mem a hx))
    exact CnfList.consN (hg.cnfGen_of_rule hr hne h1) h2

/-- In a grammar of Chomsky shape, the start symbol generates a non-empty word exactly when
it derives it by `CnfGen`. -/
theorem ChomskyShape.generates_iff_cnfGen {g : Grammar} (hg : ChomskyShape g) {w : Word}
    (hne : w ≠ []) : g.Generates w ↔ CnfGen g g.startSymbol w := by
  constructor
  · rintro ⟨hw, hd⟩
    have hgen := Gen.of_derives hg.wellFormed.lhs_singleton hd
    rcases hgen.single_inv with h | ⟨rhs, hr, hrhs⟩
    · exfalso
      have := hw g.startSymbol (by rw [h]; simp)
      exact hg.wellFormed.disjoint _ this hg.wellFormed.start_mem
    · have hne' : rhs ≠ [] := by
        intro hh
        rw [hh] at hrhs
        exact hne hrhs.nil_left_gen
      exact hg.cnfGen_of_rule hr hne'
        (hg.cnfList_of_gen hrhs hw (fun x hx => hg.no_empty_rule_of_mem_rhs hr hx))
  · intro h
    exact ⟨h.terminalWord, h.gen.derives⟩

/-- In a grammar of Chomsky shape, the start symbol derives the empty word exactly when
the empty rule of the start symbol is a rule. -/
theorem ChomskyShape.startDerives_nil_iff {g : Grammar} (hg : ChomskyShape g) :
    g.StartDerives [] ↔ (⟨[g.startSymbol], []⟩ : Rule) ∈ g.rules := by
  constructor
  · intro hd
    have hgen := Gen.of_derives hg.wellFormed.lhs_singleton hd
    exact (hg.nullable hgen rfl g.startSymbol (by simp)).1
  · intro hr
    exact Derives.of_mem hr

/-! ## Maps and tables -/

theorem SymbolMap.get?_set_self {β : Type} (m : SymbolMap β) (k : Symbol) (v : β) :
    (m.set k v).get? k = some v := by
  induction m with
  | nil => simp [SymbolMap.set, SymbolMap.get?]
  | cons p m ih =>
    obtain ⟨k1, v1⟩ := p
    by_cases h : k1 = k
    · simp [SymbolMap.set, SymbolMap.get?, h]
    · simp [SymbolMap.set, SymbolMap.get?, h, ih]

theorem SymbolMap.get?_set_ne {β : Type} (m : SymbolMap β) {k k1 : Symbol} (v : β)
    (h : k1 ≠ k) : (m.set k v).get? k1 = m.get? k1 := by
  induction m with
  | nil => simp [SymbolMap.set, SymbolMap.get?, Ne.symm h]
  | cons p m ih =>
    obtain ⟨k2, v2⟩ := p
    by_cases h2 : k2 = k
    · have h3 : k2 ≠ k1 := by rw [h2]; exact Ne.symm h
      simp [SymbolMap.set, SymbolMap.get?, h2, Ne.symm h, h3]
    · by_cases h3 : k2 = k1
      · subst h3
        simp [SymbolMap.set, SymbolMap.get?, h2]
      · simp [SymbolMap.set, SymbolMap.get?, h2, h3, ih]

theorem Table.read_eq_some {t : CYK.Table} {N : Symbol} {i j : Nat} {b : Bool}
    (h : CYK.Table.read t N i j = some b) :
    ∃ matrix row, t.get? N = some matrix ∧ matrix[i]? = some row ∧ row[j]? = some b := by
  unfold CYK.Table.read at h
  cases h1 : SymbolMap.get? t N with
  | none => simp [h1] at h
  | some matrix =>
    cases h2 : matrix[i]? with
    | none => simp [h1, h2] at h
    | some row =>
      refine ⟨matrix, row, rfl, h2, ?_⟩
      simpa [h1, h2] using h

theorem Table.write_of_read {t : CYK.Table} {N : Symbol} {i j : Nat} {b : Bool}
    (h : CYK.Table.read t N i j = some b) (v : Bool) :
    ∃ t1, CYK.Table.write t N i j v = some t1 := by
  obtain ⟨matrix, row, h1, h2, h3⟩ := Table.read_eq_some h
  have hj : j < row.length := by
    rw [List.getElem?_eq_some] at h3
    exact h3.1
  refine ⟨t.set N (matrix.set i (row.set j v)), ?_⟩
  unfold CYK.Table.write
  simp [h1, h2, hj]

theorem Table.read_write_same {t t1 : CYK.Table} {N : Symbol} {i j : Nat} {v : Bool}
    (h : CYK.Table.write t N i j v = some t1) : CYK.Table.read t1 N i j = some v := by
  unfold CYK.Table.write at h
  cases h1 : SymbolMap.get? t N with
  | none => simp [h1] at h
  | some matrix =>
    cases h2 : matrix[i]? with
    | none => simp [h1, h2] at h
    | some row =>
      by_cases hj : j < row.length
      · simp only [h1, h2, hj, if_true, Option.bind_eq_bind, Option.some_bind, pure,
          Option.some.injEq] at h
        subst h
        have hi : i < matrix.length := by
          rw [List.getElem?_eq_some] at h2
          exact h2.1
        unfold CYK.Table.read
        simp [SymbolMap.get?_set_self, hi, hj]
      · simp [h1, h2, hj] at h

theorem Table.read_write_ne {t t1 : CYK.Table} {N M : Symbol} {i j a b : Nat} {v : Bool}
    (h : CYK.Table.write t N i j v = some t1) (hne : M ≠ N ∨ a ≠ i ∨ b ≠ j) :
    CYK.Table.read t1 M a b = CYK.Table.read t M a b := by
  unfold CYK.Table.write at h
  cases h1 : SymbolMap.get? t N with
  | none => simp [h1] at h
  | some matrix =>
    cases h2 : matrix[i]? with
    | none => simp [h1, h2] at h
    | some row =>
      by_cases hj : j < row.length
      · simp only [h1, h2, hj, if_true, Option.bind_eq_bind, Option.some_bind, pure,
          Option.some.injEq] at h
        subst h
        unfold CYK.Table.read
        by_cases hM : M = N
        · subst hM
          simp only [SymbolMap.get?_set_self, h1, Option.bind_eq_bind, Option.some_bind]
          by_cases ha : a = i
          · subst ha
            have hb : b ≠ j := by
              rcases hne with h | h | h
              · exact absurd rfl h
              · exact absurd rfl h
              · exact h
            have hi : a < matrix.length := by
              rw [List.getElem?_eq_some] at h2
              exact h2.1
            rw [List.getElem?_set_self hi, h2]
            simp only [Option.some_bind]
            exact List.getElem?_set_ne (Ne.symm hb)
          · rw [List.getElem?_set_ne (Ne.symm ha)]
        · simp only [SymbolMap.get?_set_ne _ _ hM]
      · simp [h1, h2, hj] at h

/-! ## `findDirectChildren` -/

theorem SymbolMap.getD_set {β : Type} (m : SymbolMap β) (k k1 : Symbol) (v d : β) :
    ((m.set k v).get? k1).getD d = if k1 = k then v else (m.get? k1).getD d := by
  by_cases h : k1 = k
  · subst h
    simp [SymbolMap.get?_set_self]
  · simp [SymbolMap.get?_set_ne _ _ h, h]

theorem SymbolMap.isSome_set {β : Type} (m : SymbolMap β) (k k1 : Symbol) (v : β)
    (h : (m.get? k1).isSome = true ∨ k1 = k) : ((m.set k v).get? k1).isSome = true := by
  by_cases h1 : k1 = k
  · subst h1
    simp [SymbolMap.get?_set_self]
  · rw [SymbolMap.get?_set_ne _ _ h1]
    exact h.resolve_right h1

theorem findDirectChildren_init (nts : List Symbol) :
    ∀ (m : SymbolMap Alphabet × SymbolMap (List Word)),
      (∀ N, (m.1.get? N).getD [] = [] ∧ (m.2.get? N).getD [] = []) →
      (∀ N, ((nts.foldl (fun m nonterminal =>
          (m.1.set nonterminal [], m.2.set nonterminal [])) m).1.get? N).getD [] = [] ∧
        ((nts.foldl (fun m nonterminal =>
          (m.1.set nonterminal [], m.2.set nonterminal [])) m).2.get? N).getD [] = []) ∧
      (∀ N, (N ∈ nts ∨ ((m.1.get? N).isSome = true ∧ (m.2.get? N).isSome = true)) →
        ((nts.foldl (fun m nonterminal =>
          (m.1.set nonterminal [], m.2.set nonterminal [])) m).1.get? N).isSome = true ∧
        ((nts.foldl (fun m nonterminal =>
          (m.1.set nonterminal [], m.2.set nonterminal [])) m).2.get? N).isSome = true) := by
  induction nts with
  | nil =>
    intro m hm
    refine ⟨hm, fun N hN => ?_⟩
    rcases hN with h | h
    · simp at h
    · exact h
  | cons n nts ih =>
    intro m hm
    rw [List.foldl_cons]
    obtain ⟨h1, h2⟩ := ih (m.1.set n [], m.2.set n []) (by
      intro N
      simp only [SymbolMap.getD_set]
      constructor
      · split
        · rfl
        · exact (hm N).1
      · split
        · rfl
        · exact (hm N).2)
    refine ⟨h1, fun N hN => h2 N ?_⟩
    rcases hN with h | h
    · rcases List.mem_cons.1 h with h3 | h3
      · right
        exact ⟨SymbolMap.isSome_set _ _ _ _ (Or.inr h3), SymbolMap.isSome_set _ _ _ _ (Or.inr h3)⟩
      · exact Or.inl h3
    · right
      exact ⟨SymbolMap.isSome_set _ _ _ _ (Or.inl h.1), SymbolMap.isSome_set _ _ _ _ (Or.inl h.2)⟩

theorem findDirectChildren_fold (g : Grammar) (nts : List Symbol) :
    ∀ (todo done : List Rule) (m : SymbolMap Alphabet × SymbolMap (List Word)),
      (∀ N ∈ nts, (m.1.get? N).isSome = true ∧ (m.2.get? N).isSome = true) →
      (∀ N a, a ∈ (m.1.get? N).getD [] ↔
        ∃ r ∈ done, r.lhs.at 0 = N ∧ r.rhs = [a] ∧ a ∈ g.terminals) →
      (∀ N rhs, rhs ∈ (m.2.get? N).getD [] ↔
        ∃ r ∈ done, r.lhs.at 0 = N ∧ r.rhs = rhs ∧ rhs.length = 2) →
      (∀ N ∈ nts, ((todo.foldl (fun m r =>
          if r.rhs.length = 1 ∧ g.symbolIsTerminal (r.rhs.at 0) = true then
            (m.1.set (r.lhs.at 0) (((m.1.get? (r.lhs.at 0)).getD []).insert (r.rhs.at 0)), m.2)
          else if r.rhs.length = 2 then
            (m.1, m.2.set (r.lhs.at 0) (((m.2.get? (r.lhs.at 0)).getD []) ++ [r.rhs]))
          else m) m).1.get? N).isSome = true ∧
        ((todo.foldl (fun m r =>
          if r.rhs.length = 1 ∧ g.symbolIsTerminal (r.rhs.at 0) = true then
            (m.1.set (r.lhs.at 0) (((m.1.get? (r.lhs.at 0)).getD []).insert (r.rhs.at 0)), m.2)
          else if r.rhs.length = 2 then
            (m.1, m.2.set (r.lhs.at 0) (((m.2.get? (r.lhs.at 0)).getD []) ++ [r.rhs]))
          else m) m).2.get? N).isSome = true) ∧
      (∀ N a, a ∈ ((todo.foldl (fun m r =>
          if r.rhs.length = 1 ∧ g.symbolIsTerminal (r.rhs.at 0) = true then
            (m.1.set (r.lhs.at 0) (((m.1.get? (r.lhs.at 0)).getD []).insert (r.rhs.at 0)), m.2)
          else if r.rhs.length = 2 then
            (m.1, m.2.set (r.lhs.at 0) (((m.2.get? (r.lhs.at 0)).getD []) ++ [r.rhs]))
          else m) m).1.get? N).getD [] ↔
        ∃ r ∈ done ++ todo, r.lhs.at 0 = N ∧ r.rhs = [a] ∧ a ∈ g.terminals) ∧
      (∀ N rhs, rhs ∈ ((todo.foldl (fun m r =>
          if r.rhs.length = 1 ∧ g.symbolIsTerminal (r.rhs.at 0) = true then
            (m.1.set (r.lhs.at 0) (((m.1.get? (r.lhs.at 0)).getD []).insert (r.rhs.at 0)), m.2)
          else if r.rhs.length = 2 then
            (m.1, m.2.set (r.lhs.at 0) (((m.2.get? (r.lhs.at 0)).getD []) ++ [r.rhs]))
          else m) m).2.get? N).getD [] ↔
        ∃ r ∈ done ++ todo, r.lhs.at 0 = N ∧ r.rhs = rhs ∧ rhs.length = 2) := by
  intro todo
  induction todo with
  | nil =>
    intro done m h1 h2 h3
    simp only [List.foldl_nil, List.append_nil]
    exact ⟨h1, h2, h3⟩
  | cons r todo ih =>
    intro done m h1 h2 h3
    rw [List.foldl_cons]
    have hdone : done ++ r :: todo = (done ++ [r]) ++ todo := by simp
    rw [hdone]
    by_cases hT : r.rhs.length = 1 ∧ g.symbolIsTerminal (r.rhs.at 0) = true
    · simp only [hT, and_self, if_true]
      apply ih (done ++ [r])
      · intro N hN
        exact ⟨SymbolMap.isSome_set _ _ _ _ (Or.inl (h1 N hN).1), (h1 N hN).2⟩
      · intro N a
        simp only [SymbolMap.getD_set]
        have hrhs := one_of_length_eq hT.1
        have hterm := (symbolIsTerminal_eq_true g _).1 hT.2
        by_cases hN : N = r.lhs.at 0
        · simp only [hN, if_true, List.mem_insert_iff, h2, List.mem_append, List.mem_singleton]
          constructor
          · rintro (h | ⟨r1, hr1, h⟩)
            · exact ⟨r, Or.inr rfl, rfl, by rw [h]; exact hrhs, by rw [h]; exact hterm⟩
            · exact ⟨r1, Or.inl hr1, h⟩
          · rintro ⟨r1, hr1 | hr1, h⟩
            · exact Or.inr ⟨r1, hr1, h⟩
            · left
              rw [hr1] at h
              have := h.2.1
              rw [hrhs] at this
              simpa using this.symm
        · simp only [hN, if_false, h2, List.mem_append, List.mem_singleton]
          constructor
          · rintro ⟨r1, hr1, h⟩
            exact ⟨r1, Or.inl hr1, h⟩
          · rintro ⟨r1, hr1 | hr1, h⟩
            · exact ⟨r1, hr1, h⟩
            · rw [hr1] at h
              exact absurd h.1.symm hN
      · intro N rhs
        rw [h3]
        simp only [List.mem_append, List.mem_singleton]
        constructor
        · rintro ⟨r1, hr1, h⟩
          exact ⟨r1, Or.inl hr1, h⟩
        · rintro ⟨r1, hr1 | hr1, h⟩
          · exact ⟨r1, hr1, h⟩
          · rw [hr1] at h
            have := h.2.1 ▸ h.2.2
            omega
    · simp only [hT, if_false]
      by_cases h2len : r.rhs.length = 2
      · simp only [h2len, if_true]
        apply ih (done ++ [r])
        · intro N hN
          exact ⟨(h1 N hN).1, SymbolMap.isSome_set _ _ _ _ (Or.inl (h1 N hN).2)⟩
        · intro N a
          rw [h2]
          simp only [List.mem_append, List.mem_singleton]
          constructor
          · rintro ⟨r1, hr1, h⟩
            exact ⟨r1, Or.inl hr1, h⟩
          · rintro ⟨r1, hr1 | hr1, h⟩
            · exact ⟨r1, hr1, h⟩
            · rw [hr1] at h
              have := h.2.1
              rw [this] at h2len
              simp at h2len
        · intro N rhs
          simp only [SymbolMap.getD_set]
          by_cases hN : N = r.lhs.at 0
          · simp only [hN, if_true, List.mem_append, List.mem_singleton, h3]
            constructor
            · rintro (⟨r1, hr1, h⟩ | h)
              · exact ⟨r1, Or.inl hr1, h⟩
              · exact ⟨r, Or.inr rfl, rfl, h.symm, by rw [h]; exact h2len⟩
            · rintro ⟨r1, hr1 | hr1, h⟩
              · exact Or.inl ⟨r1, hr1, h⟩
              · right
                rw [hr1] at h
                exact h.2.1.symm
          · simp only [hN, if_false, h3, List.mem_append, List.mem_singleton]
            constructor
            · rintro ⟨r1, hr1, h⟩
              exact ⟨r1, Or.inl hr1, h⟩
            · rintro ⟨r1, hr1 | hr1, h⟩
              · exact ⟨r1, hr1, h⟩
              · rw [hr1] at h
                exact absurd h.1.symm hN
      · simp only [h2len, if_false]
        apply ih (done ++ [r]) m h1
        · intro N a
          rw [h2]
          simp only [List.mem_append, List.mem_singleton]
          constructor
          · rintro ⟨r1, hr1, h⟩
            exact ⟨r1, Or.inl hr1, h⟩
          · rintro ⟨r1, hr1 | hr1, h⟩
            · exact ⟨r1, hr1, h⟩
            · exfalso
              rw [hr1] at h
              apply hT
              have := h.2.1
              refine ⟨by rw [this]; rfl, ?_⟩
              rw [this, Word.at_cons_zero]
              exact (symbolIsTerminal_eq_true g _).2 h.2.2
        · intro N rhs
          rw [h3]
          simp only [List.mem_append, List.mem_singleton]
          constructor
          · rintro ⟨r1, hr1, h⟩
            exact ⟨r1, Or.inl hr1, h⟩
          · rintro ⟨r1, hr1 | hr1, h⟩
            · exact ⟨r1, hr1, h⟩
            · exfalso
              rw [hr1] at h
              exact h2len (h.2.1 ▸ h.2.2)

/-- The two maps of `findDirectChildren`: every nonterminal is a key of both; the
terminal children of `N` are the terminals `a` with a rule `N → a`, its nonterminal
children are the rhs of length 2 of the rules of `N`. -/
theorem findDirectChildren_spec (c : CYK) :
    (∀ N ∈ c.grammar.nonterminals, (c.findDirectChildren.1.get? N).isSome = true ∧
      (c.findDirectChildren.2.get? N).isSome = true) ∧
    (∀ N a, a ∈ (c.findDirectChildren.1.get? N).getD [] ↔
      ∃ r ∈ c.grammar.rules, r.lhs.at 0 = N ∧ r.rhs = [a] ∧ a ∈ c.grammar.terminals) ∧
    (∀ N rhs, rhs ∈ (c.findDirectChildren.2.get? N).getD [] ↔
      ∃ r ∈ c.grammar.rules, r.lhs.at 0 = N ∧ r.rhs = rhs ∧ rhs.length = 2) := by
  obtain ⟨i1, i2⟩ := findDirectChildren_init c.grammar.nonterminals ([], [])
    (fun N => ⟨rfl, rfl⟩)
  have := findDirectChildren_fold c.grammar c.grammar.nonterminals c.grammar.rules []
    (c.grammar.nonterminals.foldl (fun m nonterminal =>
      (m.1.set nonterminal [], m.2.set nonterminal [])) ([], []))
    (fun N hN => i2 N (Or.inl hN))
    (fun N a => by rw [(i1 N).1]; simp)
    (fun N rhs => by rw [(i1 N).2]; simp)
  simpa only [List.nil_append] using this

/-! ## Subwords and derivation trees -/

theorem foldlM_invariant {α β : Type} (f : β → α → Option β) :
    ∀ (l : List α) (I : Nat → β → Prop) (b : β), I 0 b →
      (∀ k (hk : k < l.length) b, I k b → ∃ b1, f b (l.get ⟨k, hk⟩) = some b1 ∧ I (k + 1) b1) →
      ∃ b1, l.foldlM f b = some b1 ∧ I l.length b1 := by
  intro l
  induction l with
  | nil =>
    intro I b h0 _
    exact ⟨b, rfl, h0⟩
  | cons x xs ih =>
    intro I b h0 hstep
    obtain ⟨b1, hb1, hI1⟩ := hstep 0 (by simp) b h0
    obtain ⟨b2, hb2, hI2⟩ := ih (fun k => I (k + 1)) b1 hI1 (fun k hk b hI =>
      hstep (k + 1) (by simpa using hk) b hI)
    refine ⟨b2, ?_, hI2⟩
    rw [List.foldlM_cons]
    simp only [List.get_eq_getElem, List.getElem_cons_zero] at hb1
    rw [hb1]
    exact hb2

theorem subword_length {w : Word} {s len : Nat} (h : s + len ≤ w.length) :
    (subword w s len).length = len := by
  simp only [subword, List.length_take, List.length_drop]
  omega

theorem subword_add (w : Word) (s a b : Nat) :
    subword w s (a + b) = subword w s a ++ subword w (s + a) b := by
  simp only [subword, List.take_add, List.drop_drop]

theorem subword_one {w : Word} {s : Nat} (h : s < w.length) : subword w s 1 = [w.at s] := by
  simp only [subword, Word.at]
  rw [List.drop_eq_getElem_cons h, List.getD_eq_getElem _ _ h]
  rfl

theorem subword_zero_length (w : Word) : subword w 0 w.length = w := by
  simp [subword]

theorem subword_split {w : Word} {s len : Nat} {u v : Word} (h : s + len ≤ w.length)
    (huv : subword w s len = u ++ v) :
    u.length + v.length = len ∧ u = subword w s u.length ∧ v = subword w (s + u.length) v.length := by
  have hlen : u.length + v.length = len := by
    have := congrArg List.length huv
    rw [subword_length h, List.length_append] at this
    omega
  refine ⟨hlen, ?_⟩
  have h1 := subword_add w s u.length v.length
  rw [hlen, huv] at h1
  have h2 : u.length = (subword w s u.length).length := by
    rw [subword_length (by omega)]
  exact List.append_inj h1 h2

theorem CnfGen.singleton_iff {g : Grammar} {A a : Symbol} :
    CnfGen g A [a] ↔ (⟨[A], [a]⟩ : Rule) ∈ g.rules ∧ a ∈ g.terminals := by
  constructor
  · intro h
    generalize hw : [a] = w at h
    cases h with
    | leaf hr ha =>
      simp only [List.cons.injEq, and_true] at hw
      subst hw
      exact ⟨hr, ha⟩
    | node hr h1 h2 =>
      exfalso
      have n1 := h1.ne_nil
      have n2 := h2.ne_nil
      have := congrArg List.length hw
      simp only [List.length_singleton, List.length_append] at this
      have := List.length_pos.2 n1
      have := List.length_pos.2 n2
      omega
  · rintro ⟨hr, ha⟩
    exact CnfGen.leaf hr ha

theorem CnfGen.long_iff {g : Grammar} {A : Symbol} {w : Word} (hw : 2 ≤ w.length) :
    CnfGen g A w ↔ ∃ B C u v, (⟨[A], [B, C]⟩ : Rule) ∈ g.rules ∧ CnfGen g B u ∧
      CnfGen g C v ∧ w = u ++ v := by
  constructor
  · intro h
    cases h with
    | leaf hr ha => simp at hw
    | node hr h1 h2 => exact ⟨_, _, _, _, hr, h1, h2, rfl⟩
  · rintro ⟨B, C, u, v, hr, h1, h2, rfl⟩
    exact CnfGen.node hr h1 h2

/-- A derivation tree of a subword of length at least 2 splits at some inner position. -/
theorem CnfGen.subword_iff {g : Grammar} {A : Symbol} {w : Word} {s len : Nat}
    (h : s + len ≤ w.length) (hlen : 2 ≤ len) :
    CnfGen g A (subword w s len) ↔ ∃ B C, (⟨[A], [B, C]⟩ : Rule) ∈ g.rules ∧
      ∃ m, s ≤ m ∧ m + 1 < s + len ∧ CnfGen g B (subword w s (m + 1 - s)) ∧
        CnfGen g C (subword w (m + 1) (s + len - (m + 1))) := by
  rw [CnfGen.long_iff (by rw [subword_length h]; exact hlen)]
  constructor
  · rintro ⟨B, C, u, v, hr, h1, h2, huv⟩
    obtain ⟨e1, e2, e3⟩ := subword_split h huv
    have p1 := List.length_pos.2 h1.ne_nil
    have p2 := List.length_pos.2 h2.ne_nil
    refine ⟨B, C, hr, s + u.length - 1, by omega, by omega, ?_, ?_⟩
    · have : s + u.length - 1 + 1 - s = u.length := by omega
      rw [this, ← e2]
      exact h1
    · have a1 : s + u.length - 1 + 1 = s + u.length := by omega
      have a2 : s + len - (s + u.length) = v.length := by omega
      rw [a1, a2, ← e3]
      exact h2
  · rintro ⟨B, C, hr, m, hm1, hm2, h1, h2⟩
    refine ⟨B, C, _, _, hr, h1, h2, ?_⟩
    have := subword_add w s (m + 1 - s) (s + len - (m + 1))
    have a1 : m + 1 - s + (s + len - (m + 1)) = len := by omega
    have a2 : s + (m + 1 - s) = m + 1 := by omega
    rw [a1, a2] at this
    exact this

/-! ## `initTable` -/

theorem Table.read_set (t : CYK.Table) (N M : Symbol) (matrix : List (List Bool)) (i j : Nat) :
    CYK.Table.read (SymbolMap.set t N matrix) M i j =
      if M = N then (matrix[i]?).bind (fun row => row[j]?) else CYK.Table.read t M i j := by
  by_cases h : M = N
  · subst h
    simp only [CYK.Table.read, SymbolMap.get?_set_self, if_true]
    rfl
  · simp only [CYK.Table.read, SymbolMap.get?_set_ne _ _ h, if_neg h]

theorem Table.read_set_replicate (t : CYK.Table) (N : Symbol) (n : Nat) {i j : Nat}
    (hi : i < n) (hj : j < n) :
    CYK.Table.read (SymbolMap.set t N (List.replicate n (List.replicate n false))) N i j =
      some false := by
  rw [Table.read_set, if_pos rfl]
  simp [List.getElem?_replicate, hi, hj]

theorem initTable_diagonal_spec (w : Word) (ch : Alphabet) (N : Symbol) :
    ∀ (k : Nat) (t : CYK.Table), k ≤ w.length →
      (∀ i j, i < w.length → j < w.length → ∃ b, CYK.Table.read t N i j = some b) →
      ∃ t1, CYK.initTable.diagonal w ch N k t = some t1 ∧
        (∀ M a b, (M ≠ N ∨ a ≠ b ∨ a < w.length - k) →
          CYK.Table.read t1 M a b = CYK.Table.read t M a b) ∧
        (∀ i, w.length - k ≤ i → i < w.length →
          CYK.Table.read t1 N i i = some (decide (w.at i ∈ ch))) := by
  intro k
  induction k with
  | zero =>
    intro t _ _
    refine ⟨t, rfl, fun _ _ _ _ => rfl, fun i h1 h2 => ?_⟩
    omega
  | succ k ih =>
    intro t hk halloc
    obtain ⟨b0, hb0⟩ := halloc (w.length - (k + 1)) (w.length - (k + 1)) (by omega) (by omega)
    obtain ⟨t0, ht0⟩ := Table.write_of_read hb0
      (decide (w.at (w.length - (k + 1)) ∈ ch))
    have halloc0 : ∀ i j, i < w.length → j < w.length →
        ∃ b, CYK.Table.read t0 N i j = some b := by
      intro i j hi hj
      by_cases hij : i = w.length - (k + 1) ∧ j = w.length - (k + 1)
      · rw [hij.1, hij.2]
        exact ⟨_, Table.read_write_same ht0⟩
      · rw [Table.read_write_ne ht0 (by
          by_cases h1 : i = w.length - (k + 1)
          · exact Or.inr (Or.inr (fun h2 => hij ⟨h1, h2⟩))
          · exact Or.inr (Or.inl h1))]
        exact halloc i j hi hj
    obtain ⟨t1, ht1, hagree, hdiag⟩ := ih t0 (by omega) halloc0
    refine ⟨t1, ?_, ?_, ?_⟩
    · simp only [CYK.initTable.diagonal, ht0, Option.bind_eq_bind, Option.some_bind]
      exact ht1
    · intro M a b hcond
      rw [hagree M a b (by
        rcases hcond with h | h | h
        · exact Or.inl h
        · exact Or.inr (Or.inl h)
        · exact Or.inr (Or.inr (by omega)))]
      apply Table.read_write_ne ht0
      rcases hcond with h | h | h
      · exact Or.inl h
      · by_cases h1 : a = w.length - (k + 1)
        · exact Or.inr (Or.inr (fun h2 => h (h1.trans h2.symm)))
        · exact Or.inr (Or.inl h1)
      · exact Or.inr (Or.inl (by omega))
    · intro i hi1 hi2
      by_cases h : i = w.length - (k + 1)
      · rw [hagree N i i (Or.inr (Or.inr (by omega))), h]
        exact Table.read_write_same ht0
      · exact hdiag i (by omega) hi2

theorem rule_mem_iff {g : Grammar} (hg : WellFormed g) (N : Symbol) (rhs : Word) :
    (∃ r ∈ g.rules, r.lhs.at 0 = N ∧ r.rhs = rhs) ↔ (⟨[N], rhs⟩ : Rule) ∈ g.rules := by
  constructor
  · rintro ⟨r, hr, h1, h2⟩
    obtain ⟨a, -, ha⟩ := hg.rule_lhs r hr
    rw [ha, Word.at_cons_zero] at h1
    have : r = ⟨[N], rhs⟩ := by
      cases r
      simp only at ha h2
      rw [ha, h2, h1]
    rw [← this]
    exact hr
  · intro h
    exact ⟨_, h, Word.at_cons_zero _ _, rfl⟩

theorem mem_take_succ {α : Type} {l : List α} {k : Nat} (hk : k < l.length) {x : α}
    (h : x ∈ l.take (k + 1)) : x ∈ l.take k ∨ x = l.get ⟨k, hk⟩ := by
  rw [List.take_succ, List.mem_append] at h
  rcases h with h | h
  · exact Or.inl h
  · right
    rw [List.getElem?_eq_getElem hk] at h
    simpa using h

/-- After `initTable` every nonterminal has its matrix, whose diagonal tells which letters
of the word are terminal children of the nonterminal, the other cells being false. -/
theorem initTable_cells (c : CYK) (w : Word) (tc : SymbolMap Alphabet)
    (hkeys : ∀ N ∈ c.grammar.nonterminals, (tc.get? N).isSome = true) :
    ∃ t, c.initTable w tc = some t ∧
      ∀ N ∈ c.grammar.nonterminals, ∀ i j, i < w.length → j < w.length →
        CYK.Table.read t N i j =
          some (decide (i = j ∧ w.at i ∈ (tc.get? N).getD [])) := by
  unfold CYK.initTable
  obtain ⟨t, ht, hI⟩ := foldlM_invariant
    (fun (t : CYK.Table) nonterminal => do
      let t1 := t.set nonterminal (List.replicate w.length (List.replicate w.length false))
      let children ← tc.get? nonterminal
      CYK.initTable.diagonal w children nonterminal w.length t1)
    c.grammar.nonterminals
    (fun k t => ∀ N ∈ c.grammar.nonterminals.take k, ∀ i j, i < w.length → j < w.length →
      CYK.Table.read t N i j = some (decide (i = j ∧ w.at i ∈ (tc.get? N).getD [])))
    [] (by intro N hN; simp at hN)
    (by
      intro k hk t hI
      have hmem : c.grammar.nonterminals.get ⟨k, hk⟩ ∈ c.grammar.nonterminals :=
        List.get_mem _ _ _
      generalize hdef : c.grammar.nonterminals.get ⟨k, hk⟩ = N0 at hmem
      obtain ⟨ch, hch⟩ := Option.isSome_iff_exists.1 (hkeys N0 hmem)
      obtain ⟨t1, ht1, hagree, hdiag⟩ := initTable_diagonal_spec w ch N0 w.length
        (SymbolMap.set t N0 (List.replicate w.length (List.replicate w.length false)))
        (le_refl _) (fun i j hi hj => ⟨false, Table.read_set_replicate t N0 w.length hi hj⟩)
      refine ⟨t1, ?_, ?_⟩
      · simp only [hch, Option.bind_eq_bind, Option.some_bind]
        exact ht1
      · intro N hN i j hi hj
        by_cases hN0 : N = N0
        · subst hN0
          rw [hch, Option.getD_some]
          by_cases hij : i = j
          · subst hij
            rw [hdiag i (by omega) hi]
            simp
          · rw [hagree N i j (Or.inr (Or.inl hij)), Table.read_set_replicate t N w.length hi hj]
            simp [hij]
        · have hN1 : N ∈ c.grammar.nonterminals.take k := by
            rcases mem_take_succ hk hN with h | h
            · exact h
            · exact absurd (h.trans hdef) hN0
          rw [hagree N i j (Or.inl hN0), Table.read_set, if_neg hN0]
          exact hI N hN1 i j hi hj)
  refine ⟨t, ht, fun N hN => ?_⟩
  apply hI
  rw [List.take_length]
  exact hN

theorem initTable_spec (c : CYK) (hg : WellFormed c.grammar) (w : Word) :
    ∃ t, c.initTable w c.findDirectChildren.1 = some t ∧
      Allocated c.grammar w.length t ∧ OKBelow c.grammar w t 2 := by
  obtain ⟨hkeys, htc, -⟩ := findDirectChildren_spec c
  obtain ⟨t, ht, hcells⟩ := initTable_cells c w c.findDirectChildren.1
    (fun N hN => (hkeys N hN).1)
  refine ⟨t, ht, ?_, ?_⟩
  · intro N hN i j hi hj
    exact ⟨_, hcells N hN i j hi hj⟩
  · intro N hN i j hij hj hlen
    have hi : i = j := by omega
    subst hi
    refine ⟨_, hcells N hN i i hj hj, ?_⟩
    have h1 : i + 1 - i = 1 := by omega
    rw [h1, subword_one hj, CnfGen.singleton_iff, ← rule_mem_iff hg]
    simp only [true_and, decide_eq_true_eq]
    rw [htc]
    constructor
    · rintro ⟨r, hr, h1, h2, h3⟩
      exact ⟨⟨r, hr, h1, h2⟩, h3⟩
    · rintro ⟨⟨r, hr, h1, h2⟩, h3⟩
      exact ⟨r, hr, h1, h2, h3⟩

/-! ## `checkIfNonterminalGeneratesSubword` -/

theorem mem_take_succ_iff {α : Type} {l : List α} {k : Nat} (hk : k < l.length) {x : α} :
    x ∈ l.take (k + 1) ↔ x ∈ l.take k ∨ x = l.get ⟨k, hk⟩ := by
  rw [List.take_succ, List.mem_append, List.getElem?_eq_getElem hk]
  simp

/-- The loop over the split positions: it returns the old flag or-ed with whether some
split position from `i` on works for the rhs. -/
theorem splits_spec {g : Grammar} {w : Word} {t : CYK.Table} {rhs : Word} {s len : Nat}
    (hB : rhs.at 0 ∈ g.nonterminals) (hC : rhs.at 1 ∈ g.nonterminals)
    (hok : OKBelow g w t len) (hbound : s + len ≤ w.length) :
    ∀ (k i : Nat) (cg : Bool), s ≤ i → i + k + 1 = s + len →
      ∃ b, CYK.checkIfNonterminalGeneratesSubword.splits rhs t s len k i cg = some b ∧
        (b = true ↔ cg = true ∨ ∃ m, i ≤ m ∧ m + 1 < s + len ∧
          CnfGen g (rhs.at 0) (subword w s (m + 1 - s)) ∧
          CnfGen g (rhs.at 1) (subword w (m + 1) (s + len - (m + 1)))) := by
  intro k
  induction k with
  | zero =>
    intro i cg _ hik
    refine ⟨cg, rfl, ?_⟩
    constructor
    · exact Or.inl
    · rintro (h | ⟨m, h1, h2, -⟩)
      · exact h
      · omega
  | succ k ih =>
    intro i cg hsi hik
    obtain ⟨l, hl, hliff⟩ := hok (rhs.at 0) hB s i hsi (by omega) (by omega)
    obtain ⟨r, hr, hriff⟩ := hok (rhs.at 1) hC (i + 1) (s + len - 1) (by omega) (by omega)
      (by omega)
    have e1 : s + len - 1 + 1 - (i + 1) = s + len - (i + 1) := by omega
    rw [e1] at hriff
    obtain ⟨b, hb, hbiff⟩ := ih (i + 1) (cg || (l && r)) (by omega) (by omega)
    refine ⟨b, ?_, ?_⟩
    · simp only [CYK.checkIfNonterminalGeneratesSubword.splits, hl, Option.bind_eq_bind,
        Option.some_bind]
      cases l with
      | true =>
        simp only [if_true, hr, Option.some_bind]
        simpa using hb
      | false =>
        simp only [Bool.false_eq_true, if_false, Option.pure_def, Option.some_bind]
        simpa using hb
    · rw [hbiff]
      simp only [Bool.or_eq_true, Bool.and_eq_true, hliff, hriff]
      constructor
      · rintro ((h | ⟨h1, h2⟩) | ⟨m, hm1, hm2, h1, h2⟩)
        · exact Or.inl h
        · exact Or.inr ⟨i, le_refl _, by omega, h1, h2⟩
        · exact Or.inr ⟨m, by omega, hm2, h1, h2⟩
      · rintro (h | ⟨m, hm1, hm2, h1, h2⟩)
        · exact Or.inl (Or.inl h)
        · by_cases hmi : m = i
          · subst hmi
            exact Or.inl (Or.inr ⟨h1, h2⟩)
          · exact Or.inr ⟨m, by omega, hm2, h1, h2⟩

theorem children_fold_spec {g : Grammar} {w : Word} {t : CYK.Table} {s len : Nat}
    (children : List Word)
    (hch : ∀ rhs ∈ children, rhs.at 0 ∈ g.nonterminals ∧ rhs.at 1 ∈ g.nonterminals)
    (hok : OKBelow g w t len) (hbound : s + len ≤ w.length) (hlen : 1 ≤ len) :
    ∃ b, children.foldlM (fun canGenerate rhs =>
        CYK.checkIfNonterminalGeneratesSubword.splits rhs t s len (len - 1) s canGenerate)
        false = some b ∧
      (b = true ↔ ∃ rhs ∈ children, ∃ m, s ≤ m ∧ m + 1 < s + len ∧
          CnfGen g (rhs.at 0) (subword w s (m + 1 - s)) ∧
          CnfGen g (rhs.at 1) (subword w (m + 1) (s + len - (m + 1)))) := by
  obtain ⟨b, hb, hI⟩ := foldlM_invariant
    (fun canGenerate rhs =>
      CYK.checkIfNonterminalGeneratesSubword.splits rhs t s len (len - 1) s canGenerate)
    children
    (fun k b => b = true ↔ ∃ rhs ∈ children.take k, ∃ m, s ≤ m ∧ m + 1 < s + len ∧
          CnfGen g (rhs.at 0) (subword w s (m + 1 - s)) ∧
          CnfGen g (rhs.at 1) (subword w (m + 1) (s + len - (m + 1))))
    false (by simp)
    (by
      intro k hk cg hI
      have hmem : children.get ⟨k, hk⟩ ∈ children := List.get_mem _ _ _
      obtain ⟨b, hb, hbiff⟩ := splits_spec (hch _ hmem).1 (hch _ hmem).2 hok hbound
        (len - 1) s cg (le_refl _) (by omega)
      refine ⟨b, hb, ?_⟩
      beta_reduce
      rw [hbiff, hI]
      constructor
      · rintro (⟨rhs, hrhs, h⟩ | h)
        · exact ⟨rhs, (mem_take_succ_iff hk).2 (Or.inl hrhs), h⟩
        · exact ⟨_, (mem_take_succ_iff hk).2 (Or.inr rfl), h⟩
      · rintro ⟨rhs, hrhs, h⟩
        rcases (mem_take_succ_iff hk).1 hrhs with h1 | h1
        · exact Or.inl ⟨rhs, h1, h⟩
        · right
          rw [← h1]
          exact h)
  refine ⟨b, hb, ?_⟩
  rw [List.take_length] at hI
  exact hI

/-- One call of `checkIfNonterminalGeneratesSubword` succeeds when the shorter subwords are
done, changes only the cell of its nonterminal and subword, and makes that cell right. -/
theorem checkIfNonterminalGeneratesSubword_spec (c : CYK) (hg : WellFormed c.grammar)
    (hpairs : PairsAreNonterminals c.grammar) {w : Word} {t : CYK.Table} {N : Symbol}
    (hN : N ∈ c.grammar.nonterminals) {s len : Nat} (hlen : 2 ≤ len)
    (hbound : s + len ≤ w.length) (halloc : Allocated c.grammar w.length t)
    (hok : OKBelow c.grammar w t len) :
    ∃ t1, CYK.checkIfNonterminalGeneratesSubword N c.findDirectChildren.2 t s len = some t1 ∧
      (∀ M a b, (M ≠ N ∨ a ≠ s ∨ b ≠ s + len - 1) →
        CYK.Table.read t1 M a b = CYK.Table.read t M a b) ∧
      CellOK c.grammar w t1 N s (s + len - 1) := by
  obtain ⟨hkeys, -, hntc⟩ := findDirectChildren_spec c
  obtain ⟨children, hchildren⟩ := Option.isSome_iff_exists.1 (hkeys N hN).2
  have hmem : ∀ rhs, rhs ∈ children ↔
      (⟨[N], rhs⟩ : Rule) ∈ c.grammar.rules ∧ rhs.length = 2 := by
    intro rhs
    have := hntc N rhs
    rw [hchildren, Option.getD_some] at this
    rw [this, ← rule_mem_iff hg]
    constructor
    · rintro ⟨r, hr, h1, h2, h3⟩
      exact ⟨⟨r, hr, h1, h2⟩, h3⟩
    · rintro ⟨⟨r, hr, h1, h2⟩, h3⟩
      exact ⟨r, hr, h1, h2, h3⟩
  obtain ⟨b, hb, hbiff⟩ := children_fold_spec (g := c.grammar) (w := w) (t := t) (s := s)
    children (fun rhs hrhs => by
      obtain ⟨h1, h2⟩ := (hmem rhs).1 hrhs
      exact hpairs _ h1 h2) hok hbound (by omega)
  obtain ⟨b0, hb0⟩ := halloc N hN s (s + len - 1) (by omega) (by omega)
  obtain ⟨t1, ht1⟩ := Table.write_of_read hb0 b
  refine ⟨t1, ?_, ?_, ?_⟩
  · simp only [CYK.checkIfNonterminalGeneratesSubword, hchildren, Option.bind_eq_bind,
      Option.some_bind, hb]
    exact ht1
  · intro M a b1 hne
    exact Table.read_write_ne ht1 hne
  · refine ⟨b, Table.read_write_same ht1, ?_⟩
    have e1 : s + len - 1 + 1 - s = len := by omega
    rw [e1, CnfGen.subword_iff hbound hlen, hbiff]
    constructor
    · rintro ⟨rhs, hrhs, m, h1, h2, h3, h4⟩
      obtain ⟨hr, hl⟩ := (hmem rhs).1 hrhs
      match rhs, hl, hr, h3, h4 with
      | [B, C], _, hr, h3, h4 => exact ⟨B, C, hr, m, h1, h2, h3, h4⟩
    · rintro ⟨B, C, hr, m, h1, h2, h3, h4⟩
      exact ⟨[B, C], (hmem _).2 ⟨hr, rfl⟩, m, h1, h2, h3, h4⟩

/-! ## `calculateTableValues` and `predict` -/

theorem CellOK.of_read_eq {g : Grammar} {w : Word} {t t1 : CYK.Table} {N : Symbol} {i j : Nat}
    (h : CellOK g w t N i j) (heq : CYK.Table.read t1 N i j = CYK.Table.read t N i j) :
    CellOK g w t1 N i j := by
  unfold CellOK
  rw [heq]
  exact h

theorem OKBelow.of_agree {g : Grammar} {w : Word} {t t1 : CYK.Table} {s len : Nat}
    (h : OKBelow g w t len)
    (hagree : ∀ M a b, (a ≠ s ∨ b ≠ s + len - 1) →
      CYK.Table.read t1 M a b = CYK.Table.read t M a b) :
    OKBelow g w t1 len := by
  intro N hN i j hij hj hsize
  refine (h N hN i j hij hj hsize).of_read_eq (hagree N i j ?_)
  by_cases hi : i = s
  · exact Or.inr (by omega)
  · exact Or.inl hi

/-- The loop over the nonterminals for one subword. -/
theorem nonterminal_loop_spec (c : CYK) (hg : WellFormed c.grammar)
    (hpairs : PairsAreNonterminals c.grammar) {w : Word} {t : CYK.Table} {s len : Nat}
    (hlen : 2 ≤ len) (hbound : s + len ≤ w.length) (halloc : Allocated c.grammar w.length t)
    (hok : OKBelow c.grammar w t len) :
    ∃ t1, c.grammar.nonterminals.foldlM (fun t nonterminal =>
        CYK.checkIfNonterminalGeneratesSubword nonterminal c.findDirectChildren.2 t s len) t =
          some t1 ∧
      (∀ M a b, (a ≠ s ∨ b ≠ s + len - 1) →
        CYK.Table.read t1 M a b = CYK.Table.read t M a b) ∧
      ∀ N ∈ c.grammar.nonterminals, CellOK c.grammar w t1 N s (s + len - 1) := by
  obtain ⟨t1, ht1, hI⟩ := foldlM_invariant
    (fun t nonterminal =>
      CYK.checkIfNonterminalGeneratesSubword nonterminal c.findDirectChildren.2 t s len)
    c.grammar.nonterminals
    (fun k t1 => (∀ M a b, (a ≠ s ∨ b ≠ s + len - 1) →
        CYK.Table.read t1 M a b = CYK.Table.read t M a b) ∧
      Allocated c.grammar w.length t1 ∧
      ∀ N ∈ c.grammar.nonterminals.take k, CellOK c.grammar w t1 N s (s + len - 1))
    t ⟨fun _ _ _ _ => rfl, halloc, by intro N hN; simp at hN⟩
    (by
      intro k hk t0 hI
      obtain ⟨hagree, halloc0, hcells⟩ := hI
      have hmem : c.grammar.nonterminals.get ⟨k, hk⟩ ∈ c.grammar.nonterminals :=
        List.get_mem _ _ _
      obtain ⟨t1, ht1, hagree1, hcell1⟩ := checkIfNonterminalGeneratesSubword_spec c hg hpairs
        hmem hlen hbound halloc0 (hok.of_agree hagree)
      refine ⟨t1, ht1, ?_, ?_, ?_⟩
      · intro M a b hne
        rw [hagree1 M a b (Or.inr hne)]
        exact hagree M a b hne
      · intro M hM i j hi hj
        by_cases h : M ≠ c.grammar.nonterminals.get ⟨k, hk⟩ ∨ i ≠ s ∨ j ≠ s + len - 1
        · rw [hagree1 M i j h]
          exact halloc0 M hM i j hi hj
        · simp only [not_or, not_not] at h
          obtain ⟨b, hb, -⟩ := hcell1
          rw [h.1, h.2.1, h.2.2]
          exact ⟨b, hb⟩
      · intro M hM
        by_cases h : M = c.grammar.nonterminals.get ⟨k, hk⟩
        · rw [h]
          exact hcell1
        · rcases (mem_take_succ_iff hk).1 hM with h1 | h1
          · exact (hcells M h1).of_read_eq (hagree1 M _ _ (Or.inl h))
          · exact absurd h1 h)
  obtain ⟨hagree, -, hcells⟩ := hI
  rw [List.take_length] at hcells
  exact ⟨t1, ht1, hagree, hcells⟩

/-- The loop over the start positions for one subword size. -/
theorem start_loop_spec (c : CYK) (hg : WellFormed c.grammar)
    (hpairs : PairsAreNonterminals c.grammar) {w : Word} {t : CYK.Table} {len : Nat}
    (hlen : 2 ≤ len) (halloc : Allocated c.grammar w.length t)
    (hok : OKBelow c.grammar w t len) :
    ∃ t1, (List.range (w.length + 1 - len)).foldlM (fun t subwordStart =>
        c.grammar.nonterminals.foldlM (fun t nonterminal =>
          CYK.checkIfNonterminalGeneratesSubword nonterminal c.findDirectChildren.2 t
            subwordStart len) t) t = some t1 ∧
      Allocated c.grammar w.length t1 ∧ OKBelow c.grammar w t1 (len + 1) := by
  obtain ⟨t1, ht1, hI⟩ := foldlM_invariant
    (fun t subwordStart =>
      c.grammar.nonterminals.foldlM (fun t nonterminal =>
        CYK.checkIfNonterminalGeneratesSubword nonterminal c.findDirectChildren.2 t
          subwordStart len) t)
    (List.range (w.length + 1 - len))
    (fun k t1 => Allocated c.grammar w.length t1 ∧ OKBelow c.grammar w t1 len ∧
      ∀ N ∈ c.grammar.nonterminals, ∀ i, i < k → CellOK c.grammar w t1 N i (i + len - 1))
    t ⟨halloc, hok, by intro N _ i hi; omega⟩
    (by
      intro k hk t0 hI
      obtain ⟨halloc0, hok0, hcells⟩ := hI
      have hk1 : k < w.length + 1 - len := by simpa using hk
      have hget : (List.range (w.length + 1 - len)).get ⟨k, hk⟩ = k := by simp
      rw [hget]
      obtain ⟨t1, ht1, hagree, hcell1⟩ := nonterminal_loop_spec c hg hpairs hlen
        (show k + len ≤ w.length by omega) halloc0 hok0
      refine ⟨t1, ht1, ?_, hok0.of_agree hagree, ?_⟩
      · intro M hM i j hi hj
        by_cases h : i ≠ k ∨ j ≠ k + len - 1
        · rw [hagree M i j h]
          exact halloc0 M hM i j hi hj
        · simp only [not_or, not_not] at h
          obtain ⟨b, hb, -⟩ := hcell1 M hM
          rw [h.1, h.2]
          exact ⟨b, hb⟩
      · intro M hM i hi
        by_cases h : i = k
        · rw [h]
          exact hcell1 M hM
        · exact (hcells M hM i (by omega)).of_read_eq (hagree M _ _ (Or.inl h)))
  obtain ⟨halloc1, hok1, hcells⟩ := hI
  refine ⟨t1, ht1, halloc1, ?_⟩
  intro N hN i j hij hj hsize
  by_cases h : j + 1 - i < len
  · exact hok1 N hN i j hij hj h
  · have hj1 : j = i + len - 1 := by omega
    rw [hj1]
    apply hcells N hN i
    rw [List.length_range]
    omega

/-- The loop over the subword sizes. -/
theorem size_loop_spec (c : CYK) (hg : WellFormed c.grammar)
    (hpairs : PairsAreNonterminals c.grammar) {w : Word} {t : CYK.Table}
    (halloc : Allocated c.grammar w.length t) (hok : OKBelow c.grammar w t 2) :
    ∃ t1, (List.range' 2 (w.length - 1)).foldlM (fun t subwordSize =>
        (List.range (w.length + 1 - subwordSize)).foldlM (fun t subwordStart =>
          c.grammar.nonterminals.foldlM (fun t nonterminal =>
            CYK.checkIfNonterminalGeneratesSubword nonterminal c.findDirectChildren.2 t
              subwordStart subwordSize) t) t) t = some t1 ∧
      Allocated c.grammar w.length t1 ∧ OKBelow c.grammar w t1 (2 + (w.length - 1)) := by
  obtain ⟨t1, ht1, hI⟩ := foldlM_invariant
    (fun t subwordSize =>
      (List.range (w.length + 1 - subwordSize)).foldlM (fun t subwordStart =>
        c.grammar.nonterminals.foldlM (fun t nonterminal =>
          CYK.checkIfNonterminalGeneratesSubword nonterminal c.findDirectChildren.2 t
            subwordStart subwordSize) t) t)
    (List.range' 2 (w.length - 1))
    (fun k t1 => Allocated c.grammar w.length t1 ∧ OKBelow c.grammar w t1 (2 + k))
    t ⟨halloc, hok⟩
    (by
      intro k hk t0 hI
      obtain ⟨halloc0, hok0⟩ := hI
      have hget : (List.range' 2 (w.length - 1)).get ⟨k, hk⟩ = 2 + k := by simp
      rw [hget]
      exact start_loop_spec c hg hpairs (by omega) halloc0 hok0)
  rw [List.length_range'] at hI
  exact ⟨t1, ht1, hI⟩

theorem calculateTableValues_spec (c : CYK) (hg : WellFormed c.grammar)
    (hpairs : PairsAreNonterminals c.grammar) (w : Word) :
    ∃ t, c.calculateTableValues w = some t ∧
      Allocated c.grammar w.length t ∧ OKBelow c.grammar w t (2 + (w.length - 1)) := by
  obtain ⟨t0, ht0, halloc0, hok0⟩ := initTable_spec c hg w
  obtain ⟨t1, ht1, h1⟩ := size_loop_spec c hg hpairs halloc0 hok0
  refine ⟨t1, ?_, h1⟩
  simp only [CYK.calculateTableValues, ht0, Option.bind_eq_bind, Option.some_bind]
  exact ht1

/-- On a grammar whose rules have one nonterminal as lhs and whose rhs of length 2 consist
of nonterminals, `predict` returns on every non-empty word, and it returns true exactly
when the start symbol derives the word by a tree of rules `A → a` and `A → B C`. -/
theorem predict_cons_spec (c : CYK) (hg : WellFormed c.grammar)
    (hpairs : PairsAreNonterminals c.grammar) {w : Word} (hw : w ≠ []) :
    ∃ b, c.predict w = some b ∧ (b = true ↔ CnfGen c.grammar c.grammar.startSymbol w) := by
  obtain ⟨t, ht, -, hok⟩ := calculateTableValues_spec c hg hpairs w
  have hpos := List.length_pos.2 hw
  obtain ⟨b, hb, hiff⟩ := hok c.grammar.startSymbol hg.start_mem 0 (w.length - 1)
    (Nat.zero_le _) (by omega) (by omega)
  have e : w.length - 1 + 1 - 0 = w.length := by omega
  rw [e, subword_zero_length] at hiff
  refine ⟨b, ?_, hiff⟩
  have hne : w.isEmpty = false := by
    cases w with
    | nil => exact absurd rfl hw
    | cons _ _ => rfl
  simp only [CYK.predict, hne, Bool.false_eq_true, if_false, ht, Option.bind_eq_bind,
    Option.some_bind]
  exact hb

/-! ## `CYK` on the grammar it was built from -/

theorem CYK.new_spec {g : Grammar} {c : CYK} (hg : WellFormed g)
    (hc : CYK.new g = Except.ok c) : ChomskyShape c.grammar ∧ SameLanguage g c.grammar :=
  normalize_spec hg ((CYK.new_ok_iff_normalized g c).1 hc)

theorem predict_nil_eq_true_iff {c : CYK} (hc : ChomskyShape c.grammar) :
    c.predict [] = some true ↔ (⟨[c.grammar.startSymbol], []⟩ : Rule) ∈ c.grammar.rules := by
  rw [predict_nil, Option.some.injEq, acceptsEmptyWord_iff, ← rule_mem_iff hc.wellFormed]

/-- `predict` returns on every word; it returns true exactly on the words of terminals that
the start symbol of the grammar given to the constructor derives. -/
theorem predict_spec {g : Grammar} {c : CYK} (hg : WellFormed g)
    (hc : CYK.new g = Except.ok c) (w : Word) :
    ∃ b, c.predict w = some b ∧ (b = true ↔ g.Generates w) := by
  obtain ⟨hshape, hsame⟩ := CYK.new_spec hg hc
  have hgen : c.grammar.Generates w ↔ g.Generates w := by
    unfold Grammar.Generates Grammar.IsTerminalWord
    rw [hsame.terminals_eq]
    constructor
    · rintro ⟨h1, h2⟩
      exact ⟨h1, (hsame.derives_iff w h1).1 h2⟩
    · rintro ⟨h1, h2⟩
      exact ⟨h1, (hsame.derives_iff w h1).2 h2⟩
  by_cases hw : w = []
  · subst hw
    refine ⟨c.acceptsEmptyWord, predict_nil c, ?_⟩
    rw [← hgen, ← Option.some.injEq, ← predict_nil, predict_nil_eq_true_iff hshape,
      ← hshape.startDerives_nil_iff]
    constructor
    · intro h
      exact ⟨fun s hs => by simp at hs, h⟩
    · intro h
      exact h.2
  · obtain ⟨b, hb, hiff⟩ := predict_cons_spec c hshape.wellFormed hshape.pairs hw
    exact ⟨b, hb, by rw [hiff, ← hshape.generates_iff_cnfGen hw, hgen]⟩

theorem predict_eq_true_iff {g : Grammar} {c : CYK} (hg : WellFormed g)
    (hc : CYK.new g = Except.ok c) (w : Word) :
    (c.predict w = some true ↔ g.Generates w) ∧
      (c.predict w = some false ↔ ¬ g.Generates w) := by
  obtain ⟨b, hb, hiff⟩ := predict_spec hg hc w
  rw [hb, ← hiff]
  cases b <;> simp

/-- C1: for a valid context-free grammar `g` on which the constructor of `CYK` succeeds
(normalization does not run out of symbols) and every word `w`, `CYK(g).predict(w)` returns,
and it returns true exactly when `w` is in the language of `g`: `w` is a word of terminals
that the start symbol of `g` derives with the rules of `g`. So on a word of terminals the
result is whether the start symbol of `g` derives `w`, and on any other word it is false. -/
theorem predict_iff_generates (ts nts : Alphabet) (s : Symbol) (rs : List Rule)
    (g : Grammar) (c : CYK) (hg : ContextFreeGrammar.new ts nts s rs = Except.ok g)
    (hc : CYK.new g = Except.ok c) (w : Word) :
    (c.predict w = some true ↔ g.Generates w) ∧
      (c.predict w = some false ↔ ¬ g.Generates w) ∧
      (g.IsTerminalWord w → (c.predict w = some true ↔ g.StartDerives w)) ∧
      (¬ g.IsTerminalWord w → c.predict w = some false) := by
  obtain ⟨h1, h2⟩ := predict_eq_true_iff (wellFormed_of_new hg) hc w
  refine ⟨h1, h2, fun hw => ?_, fun hw => h2.2 (fun h => hw h.1)⟩
  rw [h1]
  exact ⟨fun h => h.2, fun h => ⟨hw, h⟩⟩

theorem predict_iff_generates_witness :
    ContextFreeGrammar.new [97] [65, 66] 65 [⟨[65], [97]⟩, ⟨[65], [66]⟩, ⟨[66], []⟩] =
        Except.ok exampleEmptyWord ∧
      CYK.new exampleEmptyWord =
        Except.ok ⟨⟨[97], [98, 65, 66], 98, [⟨[98], []⟩, ⟨[98], [97]⟩], 98⟩⟩ ∧
      CYK.predict ⟨⟨[97], [98, 65, 66], 98, [⟨[98], []⟩, ⟨[98], [97]⟩], 98⟩⟩ [97] = some true ∧
      exampleEmptyWord.Generates [97] ∧
      CYK.predict ⟨⟨[97], [98, 65, 66], 98, [⟨[98], []⟩, ⟨[98], [97]⟩], 98⟩⟩ [97, 97] =
        some false ∧
      ¬ exampleEmptyWord.Generates [97, 97] :=
  ⟨by rfl, by rfl, by rfl,
    (predict_iff_generates [97] [65, 66] 65 [⟨[65], [97]⟩, ⟨[65], [66]⟩, ⟨[66], []⟩]
      exampleEmptyWord _ (by rfl) (by rfl) [97]).1.1 (by rfl),
    by rfl,
    (predict_iff_generates [97] [65, 66] 65 [⟨[65], [97]⟩, ⟨[65], [66]⟩, ⟨[66], []⟩]
      exampleEmptyWord _ (by rfl) (by rfl) [97, 97]).2.1.1 (by rfl)⟩

/-- C2: for a valid context-free grammar `g` on which `normalized()` succeeds and every word
`w` over the terminals of `g` (the empty word included), the start symbol of
`g.normalized()` derives `w` in `g.normalized()` exactly when the start symbol of `g`
derives `w` in `g`; the terminals are unchanged. -/
theorem normalized_startDerives_iff (ts nts : Alphabet) (s : Symbol) (rs : List Rule)
    (g g1 : Grammar) (hg : ContextFreeGrammar.new ts nts s rs = Except.ok g)
    (hn : normalized g = Except.ok g1) (w : Word) (hw : g.IsTerminalWord w) :
    g1.terminals = g.terminals ∧ (g1.StartDerives w ↔ g.StartDerives w) := by
  obtain ⟨-, hsame⟩ := normalize_spec (wellFormed_of_new hg) hn
  exact ⟨hsame.terminals_eq, hsame.derives_iff w hw⟩

theorem normalized_startDerives_iff_witness :
    ContextFreeGrammar.new [97] [65, 66] 65 [⟨[65], [97]⟩, ⟨[65], [66]⟩, ⟨[66], []⟩] =
        Except.ok exampleEmptyWord ∧
      normalized exampleEmptyWord =
        Except.ok ⟨[97], [98, 65, 66], 98, [⟨[98], []⟩, ⟨[98], [97]⟩], 98⟩ ∧
      exampleEmptyWord.IsTerminalWord [] ∧
      ((⟨[97], [98, 65, 66], 98, [⟨[98], []⟩, ⟨[98], [97]⟩], 98⟩ : Grammar).terminals =
          exampleEmptyWord.terminals ∧
        ((⟨[97], [98, 65, 66], 98, [⟨[98], []⟩, ⟨[98], [97]⟩], 98⟩ : Grammar).StartDerives [] ↔
          exampleEmptyWord.StartDerives [])) :=
  ⟨by rfl, by rfl, fun s hs => by simp at hs,
    normalized_startDerives_iff [97] [65, 66] 65 [⟨[65], [97]⟩, ⟨[65], [66]⟩, ⟨[66], []⟩]
      exampleEmptyWord _ (by rfl) (by rfl) [] (fun s hs => by simp at hs)⟩

/-- C5, amended: for a valid context-free grammar `g` on which the constructor of `CYK`
succeeds, `CYK(g).predict("")` returns true exactly when the rule set of the grammar that
the constructor stores, `g.normalized()`, contains a rule whose lhs is the start symbol of
that normalized grammar and whose rhs is empty. -/
theorem predict_nil_iff_normalized_rule (ts nts : Alphabet) (s : Symbol) (rs : List Rule)
    (g : Grammar) (c : CYK) (hg : ContextFreeGrammar.new ts nts s rs = Except.ok g)
    (hc : CYK.new g = Except.ok c) :
    normalized g = Except.ok c.grammar ∧
      (c.predict [] = some true ↔
        ∃ r ∈ c.grammar.rules, r.lhs = [c.grammar.startSymbol] ∧ r.rhs = []) := by
  refine ⟨(CYK.new_ok_iff_normalized g c).1 hc, ?_⟩
  obtain ⟨hshape, -⟩ := CYK.new_spec (wellFormed_of_new hg) hc
  rw [predict_nil_eq_true_iff hshape]
  constructor
  · intro h
    exact ⟨_, h, rfl, rfl⟩
  · rintro ⟨r, hr, h1, h2⟩
    have : r = ⟨[c.grammar.startSymbol], []⟩ := by
      cases r
      simp only at h1 h2
      rw [h1, h2]
    rw [← this]
    exact hr

theorem predict_nil_iff_normalized_rule_witness :
    ContextFreeGrammar.new [97] [65, 66] 65 [⟨[65], [97]⟩, ⟨[65], [66]⟩, ⟨[66], []⟩] =
        Except.ok exampleEmptyWord ∧
      CYK.new exampleEmptyWord =
        Except.ok ⟨⟨[97], [98, 65, 66], 98, [⟨[98], []⟩, ⟨[98], [97]⟩], 98⟩⟩ ∧
      (normalized exampleEmptyWord =
          Except.ok ⟨[97], [98, 65, 66], 98, [⟨[98], []⟩, ⟨[98], [97]⟩], 98⟩ ∧
        (CYK.predict ⟨⟨[97], [98, 65, 66], 98, [⟨[98], []⟩, ⟨[98], [97]⟩], 98⟩⟩ [] = some true ↔
          ∃ r ∈ [(⟨[98], []⟩ : Rule), ⟨[98], [97]⟩], r.lhs = [98] ∧ r.rhs = [])) :=
  ⟨by rfl, by rfl,
    predict_nil_iff_normalized_rule [97] [65, 66] 65 [⟨[65], [97]⟩, ⟨[65], [66]⟩, ⟨[66], []⟩]
      exampleEmptyWord _ (by rfl) (by rfl)⟩

/-- C6: for a valid context-free grammar `g` on which normalization succeeds,
`CYK(g).predict("")` returns, and it returns true exactly when the start symbol of `g`
derives the empty word in `g`. -/
theorem predict_nil_iff_startDerives (ts nts : Alphabet) (s : Symbol) (rs : List Rule)
    (g : Grammar) (c : CYK) (hg : ContextFreeGrammar.new ts nts s rs = Except.ok g)
    (hc : CYK.new g = Except.ok c) :
    (c.predict [] = some true ↔ g.StartDerives []) ∧
      (c.predict [] = some false ↔ ¬ g.StartDerives []) := by
  obtain ⟨h1, h2⟩ := predict_eq_true_iff (wellFormed_of_new hg) hc []
  have h3 : g.Generates [] ↔ g.StartDerives [] :=
    ⟨fun h => h.2, fun h => ⟨fun s hs => by simp at hs, h⟩⟩
  rw [h3] at h1 h2
  exact ⟨h1, h2⟩

/-- The examples of C6: `predict("")` is false for `{A → a}` and true for
`{A → a, A → B, B → ε}` with start `A`, and so is whether `A` derives the empty word. -/
theorem predict_nil_iff_startDerives_witness :
    (ContextFreeGrammar.new [97] [65] 65 [⟨[65], [97]⟩] = Except.ok exampleSingle ∧
      CYK.new exampleSingle = Except.ok ⟨exampleSingle⟩ ∧
      CYK.predict ⟨exampleSingle⟩ [] = some false ∧
      ¬ exampleSingle.StartDerives []) ∧
    (ContextFreeGrammar.new [97] [65, 66] 65 [⟨[65], [97]⟩, ⟨[65], [66]⟩, ⟨[66], []⟩] =
        Except.ok exampleEmptyWord ∧
      CYK.new exampleEmptyWord =
        Except.ok ⟨⟨[97], [98, 65, 66], 98, [⟨[98], []⟩, ⟨[98], [97]⟩], 98⟩⟩ ∧
      CYK.predict ⟨⟨[97], [98, 65, 66], 98, [⟨[98], []⟩, ⟨[98], [97]⟩], 98⟩⟩ [] = some true ∧
      exampleEmptyWord.StartDerives []) :=
  ⟨⟨by rfl, by rfl, by rfl,
      (predict_nil_iff_startDerives [97] [65] 65 [⟨[65], [97]⟩] exampleSingle ⟨exampleSingle⟩
        (by rfl) (by rfl)).2.1 (by rfl)⟩,
    ⟨by rfl, by rfl, by rfl,
      (predict_nil_iff_startDerives [97] [65, 66] 65
        [⟨[65], [97]⟩, ⟨[65], [66]⟩, ⟨[66], []⟩] exampleEmptyWord _ (by rfl) (by rfl)).1.1
        (by rfl)⟩⟩

/-! ## The grammar of balanced parentheses -/

theorem balanceScan_cons (b : Int) (x : Symbol) (xs : Word) :
    balanceScan b (x :: xs) = true ↔
      0 ≤ (if x = 40 then b + 1 else if x = 41 then b - 1 else b) ∧
        balanceScan (if x = 40 then b + 1 else if x = 41 then b - 1 else b) xs = true := by
  rw [balanceScan]
  generalize (if x = 40 then b + 1 else if x = 41 then b - 1 else b) = k
  by_cases h : k < 0
  · rw [if_pos h]
    constructor
    · intro h1; exact absurd h1 (by simp)
    · intro h1; omega
  · rw [if_neg h]
    constructor
    · intro h1; exact ⟨by omega, h1⟩
    · intro h1; exact h1.2

theorem pendingForm_eq_cons (k : Nat) : ∃ tl, pendingForm k = 83 :: tl := by
  cases k with
  | zero => exact ⟨[], rfl⟩
  | succ k => exact ⟨41 :: pendingForm k, rfl⟩

theorem derives_open_close :
    Derives exampleParentheses.rules [83] [40, 83, 41, 83] := by
  have h1 : Derives exampleParentheses.rules [83] [83, 83] :=
    Derives.of_mem (by simp [exampleParentheses])
  have h2 : Derives exampleParentheses.rules [83] [40, 83, 41] :=
    Derives.of_mem (by simp [exampleParentheses])
  exact h1.trans (h2.append_right [83])

/-- A word of parentheses that closes `k` pending parentheses is derived from
`pendingForm k`. -/
theorem derives_of_balanceScan :
    ∀ (w : Word) (k : Nat), (∀ x ∈ w, x = 40 ∨ x = 41) → balanceScan (k : Int) w = true →
      Derives exampleParentheses.rules (pendingForm k) w := by
  intro w
  induction w with
  | nil =>
    intro k _ h
    simp only [balanceScan, decide_eq_true_eq] at h
    have hk : k = 0 := by omega
    subst hk
    show Derives exampleParentheses.rules [83] []
    exact Derives.of_mem (by simp [exampleParentheses])

  | cons x xs ih =>
    intro k hw h
    have hxs : ∀ y ∈ xs, y = 40 ∨ y = 41 := fun y hy => hw y (List.mem_cons_of_mem _ hy)
    rw [balanceScan_cons] at h
    rcases hw x (List.mem_cons_self _ _) with hx | hx
    · subst hx
      simp only [if_true] at h
      have h1 := ih (k + 1) hxs (by simpa using h.2)
      obtain ⟨tl, htl⟩ := pendingForm_eq_cons k
      have h2 : Derives exampleParentheses.rules (pendingForm k)
          ([40] ++ pendingForm (k + 1)) := by
        have := derives_open_close.append_right tl
        simpa [pendingForm, htl] using this
      exact h2.trans (h1.append_left [40])
    · subst hx
      have hne : ¬ ((41 : Symbol) = 40) := by decide
      simp only [hne, if_false, if_true] at h
      obtain ⟨m, rfl⟩ : ∃ m, k = m + 1 := ⟨k - 1, by omega⟩
      have h1 := ih m hxs (by
        have := h.2
        simpa using this)
      have h2 : Derives exampleParentheses.rules (pendingForm (m + 1))
          ([41] ++ pendingForm m) := by
        have h3 : Derives exampleParentheses.rules [83] [] :=
          Derives.of_mem (by simp [exampleParentheses])
        have := h3.append_right (41 :: pendingForm m)
        simpa [pendingForm] using this
      exact h2.trans (h1.append_left [41])

theorem balanceScan_context (a b q : Word)
    (h : ∀ k : Int, 0 ≤ k → balanceScan k (a ++ q) = true → balanceScan k (b ++ q) = true) :
    ∀ (p : Word) (k : Int), 0 ≤ k → balanceScan k (p ++ a ++ q) = true →
      balanceScan k (p ++ b ++ q) = true := by
  intro p
  induction p with
  | nil =>
    intro k hk hp
    simpa using h k hk (by simpa using hp)
  | cons x p ih =>
    intro k _ hp
    simp only [List.cons_append, balanceScan_cons] at hp ⊢
    exact ⟨hp.1, ih _ hp.1 hp.2⟩

theorem balanceScan_of_produces {u v : Word} (h : Produces exampleParentheses.rules u v)
    (hu : balanceScan 0 u = true) : balanceScan 0 v = true := by
  obtain ⟨r, hr, p, q, rfl, rfl⟩ := h
  refine balanceScan_context r.lhs r.rhs q ?_ p 0 (le_refl _) hu
  intro k hk
  simp only [exampleParentheses, List.mem_cons, List.mem_singleton, List.not_mem_nil,
    or_false] at hr
  have h1 : ¬ ((83 : Symbol) = 40) := by decide
  have h2 : ¬ ((83 : Symbol) = 41) := by decide
  have h3 : ¬ ((41 : Symbol) = 40) := by decide
  rcases hr with rfl | rfl | rfl
  · simp only [List.cons_append, List.nil_append, balanceScan_cons, h1, h2, if_false]
    tauto
  · simp only [List.cons_append, List.nil_append, balanceScan_cons, h1, h2, if_false]
    tauto
  · simp only [List.cons_append, List.nil_append, balanceScan_cons, h1, h2, h3, if_false,
      if_true, add_sub_cancel_right]
    intro h
    exact ⟨by omega, by omega, h⟩

theorem balanceScan_of_derives {u : Word} (h : Derives exampleParentheses.rules [83] u) :
    balanceScan 0 u = true := by
  induction h with
  | refl => rfl
  | tail _ hstep ih => exact balanceScan_of_produces hstep ih

/-- The grammar `S → SS | ε | (S)` generates the balanced words of parentheses. -/
theorem exampleParentheses_generates_iff (w : Word) (hw : ∀ x ∈ w, x = 40 ∨ x = 41) :
    exampleParentheses.Generates w ↔ isBalanced w = true := by
  constructor
  · rintro ⟨-, h⟩
    exact balanceScan_of_derives h
  · intro h
    refine ⟨?_, derives_of_balanceScan w 0 hw h⟩
    intro x hx
    rcases hw x hx with h1 | h1 <;> simp [exampleParentheses, h1]

/-- C7: for the grammar with terminals `(` and `)`, nonterminal `S`, start `S` and rules
`S → SS`, `S → ε`, `S → (S)`, and every word `w` of `(` and `)`, `CYK.predict(w)` returns
whether `w` is balanced: scanning from left to right with +1 for `(` and -1 for `)`, the
running balance never goes negative and ends at 0. -/
theorem predict_parentheses (c : CYK) (hc : CYK.new exampleParentheses = Except.ok c)
    (w : Word) (hw : ∀ x ∈ w, x = 40 ∨ x = 41) :
    ContextFreeGrammar.new [40, 41] [83] 83
        [⟨[83], [83, 83]⟩, ⟨[83], []⟩, ⟨[83], [40, 83, 41]⟩] = Except.ok exampleParentheses ∧
      c.predict w = some (isBalanced w) ∧
      (c.predict w = some true ↔ isBalanced w = true) := by
  have hnew : ContextFreeGrammar.new [40, 41] [83] 83
      [⟨[83], [83, 83]⟩, ⟨[83], []⟩, ⟨[83], [40, 83, 41]⟩] = Except.ok exampleParentheses := by
    rfl
  obtain ⟨b, hb, hiff⟩ := predict_spec (wellFormed_of_new hnew) hc w
  rw [exampleParentheses_generates_iff w hw] at hiff
  have hbe : b = isBalanced w := by
    cases b <;> cases hbal : isBalanced w <;> simp_all
  rw [hb, hbe]
  exact ⟨hnew, rfl, by simp⟩

set_option maxRecDepth 10000 in
theorem predict_parentheses_witness :
    CYK.new exampleParentheses = Except.ok ⟨exampleParenthesesNormalized⟩ ∧
      (∀ x ∈ ([40, 41, 40, 40, 41, 41] : Word), x = 40 ∨ x = 41) ∧
      (ContextFreeGrammar.new [40, 41] [83] 83
          [⟨[83], [83, 83]⟩, ⟨[83], []⟩, ⟨[83], [40, 83, 41]⟩] = Except.ok exampleParentheses ∧
        CYK.predict ⟨exampleParenthesesNormalized⟩ [40, 41, 40, 40, 41, 41] =
          some (isBalanced [40, 41, 40, 40, 41, 41]) ∧
        (CYK.predict ⟨exampleParenthesesNormalized⟩ [40, 41, 40, 40, 41, 41] = some true ↔
          isBalanced [40, 41, 40, 40, 41, 41] = true)) :=
  ⟨by rfl, by simp,
    predict_parentheses ⟨exampleParenthesesNormalized⟩ (by rfl) [40, 41, 40, 40, 41, 41]
      (by simp)⟩

/-! ## `isContextFree` on a constructed grammar -/

/-- C11: on a successfully constructed `Grammar`, `isContextFree()` is true exactly when
the lhs of every rule is one symbol that is a nonterminal of the grammar; the rhs plays no
part. -/
theorem isContextFree_iff_single_nonterminal (ts nts : Alphabet) (s : Symbol)
    (rs : List Rule) (g : Grammar) (h : Grammar.new ts nts s rs = Except.ok g) :
    g.isContextFree = true ↔ ∀ r ∈ g.rules, ∃ a ∈ g.nonterminals, r.lhs = [a] := by
  obtain ⟨hc, hg⟩ := (Grammar.new_ok_iff_correct ts nts s rs g).1 h
  obtain ⟨-, -, hrules⟩ := (Grammar.isCorrect_iff _).1 hc
  have hne : ∀ r ∈ g.rules, r.lhs ≠ [] := by
    intro r hr
    rw [hg] at hr
    exact ((Grammar.ruleIsCorrect_iff _ r).1 (hrules r hr)).1
  rw [Grammar.isContextFree_iff]
  constructor
  · intro hcf r hr
    obtain ⟨h1, h2⟩ := hcf r hr
    have hlen : r.lhs.length = 1 := by
      have := List.length_pos.2 (hne r hr)
      omega
    exact ⟨r.lhs.at 0, h2 hlen, one_of_length_eq hlen⟩
  · intro hall r hr
    obtain ⟨a, ha, hl⟩ := hall r hr
    rw [hl]
    exact ⟨le_refl _, fun _ => ha⟩

theorem isContextFree_iff_single_nonterminal_witness :
    Grammar.new [97, 98, 99] [83, 65, 66, 67] 83 [⟨[83, 65], [65, 66, 67]⟩, ⟨[65], [97]⟩] =
        Except.ok ⟨[97, 98, 99], [83, 65, 66, 67], 83,
          [⟨[83, 65], [65, 66, 67]⟩, ⟨[65], [97]⟩], 99⟩ ∧
      Grammar.isContextFree ⟨[97, 98, 99], [83, 65, 66, 67], 83,
          [⟨[83, 65], [65, 66, 67]⟩, ⟨[65], [97]⟩], 99⟩ = false ∧
      ¬ ∀ r ∈ [(⟨[83, 65], [65, 66, 67]⟩ : Rule), ⟨[65], [97]⟩],
          ∃ a ∈ [(83 : Symbol), 65, 66, 67], r.lhs = [a] :=
  ⟨by rfl, by rfl, fun hall =>
    absurd ((isContextFree_iff_single_nonterminal [97, 98, 99] [83, 65, 66, 67] 83
      [⟨[83, 65], [65, 66, 67]⟩, ⟨[65], [97]⟩] _ (by rfl)).2 hall) (by decide)⟩

/-! ## Minting symbols -/

theorem addNewTerminal_eq (g : Grammar) :
    g.addNewTerminal =
      if g.maxSymbol = Symbol.maxValue then
        Except.error Exception.GrammarOutOfSymbolsException
      else
        Except.ok (g.maxSymbol + 1,
          { g with terminals := g.terminals.insert (g.maxSymbol + 1),
                   maxSymbol := g.maxSymbol + 1 }) := rfl

theorem addNewTerminal_ok {g g1 : Grammar} {n : Symbol}
    (h : g.addNewTerminal = Except.ok (n, g1)) :
    n = g.maxSymbol + 1 ∧ g.maxSymbol ≠ Symbol.maxValue ∧
      g1 = ⟨g.terminals.insert (g.maxSymbol + 1), g.nonterminals, g.startSymbol, g.rules,
        g.maxSymbol + 1⟩ := by
  rw [addNewTerminal_eq] at h
  by_cases h1 : g.maxSymbol = Symbol.maxValue
  · simp [h1] at h
  · simp only [h1, if_false, Except.ok.injEq, Prod.mk.injEq] at h
    exact ⟨h.1.symm, h1, h.2.symm⟩

theorem addNewNonterminal_ok_eq {g g1 : Grammar} {n : Symbol}
    (h : g.addNewNonterminal = Except.ok (n, g1)) :
    n = g.maxSymbol + 1 ∧ g.maxSymbol ≠ Symbol.maxValue ∧
      g1 = ⟨g.terminals, g.nonterminals.insert (g.maxSymbol + 1), g.startSymbol, g.rules,
        g.maxSymbol + 1⟩ := by
  rw [addNewNonterminal_eq] at h
  by_cases h1 : g.maxSymbol = Symbol.maxValue
  · simp [h1] at h
  · simp only [h1, if_false, Except.ok.injEq, Prod.mk.injEq] at h
    exact ⟨h.1.symm, h1, h.2.symm⟩

theorem foldl_max_mem (l : List Symbol) :
    ∀ m0 : Symbol, l.foldl (fun m s => max m s) m0 = m0 ∨ l.foldl (fun m s => max m s) m0 ∈ l := by
  induction l with
  | nil => intro m0; exact Or.inl rfl
  | cons a l ih =>
    intro m0
    rw [List.foldl_cons]
    rcases ih (max m0 a) with h | h
    · rw [h]
      rcases max_choice m0 a with h1 | h1
      · exact Or.inl h1
      · right; rw [h1]; exact List.mem_cons_self _ _
    · exact Or.inr (List.mem_cons_of_mem _ h)

theorem counterInvariant_of_new {ts nts : Alphabet} {s : Symbol} {rs : List Rule} {g : Grammar}
    (h : Grammar.new ts nts s rs = Except.ok g) : CounterInvariant g := by
  obtain ⟨-, hg⟩ := (Grammar.new_ok_iff_correct ts nts s rs g).1 h
  subst hg
  obtain ⟨a1, a2⟩ := Grammar.le_foldl_max ts 0
  obtain ⟨b1, b2⟩ := Grammar.le_foldl_max nts (ts.foldl (fun m s => max m s) 0)
  refine ⟨le_trans a1 b1, ?_, ?_⟩
  · show _ = 0 ∨ _ ∈ ts ∨ _ ∈ nts
    rcases foldl_max_mem nts (ts.foldl (fun m s => max m s) 0) with h1 | h1
    · rw [h1]
      rcases foldl_max_mem ts 0 with h2 | h2
      · exact Or.inl h2
      · exact Or.inr (Or.inl h2)
    · exact Or.inr (Or.inr h1)
  · intro x hx
    rcases hx with hx | hx
    · exact le_trans (a2 x hx) b1
    · exact b2 x hx

theorem CounterInvariant.step {g g1 : Grammar} (hg : CounterInvariant g) (h : MintStep g g1) :
    CounterInvariant g1 ∧ (∀ x ∈ g.terminals, x ∈ g1.terminals) ∧
      (∀ x ∈ g.nonterminals, x ∈ g1.nonterminals) := by
  have h0 := hg.nonneg
  rcases h with ⟨x, h⟩ | ⟨x, h⟩
  · obtain ⟨-, -, rfl⟩ := addNewTerminal_ok h
    refine ⟨⟨?_, ?_, ?_⟩, fun y hy => List.mem_insert_iff.2 (Or.inr hy), fun y hy => hy⟩
    · show (0 : Symbol) ≤ g.maxSymbol + 1
      linarith
    · exact Or.inr (Or.inl (List.mem_insert_self _ _))
    · intro y hy
      show y ≤ g.maxSymbol + 1
      rcases hy with hy | hy
      · rcases List.mem_insert_iff.1 hy with hy | hy
        · rw [hy]
        · exact le_trans (hg.le_max y (Or.inl hy)) (symbol_le_succ _)
      · exact le_trans (hg.le_max y (Or.inr hy)) (symbol_le_succ _)
  · obtain ⟨-, -, rfl⟩ := addNewNonterminal_ok_eq h
    refine ⟨⟨?_, ?_, ?_⟩, fun y hy => hy, fun y hy => List.mem_insert_iff.2 (Or.inr hy)⟩
    · show (0 : Symbol) ≤ g.maxSymbol + 1
      linarith
    · exact Or.inr (Or.inr (List.mem_insert_self _ _))
    · intro y hy
      show y ≤ g.maxSymbol + 1
      rcases hy with hy | hy
      · exact le_trans (hg.le_max y (Or.inl hy)) (symbol_le_succ _)
      · rcases List.mem_insert_iff.1 hy with hy | hy
        · rw [hy]
        · exact le_trans (hg.le_max y (Or.inr hy)) (symbol_le_succ _)

/-- The grammars reached by minting keep the invariant of the counter and the symbols they
had. -/
theorem CounterInvariant.reach {g0 g : Grammar} (hg : CounterInvariant g0)
    (h : Relation.ReflTransGen MintStep g0 g) :
    CounterInvariant g ∧ (∀ x ∈ g0.terminals, x ∈ g.terminals) ∧
      (∀ x ∈ g0.nonterminals, x ∈ g.nonterminals) := by
  induction h with
  | refl => exact ⟨hg, fun _ hx => hx, fun _ hx => hx⟩
  | tail _ hstep ih =>
    obtain ⟨i1, i2, i3⟩ := ih
    obtain ⟨j1, j2, j3⟩ := i1.step hstep
    exact ⟨j1, fun x hx => j2 x (i2 x hx), fun x hx => j3 x (i3 x hx)⟩

theorem CounterInvariant.not_mem_succ {g : Grammar} (hg : CounterInvariant g) :
    g.maxSymbol + 1 ∉ g.terminals ∧ g.maxSymbol + 1 ∉ g.nonterminals := by
  constructor
  · intro h
    have := hg.le_max _ (Or.inl h)
    linarith
  · intro h
    have := hg.le_max _ (Or.inr h)
    linarith

theorem MintStep.mem_of_mint {g g1 : Grammar} {x : Symbol}
    (h : g.addNewTerminal = Except.ok (x, g1) ∨ g.addNewNonterminal = Except.ok (x, g1)) :
    MintStep g g1 ∧ (x ∈ g1.terminals ∨ x ∈ g1.nonterminals) := by
  rcases h with h | h
  · obtain ⟨hx, -, rfl⟩ := addNewTerminal_ok h
    exact ⟨Or.inl ⟨x, h⟩, Or.inl (by rw [hx]; exact List.mem_insert_self _ _)⟩
  · obtain ⟨hx, -, rfl⟩ := addNewNonterminal_ok_eq h
    exact ⟨Or.inr ⟨x, h⟩, Or.inr (by rw [hx]; exact List.mem_insert_self _ _)⟩

/-- C12: in every state `g` of a grammar reached from a successful construction by calls
of `addNewTerminal` and `addNewNonterminal`, a successful call returns a symbol that was in
neither alphabet before the call; so it is none of the symbols given to the constructor and
none of the symbols minted earlier; after the call it is in the requested alphabet and not
in the other one. -/
theorem mint_fresh (ts nts : Alphabet) (s : Symbol) (rs : List Rule) (g0 g : Grammar)
    (h0 : Grammar.new ts nts s rs = Except.ok g0)
    (hreach : Relation.ReflTransGen MintStep g0 g) :
    (∀ x g1, g.addNewTerminal = Except.ok (x, g1) →
      x ∉ g.terminals ∧ x ∉ g.nonterminals ∧ x ∉ ts ∧ x ∉ nts ∧
        x ∈ g1.terminals ∧ x ∉ g1.nonterminals) ∧
    (∀ x g1, g.addNewNonterminal = Except.ok (x, g1) →
      x ∉ g.terminals ∧ x ∉ g.nonterminals ∧ x ∉ ts ∧ x ∉ nts ∧
        x ∈ g1.nonterminals ∧ x ∉ g1.terminals) ∧
    (∀ x g1, (g.addNewTerminal = Except.ok (x, g1) ∨ g.addNewNonterminal = Except.ok (x, g1)) →
      ∀ ga gb y, Relation.ReflTransGen MintStep g0 ga →
        (ga.addNewTerminal = Except.ok (y, gb) ∨ ga.addNewNonterminal = Except.ok (y, gb)) →
        Relation.ReflTransGen MintStep gb g → y ≠ x) := by
  have hinv0 := counterInvariant_of_new h0
  obtain ⟨hinv, hts, hnts⟩ := hinv0.reach hreach
  obtain ⟨-, hg0⟩ := (Grammar.new_ok_iff_correct ts nts s rs g0).1 h0
  have hts0 : g0.terminals = ts := by rw [hg0]
  have hnts0 : g0.nonterminals = nts := by rw [hg0]
  rw [hts0] at hts
  rw [hnts0] at hnts
  obtain ⟨f1, f2⟩ := hinv.not_mem_succ
  refine ⟨?_, ?_, ?_⟩
  · intro x g1 h
    obtain ⟨hx, -, rfl⟩ := addNewTerminal_ok h
    rw [hx]
    exact ⟨f1, f2, fun hh => f1 (hts _ hh), fun hh => f2 (hnts _ hh),
      List.mem_insert_self _ _, f2⟩
  · intro x g1 h
    obtain ⟨hx, -, rfl⟩ := addNewNonterminal_ok_eq h
    rw [hx]
    exact ⟨f1, f2, fun hh => f1 (hts _ hh), fun hh => f2 (hnts _ hh),
      List.mem_insert_self _ _, f1⟩
  · intro x g1 h ga gb y hra hy hrb hyx
    have hx : x = g.maxSymbol + 1 := by
      rcases h with h | h
      · exact (addNewTerminal_ok h).1
      · exact (addNewNonterminal_ok_eq h).1
    obtain ⟨hstep, hmem⟩ := MintStep.mem_of_mint hy
    obtain ⟨hinva, -, -⟩ := hinv0.reach hra
    obtain ⟨hinvb, -, -⟩ := hinva.step hstep
    obtain ⟨-, k1, k2⟩ := hinvb.reach hrb
    rw [hyx, hx] at hmem
    rcases hmem with hmem | hmem
    · exact f1 (k1 _ hmem)
    · exact f2 (k2 _ hmem)

theorem mint_fresh_witness :
    Grammar.new [] [83] 83 [] = Except.ok ⟨[], [83], 83, [], 83⟩ ∧
      Grammar.addNewTerminal ⟨[], [83], 83, [], 83⟩ =
        Except.ok (84, ⟨[84], [83], 83, [], 84⟩) ∧
      Grammar.addNewNonterminal ⟨[84], [83], 83, [], 84⟩ =
        Except.ok (85, ⟨[84], [85, 83], 83, [], 85⟩) ∧
      ((85 : Symbol) ∉ ([84] : Alphabet) ∧ (85 : Symbol) ∉ ([83] : Alphabet) ∧
        (85 : Symbol) ∉ ([] : Alphabet) ∧ (85 : Symbol) ∉ ([83] : Alphabet) ∧
        (85 : Symbol) ∈ ([85, 83] : Alphabet) ∧ (85 : Symbol) ∉ ([84] : Alphabet)) :=
  ⟨by rfl, by rfl, by rfl,
    (mint_fresh [] [83] 83 [] ⟨[], [83], 83, [], 83⟩ ⟨[84], [83], 83, [], 84⟩ (by rfl)
      (Relation.ReflTransGen.single (Or.inl ⟨84, by rfl⟩))).2.1 85
      ⟨[84], [85, 83], 83, [], 85⟩ (by rfl)⟩

/-- C13 as stated fails on the grammar `Grammar({}, {Symbol(-5)}, Symbol(-5), {})`: the
construction succeeds, the largest symbol of the alphabets is `-5`, and `addNewNonterminal`
returns `1`, which is not `-5 + 1`. -/
theorem mint_value_negative_symbols :
    Grammar.new [] [-5] (-5) [] = Except.ok ⟨[], [-5], -5, [], 0⟩ ∧
      Grammar.addNewNonterminal ⟨[], [-5], -5, [], 0⟩ =
        Except.ok (1, ⟨[], [1, -5], -5, [], 1⟩) ∧
      IsGreatest {y : Symbol | y ∈ ([] : Alphabet) ∨ y ∈ ([-5] : Alphabet)} (-5) ∧
      (1 : Symbol) ≠ -5 + 1 := by
  refine ⟨by rfl, by rfl, ⟨by simp, ?_⟩, by decide⟩
  intro y hy
  simp only [List.not_mem_nil, List.mem_singleton, false_or, Set.mem_setOf_eq] at hy
  rw [hy]

/-- C13, amended: in every state `g` of a grammar reached from a successful construction by
calls of `addNewTerminal` and `addNewNonterminal`, a successful call returns the symbol
whose value is exactly one greater than the largest among `0` and the values of the symbols
of the two alphabets at the time of the call; when some symbol of the alphabets is not
negative, that is one greater than the largest value of the symbols of the alphabets. -/
theorem mint_value (ts nts : Alphabet) (s : Symbol) (rs : List Rule) (g0 g : Grammar)
    (h0 : Grammar.new ts nts s rs = Except.ok g0)
    (hreach : Relation.ReflTransGen MintStep g0 g) (x : Symbol) (g1 : Grammar)
    (h : g.addNewTerminal = Except.ok (x, g1) ∨ g.addNewNonterminal = Except.ok (x, g1)) :
    IsGreatest {y : Symbol | y = 0 ∨ y ∈ g.terminals ∨ y ∈ g.nonterminals} (x - 1) ∧
      ((∃ y, (y ∈ g.terminals ∨ y ∈ g.nonterminals) ∧ 0 ≤ y) →
        IsGreatest {y : Symbol | y ∈ g.terminals ∨ y ∈ g.nonterminals} (x - 1)) := by
  obtain ⟨hinv, -, -⟩ := (counterInvariant_of_new h0).reach hreach
  have hx : x - 1 = g.maxSymbol := by
    rcases h with h | h
    · rw [(addNewTerminal_ok h).1]; simp
    · rw [(addNewNonterminal_ok_eq h).1]; simp
  rw [hx]
  refine ⟨⟨hinv.mem, ?_⟩, ?_⟩
  · intro y hy
    rcases hy with hy | hy
    · rw [hy]; exact hinv.nonneg
    · exact hinv.le_max y hy
  · rintro ⟨y, hy, hy0⟩
    refine ⟨?_, fun z hz => hinv.le_max z hz⟩
    rcases hinv.mem with hm | hm
    · have h1 := hinv.le_max y hy
      rw [hm] at h1
      have : y = 0 := le_antisymm h1 hy0
      show g.maxSymbol ∈ g.terminals ∨ g.maxSymbol ∈ g.nonterminals
      rw [hm, ← this]
      exact hy
    · exact hm

theorem mint_value_witness :
    Grammar.new [] [-5] (-5) [] = Except.ok ⟨[], [-5], -5, [], 0⟩ ∧
      Grammar.addNewNonterminal ⟨[], [-5], -5, [], 0⟩ =
        Except.ok (1, ⟨[], [1, -5], -5, [], 1⟩) ∧
      IsGreatest {y : Symbol | y = 0 ∨ y ∈ ([] : Alphabet) ∨ y ∈ ([-5] : Alphabet)} (1 - 1) :=
  ⟨by rfl, by rfl,
    (mint_value [] [-5] (-5) [] ⟨[], [-5], -5, [], 0⟩ ⟨[], [-5], -5, [], 0⟩ (by rfl)
      Relation.ReflTransGen.refl 1 ⟨[], [1, -5], -5, [], 1⟩ (Or.inr (by rfl))).1⟩

theorem maxSymbol_le_maxValue {ts nts : Alphabet} {s : Symbol} {rs : List Rule}
    {g0 g : Grammar} (h0 : Grammar.new ts nts s rs = Except.ok g0)
    (hrange : ∀ y, y ∈ ts ∨ y ∈ nts → y ≤ Symbol.maxValue)
    (hreach : Relation.ReflTransGen MintStep g0 g) : g.maxSymbol ≤ Symbol.maxValue := by
  induction hreach with
  | refl =>
    have hinv := counterInvariant_of_new h0
    obtain ⟨-, hg0⟩ := (Grammar.new_ok_iff_correct ts nts s rs g0).1 h0
    have hts0 : g0.terminals = ts := by rw [hg0]
    have hnts0 : g0.nonterminals = nts := by rw [hg0]
    rcases hinv.mem with h | h | h
    · rw [h]; decide
    · exact hrange _ (Or.inl (hts0 ▸ h))
    · exact hrange _ (Or.inr (hnts0 ▸ h))
  | @tail ga gb _ hstep ih =>
    have hlt : ga.maxSymbol ≠ Symbol.maxValue ∧ gb.maxSymbol = ga.maxSymbol + 1 := by
      rcases hstep with ⟨x, h⟩ | ⟨x, h⟩
      · obtain ⟨-, h1, rfl⟩ := addNewTerminal_ok h
        exact ⟨h1, rfl⟩
      · obtain ⟨-, h1, rfl⟩ := addNewNonterminal_ok_eq h
        exact ⟨h1, rfl⟩
    rw [hlt.2]
    exact Int.add_one_le_of_lt (lt_of_le_of_ne ih hlt.1)

/-! ## The object after `addNewTerminal` and `addNewNonterminal` -/

theorem inPlace_addNewTerminal_eq (g : Grammar) :
    InPlace.addNewTerminal g =
      if g.maxSymbol = Symbol.maxValue then
        ⟨g, Except.error Exception.GrammarOutOfSymbolsException⟩
      else
        ⟨⟨g.terminals.insert (g.maxSymbol + 1), g.nonterminals, g.startSymbol, g.rules,
          g.maxSymbol + 1⟩, Except.ok (g.maxSymbol + 1)⟩ := rfl

theorem inPlace_addNewNonterminal_eq (g : Grammar) :
    InPlace.addNewNonterminal g =
      if g.maxSymbol = Symbol.maxValue then
        ⟨g, Except.error Exception.GrammarOutOfSymbolsException⟩
      else
        ⟨⟨g.terminals, g.nonterminals.insert (g.maxSymbol + 1), g.startSymbol, g.rules,
          g.maxSymbol + 1⟩, Except.ok (g.maxSymbol + 1)⟩ := rfl

/-- The function `addNewTerminal` that returns the new grammar gives the outcome of the
call on the object. -/
theorem addNewTerminal_eq_returned (g : Grammar) :
    g.addNewTerminal = (InPlace.addNewTerminal g).returned := by
  rw [addNewTerminal_eq, inPlace_addNewTerminal_eq]
  by_cases h : g.maxSymbol = Symbol.maxValue
  · simp only [h, if_true]
    rfl
  · simp only [h, if_false]
    rfl

/-- The function `addNewNonterminal` that returns the new grammar gives the outcome of the
call on the object. -/
theorem addNewNonterminal_eq_returned (g : Grammar) :
    g.addNewNonterminal = (InPlace.addNewNonterminal g).returned := by
  rw [addNewNonterminal_eq, inPlace_addNewNonterminal_eq]
  by_cases h : g.maxSymbol = Symbol.maxValue
  · simp only [h, if_true]
    rfl
  · simp only [h, if_false]
    rfl

/-- A call of `addNewTerminal` or `addNewNonterminal` that throws throws
`GrammarOutOfSymbolsException`, the counter is then at `Symbol::maxValue`, and the object
is as before the call. -/
theorem inPlace_mint_error (g : Grammar) (e : Exception) :
    ((InPlace.addNewTerminal g).result = Except.error e →
      e = Exception.GrammarOutOfSymbolsException ∧ g.maxSymbol = Symbol.maxValue ∧
        (InPlace.addNewTerminal g).object = g) ∧
    ((InPlace.addNewNonterminal g).result = Except.error e →
      e = Exception.GrammarOutOfSymbolsException ∧ g.maxSymbol = Symbol.maxValue ∧
        (InPlace.addNewNonterminal g).object = g) := by
  rw [inPlace_addNewTerminal_eq, inPlace_addNewNonterminal_eq]
  by_cases h : g.maxSymbol = Symbol.maxValue
  · simp only [h, if_true, Except.error.injEq, and_true]
    exact ⟨fun h1 => h1.symm, fun h1 => h1.symm⟩
  · simp only [h, if_false]
    constructor <;> intro h1 <;> cases h1

/-- C14: in every state `g` of a grammar reached from a successful construction (from
symbols that are values of an `int`) by calls of `addNewTerminal` and `addNewNonterminal`,
each of the two functions throws `GrammarOutOfSymbolsException` exactly when the counter of
the largest symbol seen so far equals `Symbol::maxValue`, which is exactly when a symbol of
that value is in one of the alphabets (given to the constructor or minted). A call that
throws throws that exception and leaves the object as it was: terminals, nonterminals,
start symbol, rules and counter are those of `g`. Otherwise both succeed, the counter and
the minted symbol are the old counter plus one, which is at most `Symbol::maxValue` (no
wraparound), and the symbol is added to the one alphabet. The functions `addNewTerminal`
and `addNewNonterminal` that return the new grammar agree with these outcomes. -/
theorem mint_throws_iff (ts nts : Alphabet) (s : Symbol) (rs : List Rule) (g0 g : Grammar)
    (h0 : Grammar.new ts nts s rs = Except.ok g0)
    (hrange : ∀ y, y ∈ ts ∨ y ∈ nts → y ≤ Symbol.maxValue)
    (hreach : Relation.ReflTransGen MintStep g0 g) :
    ((InPlace.addNewTerminal g).result =
        Except.error Exception.GrammarOutOfSymbolsException ↔
      g.maxSymbol = Symbol.maxValue) ∧
    ((InPlace.addNewNonterminal g).result =
        Except.error Exception.GrammarOutOfSymbolsException ↔
      g.maxSymbol = Symbol.maxValue) ∧
    (g.maxSymbol = Symbol.maxValue ↔
      (Symbol.maxValue ∈ g.terminals ∨ Symbol.maxValue ∈ g.nonterminals)) ∧
    (∀ e, (InPlace.addNewTerminal g).result = Except.error e →
      e = Exception.GrammarOutOfSymbolsException ∧ (InPlace.addNewTerminal g).object = g) ∧
    (∀ e, (InPlace.addNewNonterminal g).result = Except.error e →
      e = Exception.GrammarOutOfSymbolsException ∧
        (InPlace.addNewNonterminal g).object = g) ∧
    (g.maxSymbol ≠ Symbol.maxValue →
      InPlace.addNewTerminal g =
        ⟨⟨g.terminals.insert (g.maxSymbol + 1), g.nonterminals, g.startSymbol, g.rules,
          g.maxSymbol + 1⟩, Except.ok (g.maxSymbol + 1)⟩ ∧
      InPlace.addNewNonterminal g =
        ⟨⟨g.terminals, g.nonterminals.insert (g.maxSymbol + 1), g.startSymbol, g.rules,
          g.maxSymbol + 1⟩, Except.ok (g.maxSymbol + 1)⟩ ∧
      g.maxSymbol + 1 ≤ Symbol.maxValue) ∧
    g.addNewTerminal = (InPlace.addNewTerminal g).returned ∧
    g.addNewNonterminal = (InPlace.addNewNonterminal g).returned := by
  obtain ⟨hinv, -, -⟩ := (counterInvariant_of_new h0).reach hreach
  have hle := maxSymbol_le_maxValue h0 hrange hreach
  refine ⟨?_, ?_, ?_, ?_, ?_, ?_, addNewTerminal_eq_returned g,
    addNewNonterminal_eq_returned g⟩
  · rw [inPlace_addNewTerminal_eq]
    by_cases h : g.maxSymbol = Symbol.maxValue <;> simp [h]
  · rw [inPlace_addNewNonterminal_eq]
    by_cases h : g.maxSymbol = Symbol.maxValue <;> simp [h]
  · constructor
    · intro h
      rcases hinv.mem with h1 | h1
      · rw [h1] at h
        exact absurd h (by decide)
      · rw [h] at h1
        exact h1
    · intro h
      exact le_antisymm hle (hinv.le_max _ h)
  · intro e he
    obtain ⟨h1, -, h2⟩ := (inPlace_mint_error g e).1 he
    exact ⟨h1, h2⟩
  · intro e he
    obtain ⟨h1, -, h2⟩ := (inPlace_mint_error g e).2 he
    exact ⟨h1, h2⟩
  · intro h
    refine ⟨?_, ?_, Int.add_one_le_of_lt (lt_of_le_of_ne hle h)⟩
    · rw [inPlace_addNewTerminal_eq, if_neg h]
    · rw [inPlace_addNewNonterminal_eq, if_neg h]

theorem mint_throws_iff_witness :
    Grammar.new [2147483647] [83] 83 [] = Except.ok ⟨[2147483647], [83], 83, [], 2147483647⟩ ∧
      (∀ y, y ∈ ([2147483647] : Alphabet) ∨ y ∈ ([83] : Alphabet) → y ≤ Symbol.maxValue) ∧
      (InPlace.addNewTerminal ⟨[2147483647], [83], 83, [], 2147483647⟩).result =
        Except.error Exception.GrammarOutOfSymbolsException ∧
      (InPlace.addNewTerminal ⟨[2147483647], [83], 83, [], 2147483647⟩).object =
        ⟨[2147483647], [83], 83, [], 2147483647⟩ ∧
      (InPlace.addNewNonterminal ⟨[2147483647], [83], 83, [], 2147483647⟩).result =
        Except.error Exception.GrammarOutOfSymbolsException ∧
      (InPlace.addNewNonterminal ⟨[2147483647], [83], 83, [], 2147483647⟩).object =
        ⟨[2147483647], [83], 83, [], 2147483647⟩ ∧
      Grammar.addNewTerminal ⟨[2147483647], [83], 83, [], 2147483647⟩ =
        Except.error Exception.GrammarOutOfSymbolsException ∧
      Grammar.addNewNonterminal ⟨[2147483647], [83], 83, [], 2147483647⟩ =
        Except.error Exception.GrammarOutOfSymbolsException := by
  have hrange : ∀ y, y ∈ ([2147483647] : Alphabet) ∨ y ∈ ([83] : Alphabet) →
      y ≤ Symbol.maxValue := by
    intro y hy
    simp only [List.mem_singleton] at hy
    rcases hy with hy | hy <;> rw [hy] <;> decide
  have h := mint_throws_iff [2147483647] [83] 83 [] ⟨[2147483647], [83], 83, [], 2147483647⟩
    ⟨[2147483647], [83], 83, [], 2147483647⟩ (by rfl) hrange Relation.ReflTransGen.refl
  obtain ⟨h1, h2, -, h4, h5, -, -, -⟩ := h
  have e1 := h1.2 (by rfl)
  have e2 := h2.2 (by rfl)
  exact ⟨by rfl, hrange, e1, (h4 _ e1).2, e2, (h5 _ e2).2, by rfl, by rfl⟩

/-! ## The exceptions of the normalization passes -/

theorem except_bind_eq_error {ε α β : Type} (x : Except ε α) (f : α → Except ε β) (e : ε) :
    (x >>= f) = Except.error e ↔
      x = Except.error e ∨ ∃ a, x = Except.ok a ∧ f a = Except.error e := by
  cases x <;> simp [bind, Except.bind]

theorem addNewNonterminal_error {g : Grammar} {e : Exception}
    (h : g.addNewNonterminal = Except.error e) :
    e = Exception.GrammarOutOfSymbolsException := by
  rw [addNewNonterminal_eq] at h
  by_cases h1 : g.maxSymbol = Symbol.maxValue
  · simp only [h1, if_true, Except.error.injEq] at h
    exact h.symm
  · simp [h1] at h

theorem removeLongRules_chain_error (rhs : Word) :
    ∀ (k j : Nat) (g : Grammar) (e : Exception),
      removeLongRules.chain rhs k j g = Except.error e →
      e = Exception.GrammarOutOfSymbolsException := by
  intro k
  induction k with
  | zero =>
    intro j g e h
    simp [removeLongRules.chain, pure, Except.pure] at h
  | succ k ih =>
    intro j g e h
    rw [removeLongRules.chain, except_bind_eq_error] at h
    rcases h with h | ⟨⟨n, g1⟩, -, h⟩
    · exact addNewNonterminal_error h
    · exact ih _ _ _ h

theorem removeLongRules_loop_error :
    ∀ (i : Nat) (g : Grammar) (e : Exception),
      removeLongRules.loop i g = Except.error e →
      e = Exception.GrammarOutOfSymbolsException := by
  intro i
  induction i with
  | zero =>
    intro g e h
    simp [removeLongRules.loop, pure, Except.pure] at h
  | succ i ih =>
    intro g e h
    rw [removeLongRules.loop] at h
    by_cases hshort : (g.rules.getD i default).rhs.length ≤ 2
    · simp only [hshort, if_true] at h
      exact ih g e h
    · simp only [hshort, if_false] at h
      rw [except_bind_eq_error] at h
      rcases h with h | ⟨⟨n, g1⟩, -, h⟩
      · exact addNewNonterminal_error h
      · simp only at h
        rw [except_bind_eq_error] at h
        rcases h with h | ⟨g3, -, h⟩
        · exact removeLongRules_chain_error _ _ _ _ _ h
        · exact ih _ _ h

theorem removeMixedRules_loop_error :
    ∀ (i : Nat) (g : Grammar) (e : Exception),
      removeMixedRules.loop i g = Except.error e →
      e = Exception.GrammarOutOfSymbolsException := by
  intro i
  induction i with
  | zero =>
    intro g e h
    simp [removeMixedRules.loop, pure, Except.pure] at h
  | succ i ih =>
    intro g e h
    rw [removeMixedRules.loop] at h
    simp only at h
    split at h
    · exact ih g e h
    · split at h
      · rw [except_bind_eq_error] at h
        rcases h with h | ⟨⟨n, g1⟩, -, h⟩
        · exact addNewNonterminal_error h
        · exact ih _ _ h
      · split at h
        · rw [except_bind_eq_error] at h
          rcases h with h | ⟨⟨n, g1⟩, -, h⟩
          · exact addNewNonterminal_error h
          · exact ih _ _ h
        · rw [except_bind_eq_error] at h
          rcases h with h | ⟨⟨n0, g1⟩, -, h⟩
          · exact addNewNonterminal_error h
          · simp only at h
            rw [except_bind_eq_error] at h
            rcases h with h | ⟨⟨n1, g2⟩, -, h⟩
            · exact addNewNonterminal_error h
            · exact ih _ _ h

theorem hasLongRules_iff (g : Grammar) :
    hasLongRules g = true ↔ ∃ r ∈ g.rules, r.rhs.length > 2 := by
  simp [hasLongRules]

/-- The functions that return the new grammar give `FoundLongRuleException` exactly when
some rule of the grammar has an rhs of more than 2 symbols. -/
theorem foundLongRule_returned_iff (g : Grammar) :
    (findEpsilonGenerators g = Except.error Exception.FoundLongRuleException ↔
      ∃ r ∈ g.rules, r.rhs.length > 2) ∧
    (removeEmptyRules g = Except.error Exception.FoundLongRuleException ↔
      ∃ r ∈ g.rules, r.rhs.length > 2) ∧
    (findGeneratingNonterminals g = Except.error Exception.FoundLongRuleException ↔
      ∃ r ∈ g.rules, r.rhs.length > 2) ∧
    (removeNonGeneratingRules g = Except.error Exception.FoundLongRuleException ↔
      ∃ r ∈ g.rules, r.rhs.length > 2) ∧
    (removeMixedRules g = Except.error Exception.FoundLongRuleException ↔
      ∃ r ∈ g.rules, r.rhs.length > 2) := by
  rw [← hasLongRules_iff]
  by_cases hlong : hasLongRules g = true
  · have h1 : findEpsilonGenerators g = Except.error Exception.FoundLongRuleException := by
      simp [findEpsilonGenerators, hlong, throw, throwThe, MonadExceptOf.throw]
    have h2 : findGeneratingNonterminals g =
        Except.error Exception.FoundLongRuleException := by
      simp [findGeneratingNonterminals, hlong, throw, throwThe, MonadExceptOf.throw]
    refine ⟨by simp [h1, hlong], ?_, by simp [h2, hlong], ?_, ?_⟩
    · simp [removeEmptyRules, hlong, throw, throwThe, MonadExceptOf.throw]
    · simp [removeNonGeneratingRules, h2, hlong, bind, Except.bind]
    · simp [removeMixedRules, hlong, throw, throwThe, MonadExceptOf.throw]
  · have hfalse : hasLongRules g = false := by simpa using hlong
    have h1 := findEpsilonGenerators_eq hfalse
    have h2 := findGeneratingNonterminals_eq hfalse
    simp only [hfalse, Bool.false_eq_true, iff_false]
    refine ⟨by rw [h1]; simp, ?_, by rw [h2]; simp, ?_, ?_⟩
    · intro h
      simp only [removeEmptyRules, hfalse, Bool.false_eq_true, if_false, h1] at h
      rw [except_bind_eq_error] at h
      rcases h with h | ⟨E, -, h⟩
      · simp [pure, Except.pure] at h
      · split at h
        · rw [except_bind_eq_error] at h
          rcases h with h | ⟨⟨n, g2⟩, -, h⟩
          · exact absurd (addNewNonterminal_error h) (by decide)
          · simp [pure, Except.pure] at h
        · simp [pure, Except.pure] at h
    · intro h
      rw [removeNonGeneratingRules_eq h2] at h
      simp at h
    · intro h
      simp only [removeMixedRules, hfalse, Bool.false_eq_true, if_false] at h
      exact absurd (removeMixedRules_loop_error _ _ _ h) (by decide)

/-! ## The object after a call that throws `FoundLongRuleException` -/

theorem Outcome.andThen_grammar {α : Type} (o : Outcome α) (f : α → Grammar → Outcome Unit) :
    (o.andThen f).grammar = o.returned >>= fun p => (f p.1 p.2).grammar := by
  obtain ⟨obj, res⟩ := o
  cases res <;> rfl

theorem Outcome.grammar_eq_error (o : Outcome Unit) (e : Exception) :
    o.grammar = Except.error e ↔ o.result = Except.error e := by
  obtain ⟨obj, res⟩ := o
  cases res <;> simp [Outcome.grammar]

/-- The function `removeEmptyRules` that returns the new grammar gives the outcome of the
call on the object. -/
theorem removeEmptyRules_eq_grammar (g : Grammar) :
    removeEmptyRules g = (InPlace.removeEmptyRules g).grammar := by
  unfold removeEmptyRules InPlace.removeEmptyRules
  by_cases hlong : hasLongRules g = true
  · simp only [hlong, if_true]
    rfl
  · have hfalse : hasLongRules g = false := by simpa using hlong
    simp only [hfalse, Bool.false_eq_true, if_false]
    rw [Outcome.andThen_grammar]
    have hconst : (InPlace.findEpsilonGenerators g).returned =
        (findEpsilonGenerators g >>= fun E => pure (E, g)) := by
      unfold InPlace.findEpsilonGenerators Outcome.returned
      cases findEpsilonGenerators g <;> rfl
    rw [hconst]
    cases findEpsilonGenerators g with
    | error e => rfl
    | ok E =>
      simp only [bind, Except.bind, pure, Except.pure]
      by_cases hs : g.startSymbol ∈ E
      · simp only [hs, if_true]
        rw [Outcome.andThen_grammar, ← addNewNonterminal_eq_returned]
        cases Grammar.addNewNonterminal
            { g with rules := removeEmptyRules.loop E g.rules.length g.rules } with
        | error e => rfl
        | ok p => rfl
      · simp only [hs, if_false]
        rfl

/-- The function `removeNonGeneratingRules` that returns the new grammar gives the outcome
of the call on the object. -/
theorem removeNonGeneratingRules_eq_grammar (g : Grammar) :
    removeNonGeneratingRules g = (InPlace.removeNonGeneratingRules g).grammar := by
  unfold removeNonGeneratingRules InPlace.removeNonGeneratingRules
  rw [Outcome.andThen_grammar]
  unfold InPlace.findGeneratingNonterminals Outcome.returned
  cases findGeneratingNonterminals g <;> rfl

/-- The loop of the function `removeMixedRules` that returns the new grammar gives the
outcome of the loop on the object. -/
theorem removeMixedRules_loop_eq_grammar :
    ∀ (i : Nat) (g : Grammar),
      removeMixedRules.loop i g = (InPlace.removeMixedRules.loop i g).grammar := by
  intro i
  induction i with
  | zero => intro g; rfl
  | succ i ih =>
    intro g
    rw [removeMixedRules.loop, InPlace.removeMixedRules.loop]
    simp only
    by_cases hskip : (g.rules.getD i default).rhs.length < 2 ∨
        (g.symbolIsNonterminal ((g.rules.getD i default).rhs.at 0) = true ∧
          g.symbolIsNonterminal ((g.rules.getD i default).rhs.at 1) = true)
    · simp only [hskip, if_true]
      exact ih g
    · simp only [hskip, if_false]
      by_cases hNT : g.symbolIsNonterminal ((g.rules.getD i default).rhs.at 0) = true ∧
          g.symbolIsTerminal ((g.rules.getD i default).rhs.at 1) = true
      · simp only [hNT, and_self, if_true]
        rw [Outcome.andThen_grammar, ← addNewNonterminal_eq_returned]
        cases g.addNewNonterminal with
        | error e => rfl
        | ok p =>
          simp only [bind, Except.bind]
          exact ih _
      · simp only [hNT, if_false]
        by_cases hTN : g.symbolIsTerminal ((g.rules.getD i default).rhs.at 0) = true ∧
            g.symbolIsNonterminal ((g.rules.getD i default).rhs.at 1) = true
        · simp only [hTN, and_self, if_true]
          rw [Outcome.andThen_grammar, ← addNewNonterminal_eq_returned]
          cases g.addNewNonterminal with
          | error e => rfl
          | ok p =>
            simp only [bind, Except.bind]
            exact ih _
        · simp only [hTN, if_false]
          rw [Outcome.andThen_grammar, ← addNewNonterminal_eq_returned]
          cases g.addNewNonterminal with
          | error e => rfl
          | ok p =>
            simp only [bind, Except.bind]
            rw [Outcome.andThen_grammar, ← addNewNonterminal_eq_returned]
            cases p.2.addNewNonterminal with
            | error e => rfl
            | ok q =>
              simp only [bind, Except.bind]
              exact ih _

/-- The function `removeMixedRules` that returns the new grammar gives the outcome of the
call on the object. -/
theorem removeMixedRules_eq_grammar (g : Grammar) :
    removeMixedRules g = (InPlace.removeMixedRules g).grammar := by
  unfold removeMixedRules InPlace.removeMixedRules
  by_cases hlong : hasLongRules g = true
  · simp only [hlong, if_true]
    rfl
  · have hfalse : hasLongRules g = false := by simpa using hlong
    simp only [hfalse, Bool.false_eq_true, if_false]
    exact removeMixedRules_loop_eq_grammar _ g

/-- A call of `removeEmptyRules` that throws `GrammarOutOfSymbolsException` has written the
rules before: on `S → ε` with the counter at `Symbol::maxValue`, the rule is erased when the
exception is thrown. The object after a call that throws is not the object before the call
in general. -/
theorem removeEmptyRules_object_outOfSymbols :
    InPlace.removeEmptyRules ⟨[2147483647], [83], 83, [⟨[83], []⟩], 2147483647⟩ =
      ⟨⟨[2147483647], [83], 83, [], 2147483647⟩,
        Except.error Exception.GrammarOutOfSymbolsException⟩ := by
  rfl

/-- C15: each of `findEpsilonGenerators`, `removeEmptyRules`, `findGeneratingNonterminals`,
`removeNonGeneratingRules` and `removeMixedRules` throws `FoundLongRuleException` exactly
when some rule of the grammar has an rhs of more than 2 symbols, and in that case the object
after the call is the grammar before the call: terminals, nonterminals, start symbol, rules
and counter are unchanged. The functions that return the new grammar agree with these
outcomes. -/
theorem foundLongRule_iff (g : Grammar) :
    ((InPlace.findEpsilonGenerators g).result =
        Except.error Exception.FoundLongRuleException ↔ ∃ r ∈ g.rules, r.rhs.length > 2) ∧
    ((InPlace.removeEmptyRules g).result =
        Except.error Exception.FoundLongRuleException ↔ ∃ r ∈ g.rules, r.rhs.length > 2) ∧
    ((InPlace.findGeneratingNonterminals g).result =
        Except.error Exception.FoundLongRuleException ↔ ∃ r ∈ g.rules, r.rhs.length > 2) ∧
    ((InPlace.removeNonGeneratingRules g).result =
        Except.error Exception.FoundLongRuleException ↔ ∃ r ∈ g.rules, r.rhs.length > 2) ∧
    ((InPlace.removeMixedRules g).result =
        Except.error Exception.FoundLongRuleException ↔ ∃ r ∈ g.rules, r.rhs.length > 2) ∧
    ((∃ r ∈ g.rules, r.rhs.length > 2) →
      (InPlace.findEpsilonGenerators g).object = g ∧
      (InPlace.removeEmptyRules g).object = g ∧
      (InPlace.findGeneratingNonterminals g).object = g ∧
      (InPlace.removeNonGeneratingRules g).object = g ∧
      (InPlace.removeMixedRules g).object = g) ∧
    (findEpsilonGenerators g = (InPlace.findEpsilonGenerators g).result ∧
      removeEmptyRules g = (InPlace.removeEmptyRules g).grammar ∧
      findGeneratingNonterminals g = (InPlace.findGeneratingNonterminals g).result ∧
      removeNonGeneratingRules g = (InPlace.removeNonGeneratingRules g).grammar ∧
      removeMixedRules g = (InPlace.removeMixedRules g).grammar) := by
  obtain ⟨f1, f2, f3, f4, f5⟩ := foundLongRule_returned_iff g
  have a2 := removeEmptyRules_eq_grammar g
  have a4 := removeNonGeneratingRules_eq_grammar g
  have a5 := removeMixedRules_eq_grammar g
  refine ⟨f1, ?_, f3, ?_, ?_, ?_, rfl, a2, rfl, a4, a5⟩
  · rw [← Outcome.grammar_eq_error, ← a2]
    exact f2
  · rw [← Outcome.grammar_eq_error, ← a4]
    exact f4
  · rw [← Outcome.grammar_eq_error, ← a5]
    exact f5
  · intro hex
    have hlong : hasLongRules g = true := (hasLongRules_iff g).2 hex
    have hgen : findGeneratingNonterminals g =
        Except.error Exception.FoundLongRuleException := f3.2 hex
    refine ⟨rfl, ?_, rfl, ?_, ?_⟩
    · unfold InPlace.removeEmptyRules
      simp only [hlong, if_true]
    · unfold InPlace.removeNonGeneratingRules InPlace.findGeneratingNonterminals
        Outcome.andThen
      simp only [hgen]
    · unfold InPlace.removeMixedRules
      simp only [hlong, if_true]

/-! ## The passes on a valid context-free grammar -/

/-- A well-formed grammar passes `isCorrect()` and `isContextFree()`. -/
theorem WellFormed.valid {g : Grammar} (hg : WellFormed g) :
    g.isCorrect = true ∧ g.isContextFree = true := by
  constructor
  · rw [Grammar.isCorrect_iff]
    refine ⟨hg.start_mem, hg.disjoint, fun r hr => ?_⟩
    rw [Grammar.ruleIsCorrect_iff]
    obtain ⟨a, ha, hl⟩ := hg.rule_lhs r hr
    refine ⟨by rw [hl]; simp, hg.rule_rhs r hr, ?_, ⟨a, by rw [hl]; simp, ha⟩⟩
    intro x hx
    rw [hl, List.mem_singleton] at hx
    rw [hx]
    exact Or.inr ha
  · rw [Grammar.isContextFree_iff]
    intro r hr
    obtain ⟨a, ha, hl⟩ := hg.rule_lhs r hr
    rw [hl]
    exact ⟨le_refl _, fun _ => ha⟩

theorem removeChainRules_wellFormed {g : Grammar} (hg : WellFormed g) :
    WellFormed (removeChainRules g) := by
  refine ⟨hg.start_mem, hg.disjoint, ?_, ?_, hg.le_max⟩
  · intro r1 hr1
    rcases (removeChainRules_mem g r1).1 hr1 with ⟨h1, -⟩ | ⟨a, b, hab, r, -, -, -, hr1'⟩
    · exact hg.rule_lhs r1 h1
    · obtain ⟨-, d2, -⟩ := derives_of_transGen_unitStep hg hab
      exact ⟨a, d2, by rw [hr1']⟩
  · intro r1 hr1 x hx
    rcases (removeChainRules_mem g r1).1 hr1 with ⟨h1, -⟩ | ⟨a, b, -, r, hr, -, -, hr1'⟩
    · exact hg.rule_rhs r1 h1 x hx
    · rw [hr1'] at hx
      exact hg.rule_rhs r hr x hx

theorem short_of_ne_foundLongRule {g : Grammar}
    (h : removeEmptyRules g ≠ Except.error Exception.FoundLongRuleException ∨
      removeNonGeneratingRules g ≠ Except.error Exception.FoundLongRuleException ∨
      removeMixedRules g ≠ Except.error Exception.FoundLongRuleException) :
    ∀ r ∈ g.rules, r.rhs.length ≤ 2 := by
  obtain ⟨-, h2, -, h4, h5⟩ := foundLongRule_returned_iff g
  intro r hr
  by_contra hcon
  have hex : ∃ r ∈ g.rules, r.rhs.length > 2 := ⟨r, hr, by omega⟩
  rcases h with h | h | h
  · exact h (h2.2 hex)
  · exact h (h4.2 hex)
  · exact h (h5.2 hex)

/-- C16 as stated fails on `{'a'}, {'A'}, 'A', {A → AAA, A → a}`: the grammar is valid, it
has a rule with an rhs of 3 symbols, and `removeLongRules` succeeds on it. -/
theorem removeLongRules_succeeds_on_long_rule :
    ContextFreeGrammar.new [97] [65] 65 [⟨[65], [65, 65, 65]⟩, ⟨[65], [97]⟩] =
        Except.ok ⟨[97], [65], 65, [⟨[65], [65, 65, 65]⟩, ⟨[65], [97]⟩], 97⟩ ∧
      (∃ r ∈ [(⟨[65], [65, 65, 65]⟩ : Rule), ⟨[65], [97]⟩], r.rhs.length > 2) ∧
      removeLongRules ⟨[97], [65], 65, [⟨[65], [65, 65, 65]⟩, ⟨[65], [97]⟩], 97⟩ =
        Except.ok ⟨[97], [98, 65], 65,
          [⟨[65], [97]⟩, ⟨[65], [65, 98]⟩, ⟨[98], [65, 65]⟩], 98⟩ :=
  ⟨by rfl, ⟨⟨[65], [65, 65, 65]⟩, by simp, by decide⟩, by rfl⟩

/-- C16, amended: calling `removeLongRules` directly on a valid context-free grammar that
has a rule with an rhs of more than 2 symbols does not throw `FoundLongRuleException`: it
succeeds and leaves no rhs of more than 2 symbols, unless it runs out of symbols and throws
`GrammarOutOfSymbolsException`. -/
theorem removeLongRules_not_foundLongRule (g : Grammar) (hg : WellFormed g)
    (_hlong : ∃ r ∈ g.rules, r.rhs.length > 2) :
    removeLongRules g ≠ Except.error Exception.FoundLongRuleException ∧
      (removeLongRules g = Except.error Exception.GrammarOutOfSymbolsException ∨
        ∃ g', removeLongRules g = Except.ok g' ∧ ∀ r ∈ g'.rules, r.rhs.length ≤ 2) := by
  cases h : removeLongRules g with
  | error e =>
    have he := removeLongRules_loop_error _ _ _ h
    subst he
    exact ⟨by simp, Or.inl rfl⟩
  | ok g' =>
    exact ⟨by simp, Or.inr ⟨g', rfl, (removeLongRules_spec hg h).2.2.1⟩⟩

theorem removeLongRules_not_foundLongRule_witness :
    (∃ r ∈ exampleParentheses.rules, r.rhs.length > 2) ∧
      removeLongRules exampleParentheses ≠ Except.error Exception.FoundLongRuleException ∧
      (removeLongRules exampleParentheses =
          Except.error Exception.GrammarOutOfSymbolsException ∨
        ∃ g', removeLongRules exampleParentheses = Except.ok g' ∧
          ∀ r ∈ g'.rules, r.rhs.length ≤ 2) :=
  ⟨⟨⟨[83], [40, 83, 41]⟩, by simp [exampleParentheses], by decide⟩,
    removeLongRules_not_foundLongRule exampleParentheses
      (@wellFormed_of_new [40, 41] [83] 83
        [⟨[83], [83, 83]⟩, ⟨[83], []⟩, ⟨[83], [40, 83, 41]⟩] exampleParentheses (by rfl))
      ⟨⟨[83], [40, 83, 41]⟩, by simp [exampleParentheses], by decide⟩⟩

/-- C19: when `removeLongRules` succeeds on a valid context-free grammar, no rule of the
result has an rhs of more than 2 symbols and every rule has an lhs of exactly 1 symbol. -/
theorem removeLongRules_short (g g' : Grammar) (hg : WellFormed g)
    (h : removeLongRules g = Except.ok g') :
    ∀ r ∈ g'.rules, r.rhs.length ≤ 2 ∧ r.lhs.length = 1 := by
  obtain ⟨hwf, -, hshort, -⟩ := removeLongRules_spec hg h
  intro r hr
  obtain ⟨a, -, hl⟩ := hwf.rule_lhs r hr
  exact ⟨hshort r hr, by rw [hl]; rfl⟩

theorem removeLongRules_short_witness :
    removeLongRules exampleParentheses = Except.ok ⟨[40, 41], [84, 83], 83,
        [⟨[83], [83, 83]⟩, ⟨[83], []⟩, ⟨[83], [40, 84]⟩, ⟨[84], [83, 41]⟩], 84⟩ ∧
      ∀ r ∈ [(⟨[83], [83, 83]⟩ : Rule), ⟨[83], []⟩, ⟨[83], [40, 84]⟩, ⟨[84], [83, 41]⟩],
        r.rhs.length ≤ 2 ∧ r.lhs.length = 1 :=
  ⟨by rfl, removeLongRules_short exampleParentheses _
    (@wellFormed_of_new [40, 41] [83] 83
        [⟨[83], [83, 83]⟩, ⟨[83], []⟩, ⟨[83], [40, 83, 41]⟩] exampleParentheses (by rfl)) (by rfl)⟩

/-- C17: each of the six normalization passes, when it succeeds on a valid context-free
grammar, yields a valid context-free grammar: the start symbol is a nonterminal, no
terminal is a nonterminal, the lhs of every rule is one nonterminal and every rhs symbol is
in one of the alphabets (`WellFormed`, which also keeps the symbol counter above the
symbols); so the result passes `isCorrect()` and `isContextFree()`. -/
theorem passes_keep_wellFormed (g g' : Grammar) (hg : WellFormed g) :
    (removeLongRules g = Except.ok g' →
      WellFormed g' ∧ g'.isCorrect = true ∧ g'.isContextFree = true) ∧
    (removeEmptyRules g = Except.ok g' →
      WellFormed g' ∧ g'.isCorrect = true ∧ g'.isContextFree = true) ∧
    (removeChainRules g = g' →
      WellFormed g' ∧ g'.isCorrect = true ∧ g'.isContextFree = true) ∧
    (removeNonGeneratingRules g = Except.ok g' →
      WellFormed g' ∧ g'.isCorrect = true ∧ g'.isContextFree = true) ∧
    (removeNonReachableRules g = g' →
      WellFormed g' ∧ g'.isCorrect = true ∧ g'.isContextFree = true) ∧
    (removeMixedRules g = Except.ok g' →
      WellFormed g' ∧ g'.isCorrect = true ∧ g'.isContextFree = true) := by
  refine ⟨?_, ?_, ?_, ?_, ?_, ?_⟩
  · intro h
    have := (removeLongRules_spec hg h).1
    exact ⟨this, this.valid⟩
  · intro h
    have hshort := short_of_ne_foundLongRule (g := g) (Or.inl (by rw [h]; simp))
    have := (removeEmptyRules_spec hg hshort h).1
    exact ⟨this, this.valid⟩
  · intro h
    have := removeChainRules_wellFormed hg
    rw [h] at this
    exact ⟨this, this.valid⟩
  · intro h
    have hshort := short_of_ne_foundLongRule (g := g) (Or.inr (Or.inl (by rw [h]; simp)))
    obtain ⟨g1, h1, t1, t2, t3, t4, t5, -⟩ := removeNonGeneratingRules_spec hg hshort
    rw [h] at h1
    simp only [Except.ok.injEq] at h1
    subst h1
    have := hg.of_rules_subset t1 t2 t3 t4 t5
    exact ⟨this, this.valid⟩
  · intro h
    have : WellFormed (removeNonReachableRules g) :=
      hg.of_rules_subset rfl rfl rfl rfl (removeNonReachableRules_spec hg).1
    rw [h] at this
    exact ⟨this, this.valid⟩
  · intro h
    have hshort := short_of_ne_foundLongRule (g := g) (Or.inr (Or.inr (by rw [h]; simp)))
    have := (removeMixedRules_spec hg hshort h).1
    exact ⟨this, this.valid⟩

theorem passes_keep_wellFormed_witness :
    WellFormed exampleParentheses ∧
      removeLongRules exampleParentheses = Except.ok ⟨[40, 41], [84, 83], 83,
        [⟨[83], [83, 83]⟩, ⟨[83], []⟩, ⟨[83], [40, 84]⟩, ⟨[84], [83, 41]⟩], 84⟩ ∧
      (WellFormed ⟨[40, 41], [84, 83], 83,
          [⟨[83], [83, 83]⟩, ⟨[83], []⟩, ⟨[83], [40, 84]⟩, ⟨[84], [83, 41]⟩], 84⟩ ∧
        Grammar.isCorrect ⟨[40, 41], [84, 83], 83,
          [⟨[83], [83, 83]⟩, ⟨[83], []⟩, ⟨[83], [40, 84]⟩, ⟨[84], [83, 41]⟩], 84⟩ = true ∧
        Grammar.isContextFree ⟨[40, 41], [84, 83], 83,
          [⟨[83], [83, 83]⟩, ⟨[83], []⟩, ⟨[83], [40, 84]⟩, ⟨[84], [83, 41]⟩], 84⟩ = true) :=
  ⟨@wellFormed_of_new [40, 41] [83] 83
      [⟨[83], [83, 83]⟩, ⟨[83], []⟩, ⟨[83], [40, 83, 41]⟩] exampleParentheses (by rfl), by rfl,
    (passes_keep_wellFormed exampleParentheses _
      (@wellFormed_of_new [40, 41] [83] 83
        [⟨[83], [83, 83]⟩, ⟨[83], []⟩, ⟨[83], [40, 83, 41]⟩] exampleParentheses (by rfl))).1 (by rfl)⟩

/-! ## The rules that `removeLongRules` builds -/

theorem chainOf_cons (l : Word) (x : Symbol) (tail : Word) (n : Symbol)
    (h : 3 ≤ tail.length) :
    chainOf ⟨l, x :: tail⟩ n = ⟨l, [x, n]⟩ :: chainOf ⟨[n], tail⟩ (n + 1) := by
  obtain ⟨k, hk⟩ : ∃ k, tail.length = k + 3 := ⟨tail.length - 3, by omega⟩
  have e1 : (x :: tail).length - 3 = k + 1 := by simp [hk]
  have e2 : tail.length - 3 = k := by omega
  have e3 : (x :: tail).length - 2 = (tail.length - 2) + 1 := by simp [hk]
  have e4 : (x :: tail).length - 1 = (tail.length - 1) + 1 := by simp [hk]
  simp only [chainOf, e1, e2, e3, e4, Word.at_cons_zero, Word.at_cons_succ]
  rw [List.range_succ_eq_map]
  simp only [List.map_cons, List.map_map, List.cons_append, Nat.cast_zero, add_zero,
    zero_add]
  congr 2
  congr 1
  · apply List.map_congr_left
    intro j _
    simp only [Function.comp, Nat.cast_succ, Rule.mk.injEq, List.cons.injEq, and_true, true_and]
    constructor <;> ring
  · simp only [Nat.cast_succ, List.cons.injEq, Rule.mk.injEq, and_true]
    ring

theorem binarize_eq_chainOf (rhs : Word) :
    ∀ (l : Word) (n : Symbol), 3 ≤ rhs.length → binarize l rhs n = chainOf ⟨l, rhs⟩ n := by
  induction rhs with
  | nil => intro l n h; simp at h
  | cons x tail ih =>
    intro l n h
    match tail, ih, h with
    | [], _, h => simp at h
    | [y], _, h => simp at h
    | [y, z], _, _ => simp [binarize, chainOf, Word.at]
    | y :: z :: w :: rest, ih, _ =>
      rw [chainOf_cons l x _ n (by simp), ← ih [n] (n + 1) (by simp)]
      rfl

theorem chainOf_length (r : Rule) (n : Symbol) (h : 3 ≤ r.rhs.length) :
    (chainOf r n).length = r.rhs.length - 1 := by
  simp only [chainOf, List.length_append, List.length_cons, List.length_map,
    List.length_range, List.length_nil]
  omega

theorem mintedCount_append (l1 l2 : List Rule) :
    mintedCount (l1 ++ l2) = mintedCount l1 + mintedCount l2 := by
  simp [mintedCount]

theorem mintedCount_reverse (l : List Rule) : mintedCount l.reverse = mintedCount l := by
  simp [mintedCount, List.sum_reverse]

theorem chainSymbolsFrom_eq (l : List Rule) :
    ∀ n : Symbol, chainSymbolsFrom l n =
      (List.range (mintedCount l)).map fun (j : Nat) => n + (j : Int) := by
  induction l with
  | nil => intro n; simp [chainSymbolsFrom, mintedCount]
  | cons r rest ih =>
    intro n
    have hc : mintedCount (r :: rest) = (r.rhs.length - 2) + mintedCount rest := by
      simp [mintedCount]
    rw [chainSymbolsFrom, ih, hc, List.range_add, List.map_append, List.map_map]
    congr 1
    apply List.map_congr_left
    intro j _
    simp only [Function.comp, Nat.cast_add]
    ring

theorem filter_long_singleton {r : Rule} (h : ¬ r.rhs.length ≤ 2) :
    [r].filter (fun r => decide (r.rhs.length ≤ 2)) = [] ∧
      [r].filter (fun r => decide (2 < r.rhs.length)) = [r] := by
  have h2 : 2 < r.rhs.length := by omega
  simp [List.filter, h, h2]

theorem filter_short_singleton {r : Rule} (h : r.rhs.length ≤ 2) :
    [r].filter (fun r => decide (r.rhs.length ≤ 2)) = [r] ∧
      [r].filter (fun r => decide (2 < r.rhs.length)) = [] := by
  have h2 : ¬ 2 < r.rhs.length := by omega
  simp [List.filter, h, h2]

/-- The rules and the symbol counter after the loop of `removeLongRules` has gone through
the rules `pre`: the short rules of `pre`, then the rules that it had already passed, then
the chains of the long rules of `pre`, the last rule first. -/
theorem removeLongRules_loop_rules :
    ∀ (i : Nat) (g g' : Grammar) (pre post : List Rule),
      g.rules = pre ++ post → pre.length = i →
      removeLongRules.loop i g = Except.ok g' →
      g'.rules = pre.filter (fun r => decide (r.rhs.length ≤ 2)) ++ post ++
          chainsFrom (pre.filter (fun r => decide (2 < r.rhs.length))).reverse
            (g.maxSymbol + 1) ∧
        g'.maxSymbol = g.maxSymbol +
          (mintedCount (pre.filter (fun r => decide (2 < r.rhs.length))) : Int) := by
  intro i
  induction i with
  | zero =>
    intro g g' pre post hrules hpre hloop
    simp only [removeLongRules.loop, pure, Except.pure, Except.ok.injEq] at hloop
    subst hloop
    have : pre = [] := List.length_eq_zero.1 hpre
    subst this
    simp only [List.nil_append] at hrules
    simp [hrules, chainsFrom, mintedCount]
  | succ i ih =>
    intro g g' pre post hrules hpre hloop
    obtain ⟨pre1, r, hpre1, hlen1⟩ := exists_concat_of_length_succ hpre
    have hrules' : g.rules = pre1 ++ r :: post := by rw [hrules, hpre1]; simp
    have hget : g.rules.getD i default = r := by
      rw [hrules', ← hlen1]; exact getD_append_length pre1 post r default
    rw [removeLongRules.loop] at hloop
    simp only [hget] at hloop
    by_cases hshort : r.rhs.length ≤ 2
    · simp only [hshort, if_true] at hloop
      obtain ⟨c1, c2⟩ := ih g g' pre1 (r :: post) hrules' hlen1 hloop
      obtain ⟨f1, f2⟩ := filter_short_singleton hshort
      rw [hpre1, List.filter_append, List.filter_append, f1, f2, List.append_nil]
      refine ⟨?_, c2⟩
      rw [c1]
      simp
    · simp only [hshort, if_false] at hloop
      cases hmint : g.addNewNonterminal with
      | error e => rw [hmint] at hloop; simp [bind, Except.bind] at hloop
      | ok p =>
        obtain ⟨n, g1⟩ := p
        rw [hmint] at hloop
        simp only [bind, Except.bind] at hloop
        cases hchain : removeLongRules.chain r.rhs (r.rhs.length - 3) 1
            (pushRule g1 ⟨r.lhs, [r.rhs.at 0, n]⟩) with
        | error e => rw [hchain] at hloop; simp at hloop
        | ok g3 =>
          rw [hchain] at hloop
          simp only at hloop
          obtain ⟨-, hmax3, hrules4⟩ := removeLongRules_step hshort hmint hchain
          have herase : (g.rules ++ binarize r.lhs r.rhs (g.maxSymbol + 1)).eraseIdx i =
              pre1 ++ (post ++ binarize r.lhs r.rhs (g.maxSymbol + 1)) := by
            rw [hrules', ← hlen1, List.append_assoc, List.cons_append, eraseIdx_append_length]
          rw [hrules4, herase] at hloop
          have hloop' : removeLongRules.loop i ⟨g3.terminals, g3.nonterminals, g3.startSymbol,
              pre1 ++ (post ++ binarize r.lhs r.rhs (g.maxSymbol + 1)), g3.maxSymbol⟩ =
                Except.ok g' := hloop
          obtain ⟨c1, c2⟩ := ih _ g' pre1 (post ++ binarize r.lhs r.rhs (g.maxSymbol + 1))
            rfl hlen1 hloop'
          simp only at c1 c2
          obtain ⟨f1, f2⟩ := filter_long_singleton hshort
          have hlen3 : 3 ≤ r.rhs.length := by omega
          have hcast : ((r.rhs.length - 2 : Nat) : Int) = (r.rhs.length : Int) - 2 := by
            rw [Nat.cast_sub (by omega)]
            rfl
          have hm3 : g3.maxSymbol = g.maxSymbol + ((r.rhs.length - 2 : Nat) : Int) := by
            rw [hcast]
            linarith
          have hbin : binarize r.lhs r.rhs (g.maxSymbol + 1) = chainOf r (g.maxSymbol + 1) :=
            binarize_eq_chainOf r.rhs r.lhs _ hlen3
          rw [hpre1, List.filter_append, List.filter_append, f1, f2, List.append_nil,
            List.reverse_append, List.reverse_singleton, List.singleton_append, chainsFrom,
            mintedCount_append]
          constructor
          · rw [c1, hbin, hm3]
            have : g.maxSymbol + ((r.rhs.length - 2 : Nat) : Int) + 1 =
                g.maxSymbol + 1 + ((r.rhs.length - 2 : Nat) : Int) := by ring
            rw [this]
            simp only [List.append_assoc]
          · rw [c2, hm3]
            have : mintedCount [r] = r.rhs.length - 2 := by simp [mintedCount]
            rw [this]
            push_cast
            ring

theorem removeLongRules_rules {g g' : Grammar} (h : removeLongRules g = Except.ok g') :
    g'.rules = g.rules.filter (fun r => decide (r.rhs.length ≤ 2)) ++
        chainsFrom (g.rules.filter (fun r => decide (2 < r.rhs.length))).reverse
          (g.maxSymbol + 1) ∧
      g'.maxSymbol = g.maxSymbol +
        (mintedCount (g.rules.filter (fun r => decide (2 < r.rhs.length))) : Int) := by
  have := removeLongRules_loop_rules g.rules.length g g' g.rules [] (by simp) rfl h
  simpa using this

theorem mem_chainSymbolsFrom (l : List Rule) (n x : Symbol) :
    x ∈ chainSymbolsFrom l n ↔ n ≤ x ∧ x < n + (mintedCount l : Int) := by
  rw [chainSymbolsFrom_eq]
  simp only [List.mem_map, List.mem_range]
  constructor
  · rintro ⟨j, hj, rfl⟩
    have : (j : Int) < (mintedCount l : Int) := by exact_mod_cast hj
    have h0 : (0 : Int) ≤ (j : Int) := Int.ofNat_nonneg j
    constructor <;> linarith
  · rintro ⟨h1, h2⟩
    have h3 : (0 : Int) ≤ x - n := by linarith
    refine ⟨(x - n).toNat, ?_, ?_⟩
    · have : ((x - n).toNat : Int) < (mintedCount l : Int) := by
        rw [Int.toNat_of_nonneg h3]
        linarith
      exact_mod_cast this
    · rw [Int.toNat_of_nonneg h3]
      ring

theorem nodup_chainSymbolsFrom (l : List Rule) (n : Symbol) : (chainSymbolsFrom l n).Nodup := by
  rw [chainSymbolsFrom_eq]
  refine List.Nodup.map ?_ (List.nodup_range _)
  intro a b hab
  simp only at hab
  have : (a : Int) = (b : Int) := by linarith
  exact_mod_cast this

/-- C20: when `removeLongRules` succeeds on a valid context-free grammar, the rules of the
result are the rules with an rhs of at most 2 symbols, unchanged and in their order,
followed by one chain for each rule `A → X1 … Xk` with `k > 2` (the last such rule first):
the `k - 1` rules `A → X1 N1`, `N1 → X2 N2`, …, `N(k−2) → X(k−1) Xk` of `chainOf`. The
symbols `N1, …, N(k−2)` of all the chains are pairwise distinct, within a chain and between
chains; none of them was a symbol of the grammar; they are the nonterminals that the result
has in addition; terminals and start symbol are unchanged. -/
theorem removeLongRules_chains (g g' : Grammar) (hg : WellFormed g)
    (h : removeLongRules g = Except.ok g') :
    g'.rules = g.rules.filter (fun r => decide (r.rhs.length ≤ 2)) ++
        chainsFrom (g.rules.filter (fun r => decide (2 < r.rhs.length))).reverse
          (g.maxSymbol + 1) ∧
    (∀ r ∈ g.rules, 2 < r.rhs.length → ∀ n, (chainOf r n).length = r.rhs.length - 1) ∧
    (chainSymbolsFrom (g.rules.filter (fun r => decide (2 < r.rhs.length))).reverse
      (g.maxSymbol + 1)).Nodup ∧
    (∀ x ∈ chainSymbolsFrom (g.rules.filter (fun r => decide (2 < r.rhs.length))).reverse
        (g.maxSymbol + 1),
      x ∉ g.terminals ∧ x ∉ g.nonterminals ∧ x ∈ g'.nonterminals) ∧
    (∀ x, x ∈ g'.nonterminals ↔ x ∈ g.nonterminals ∨
      x ∈ chainSymbolsFrom (g.rules.filter (fun r => decide (2 < r.rhs.length))).reverse
        (g.maxSymbol + 1)) ∧
    g'.terminals = g.terminals ∧ g'.startSymbol = g.startSymbol := by
  obtain ⟨hrules, hmax⟩ := removeLongRules_rules h
  obtain ⟨-, hext, -, -⟩ := removeLongRules_spec hg h
  have hmem : ∀ x, x ∈ chainSymbolsFrom
      (g.rules.filter (fun r => decide (2 < r.rhs.length))).reverse (g.maxSymbol + 1) ↔
        g.maxSymbol < x ∧ x ≤ g'.maxSymbol := by
    intro x
    rw [mem_chainSymbolsFrom, mintedCount_reverse, hmax]
    constructor
    · rintro ⟨h1, h2⟩
      exact ⟨by linarith, Int.lt_add_one_iff.1 (by linarith)⟩
    · rintro ⟨h1, h2⟩
      exact ⟨Int.add_one_le_of_lt h1, by linarith⟩
  refine ⟨hrules, fun r _ hr n => chainOf_length r n (by omega), nodup_chainSymbolsFrom _ _,
    ?_, ?_, hext.terminals_eq, hext.start_eq⟩
  · intro x hx
    have hx' := (hmem x).1 hx
    refine ⟨?_, ?_, (hext.mem_nonterminals x).2 (Or.inr hx')⟩
    · intro hh
      have := hg.le_max x (Or.inl hh)
      linarith
    · intro hh
      have := hg.le_max x (Or.inr hh)
      linarith
  · intro x
    rw [hext.mem_nonterminals, hmem]

theorem removeLongRules_chains_witness :
    WellFormed ⟨[97], [65], 65, [⟨[65], [65, 65, 65]⟩, ⟨[65], [97]⟩], 97⟩ ∧
      removeLongRules ⟨[97], [65], 65, [⟨[65], [65, 65, 65]⟩, ⟨[65], [97]⟩], 97⟩ =
        Except.ok ⟨[97], [98, 65], 65,
          [⟨[65], [97]⟩, ⟨[65], [65, 98]⟩, ⟨[98], [65, 65]⟩], 98⟩ ∧
      chainsFrom [⟨[65], [65, 65, 65]⟩] 98 = [⟨[65], [65, 98]⟩, ⟨[98], [65, 65]⟩] ∧
      [(⟨[65], [97]⟩ : Rule), ⟨[65], [65, 98]⟩, ⟨[98], [65, 65]⟩] =
        [(⟨[65], [65, 65, 65]⟩ : Rule), ⟨[65], [97]⟩].filter
            (fun r => decide (r.rhs.length ≤ 2)) ++
          chainsFrom ([(⟨[65], [65, 65, 65]⟩ : Rule), ⟨[65], [97]⟩].filter
            (fun r => decide (2 < r.rhs.length))).reverse (97 + 1) :=
  ⟨@wellFormed_of_new [97] [65] 65 [⟨[65], [65, 65, 65]⟩, ⟨[65], [97]⟩] _ (by rfl), by rfl,
    by rfl,
    (removeLongRules_chains ⟨[97], [65], 65, [⟨[65], [65, 65, 65]⟩, ⟨[65], [97]⟩], 97⟩ _
      (@wellFormed_of_new [97] [65] 65 [⟨[65], [65, 65, 65]⟩, ⟨[65], [97]⟩] _ (by rfl))
      (by rfl)).1⟩

/-! ## The table of `calculateTableValues` -/

/-- In a grammar of Chomsky shape, a nonterminal derives a non-empty word of terminals
exactly when it derives it by `CnfGen`. -/
theorem ChomskyShape.derives_iff_cnfGen {g : Grammar} (hg : ChomskyShape g) {N : Symbol}
    (hN : N ∈ g.nonterminals) {w : Word} (hne : w ≠ []) :
    (g.IsTerminalWord w ∧ Derives g.rules [N] w) ↔ CnfGen g N w := by
  constructor
  · rintro ⟨hw, hd⟩
    have hgen := Gen.of_derives hg.wellFormed.lhs_singleton hd
    rcases hgen.single_inv with h | ⟨rhs, hr, hrhs⟩
    · exfalso
      have := hw N (by rw [h]; simp)
      exact hg.wellFormed.disjoint _ this hN
    · have hne' : rhs ≠ [] := by
        intro hh
        rw [hh] at hrhs
        exact hne hrhs.nil_left_gen
      exact hg.cnfGen_of_rule hr hne'
        (hg.cnfList_of_gen hrhs hw (fun x hx => hg.no_empty_rule_of_mem_rhs hr hx))
  · intro h
    exact ⟨h.terminalWord, h.gen.derives⟩

theorem subword_isTerminalWord {g : Grammar} {w : Word} (hw : g.IsTerminalWord w)
    (i len : Nat) : g.IsTerminalWord (subword w i len) := by
  intro x hx
  exact hw x (List.mem_of_mem_drop (List.mem_of_mem_take hx))

theorem predict_eq_read {c : CYK} {w : Word} {t : CYK.Table} (hw : w ≠ [])
    (ht : c.calculateTableValues w = some t) :
    c.predict w = CYK.Table.read t c.grammar.startSymbol 0 (w.length - 1) := by
  have hne : w.isEmpty = false := by
    cases w with
    | nil => exact absurd rfl hw
    | cons _ _ => rfl
  simp only [CYK.predict, hne, Bool.false_eq_true, if_false, ht, Option.bind_eq_bind,
    Option.some_bind]

/-- C18 as stated fails on the grammar `{'a', 'b'}, {'S', 'A', 'B'}, 'S',
{S → AB, A → a, B → b}` and the word `aB`: the grammar is valid and already normalized,
`S` derives `aB` with the rules of the grammar (`S ⇒ AB ⇒ aB`), and `table[S][0][1]` is
false. -/
theorem table_false_on_derived_word :
    ContextFreeGrammar.new [97, 98] [83, 65, 66] 83
        [⟨[83], [65, 66]⟩, ⟨[65], [97]⟩, ⟨[66], [98]⟩] = Except.ok exampleTwoLetters ∧
      CYK.new exampleTwoLetters = Except.ok ⟨exampleTwoLetters⟩ ∧
      Derives exampleTwoLetters.rules [83] (subword [97, 66] 0 2) ∧
      ∃ t, CYK.calculateTableValues ⟨exampleTwoLetters⟩ [97, 66] = some t ∧
        CYK.Table.read t 83 0 1 = some false := by
  refine ⟨by rfl, by rfl, ?_, ⟨_, by rfl, by rfl⟩⟩
  have h1 : Derives exampleTwoLetters.rules [83] [65, 66] :=
    Derives.of_mem (by simp [exampleTwoLetters])
  have h2 : Derives exampleTwoLetters.rules [65] [97] :=
    Derives.of_mem (by simp [exampleTwoLetters])
  exact h1.trans (h2.append_right [66])

/-- C18, amended: for a valid context-free grammar `g` on which the constructor of `CYK`
succeeds and every word `w` of length `n ≥ 1`, `calculateTableValues(w)` returns a table in
which, for every nonterminal `N` of the stored normalized grammar and all `i ≤ j < n`,
`table[N][i][j]` is true exactly when the substring `w[i..j]` consists of terminals and `N`
derives it with the rules of the stored normalized grammar (so, on a word of terminals,
exactly when `N` derives `w[i..j]`); and `predict(w)` returns `table[start][0][n-1]`. -/
theorem calculateTableValues_iff (ts nts : Alphabet) (s : Symbol) (rs : List Rule)
    (g : Grammar) (c : CYK) (hg : ContextFreeGrammar.new ts nts s rs = Except.ok g)
    (hc : CYK.new g = Except.ok c) (w : Word) (hw : w ≠ []) :
    ∃ t, c.calculateTableValues w = some t ∧
      (∀ N ∈ c.grammar.nonterminals, ∀ i j, i ≤ j → j < w.length →
        ∃ b, CYK.Table.read t N i j = some b ∧
          (b = true ↔ (c.grammar.IsTerminalWord (subword w i (j + 1 - i)) ∧
            Derives c.grammar.rules [N] (subword w i (j + 1 - i)))) ∧
          (c.grammar.IsTerminalWord w →
            (b = true ↔ Derives c.grammar.rules [N] (subword w i (j + 1 - i))))) ∧
      c.predict w = CYK.Table.read t c.grammar.startSymbol 0 (w.length - 1) := by
  obtain ⟨hshape, -⟩ := CYK.new_spec (wellFormed_of_new hg) hc
  obtain ⟨t, ht, -, hok⟩ := calculateTableValues_spec c hshape.wellFormed hshape.pairs w
  refine ⟨t, ht, ?_, predict_eq_read hw ht⟩
  intro N hN i j hij hj
  obtain ⟨b, hb, hiff⟩ := hok N hN i j hij hj (by omega)
  have hne : subword w i (j + 1 - i) ≠ [] := by
    intro hh
    have : (subword w i (j + 1 - i)).length = j + 1 - i := subword_length (by omega)
    rw [hh] at this
    simp at this
    omega
  rw [← hshape.derives_iff_cnfGen hN hne] at hiff
  refine ⟨b, hb, hiff, fun hterm => ?_⟩
  rw [hiff]
  exact ⟨fun h => h.2, fun h => ⟨subword_isTerminalWord hterm _ _, h⟩⟩

theorem calculateTableValues_iff_witness :
    ContextFreeGrammar.new [97, 98] [83, 65, 66] 83
        [⟨[83], [65, 66]⟩, ⟨[65], [97]⟩, ⟨[66], [98]⟩] = Except.ok exampleTwoLetters ∧
      CYK.new exampleTwoLetters = Except.ok ⟨exampleTwoLetters⟩ ∧
      ([97, 98] : Word) ≠ [] ∧
      ∃ t, CYK.calculateTableValues ⟨exampleTwoLetters⟩ [97, 98] = some t ∧
        (∀ N ∈ exampleTwoLetters.nonterminals, ∀ i j, i ≤ j → j < 2 →
          ∃ b, CYK.Table.read t N i j = some b ∧
            (b = true ↔ (exampleTwoLetters.IsTerminalWord (subword [97, 98] i (j + 1 - i)) ∧
              Derives exampleTwoLetters.rules [N] (subword [97, 98] i (j + 1 - i)))) ∧
            (exampleTwoLetters.IsTerminalWord [97, 98] →
              (b = true ↔
                Derives exampleTwoLetters.rules [N] (subword [97, 98] i (j + 1 - i))))) ∧
        CYK.predict ⟨exampleTwoLetters⟩ [97, 98] = CYK.Table.read t 83 0 1 :=
  ⟨by rfl, by rfl, by simp,
    calculateTableValues_iff [97, 98] [83, 65, 66] 83
      [⟨[83], [65, 66]⟩, ⟨[65], [97]⟩, ⟨[66], [98]⟩] exampleTwoLetters ⟨exampleTwoLetters⟩
      (by rfl) (by rfl) [97, 98] (by simp)⟩

/-! ## The set of the epsilon-generators -/

theorem foldl_eq_of_forall {α β : Type} (f : β → α → β) (l : List α) (s : β)
    (h : ∀ r ∈ l, f s r = s) : l.foldl f s = s := by
  induction l with
  | nil => rfl
  | cons r l ih =>
    rw [List.foldl_cons, h r (List.mem_cons_self r l)]
    exact ih fun r1 hr1 => h r1 (List.mem_cons_of_mem r hr1)

theorem untilStable_of_fixed (pass : List Symbol → List Symbol) {s : List Symbol}
    (h : pass s = s) : ∀ fuel, untilStable pass fuel s = s := by
  intro fuel
  cases fuel with
  | zero => rfl
  | succ fuel =>
    rw [untilStable]
    simp only [h, if_true]

/-- When the loop has stopped through its `break`, so that one more pass leaves its result
unchanged, allowing more passes gives the same result. -/
theorem untilStable_more (pass : List Symbol → List Symbol) :
    ∀ (fuel : Nat) (s : List Symbol),
      pass (untilStable pass fuel s) = untilStable pass fuel s →
      ∀ extra, untilStable pass (fuel + extra) s = untilStable pass fuel s := by
  intro fuel
  induction fuel with
  | zero =>
    intro s hfix extra
    have h0 : untilStable pass 0 s = s := rfl
    rw [h0] at hfix ⊢
    rw [Nat.zero_add]
    exact untilStable_of_fixed pass hfix extra
  | succ fuel ih =>
    intro s hfix extra
    have hstep : ∀ k, untilStable pass (k + 1) s =
        if s.length = (pass s).length then pass s else untilStable pass k (pass s) :=
      fun k => rfl
    rw [show fuel + 1 + extra = (fuel + extra) + 1 by omega, hstep, hstep]
    rw [hstep] at hfix
    by_cases hlen : s.length = (pass s).length
    · simp only [hlen, if_true]
    · simp only [hlen, if_false] at hfix ⊢
      exact ih (pass s) hfix extra

/-- A pass of the loop of `findEpsilonGenerators` leaves a set with the closure conditions
unchanged. -/
theorem findEpsilonGenerators.pass_of_epsilonClosed {g : Grammar} {E : List Symbol}
    (hE : EpsilonClosed g (fun x => x ∈ E)) : findEpsilonGenerators.pass g.rules E = E := by
  apply foldl_eq_of_forall
  intro r hr
  split
  · rfl
  · split
    · rename_i hcond
      apply List.insert_of_mem
      rcases hcond with ⟨hlen, h0, h1⟩ | ⟨hlen, h0⟩
      · apply hE.2 r hr (Or.inr hlen)
        intro x hx
        rw [two_of_length_ge (w := r.rhs) (by omega) (by omega)] at hx
        simp only [List.mem_cons, List.mem_singleton, List.not_mem_nil, or_false] at hx
        rcases hx with hx | hx
        · rw [hx]; exact h0
        · rw [hx]; exact h1
      · apply hE.2 r hr (Or.inl hlen)
        intro x hx
        rw [one_of_length_eq hlen] at hx
        rw [List.mem_singleton.1 hx]
        exact h0
    · rfl

theorem derives_nil_of_all {rules : List Rule} {u : Word}
    (h : ∀ x ∈ u, Derives rules [x] []) : Derives rules u [] := by
  induction u with
  | nil => exact Derives.refl _ _
  | cons a u ih =>
    have := Derives.append (h a (List.mem_cons_self a u))
      (ih fun x hx => h x (List.mem_cons_of_mem a hx))
    simpa using this

/-- Every set closed under the conditions of `EpsilonClosed` holds every symbol that
derives the empty word. -/
theorem EpsilonClosed.of_derives_nil {g : Grammar} (hg : WellFormed g)
    (hshort : ∀ r ∈ g.rules, r.rhs.length ≤ 2) {S : Symbol → Prop} (hS : EpsilonClosed g S)
    {x : Symbol} (hd : Derives g.rules [x] []) : S x := by
  have hcf : ∀ r ∈ g.rules, ∃ a, r.lhs = [a] := fun r hr => by
    obtain ⟨a, -, ha⟩ := hg.rule_lhs r hr
    exact ⟨a, ha⟩
  have hgen := Gen.of_derives hcf hd
  have key : ∀ u w, Gen g.rules u w → w = [] → ∀ y ∈ u, S y := by
    intro u w hgen
    induction hgen with
    | nil => intro _ y hy; simp at hy
    | skip a _ _ => intro h; simp at h
    | @expand a rhs u w1 w2 hr _ _ ih1 ih2 =>
      intro hw y hy
      have hw1 : w1 = [] := (List.append_eq_nil.1 hw).1
      have hw2 : w2 = [] := (List.append_eq_nil.1 hw).2
      rcases List.mem_cons.1 hy with h | h
      · rw [h]
        have hsh : rhs.length ≤ 2 := hshort _ hr
        by_cases hrhs : rhs = []
        · exact hS.1 _ hr hrhs
        · have hpos : 0 < rhs.length := List.length_pos.2 hrhs
          exact hS.2 _ hr (by show rhs.length = 1 ∨ rhs.length = 2; omega) (ih1 hw1)
      · exact ih2 hw2 y h
  exact key [x] [] hgen rfl x (by simp)

/-- The symbols that derive the empty word satisfy the conditions of `EpsilonClosed`. -/
theorem epsilonClosed_derives {g : Grammar} (hg : WellFormed g) :
    EpsilonClosed g (fun x => Derives g.rules [x] []) := by
  have hlhs : ∀ r ∈ g.rules, r.lhs = [r.lhs.at 0] := by
    intro r hr
    obtain ⟨a, -, ha⟩ := hg.rule_lhs r hr
    rw [ha]; rfl
  constructor
  · intro r hr hrhs
    have := Derives.of_rule hr
    rw [hlhs r hr, hrhs] at this
    exact this
  · intro r hr _ hall
    have := Derives.of_rule hr
    rw [hlhs r hr] at this
    exact this.trans (derives_nil_of_all hall)

/-- The nonterminals of a valid grammar satisfy the conditions of `EpsilonClosed`. -/
theorem epsilonClosed_nonterminals {g : Grammar} (hg : WellFormed g) :
    EpsilonClosed g (fun x => x ∈ g.nonterminals) := by
  have hlhs : ∀ r ∈ g.rules, r.lhs.at 0 ∈ g.nonterminals := by
    intro r hr
    obtain ⟨a, ha, hl⟩ := hg.rule_lhs r hr
    rw [hl]; exact ha
  exact ⟨fun r hr _ => hlhs r hr, fun r hr _ _ => hlhs r hr⟩

/-- C21: on a valid context-free grammar with no rule of rhs length > 2,
`findEpsilonGenerators` returns a set `E` whose members are exactly the nonterminals that
derive the empty word; `E` contains the lhs of every empty rule, is closed under taking the
lhs of a rule of rhs length 1 or 2 whose rhs symbols are all in `E`, and is included in
every set with these two properties (it is the least such set). The loop stops through its
`break` within the `rules.length + 1` passes that the embedding allows: allowing more
passes gives the same set. -/
theorem findEpsilonGenerators_least {g : Grammar} (hg : WellFormed g)
    (hshort : ∀ r ∈ g.rules, r.rhs.length ≤ 2) :
    ∃ E, findEpsilonGenerators g = Except.ok E ∧
      (∀ x, x ∈ E ↔ x ∈ g.nonterminals ∧ Derives g.rules [x] []) ∧
      EpsilonClosed g (fun x => x ∈ E) ∧
      (∀ S : Symbol → Prop, EpsilonClosed g S → ∀ x ∈ E, S x) ∧
      ∀ extra, untilStable (findEpsilonGenerators.pass g.rules) (g.rules.length + 1 + extra)
        (findEpsilonGenerators.seed g.rules) = E := by
  obtain ⟨E, hE, hiff⟩ := findEpsilonGenerators_spec hg hshort
  have hclosed : EpsilonClosed g (fun x => x ∈ E) := by
    have hcl := epsilonClosed_derives hg
    constructor
    · intro r hr hrhs
      exact (hiff _).2 (hcl.1 r hr hrhs)
    · intro r hr hlen hall
      exact (hiff _).2 (hcl.2 r hr hlen fun x hx => (hiff x).1 (hall x hx))
  have hEq : untilStable (findEpsilonGenerators.pass g.rules) (g.rules.length + 1)
      (findEpsilonGenerators.seed g.rules) = E :=
    Except.ok.inj ((findEpsilonGenerators_eq ((hasLongRules_false_iff g).2 hshort)).symm.trans
      hE)
  refine ⟨E, hE, ?_, hclosed, ?_, ?_⟩
  · intro x
    rw [hiff x]
    exact ⟨fun hd => ⟨(epsilonClosed_nonterminals hg).of_derives_nil hg hshort hd, hd⟩,
      fun h => h.2⟩
  · intro S hS x hx
    exact hS.of_derives_nil hg hshort ((hiff x).1 hx)
  · intro extra
    rw [untilStable_more _ _ _ (by rw [hEq]; exact findEpsilonGenerators.pass_of_epsilonClosed hclosed),
      hEq]

theorem findEpsilonGenerators_least_witness :
    WellFormed exampleEpsilon ∧ (∀ r ∈ exampleEpsilon.rules, r.rhs.length ≤ 2) ∧
      findEpsilonGenerators exampleEpsilon = Except.ok [66, 83, 65] ∧
      ∃ E, findEpsilonGenerators exampleEpsilon = Except.ok E ∧
        (∀ x, x ∈ E ↔ x ∈ exampleEpsilon.nonterminals ∧
          Derives exampleEpsilon.rules [x] []) ∧
        EpsilonClosed exampleEpsilon (fun x => x ∈ E) ∧
        (∀ S : Symbol → Prop, EpsilonClosed exampleEpsilon S → ∀ x ∈ E, S x) ∧
        ∀ extra, untilStable (findEpsilonGenerators.pass exampleEpsilon.rules)
          (exampleEpsilon.rules.length + 1 + extra)
          (findEpsilonGenerators.seed exampleEpsilon.rules) = E :=
  ⟨@wellFormed_of_new [97, 98] [83, 65, 66, 67] 83 exampleEpsilon.rules exampleEpsilon (by rfl),
    by decide, by rfl,
    findEpsilonGenerators_least
      (@wellFormed_of_new [97, 98] [83, 65, 66, 67] 83 exampleEpsilon.rules exampleEpsilon
        (by rfl)) (by decide)⟩

/-! ## The rules and the start symbol after `removeEmptyRules` -/

/-- The rules that the loop of `removeEmptyRules` leaves: none is empty, and each has the
lhs of a rule of the input. -/
theorem removeEmptyRules_loop_kept (eps : List Symbol) (rules : List Rule) (r : Rule)
    (hr : r ∈ removeEmptyRules.loop eps rules.length rules) :
    r.rhs ≠ [] ∧ ∃ r0 ∈ rules, r.lhs = r0.lhs := by
  rcases (removeEmptyRules_loop_mem eps rules r).1 hr with ⟨h1, h2⟩ | ⟨r0, hr0, hsc⟩
  · exact ⟨h2, r, h1, rfl⟩
  · obtain ⟨b, c, -, -, -, h | h⟩ := mem_epsilonShortcuts hsc
    · rw [h.2]
      exact ⟨by simp, r0, hr0, rfl⟩
    · rw [h.2]
      exact ⟨by simp, r0, hr0, rfl⟩

/-- C22: let `removeEmptyRules` succeed on a valid context-free grammar `g` with no long
rule, with result `g1`, and let `E` be the set that `findEpsilonGenerators` returns on `g`.
Every empty rule of `g1` has the start symbol of `g1` as its lhs. If the start symbol `S`
of `g` is an epsilon-generator, the start symbol of `g1` is the symbol `maxSymbol + 1`,
which is neither a terminal nor a nonterminal of `g` and is added to the nonterminals, and
the rules of `g1` are non-empty rules with another lhs followed by exactly the two rules
`S' → ε` and `S' → S`. Otherwise the start symbol and the nonterminals are unchanged and no
rule of `g1` is empty. The start symbol changes if and only if `S` derives the empty
word. -/
theorem removeEmptyRules_start {g g1 : Grammar} (hg : WellFormed g)
    (hshort : ∀ r ∈ g.rules, r.rhs.length ≤ 2) (h : removeEmptyRules g = Except.ok g1) :
    ∃ E, findEpsilonGenerators g = Except.ok E ∧
      (g.startSymbol ∈ E ↔ Derives g.rules [g.startSymbol] []) ∧
      (∀ r ∈ g1.rules, r.rhs = [] → r.lhs = [g1.startSymbol]) ∧
      (g.startSymbol ∈ E →
        g1.startSymbol = g.maxSymbol + 1 ∧ g1.startSymbol ∉ g.terminals ∧
        g1.startSymbol ∉ g.nonterminals ∧
        g1.nonterminals = g.nonterminals.insert g1.startSymbol ∧
        g1.terminals = g.terminals ∧
        ∃ kept, g1.rules = kept ++
            [⟨[g1.startSymbol], []⟩, ⟨[g1.startSymbol], [g.startSymbol]⟩] ∧
          ∀ r ∈ kept, r.rhs ≠ [] ∧ r.lhs ≠ [g1.startSymbol]) ∧
      (g.startSymbol ∉ E →
        g1.startSymbol = g.startSymbol ∧ g1.nonterminals = g.nonterminals ∧
        g1.terminals = g.terminals ∧ ∀ r ∈ g1.rules, r.rhs ≠ []) ∧
      (g1.startSymbol ≠ g.startSymbol ↔ g.startSymbol ∈ E) := by
  obtain ⟨E, hE, hiff⟩ := findEpsilonGenerators_spec hg hshort
  refine ⟨E, hE, hiff _, ?_⟩
  have hkept := removeEmptyRules_loop_kept E g.rules
  have hfreshT : g.maxSymbol + 1 ∉ g.terminals := fun hmem => by
    have := hg.le_max _ (Or.inl hmem)
    linarith
  have hfreshN : g.maxSymbol + 1 ∉ g.nonterminals := fun hmem => by
    have := hg.le_max _ (Or.inr hmem)
    linarith
  have hlhs : ∀ r ∈ removeEmptyRules.loop E g.rules.length g.rules,
      r.lhs ≠ [g.maxSymbol + 1] := by
    intro r hr heq
    obtain ⟨-, r0, hr0, hl⟩ := hkept r hr
    obtain ⟨a, ha, hl0⟩ := hg.rule_lhs r0 hr0
    rw [hl, hl0] at heq
    have : a = g.maxSymbol + 1 := by simpa using heq
    rw [this] at ha
    exact hfreshN ha
  rw [removeEmptyRules_eq hshort hE] at h
  by_cases hs : g.startSymbol ∈ E
  · simp only [hs, if_true] at h
    by_cases hmax : g.maxSymbol = Symbol.maxValue
    · simp only [hmax, if_true] at h
      exact absurd h (by simp)
    · simp only [hmax, if_false] at h
      have hg1 := Except.ok.inj h
      subst hg1
      refine ⟨?_, ?_, ?_, ?_⟩
      · intro r hr hrhs
        simp only [List.mem_append, List.mem_cons, List.mem_singleton, List.not_mem_nil,
          or_false] at hr
        rcases hr with hr | hr | hr
        · exact absurd hrhs (hkept r hr).1
        · rw [hr]
        · rw [hr] at hrhs
          simp at hrhs
      · intro _
        exact ⟨rfl, hfreshT, hfreshN, rfl, rfl, _, rfl, fun r hr => ⟨(hkept r hr).1, hlhs r hr⟩⟩
      · intro hcon
        exact absurd hs hcon
      · constructor
        · intro _; exact hs
        · intro _ heq
          have hle := hg.le_max _ (Or.inr hg.start_mem)
          simp only at heq
          linarith
  · simp only [hs, if_false] at h
    have hg1 := Except.ok.inj h
    subst hg1
    refine ⟨?_, ?_, ?_, ?_⟩
    · intro r hr hrhs
      exact absurd hrhs (hkept r hr).1
    · intro hcon
      exact absurd hcon hs
    · intro _
      exact ⟨rfl, rfl, rfl, fun r hr => (hkept r hr).1⟩
    · constructor
      · intro hne
        exact absurd rfl hne
      · intro hcon
        exact absurd hcon hs

theorem removeEmptyRules_start_witness :
    WellFormed exampleEmptyRules ∧ (∀ r ∈ exampleEmptyRules.rules, r.rhs.length ≤ 2) ∧
      removeEmptyRules exampleEmptyRules = Except.ok
        ⟨[97, 98], [99, 83, 65, 66, 67], 99,
          [⟨[83], [65]⟩, ⟨[65], [66, 65]⟩, ⟨[66], [65]⟩, ⟨[83], [67]⟩, ⟨[67], [97, 98]⟩,
            ⟨[65], [65]⟩, ⟨[65], [66]⟩, ⟨[99], []⟩, ⟨[99], [83]⟩], 99⟩ ∧
      ∃ E, findEpsilonGenerators exampleEmptyRules = Except.ok E ∧
        (exampleEmptyRules.startSymbol ∈ E ↔
          Derives exampleEmptyRules.rules [exampleEmptyRules.startSymbol] []) ∧
        (∀ r ∈ [(⟨[83], [65]⟩ : Rule), ⟨[65], [66, 65]⟩, ⟨[66], [65]⟩, ⟨[83], [67]⟩,
            ⟨[67], [97, 98]⟩, ⟨[65], [65]⟩, ⟨[65], [66]⟩, ⟨[99], []⟩, ⟨[99], [83]⟩],
          r.rhs = [] → r.lhs = [99]) ∧
        (exampleEmptyRules.startSymbol ∈ E →
          (99 : Symbol) = exampleEmptyRules.maxSymbol + 1 ∧
          (99 : Symbol) ∉ exampleEmptyRules.terminals ∧
          (99 : Symbol) ∉ exampleEmptyRules.nonterminals ∧
          [99, 83, 65, 66, 67] = exampleEmptyRules.nonterminals.insert 99 ∧
          [97, 98] = exampleEmptyRules.terminals ∧
          ∃ kept, [(⟨[83], [65]⟩ : Rule), ⟨[65], [66, 65]⟩, ⟨[66], [65]⟩, ⟨[83], [67]⟩,
              ⟨[67], [97, 98]⟩, ⟨[65], [65]⟩, ⟨[65], [66]⟩, ⟨[99], []⟩, ⟨[99], [83]⟩] =
              kept ++ [⟨[99], []⟩, ⟨[99], [exampleEmptyRules.startSymbol]⟩] ∧
            ∀ r ∈ kept, r.rhs ≠ [] ∧ r.lhs ≠ [99]) ∧
        (exampleEmptyRules.startSymbol ∉ E →
          (99 : Symbol) = exampleEmptyRules.startSymbol ∧
          [99, 83, 65, 66, 67] = exampleEmptyRules.nonterminals ∧
          [97, 98] = exampleEmptyRules.terminals ∧
          ∀ r ∈ [(⟨[83], [65]⟩ : Rule), ⟨[65], [66, 65]⟩, ⟨[66], [65]⟩, ⟨[83], [67]⟩,
            ⟨[67], [97, 98]⟩, ⟨[65], [65]⟩, ⟨[65], [66]⟩, ⟨[99], []⟩, ⟨[99], [83]⟩],
            r.rhs ≠ []) ∧
        ((99 : Symbol) ≠ exampleEmptyRules.startSymbol ↔ exampleEmptyRules.startSymbol ∈ E) :=
  ⟨@wellFormed_of_new [97, 98] [83, 65, 66, 67] 83 exampleEmptyRules.rules exampleEmptyRules
      (by rfl),
    by decide, by rfl,
    removeEmptyRules_start
      (@wellFormed_of_new [97, 98] [83, 65, 66, 67] 83 exampleEmptyRules.rules
        exampleEmptyRules (by rfl)) (by decide) (by rfl)⟩

/-! ## Termination of `findChainedPairs` and the rules after `removeChainRules` -/

/-- With enough passes allowed, the loop of `findChainedPairs` stops because a pass found
no new pair, and allowing more passes does not change its result. -/
theorem findChainedPairs_loop_stops (g : Grammar) :
    ∀ (fuel : Nat) (st : ChainState), ChainInvariant g st →
      g.rules.length * g.rules.length < fuel + st.isChainedPair.length →
      (findChainedPairs.loop g fuel st).foundNewPairs = false ∧
      ∀ extra, findChainedPairs.loop g (fuel + extra) st = findChainedPairs.loop g fuel st := by
  intro fuel
  induction fuel with
  | zero =>
    intro st hinv hlt
    have := hinv.length_le
    omega
  | succ fuel ih =>
    intro st hinv hlt
    obtain ⟨h1, -, -, -, -, h6⟩ := findChainedPairs_pass_spec g g.rules
      { st with foundNewPairs := false } (fun r hr => hr) (hinv.reset false)
    have hpass : findChainedPairs.pass g { st with foundNewPairs := false } =
        g.rules.foldl (fun st r =>
          if r.rhs.length ≠ 1 ∨ g.symbolIsNonterminal (r.rhs.at 0) = false then st
          else findChainedPairs.inner (r.lhs.at 0) (r.rhs.at 0) st.pairs.length st)
          { st with foundNewPairs := false } := rfl
    rw [← hpass] at h1 h6
    have hstep : ∀ k, findChainedPairs.loop g (k + 1) st =
        if (findChainedPairs.pass g { st with foundNewPairs := false }).foundNewPairs = true
        then findChainedPairs.loop g k (findChainedPairs.pass g { st with foundNewPairs := false })
        else findChainedPairs.pass g { st with foundNewPairs := false } := fun k => rfl
    by_cases hfound : (findChainedPairs.pass g { st with foundNewPairs := false }).foundNewPairs
        = true
    · have hlen := h6 rfl hfound
      simp only at hlen
      obtain ⟨c1, c2⟩ := ih _ h1 (by omega)
      refine ⟨?_, ?_⟩
      · rw [hstep, if_pos hfound]
        exact c1
      · intro extra
        rw [show fuel + 1 + extra = (fuel + extra) + 1 by omega, hstep, hstep, if_pos hfound,
          if_pos hfound]
        exact c2 extra
    · refine ⟨?_, ?_⟩
      · rw [hstep, if_neg hfound]
        simpa using hfound
      · intro extra
        rw [show fuel + 1 + extra = (fuel + extra) + 1 by omega, hstep, hstep, if_neg hfound,
          if_neg hfound]

theorem chainInvariant_seed (g : Grammar) : ChainInvariant g (findChainedPairs.seed g) := by
  have hinv0 : ChainInvariant g ⟨[], [], true⟩ :=
    ⟨fun p => Iff.rfl, List.nodup_nil, fun p hp => by simp at hp, fun p hp => by simp at hp⟩
  exact (findChainedPairs_seed_spec g g.rules ⟨[], [], true⟩ (fun r hr => hr) hinv0).1

theorem unitStep_iff_hasUnitRule {g : Grammar} (hg : WellFormed g) (a b : Symbol) :
    UnitStep g a b ↔ HasUnitRule g a b := by
  constructor
  · intro h
    obtain ⟨h1, -, h3⟩ := h.rule_mem hg
    exact ⟨h1, h3⟩
  · rintro ⟨h1, h2⟩
    exact ⟨_, h1, rfl, rfl, rfl, (symbolIsNonterminal_eq_true g b).2 h2⟩

theorem unitStep_eq_hasUnitRule {g : Grammar} (hg : WellFormed g) :
    UnitStep g = HasUnitRule g := by
  funext a b
  exact propext (unitStep_iff_hasUnitRule hg a b)

theorem isUnitRule_iff (g : Grammar) (r : Rule) :
    (r.rhs.length = 1 ∧ r.rhs.at 0 ∈ g.nonterminals) ↔ IsUnitRule g r := by
  constructor
  · rintro ⟨h1, h2⟩
    exact ⟨_, h2, one_of_length_eq h1⟩
  · rintro ⟨b, hb, hr⟩
    rw [hr]
    exact ⟨rfl, hb⟩

/-- C23: on a valid context-free grammar, the loop of `findChainedPairs` stops because a
pass finds no new pair, within the `rules.length * rules.length + 1` passes that the
embedding allows (allowing more passes gives the same pairs), and a pair `(A, B)` occurs in
the result if and only if `A` reaches `B` through one or more unit rules: the result is the
transitive closure of the unit-rule relation. -/
theorem findChainedPairs_closure {g : Grammar} (hg : WellFormed g) :
    (findChainedPairs.loop g (g.rules.length * g.rules.length + 1)
        (findChainedPairs.seed g)).foundNewPairs = false ∧
      (∀ extra, (findChainedPairs.loop g (g.rules.length * g.rules.length + 1 + extra)
        (findChainedPairs.seed g)).pairs = findChainedPairs g) ∧
      ∀ a b, (a, b) ∈ findChainedPairs g ↔ Relation.TransGen (HasUnitRule g) a b := by
  obtain ⟨h1, h2⟩ := findChainedPairs_loop_stops g (g.rules.length * g.rules.length + 1)
    (findChainedPairs.seed g) (chainInvariant_seed g) (by omega)
  refine ⟨h1, fun extra => ?_, fun a b => ?_⟩
  · rw [h2 extra]
    rfl
  · rw [findChainedPairs_spec g a b, unitStep_eq_hasUnitRule hg]

theorem findChainedPairs_closure_witness :
    WellFormed exampleChains ∧
      findChainedPairs exampleChains =
        [(83, 65), (66, 65), (83, 67), (67, 66), (67, 65), (83, 66)] ∧
      ((findChainedPairs.loop exampleChains
          (exampleChains.rules.length * exampleChains.rules.length + 1)
          (findChainedPairs.seed exampleChains)).foundNewPairs = false ∧
        (∀ extra, (findChainedPairs.loop exampleChains
          (exampleChains.rules.length * exampleChains.rules.length + 1 + extra)
          (findChainedPairs.seed exampleChains)).pairs = findChainedPairs exampleChains) ∧
        ∀ a b, (a, b) ∈ findChainedPairs exampleChains ↔
          Relation.TransGen (HasUnitRule exampleChains) a b) :=
  ⟨@wellFormed_of_new [97, 98] [83, 65, 66, 67] 83 exampleChains.rules exampleChains (by rfl),
    by rfl,
    findChainedPairs_closure
      (@wellFormed_of_new [97, 98] [83, 65, 66, 67] 83 exampleChains.rules exampleChains
        (by rfl))⟩

/-- C24: on a valid context-free grammar, `removeChainRules` changes the rules only, no
rule of the result has a single nonterminal as its rhs, and a rule belongs to the result
if and only if it is a non-unit rule of the input, or it is `A → γ` for a pair `(A, B)`
of `findChainedPairs` on the input and a non-unit rule `B → γ` of the input. -/
theorem removeChainRules_rules {g : Grammar} (hg : WellFormed g) :
    (removeChainRules g).terminals = g.terminals ∧
      (removeChainRules g).nonterminals = g.nonterminals ∧
      (removeChainRules g).startSymbol = g.startSymbol ∧
      (∀ r ∈ (removeChainRules g).rules, ¬ IsUnitRule (removeChainRules g) r) ∧
      ∀ r1, r1 ∈ (removeChainRules g).rules ↔
        (r1 ∈ g.rules ∧ ¬ IsUnitRule g r1) ∨
        ∃ a b γ, (a, b) ∈ findChainedPairs g ∧ (⟨[b], γ⟩ : Rule) ∈ g.rules ∧
          ¬ IsUnitRule g ⟨[b], γ⟩ ∧ r1 = ⟨[a], γ⟩ := by
  have hmem : ∀ r1, r1 ∈ (removeChainRules g).rules ↔
      (r1 ∈ g.rules ∧ ¬ IsUnitRule g r1) ∨
      ∃ a b γ, (a, b) ∈ findChainedPairs g ∧ (⟨[b], γ⟩ : Rule) ∈ g.rules ∧
        ¬ IsUnitRule g ⟨[b], γ⟩ ∧ r1 = ⟨[a], γ⟩ := by
    intro r1
    rw [removeChainRules_mem g r1, isUnitRule_iff]
    constructor
    · rintro (h | ⟨a, b, hab, r, hr, hnu, hl, heq⟩)
      · exact Or.inl h
      · right
        have hlhs : r.lhs = [b] := by
          obtain ⟨c, -, hc⟩ := hg.rule_lhs r hr
          rw [hc] at hl ⊢
          have : c = b := hl
          rw [this]
        have hr' : r = ⟨[b], r.rhs⟩ := by
          rw [← hlhs]
        rw [isUnitRule_iff] at hnu
        refine ⟨a, b, r.rhs, (findChainedPairs_spec g a b).2 hab, ?_, ?_, heq⟩
        · rw [← hr']; exact hr
        · exact hnu
    · rintro (h | ⟨a, b, γ, hab, hr, hnu, heq⟩)
      · exact Or.inl h
      · right
        refine ⟨a, b, (findChainedPairs_spec g a b).1 hab, ⟨[b], γ⟩, hr, ?_, rfl, heq⟩
        rw [isUnitRule_iff]
        exact hnu
  refine ⟨rfl, rfl, rfl, ?_, hmem⟩
  intro r hr
  rcases (hmem r).1 hr with h | ⟨a, b, γ, -, -, hnu, heq⟩
  · exact h.2
  · rw [heq]
    exact hnu

theorem removeChainRules_rules_witness :
    WellFormed exampleUnits ∧
      removeChainRules exampleUnits = ⟨[97, 98], [83, 65, 66, 67], 83,
        [⟨[66], [97]⟩, ⟨[67], [98]⟩, ⟨[65], [97]⟩, ⟨[83], [98]⟩, ⟨[83], [97]⟩], 98⟩ ∧
      findChainedPairs exampleUnits = [(83, 65), (65, 66), (83, 67), (83, 66)] ∧
      ((removeChainRules exampleUnits).terminals = exampleUnits.terminals ∧
        (removeChainRules exampleUnits).nonterminals = exampleUnits.nonterminals ∧
        (removeChainRules exampleUnits).startSymbol = exampleUnits.startSymbol ∧
        (∀ r ∈ (removeChainRules exampleUnits).rules,
          ¬ IsUnitRule (removeChainRules exampleUnits) r) ∧
        ∀ r1, r1 ∈ (removeChainRules exampleUnits).rules ↔
          (r1 ∈ exampleUnits.rules ∧ ¬ IsUnitRule exampleUnits r1) ∨
          ∃ a b γ, (a, b) ∈ findChainedPairs exampleUnits ∧
            (⟨[b], γ⟩ : Rule) ∈ exampleUnits.rules ∧
            ¬ IsUnitRule exampleUnits ⟨[b], γ⟩ ∧ r1 = ⟨[a], γ⟩) :=
  ⟨@wellFormed_of_new [97, 98] [83, 65, 66, 67] 83 exampleUnits.rules exampleUnits (by rfl),
    by rfl, by rfl,
    removeChainRules_rules
      (@wellFormed_of_new [97, 98] [83, 65, 66, 67] 83 exampleUnits.rules exampleUnits
        (by rfl))⟩

/-! ## The generating nonterminals -/

theorem untilStable_invariant (pass : List Symbol → List Symbol) (Q : List Symbol → Prop)
    (hQ : ∀ s, Q s → Q (pass s)) : ∀ (fuel : Nat) (s : List Symbol), Q s →
      Q (untilStable pass fuel s) := by
  intro fuel
  induction fuel with
  | zero => intro s hs; exact hs
  | succ fuel ih =>
    intro s hs
    rw [untilStable]
    split
    · exact hQ s hs
    · exact ih (pass s) (hQ s hs)

/-- A word whose symbols are terminals or generating derives a word of terminals. -/
theorem generating_word {g : Grammar} :
    ∀ u : Word, (∀ x ∈ u, x ∈ g.terminals ∨ Generating g x) →
      ∃ w, g.IsTerminalWord w ∧ Derives g.rules u w := by
  intro u
  induction u with
  | nil => intro _; exact ⟨[], fun s hs => by simp at hs, Derives.refl _ _⟩
  | cons a u ih =>
    intro h
    obtain ⟨w2, hw2, hd2⟩ := ih fun x hx => h x (List.mem_cons_of_mem a hx)
    have ha : ∃ w1, g.IsTerminalWord w1 ∧ Derives g.rules [a] w1 := by
      rcases h a (List.mem_cons_self a u) with h1 | h1
      · refine ⟨[a], ?_, Derives.refl _ _⟩
        intro s hs
        rw [List.mem_singleton.1 hs]
        exact h1
      · exact h1
    obtain ⟨w1, hw1, hd1⟩ := ha
    refine ⟨w1 ++ w2, ?_, ?_⟩
    · intro s hs
      rcases List.mem_append.1 hs with h1 | h1
      · exact hw1 s h1
      · exact hw2 s h1
    · have := Derives.append hd1 hd2
      simpa using this

/-- The lhs of a rule whose rhs nonterminals are generating is generating. -/
theorem generating_of_rule {g : Grammar} (hg : WellFormed g) {r : Rule} (hr : r ∈ g.rules)
    (h : ∀ x ∈ r.rhs, x ∈ g.nonterminals → Generating g x) :
    r.lhs.at 0 ∈ g.nonterminals ∧ Generating g (r.lhs.at 0) := by
  obtain ⟨a, ha, hl⟩ := hg.rule_lhs r hr
  have hat : r.lhs.at 0 = a := by rw [hl]; rfl
  rw [hat]
  refine ⟨ha, ?_⟩
  obtain ⟨w, hw, hd⟩ := generating_word (g := g) r.rhs (by
    intro x hx
    rcases hg.rule_rhs r hr x hx with h1 | h1
    · exact Or.inl h1
    · exact Or.inr (h x hx h1))
  have hrule := Derives.of_rule hr
  rw [hl] at hrule
  exact ⟨w, hw, hrule.trans hd⟩

theorem insert_invariant {Q : Symbol → Prop} {s : List Symbol} {a : Symbol}
    (hs : ∀ x ∈ s, Q x) (ha : Q a) : ∀ x ∈ s.insert a, Q x := by
  intro x hx
  rcases List.mem_insert_iff.1 hx with h | h
  · rw [h]; exact ha
  · exact hs x h

/-- Every member of the set that `findGeneratingNonterminals` returns is a nonterminal that
derives a word of terminals. -/
theorem findGeneratingNonterminals_sound {g : Grammar} (hg : WellFormed g) {G : List Symbol}
    (hG : findGeneratingNonterminals g = Except.ok G) :
    ∀ x ∈ G, x ∈ g.nonterminals ∧ Generating g x := by
  have hlong : hasLongRules g = false := by
    by_contra hcon
    have htrue : hasLongRules g = true := by simpa using hcon
    unfold findGeneratingNonterminals at hG
    simp only [htrue, if_true] at hG
    exact absurd hG (by intro h; cases h)
  rw [findGeneratingNonterminals_eq hlong] at hG
  have hG' := Except.ok.inj hG
  rw [← hG']
  apply untilStable_invariant (findGeneratingNonterminals.pass g)
    (fun s => ∀ x ∈ s, x ∈ g.nonterminals ∧ Generating g x)
  · intro s hs
    apply foldl_invariant (Q := fun s : List Symbol =>
      ∀ x ∈ s, x ∈ g.nonterminals ∧ Generating g x)
    · intro s r hr hs
      split
      · rename_i hall
        apply insert_invariant hs
        apply generating_of_rule hg hr
        intro x hx hxn
        exact (hs x ((allRHSNonterminalsIn_iff g s r.rhs).1 hall x hx hxn)).2
      · exact hs
    · exact hs
  · apply foldl_invariant (Q := fun s : List Symbol =>
      ∀ x ∈ s, x ∈ g.nonterminals ∧ Generating g x)
    · intro s r hr hs
      split
      · rename_i hcond
        apply insert_invariant hs
        apply generating_of_rule hg hr
        intro x hx hxn
        exfalso
        have hterm : x ∈ g.terminals := by
          rcases hcond with h | ⟨hlen, h0⟩ | ⟨hlen, h0, h1⟩
          · rw [List.isEmpty_iff.1 h] at hx
            simp at hx
          · rw [one_of_length_eq hlen] at hx
            rw [List.mem_singleton.1 hx]
            simpa [Grammar.symbolIsTerminal] using h0
          · rw [two_of_length_ge (w := r.rhs) (by omega) (by omega)] at hx
            simp only [List.mem_cons, List.mem_singleton, List.not_mem_nil, or_false] at hx
            rcases hx with hx | hx
            · rw [hx]; simpa [Grammar.symbolIsTerminal] using h0
            · rw [hx]; simpa [Grammar.symbolIsTerminal] using h1
        exact hg.disjoint x hterm hxn
      · exact hs
    · intro x hx
      simp at hx

/-- A set closed under the rules holds the nonterminals of every word that derives a word
of terminals. -/
theorem generating_mem_of_closed {g : Grammar} (hg : WellFormed g) {S : Symbol → Prop}
    (hclosed : ∀ r ∈ g.rules, (∀ x ∈ r.rhs, x ∈ g.nonterminals → S x) → S (r.lhs.at 0)) :
    ∀ u v, Gen g.rules u v → g.IsTerminalWord v → ∀ x ∈ u, x ∈ g.nonterminals → S x := by
  intro u v hgen
  induction hgen with
  | nil => intro _ x hx; simp at hx
  | skip a _ ih =>
    intro hv x hx hxn
    rcases List.mem_cons.1 hx with h | h
    · rw [h] at hxn
      exact absurd hxn (hg.disjoint a (hv a (List.mem_cons_self a _)))
    · exact ih (fun x hx => hv x (List.mem_cons_of_mem a hx)) x h hxn
  | @expand a rhs u w1 w2 hr _ _ ih1 ih2 =>
    intro hv x hx hxn
    rcases List.mem_cons.1 hx with h | h
    · rw [h]
      exact hclosed _ hr (ih1 fun x hx => hv x (List.mem_append_left _ hx))
    · exact ih2 (fun x hx => hv x (List.mem_append_right _ hx)) x h hxn

/-- The result of `findGeneratingNonterminals`: exactly the generating nonterminals. -/
theorem findGeneratingNonterminals_mem {g : Grammar} (hg : WellFormed g)
    (hshort : ∀ r ∈ g.rules, r.rhs.length ≤ 2) :
    ∃ G, findGeneratingNonterminals g = Except.ok G ∧
      ∀ x, x ∈ G ↔ x ∈ g.nonterminals ∧ Generating g x := by
  obtain ⟨G, hG, hclosed⟩ := findGeneratingNonterminals_closed hshort
  refine ⟨G, hG, fun x => ⟨findGeneratingNonterminals_sound hg hG x, ?_⟩⟩
  rintro ⟨hxn, w, hw, hd⟩
  have hgen := Gen.of_derives hg.lhs_singleton hd
  exact generating_mem_of_closed hg (S := fun x => x ∈ G) hclosed _ _ hgen hw x (by simp) hxn

/-- A pass of the loop of `findGeneratingNonterminals` leaves a set closed under the rules
unchanged. -/
theorem findGeneratingNonterminals.pass_of_generatingClosed {g : Grammar} {G : List Symbol}
    (hclosed : ∀ r ∈ g.rules, (∀ x ∈ r.rhs, x ∈ g.nonterminals → x ∈ G) → r.lhs.at 0 ∈ G) :
    findGeneratingNonterminals.pass g G = G := by
  apply foldl_eq_of_forall
  intro r hr
  split
  · rename_i hall
    exact List.insert_of_mem (hclosed r hr ((allRHSNonterminalsIn_iff g G r.rhs).1 hall))
  · rfl

/-- C25: on a valid context-free grammar with no rule of rhs length > 2,
`findGeneratingNonterminals` returns a set whose members are exactly the nonterminals that
derive some word of terminals (possibly the empty word). The loop stops through its `break`
within the `rules.length + 1` passes that the embedding allows: allowing more passes gives
the same set. -/
theorem findGeneratingNonterminals_iff {g : Grammar} (hg : WellFormed g)
    (hshort : ∀ r ∈ g.rules, r.rhs.length ≤ 2) :
    ∃ G, findGeneratingNonterminals g = Except.ok G ∧
      (∀ x, x ∈ G ↔
        x ∈ g.nonterminals ∧ ∃ w, g.IsTerminalWord w ∧ Derives g.rules [x] w) ∧
      ∀ extra, untilStable (findGeneratingNonterminals.pass g) (g.rules.length + 1 + extra)
        (findGeneratingNonterminals.seed g) = G := by
  obtain ⟨G, hG, hmem⟩ := findGeneratingNonterminals_mem hg hshort
  obtain ⟨G1, hG1, hclosed⟩ := findGeneratingNonterminals_closed hshort
  have hGG : G1 = G := Except.ok.inj (hG1.symm.trans hG)
  rw [hGG] at hclosed
  have hEq : untilStable (findGeneratingNonterminals.pass g) (g.rules.length + 1)
      (findGeneratingNonterminals.seed g) = G :=
    Except.ok.inj ((findGeneratingNonterminals_eq
      ((hasLongRules_false_iff g).2 hshort)).symm.trans hG)
  refine ⟨G, hG, hmem, fun extra => ?_⟩
  rw [untilStable_more _ _ _ (by
    rw [hEq]; exact findGeneratingNonterminals.pass_of_generatingClosed hclosed), hEq]

theorem findGeneratingNonterminals_iff_witness :
    WellFormed exampleGenerating ∧ (∀ r ∈ exampleGenerating.rules, r.rhs.length ≤ 2) ∧
      findGeneratingNonterminals exampleGenerating = Except.ok [83, 65, 67, 66] ∧
      ∃ G, findGeneratingNonterminals exampleGenerating = Except.ok G ∧
        (∀ x, x ∈ G ↔ x ∈ exampleGenerating.nonterminals ∧
          ∃ w, exampleGenerating.IsTerminalWord w ∧ Derives exampleGenerating.rules [x] w) ∧
        ∀ extra, untilStable (findGeneratingNonterminals.pass exampleGenerating)
          (exampleGenerating.rules.length + 1 + extra)
          (findGeneratingNonterminals.seed exampleGenerating) = G :=
  ⟨@wellFormed_of_new [97, 98] [83, 65, 66, 67, 68] 83 exampleGenerating.rules
      exampleGenerating (by rfl),
    by decide, by rfl,
    findGeneratingNonterminals_iff
      (@wellFormed_of_new [97, 98] [83, 65, 66, 67, 68] 83 exampleGenerating.rules
        exampleGenerating (by rfl)) (by decide)⟩

/-! ## The rules after `removeNonGeneratingRules` -/

theorem keepsRule_iff (g : Grammar) (keep : List Symbol) (r : Rule) :
    keepsRule g keep r = true ↔
      r.lhs.at 0 ∈ keep ∧ ∀ x ∈ r.rhs, x ∈ g.nonterminals → x ∈ keep := by
  simp [keepsRule]

theorem keepsRule_eq (g : Grammar) (keep : List Symbol) :
    (fun r : Rule => decide (r.lhs.at 0 ∈ keep) && allRHSNonterminalsIn g keep r.rhs) =
      keepsRule g keep := by
  funext r
  rw [Bool.eq_iff_iff, keepsRule_iff, Bool.and_eq_true, decide_eq_true_eq,
    allRHSNonterminalsIn_iff]

/-- The erasing loop of `removeNonGeneratingRules` and `removeNonReachableRules`, run on all
the rules: the rules that `keepsRule` selects, in their order. -/
theorem removeRulesOutside_filter (g : Grammar) (keep : List Symbol) :
    removeRulesOutside g keep g.rules.length g.rules = g.rules.filter (keepsRule g keep) := by
  have := removeRulesOutside_eq g keep g.rules.length g.rules [] rfl
  simp only [List.append_nil] at this
  rw [this, keepsRule_eq]

/-- The derivations of words of terminals only use rules that `keepsRule` selects for a
set closed under the rules. -/
theorem gen_filter_of_closed {g : Grammar} (hg : WellFormed g) {G : List Symbol}
    (hclosed : ∀ r ∈ g.rules, (∀ x ∈ r.rhs, x ∈ g.nonterminals → x ∈ G) → r.lhs.at 0 ∈ G) :
    ∀ u v, Gen g.rules u v → g.IsTerminalWord v →
      Gen (g.rules.filter (keepsRule g G)) u v := by
  intro u v hgen
  induction hgen with
  | nil => intro _; exact Gen.nil
  | skip a _ ih =>
    intro hv
    exact Gen.skip a (ih fun x hx => hv x (List.mem_cons_of_mem a hx))
  | @expand a rhs u w1 w2 hr h1 _ ih1 ih2 =>
    intro hv
    have hv1 : g.IsTerminalWord w1 := fun x hx => hv x (List.mem_append_left _ hx)
    have hv2 : g.IsTerminalWord w2 := fun x hx => hv x (List.mem_append_right _ hx)
    have hrhs : ∀ x ∈ rhs, x ∈ g.nonterminals → x ∈ G :=
      generating_mem_of_closed hg (S := fun x => x ∈ G) hclosed _ _ h1 hv1
    have ha : a ∈ G := hclosed _ hr hrhs
    refine Gen.expand ?_ (ih1 hv1) (ih2 hv2)
    rw [List.mem_filter, keepsRule_iff]
    exact ⟨hr, ha, hrhs⟩

/-- C26: on a valid context-free grammar `g` with no long rule, `removeNonGeneratingRules`
succeeds and changes the rules only. With `G` the set that `findGeneratingNonterminals`
returns on `g`, whose members are exactly the generating nonterminals of `g`, the rules of
the result are the rules of `g`, in their order, whose lhs symbol is in `G` and whose rhs
nonterminals are all in `G`: a rule belongs to the result if and only if it is a rule of `g`
whose lhs symbol and rhs nonterminals are generating. Afterwards every nonterminal on either
side of a rule is generating, in `g` and in the result. -/
theorem removeNonGeneratingRules_filter {g : Grammar} (hg : WellFormed g)
    (hshort : ∀ r ∈ g.rules, r.rhs.length ≤ 2) :
    ∃ G g1, findGeneratingNonterminals g = Except.ok G ∧
      removeNonGeneratingRules g = Except.ok g1 ∧
      (∀ x, x ∈ G ↔ x ∈ g.nonterminals ∧ Generating g x) ∧
      g1.terminals = g.terminals ∧ g1.nonterminals = g.nonterminals ∧
      g1.startSymbol = g.startSymbol ∧
      g1.rules = g.rules.filter (keepsRule g G) ∧
      (∀ r, r ∈ g1.rules ↔ r ∈ g.rules ∧ Generating g (r.lhs.at 0) ∧
        ∀ x ∈ r.rhs, x ∈ g.nonterminals → Generating g x) ∧
      ∀ r ∈ g1.rules, ∀ x, x ∈ r.lhs ∨ x ∈ r.rhs → x ∈ g1.nonterminals →
        Generating g x ∧ Generating g1 x := by
  obtain ⟨G, hG, hmem⟩ := findGeneratingNonterminals_mem hg hshort
  obtain ⟨G', hG', hclosed⟩ := findGeneratingNonterminals_closed hshort
  have hGG : G' = G := Except.ok.inj (hG'.symm.trans hG)
  rw [hGG] at hclosed
  have hlhs : ∀ r ∈ g.rules, r.lhs = [r.lhs.at 0] ∧ r.lhs.at 0 ∈ g.nonterminals := by
    intro r hr
    obtain ⟨a, ha, hl⟩ := hg.rule_lhs r hr
    rw [hl]
    exact ⟨rfl, ha⟩
  have hiff : ∀ r, r ∈ g.rules.filter (keepsRule g G) ↔
      r ∈ g.rules ∧ Generating g (r.lhs.at 0) ∧
        ∀ x ∈ r.rhs, x ∈ g.nonterminals → Generating g x := by
    intro r
    rw [List.mem_filter, keepsRule_iff]
    constructor
    · rintro ⟨hr, h1, h2⟩
      exact ⟨hr, ((hmem _).1 h1).2, fun x hx hxn => ((hmem x).1 (h2 x hx hxn)).2⟩
    · rintro ⟨hr, h1, h2⟩
      exact ⟨hr, (hmem _).2 ⟨(hlhs r hr).2, h1⟩, fun x hx hxn => (hmem x).2 ⟨hxn, h2 x hx hxn⟩⟩
  have hgen1 : ∀ x, Generating g x →
      Generating ⟨g.terminals, g.nonterminals, g.startSymbol,
        g.rules.filter (keepsRule g G), g.maxSymbol⟩ x := by
    rintro x ⟨w, hw, hd⟩
    exact ⟨w, hw, (gen_filter_of_closed hg hclosed _ _
      (Gen.of_derives hg.lhs_singleton hd) hw).derives⟩
  refine ⟨G, ⟨g.terminals, g.nonterminals, g.startSymbol, g.rules.filter (keepsRule g G),
    g.maxSymbol⟩, hG, ?_, hmem, rfl, rfl, rfl, rfl, hiff, ?_⟩
  · rw [removeNonGeneratingRules_eq hG, removeRulesOutside_filter]
  · intro r hr x hx hxn
    obtain ⟨hr0, h1, h2⟩ := (hiff r).1 hr
    have hgx : Generating g x := by
      rcases hx with hx | hx
      · rw [(hlhs r hr0).1] at hx
        rw [List.mem_singleton.1 hx]
        exact h1
      · exact h2 x hx hxn
    exact ⟨hgx, hgen1 x hgx⟩

theorem removeNonGeneratingRules_filter_witness :
    WellFormed exampleNonGenerating ∧
      (∀ r ∈ exampleNonGenerating.rules, r.rhs.length ≤ 2) ∧
      findGeneratingNonterminals exampleNonGenerating = Except.ok [83, 65, 67, 66] ∧
      removeNonGeneratingRules exampleNonGenerating = Except.ok
        ⟨[97, 98], [83, 65, 66, 67, 68], 83,
          [⟨[83], [65]⟩, ⟨[65], [66]⟩, ⟨[66], [97]⟩, ⟨[67], [98]⟩], 98⟩ ∧
      ∃ G g1, findGeneratingNonterminals exampleNonGenerating = Except.ok G ∧
        removeNonGeneratingRules exampleNonGenerating = Except.ok g1 ∧
        (∀ x, x ∈ G ↔ x ∈ exampleNonGenerating.nonterminals ∧
          Generating exampleNonGenerating x) ∧
        g1.terminals = exampleNonGenerating.terminals ∧
        g1.nonterminals = exampleNonGenerating.nonterminals ∧
        g1.startSymbol = exampleNonGenerating.startSymbol ∧
        g1.rules = exampleNonGenerating.rules.filter (keepsRule exampleNonGenerating G) ∧
        (∀ r, r ∈ g1.rules ↔ r ∈ exampleNonGenerating.rules ∧
          Generating exampleNonGenerating (r.lhs.at 0) ∧
          ∀ x ∈ r.rhs, x ∈ exampleNonGenerating.nonterminals →
            Generating exampleNonGenerating x) ∧
        ∀ r ∈ g1.rules, ∀ x, x ∈ r.lhs ∨ x ∈ r.rhs → x ∈ g1.nonterminals →
          Generating exampleNonGenerating x ∧ Generating g1 x :=
  ⟨@wellFormed_of_new [97, 98] [83, 65, 66, 67, 68] 83 exampleNonGenerating.rules
      exampleNonGenerating (by rfl),
    by decide, by rfl, by rfl,
    removeNonGeneratingRules_filter
      (@wellFormed_of_new [97, 98] [83, 65, 66, 67, 68] 83 exampleNonGenerating.rules
        exampleNonGenerating (by rfl)) (by decide)⟩

/-! ## The reachable nonterminals -/

theorem Reachable.mem_nonterminals {g : Grammar} (hg : WellFormed g) {x : Symbol}
    (h : Reachable g x) : x ∈ g.nonterminals := by
  cases h with
  | refl => exact hg.start_mem
  | tail _ hstep =>
    obtain ⟨rhs, -, -, hx⟩ := hstep
    exact hx

/-- Every member of the set that `findReachableNonterminals` returns is reachable. -/
theorem findReachableNonterminals_sound {g : Grammar} (hg : WellFormed g) :
    ∀ x ∈ findReachableNonterminals g, Reachable g x := by
  unfold findReachableNonterminals
  apply untilStable_invariant (findReachableNonterminals.pass g)
    (fun s => ∀ x ∈ s, Reachable g x)
  · intro s hs
    apply foldl_invariant (Q := fun s : List Symbol => ∀ x ∈ s, Reachable g x)
    · intro s r hr hs
      split
      · rename_i hlhs
        have hreach : Reachable g (r.lhs.at 0) := hs _ hlhs
        have hrule : (⟨[r.lhs.at 0], r.rhs⟩ : Rule) ∈ g.rules := by
          rw [← (hg.lhs_eq hr).1]
          exact hr
        apply foldl_invariant (Q := fun s : List Symbol => ∀ x ∈ s, Reachable g x)
        · intro s1 y hy hs1
          split
          · rename_i hnt
            apply insert_invariant hs1
            exact Relation.ReflTransGen.tail hreach
              ⟨r.rhs, hrule, hy, (symbolIsNonterminal_eq_true g y).1 hnt⟩
          · exact hs1
        · exact hs
      · exact hs
    · exact hs
  · intro x hx
    rw [List.mem_singleton.1 hx]
    exact Relation.ReflTransGen.refl

theorem reachClosed_findReachableNonterminals (g : Grammar) :
    ReachClosed g (fun x => x ∈ findReachableNonterminals g) := by
  obtain ⟨h1, h2⟩ := findReachableNonterminals_closed g
  exact ⟨h1, fun a rhs hr ha x hx hxn => h2 _ hr ha x hx hxn⟩

/-- Every set with the closure conditions of `ReachClosed` holds the reachable symbols. -/
theorem ReachClosed.of_reachable {g : Grammar} {S : Symbol → Prop} (hS : ReachClosed g S)
    {x : Symbol} (h : Reachable g x) : S x := by
  induction h with
  | refl => exact hS.1
  | tail _ hstep ih =>
    obtain ⟨rhs, hr, hx, hxn⟩ := hstep
    exact hS.2 _ rhs hr ih _ hx hxn

/-- The result of `findReachableNonterminals`: exactly the reachable symbols. -/
theorem findReachableNonterminals_mem {g : Grammar} (hg : WellFormed g) (x : Symbol) :
    x ∈ findReachableNonterminals g ↔ Reachable g x :=
  ⟨findReachableNonterminals_sound hg x,
    fun h => (reachClosed_findReachableNonterminals g).of_reachable h⟩

/-- A pass of the loop of `findReachableNonterminals` leaves a set with the closure
conditions unchanged. -/
theorem findReachableNonterminals.pass_of_reachClosed {g : Grammar} {R : List Symbol}
    (hclosed : ∀ r ∈ g.rules, r.lhs.at 0 ∈ R → ∀ x ∈ r.rhs, x ∈ g.nonterminals → x ∈ R) :
    findReachableNonterminals.pass g R = R := by
  apply foldl_eq_of_forall
  intro r hr
  split
  · rename_i hlhs
    apply foldl_eq_of_forall
    intro x hx
    split
    · rename_i hnt
      exact List.insert_of_mem
        (hclosed r hr hlhs x hx ((symbolIsNonterminal_eq_true g x).1 hnt))
    · rfl
  · rfl

/-- C27: on a valid context-free grammar, the members of the set that
`findReachableNonterminals` returns are exactly the symbols reachable from the start symbol
by rule expansion; they are nonterminals; the set contains the start symbol and, for every
rule whose lhs is in the set, every nonterminal of its rhs, and it is included in every set
with these two properties (it is the least such set). The loop stops through its `break`
within the `nonterminals.length + 1` passes that the embedding allows: allowing more passes
gives the same set. -/
theorem findReachableNonterminals_least {g : Grammar} (hg : WellFormed g) :
    (∀ x, x ∈ findReachableNonterminals g ↔ Reachable g x) ∧
      (∀ x ∈ findReachableNonterminals g, x ∈ g.nonterminals) ∧
      ReachClosed g (fun x => x ∈ findReachableNonterminals g) ∧
      (∀ S : Symbol → Prop, ReachClosed g S → ∀ x ∈ findReachableNonterminals g, S x) ∧
      ∀ extra, untilStable (findReachableNonterminals.pass g)
        (g.nonterminals.length + 1 + extra) [g.startSymbol] = findReachableNonterminals g :=
  ⟨findReachableNonterminals_mem hg,
    fun x hx => (findReachableNonterminals_sound hg x hx).mem_nonterminals hg,
    reachClosed_findReachableNonterminals g,
    fun _ hS x hx => hS.of_reachable (findReachableNonterminals_sound hg x hx),
    fun extra => untilStable_more _ _ _
      (findReachableNonterminals.pass_of_reachClosed (findReachableNonterminals_closed g).2) extra⟩

theorem findReachableNonterminals_least_witness :
    WellFormed exampleReachable ∧
      findReachableNonterminals exampleReachable = [69, 67, 66, 65, 83] ∧
      ((∀ x, x ∈ findReachableNonterminals exampleReachable ↔ Reachable exampleReachable x) ∧
        (∀ x ∈ findReachableNonterminals exampleReachable,
          x ∈ exampleReachable.nonterminals) ∧
        ReachClosed exampleReachable (fun x => x ∈ findReachableNonterminals exampleReachable) ∧
        (∀ S : Symbol → Prop, ReachClosed exampleReachable S →
          ∀ x ∈ findReachableNonterminals exampleReachable, S x) ∧
        ∀ extra, untilStable (findReachableNonterminals.pass exampleReachable)
          (exampleReachable.nonterminals.length + 1 + extra) [exampleReachable.startSymbol] =
            findReachableNonterminals exampleReachable) :=
  ⟨@wellFormed_of_new [97, 98] [83, 65, 66, 67, 68, 69, 70] 83 exampleReachable.rules
      exampleReachable (by rfl),
    by rfl,
    findReachableNonterminals_least
      (@wellFormed_of_new [97, 98] [83, 65, 66, 67, 68, 69, 70] 83 exampleReachable.rules
        exampleReachable (by rfl))⟩

/-! ## The rules after `removeNonReachableRules` -/

theorem removeNonReachableRules_rules_eq (g : Grammar) :
    (removeNonReachableRules g).rules =
      g.rules.filter (keepsRule g (findReachableNonterminals g)) :=
  removeRulesOutside_filter g (findReachableNonterminals g)

/-- A symbol reachable in `g` is reachable with the rules that `removeNonReachableRules`
keeps. -/
theorem Reachable.of_removeNonReachableRules {g : Grammar} (hg : WellFormed g) {x : Symbol}
    (h : Reachable g x) : Reachable (removeNonReachableRules g) x := by
  induction h with
  | refl => exact Relation.ReflTransGen.refl
  | @tail b c hab hstep ih =>
    obtain ⟨rhs, hr, hx, hxn⟩ := hstep
    have hb : b ∈ findReachableNonterminals g := (findReachableNonterminals_mem hg b).2 hab
    refine Relation.ReflTransGen.tail ih ⟨rhs, ?_, hx, hxn⟩
    rw [removeNonReachableRules_rules_eq, List.mem_filter, keepsRule_iff]
    exact ⟨hr, hb, (reachClosed_findReachableNonterminals g).2 b rhs hr hb⟩

/-- C28: on a valid context-free grammar `g`, `removeNonReachableRules` changes the rules
only. The rules of the result are the rules of `g`, in their order, whose lhs symbol and
rhs nonterminals are all in the set of `findReachableNonterminals`, whose members are
exactly the symbols reachable from the start symbol: a rule belongs to the result if and
only if it is a rule of `g` whose lhs symbol and rhs nonterminals are reachable. Afterwards
every nonterminal on either side of a rule is reachable, in `g` and in the result. -/
theorem removeNonReachableRules_filter {g : Grammar} (hg : WellFormed g) :
    (removeNonReachableRules g).terminals = g.terminals ∧
      (removeNonReachableRules g).nonterminals = g.nonterminals ∧
      (removeNonReachableRules g).startSymbol = g.startSymbol ∧
      (removeNonReachableRules g).rules =
        g.rules.filter (keepsRule g (findReachableNonterminals g)) ∧
      (∀ x, x ∈ findReachableNonterminals g ↔ Reachable g x) ∧
      (∀ r, r ∈ (removeNonReachableRules g).rules ↔ r ∈ g.rules ∧
        Reachable g (r.lhs.at 0) ∧ ∀ x ∈ r.rhs, x ∈ g.nonterminals → Reachable g x) ∧
      ∀ r ∈ (removeNonReachableRules g).rules, ∀ x, x ∈ r.lhs ∨ x ∈ r.rhs →
        x ∈ (removeNonReachableRules g).nonterminals →
          Reachable g x ∧ Reachable (removeNonReachableRules g) x := by
  have hmem := findReachableNonterminals_mem hg
  have hiff : ∀ r, r ∈ (removeNonReachableRules g).rules ↔ r ∈ g.rules ∧
      Reachable g (r.lhs.at 0) ∧ ∀ x ∈ r.rhs, x ∈ g.nonterminals → Reachable g x := by
    intro r
    rw [removeNonReachableRules_rules_eq, List.mem_filter, keepsRule_iff]
    constructor
    · rintro ⟨hr, h1, h2⟩
      exact ⟨hr, (hmem _).1 h1, fun x hx hxn => (hmem x).1 (h2 x hx hxn)⟩
    · rintro ⟨hr, h1, h2⟩
      exact ⟨hr, (hmem _).2 h1, fun x hx hxn => (hmem x).2 (h2 x hx hxn)⟩
  refine ⟨rfl, rfl, rfl, removeNonReachableRules_rules_eq g, hmem, hiff, ?_⟩
  intro r hr x hx hxn
  obtain ⟨hr0, h1, h2⟩ := (hiff r).1 hr
  have hgx : Reachable g x := by
    rcases hx with hx | hx
    · rw [(hg.lhs_eq hr0).1] at hx
      rw [List.mem_singleton.1 hx]
      exact h1
    · exact h2 x hx hxn
  exact ⟨hgx, hgx.of_removeNonReachableRules hg⟩

theorem removeNonReachableRules_filter_witness :
    WellFormed exampleReachable ∧
      removeNonReachableRules exampleReachable =
        ⟨[97, 98], [83, 65, 66, 67, 68, 69, 70], 83,
          [⟨[83], [65]⟩, ⟨[65], [66, 67]⟩, ⟨[66], [97]⟩, ⟨[67], [98]⟩, ⟨[67], [69, 65]⟩], 98⟩ ∧
      ((removeNonReachableRules exampleReachable).terminals = exampleReachable.terminals ∧
        (removeNonReachableRules exampleReachable).nonterminals =
          exampleReachable.nonterminals ∧
        (removeNonReachableRules exampleReachable).startSymbol =
          exampleReachable.startSymbol ∧
        (removeNonReachableRules exampleReachable).rules =
          exampleReachable.rules.filter
            (keepsRule exampleReachable (findReachableNonterminals exampleReachable)) ∧
        (∀ x, x ∈ findReachableNonterminals exampleReachable ↔
          Reachable exampleReachable x) ∧
        (∀ r, r ∈ (removeNonReachableRules exampleReachable).rules ↔
          r ∈ exampleReachable.rules ∧ Reachable exampleReachable (r.lhs.at 0) ∧
          ∀ x ∈ r.rhs, x ∈ exampleReachable.nonterminals → Reachable exampleReachable x) ∧
        ∀ r ∈ (removeNonReachableRules exampleReachable).rules, ∀ x,
          x ∈ r.lhs ∨ x ∈ r.rhs →
          x ∈ (removeNonReachableRules exampleReachable).nonterminals →
            Reachable exampleReachable x ∧
              Reachable (removeNonReachableRules exampleReachable) x) :=
  ⟨@wellFormed_of_new [97, 98] [83, 65, 66, 67, 68, 69, 70] 83 exampleReachable.rules
      exampleReachable (by rfl),
    by rfl,
    removeNonReachableRules_filter
      (@wellFormed_of_new [97, 98] [83, 65, 66, 67, 68, 69, 70] 83 exampleReachable.rules
        exampleReachable (by rfl))⟩

/-! ## The shape of the rules after `normalized` -/

/-- The rules of a grammar of Chomsky shape: the lhs is one nonterminal, and the rhs is one
terminal, or two nonterminals, or empty with the start symbol as lhs. -/
theorem ChomskyShape.rule_shape {g : Grammar} (hg : ChomskyShape g) {r : Rule}
    (hr : r ∈ g.rules) :
    (∃ a ∈ g.nonterminals, r.lhs = [a]) ∧
      ((∃ t ∈ g.terminals, r.rhs = [t]) ∨
        (∃ b ∈ g.nonterminals, ∃ c ∈ g.nonterminals, r.rhs = [b, c]) ∨
        (r.rhs = [] ∧ r.lhs = [g.startSymbol])) := by
  refine ⟨hg.wellFormed.rule_lhs r hr, ?_⟩
  have hshort := hg.short r hr
  by_cases h0 : r.rhs = []
  · exact Or.inr (Or.inr ⟨h0, (hg.epsilonFree r hr h0).1⟩)
  · have hpos : 0 < r.rhs.length := List.length_pos.2 h0
    by_cases h1 : r.rhs.length = 1
    · left
      have hrhs := one_of_length_eq h1
      have hmem : r.rhs.at 0 ∈ r.rhs := Word.at_mem (by omega)
      rcases hg.wellFormed.rule_rhs r hr _ hmem with ht | hn
      · exact ⟨_, ht, hrhs⟩
      · exact absurd ⟨h1, hn⟩ (hg.noUnit r hr)
    · right; left
      have h2 : r.rhs.length = 2 := by omega
      obtain ⟨hb, hc⟩ := hg.pairs r hr h2
      exact ⟨_, hb, _, hc, two_of_length_ge (by omega) (by omega)⟩

/-- C30: let `normalized()` succeed on a valid context-free grammar `g` with result `g1`
(nothing is assumed of `isNormalized()` on `g1`). Every rule of `g1` has one nonterminal as
its lhs, and its rhs is one terminal, or two members of the nonterminals, or empty with the
start symbol as lhs. The constructor of `CYK` stores `g1`, and for every word the table is
initialised and computed without a failed lookup; the initial table and the computed table
hold a cell for every rhs symbol of every rule of length 2 at all positions of the word. -/
theorem normalized_rule_shape {g g1 : Grammar} (hg : WellFormed g)
    (h : normalized g = Except.ok g1) :
    (∀ r ∈ g1.rules,
      (∃ a ∈ g1.nonterminals, r.lhs = [a]) ∧
        ((∃ t ∈ g1.terminals, r.rhs = [t]) ∨
          (∃ b ∈ g1.nonterminals, ∃ c ∈ g1.nonterminals, r.rhs = [b, c]) ∨
          (r.rhs = [] ∧ r.lhs = [g1.startSymbol]))) ∧
      CYK.new g = Except.ok ⟨g1⟩ ∧
      ∀ w : Word, ∃ t0 t,
        CYK.initTable ⟨g1⟩ w (CYK.findDirectChildren ⟨g1⟩).1 = some t0 ∧
        CYK.calculateTableValues ⟨g1⟩ w = some t ∧
        ∀ r ∈ g1.rules, r.rhs.length = 2 → ∀ x ∈ r.rhs, ∀ i j, i < w.length → j < w.length →
          (∃ b, CYK.Table.read t0 x i j = some b) ∧ (∃ b, CYK.Table.read t x i j = some b) := by
  obtain ⟨hshape, -⟩ := normalize_spec hg h
  refine ⟨fun r hr => hshape.rule_shape hr, ?_, ?_⟩
  · exact (CYK.new_ok_iff_normalized g ⟨g1⟩).2 h
  · intro w
    obtain ⟨t0, ht0, halloc0, -⟩ := initTable_spec ⟨g1⟩ hshape.wellFormed w
    obtain ⟨t, ht, halloc, -⟩ := calculateTableValues_spec ⟨g1⟩ hshape.wellFormed
      hshape.pairs w
    refine ⟨t0, t, ht0, ht, ?_⟩
    intro r hr hlen x hx i j hi hj
    have hxn : x ∈ g1.nonterminals := by
      obtain ⟨hb, hc⟩ := hshape.pairs r hr hlen
      rw [two_of_length_ge (w := r.rhs) (by omega) (by omega)] at hx
      simp only [List.mem_cons, List.mem_singleton, List.not_mem_nil, or_false] at hx
      rcases hx with hx | hx
      · rw [hx]; exact hb
      · rw [hx]; exact hc
    exact ⟨halloc0 x hxn i j hi hj, halloc x hxn i j hi hj⟩

theorem normalized_rule_shape_witness :
    WellFormed exampleSquare ∧ normalized exampleSquare = Except.ok exampleSquare ∧
      isNormalized exampleSquare = false ∧
      ((∀ r ∈ exampleSquare.rules,
        (∃ a ∈ exampleSquare.nonterminals, r.lhs = [a]) ∧
          ((∃ t ∈ exampleSquare.terminals, r.rhs = [t]) ∨
            (∃ b ∈ exampleSquare.nonterminals, ∃ c ∈ exampleSquare.nonterminals,
              r.rhs = [b, c]) ∨
            (r.rhs = [] ∧ r.lhs = [exampleSquare.startSymbol]))) ∧
        CYK.new exampleSquare = Except.ok ⟨exampleSquare⟩ ∧
        ∀ w : Word, ∃ t0 t,
          CYK.initTable ⟨exampleSquare⟩ w (CYK.findDirectChildren ⟨exampleSquare⟩).1 =
            some t0 ∧
          CYK.calculateTableValues ⟨exampleSquare⟩ w = some t ∧
          ∀ r ∈ exampleSquare.rules, r.rhs.length = 2 → ∀ x ∈ r.rhs, ∀ i j,
            i < w.length → j < w.length →
            (∃ b, CYK.Table.read t0 x i j = some b) ∧
              (∃ b, CYK.Table.read t x i j = some b)) :=
  ⟨@wellFormed_of_new [97] [83] 83 exampleSquare.rules exampleSquare (by rfl), by rfl, by rfl,
    normalized_rule_shape
      (@wellFormed_of_new [97] [83] 83 exampleSquare.rules exampleSquare (by rfl)) (by rfl)⟩

/-! ## The rules that `removeMixedRules` builds -/

theorem hasTerminalInPair_iff (ts : Alphabet) (r : Rule) :
    hasTerminalInPair ts r = true ↔
      r.rhs.length = 2 ∧ (r.rhs.at 0 ∈ ts ∨ r.rhs.at 1 ∈ ts) := by
  simp [hasTerminalInPair]

theorem filter_pair_singleton_pos {ts : Alphabet} {r : Rule}
    (h : hasTerminalInPair ts r = true) :
    [r].filter (fun r => !hasTerminalInPair ts r) = [] ∧
      [r].filter (hasTerminalInPair ts) = [r] := by
  simp [List.filter, h]

theorem filter_pair_singleton_neg {ts : Alphabet} {r : Rule}
    (h : hasTerminalInPair ts r = false) :
    [r].filter (fun r => !hasTerminalInPair ts r) = [r] ∧
      [r].filter (hasTerminalInPair ts) = [] := by
  simp [List.filter, h]

theorem terminalCount_pair (ts : Alphabet) {r : Rule} (hlen : r.rhs.length = 2) :
    terminalCount ts r =
      (if r.rhs.at 0 ∈ ts then 1 else 0) + (if r.rhs.at 1 ∈ ts then 1 else 0) := by
  obtain ⟨l, rhs⟩ := r
  match rhs, hlen with
  | [b, c], _ =>
    simp only [terminalCount, Word.at_cons_zero, Word.at_cons_succ, List.countP_cons,
      List.countP_nil, decide_eq_true_eq, zero_add]
    exact Nat.add_comm _ _

theorem terminalTotal_append (ts : Alphabet) (l1 l2 : List Rule) :
    terminalTotal ts (l1 ++ l2) = terminalTotal ts l1 + terminalTotal ts l2 := by
  simp [terminalTotal]

theorem terminalTotal_reverse (ts : Alphabet) (l : List Rule) :
    terminalTotal ts l.reverse = terminalTotal ts l := by
  simp [terminalTotal, List.sum_reverse]

theorem terminalTotal_singleton (ts : Alphabet) (r : Rule) :
    terminalTotal ts [r] = terminalCount ts r := by
  simp [terminalTotal]

/-- Minting a symbol keeps the terminals apart from the nonterminals and below the
counter. -/
theorem disjoint_mint {ts nts : Alphabet} {m : Symbol}
    (h : ∀ x ∈ ts, x ∉ nts ∧ x ≤ m) : ∀ x ∈ ts, x ∉ nts.insert (m + 1) ∧ x ≤ m + 1 := by
  intro x hx
  obtain ⟨h1, h2⟩ := h x hx
  refine ⟨?_, by linarith⟩
  intro hmem
  rcases List.mem_insert_iff.1 hmem with h3 | h3
  · linarith
  · exact h1 h3

/-- The rules and the symbol counter after the loop of `removeMixedRules` has gone through
the rules `pre`: the rules of `pre` without a terminal in an rhs of two symbols, then the
rules that it had already passed, then the replacements of the other rules of `pre`, the
last rule first. -/
theorem removeMixedRules_loop_rules :
    ∀ (i : Nat) (g g' : Grammar) (pre post : List Rule),
      g.rules = pre ++ post → pre.length = i →
      (∀ r ∈ pre, r.rhs.length ≤ 2 ∧ ∀ x ∈ r.rhs, x ∈ g.terminals ∨ x ∈ g.nonterminals) →
      (∀ x ∈ g.terminals, x ∉ g.nonterminals ∧ x ≤ g.maxSymbol) →
      removeMixedRules.loop i g = Except.ok g' →
      g'.rules = pre.filter (fun r => !hasTerminalInPair g.terminals r) ++ post ++
          unmixFrom g.terminals (pre.filter (hasTerminalInPair g.terminals)).reverse
            (g.maxSymbol + 1) ∧
        g'.maxSymbol = g.maxSymbol +
          (terminalTotal g.terminals (pre.filter (hasTerminalInPair g.terminals)) : Int) := by
  intro i
  induction i with
  | zero =>
    intro g g' pre post hrules hpre _ _ hloop
    simp only [removeMixedRules.loop, pure, Except.pure, Except.ok.injEq] at hloop
    subst hloop
    have : pre = [] := List.length_eq_zero.1 hpre
    subst this
    simp only [List.nil_append] at hrules
    simp [hrules, unmixFrom, terminalTotal]
  | succ i ih =>
    intro g g' pre post hrules hpre hvalid hdisj hloop
    obtain ⟨pre1, r, hpre1, hlen1⟩ := exists_concat_of_length_succ hpre
    have hrules' : g.rules = pre1 ++ r :: post := by rw [hrules, hpre1]; simp
    have hget : g.rules.getD i default = r := by
      rw [hrules', ← hlen1]; exact getD_append_length pre1 post r default
    have hr_pre : r ∈ pre := by rw [hpre1]; simp
    obtain ⟨hshort, hsym⟩ := hvalid r hr_pre
    have hvalid1 : ∀ r ∈ pre1, r.rhs.length ≤ 2 ∧
        ∀ x ∈ r.rhs, x ∈ g.terminals ∨ x ∈ g.nonterminals := by
      intro r1 hr1
      exact hvalid r1 (by rw [hpre1]; exact List.mem_append_left _ hr1)
    have hvalid2 : ∀ r ∈ pre1, r.rhs.length ≤ 2 ∧
        ∀ x ∈ r.rhs, x ∈ g.terminals ∨ x ∈ g.nonterminals.insert (g.maxSymbol + 1) := by
      intro r1 hr1
      obtain ⟨h1, h2⟩ := hvalid1 r1 hr1
      refine ⟨h1, fun x hx => ?_⟩
      rcases h2 x hx with h | h
      · exact Or.inl h
      · exact Or.inr (List.mem_insert_of_mem h)
    rw [removeMixedRules.loop] at hloop
    simp only [hget] at hloop
    by_cases hskip : r.rhs.length < 2 ∨ (g.symbolIsNonterminal (r.rhs.at 0) = true ∧
        g.symbolIsNonterminal (r.rhs.at 1) = true)
    · simp only [hskip, if_true] at hloop
      have hpair : hasTerminalInPair g.terminals r = false := by
        rw [Bool.eq_false_iff]
        intro h
        obtain ⟨hl, ht⟩ := (hasTerminalInPair_iff _ _).1 h
        rcases hskip with hs | ⟨h0, h1⟩
        · omega
        · rcases ht with ht | ht
          · exact (hdisj _ ht).1 ((symbolIsNonterminal_eq_true g _).1 h0)
          · exact (hdisj _ ht).1 ((symbolIsNonterminal_eq_true g _).1 h1)
      obtain ⟨c1, c2⟩ := ih g g' pre1 (r :: post) hrules' hlen1 hvalid1 hdisj hloop
      obtain ⟨f1, f2⟩ := filter_pair_singleton_neg hpair
      rw [hpre1, List.filter_append, List.filter_append, f1, f2, List.append_nil]
      refine ⟨?_, c2⟩
      rw [c1]
      simp
    · simp only [hskip, if_false] at hloop
      push_neg at hskip
      obtain ⟨hlen2, hnotNN⟩ := hskip
      have hlen : r.rhs.length = 2 := le_antisymm hshort hlen2
      have hb := hsym (r.rhs.at 0) (Word.at_mem (by omega))
      have hc := hsym (r.rhs.at 1) (Word.at_mem (by omega))
      have hpair : hasTerminalInPair g.terminals r = true := by
        rw [hasTerminalInPair_iff]
        refine ⟨hlen, ?_⟩
        by_contra hcon
        push_neg at hcon
        have h0 : r.rhs.at 0 ∈ g.nonterminals := hb.resolve_left hcon.1
        have h1 : r.rhs.at 1 ∈ g.nonterminals := hc.resolve_left hcon.2
        exact absurd ((symbolIsNonterminal_eq_true g _).2 h1)
          (hnotNN ((symbolIsNonterminal_eq_true g _).2 h0))
      obtain ⟨f1, f2⟩ := filter_pair_singleton_pos hpair
      have hcount := terminalCount_pair g.terminals hlen
      by_cases hm : g.maxSymbol = Symbol.maxValue
      · exfalso
        simp only [addNewNonterminal_eq, hm, if_true, bind, Except.bind] at hloop
        split at hloop
        · simp at hloop
        · split at hloop
          · simp at hloop
          · simp at hloop
      · have hmint : g.addNewNonterminal = Except.ok (g.maxSymbol + 1,
            ⟨g.terminals, g.nonterminals.insert (g.maxSymbol + 1), g.startSymbol, g.rules,
              g.maxSymbol + 1⟩) := by
          rw [addNewNonterminal_eq]; simp [hm]
        by_cases hNT : g.symbolIsNonterminal (r.rhs.at 0) = true ∧
            g.symbolIsTerminal (r.rhs.at 1) = true
        · -- nonterminal, terminal
          simp only [hNT, and_self, if_true, hmint, bind, Except.bind] at hloop
          have hb' := (symbolIsNonterminal_eq_true g _).1 hNT.1
          have hc' := (symbolIsTerminal_eq_true g _).1 hNT.2
          have hb0 : r.rhs.at 0 ∉ g.terminals := fun h => (hdisj _ h).1 hb'
          have hr5 : (g.rules ++ [(⟨r.lhs, [r.rhs.at 0, g.maxSymbol + 1]⟩ : Rule)] ++
              [(⟨[g.maxSymbol + 1], [r.rhs.at 1]⟩ : Rule)]).eraseIdx i =
                pre1 ++ (post ++ [⟨r.lhs, [r.rhs.at 0, g.maxSymbol + 1]⟩,
                  ⟨[g.maxSymbol + 1], [r.rhs.at 1]⟩]) := by
            rw [hrules', ← hlen1]
            simp only [List.append_assoc, List.cons_append, List.nil_append,
              List.singleton_append, List.append_nil]
            exact eraseIdx_append_length pre1 _ r
          have hloop' : removeMixedRules.loop i ⟨g.terminals,
              g.nonterminals.insert (g.maxSymbol + 1), g.startSymbol,
              pre1 ++ (post ++ [⟨r.lhs, [r.rhs.at 0, g.maxSymbol + 1]⟩,
                ⟨[g.maxSymbol + 1], [r.rhs.at 1]⟩]), g.maxSymbol + 1⟩ = Except.ok g' := by
            rw [← hr5]
            simpa [pushRule, Word.at_cons_zero, Word.at_cons_succ] using hloop
          obtain ⟨c1, c2⟩ := ih _ g' pre1 _ rfl hlen1 hvalid2 (disjoint_mint hdisj) hloop'
          simp only at c1 c2
          have hof : unmixOf g.terminals r (g.maxSymbol + 1) =
              [⟨r.lhs, [r.rhs.at 0, g.maxSymbol + 1]⟩, ⟨[g.maxSymbol + 1], [r.rhs.at 1]⟩] := by
            simp [unmixOf, hb0]
          have hcnt : terminalCount g.terminals r = 1 := by
            rw [hcount]; simp [hb0, hc']
          rw [hpre1, List.filter_append, List.filter_append, f1, f2, List.append_nil,
            List.reverse_append, List.reverse_singleton, List.singleton_append, unmixFrom,
            terminalTotal_append, terminalTotal_singleton, hof, hcnt]
          constructor
          · rw [c1]
            simp only [List.append_assoc, Nat.cast_one]
          · rw [c2]
            push_cast
            ring
        · simp only [hNT, if_false] at hloop
          by_cases hTN : g.symbolIsTerminal (r.rhs.at 0) = true ∧
              g.symbolIsNonterminal (r.rhs.at 1) = true
          · -- terminal, nonterminal
            simp only [hTN, and_self, if_true, hmint, bind, Except.bind] at hloop
            have hb' := (symbolIsTerminal_eq_true g _).1 hTN.1
            have hc' := (symbolIsNonterminal_eq_true g _).1 hTN.2
            have hc0 : r.rhs.at 1 ∉ g.terminals := fun h => (hdisj _ h).1 hc'
            have hr5 : (g.rules ++ [(⟨r.lhs, [g.maxSymbol + 1, r.rhs.at 1]⟩ : Rule)] ++
                [(⟨[g.maxSymbol + 1], [r.rhs.at 0]⟩ : Rule)]).eraseIdx i =
                  pre1 ++ (post ++ [⟨r.lhs, [g.maxSymbol + 1, r.rhs.at 1]⟩,
                    ⟨[g.maxSymbol + 1], [r.rhs.at 0]⟩]) := by
              rw [hrules', ← hlen1]
              simp only [List.append_assoc, List.cons_append, List.nil_append,
                List.singleton_append, List.append_nil]
              exact eraseIdx_append_length pre1 _ r
            have hloop' : removeMixedRules.loop i ⟨g.terminals,
                g.nonterminals.insert (g.maxSymbol + 1), g.startSymbol,
                pre1 ++ (post ++ [⟨r.lhs, [g.maxSymbol + 1, r.rhs.at 1]⟩,
                  ⟨[g.maxSymbol + 1], [r.rhs.at 0]⟩]), g.maxSymbol + 1⟩ = Except.ok g' := by
              rw [← hr5]
              simpa [pushRule, Word.at_cons_zero, Word.at_cons_succ] using hloop
            obtain ⟨c1, c2⟩ := ih _ g' pre1 _ rfl hlen1 hvalid2 (disjoint_mint hdisj) hloop'
            simp only at c1 c2
            have hof : unmixOf g.terminals r (g.maxSymbol + 1) =
                [⟨r.lhs, [g.maxSymbol + 1, r.rhs.at 1]⟩,
                  ⟨[g.maxSymbol + 1], [r.rhs.at 0]⟩] := by
              simp [unmixOf, hb', hc0]
            have hcnt : terminalCount g.terminals r = 1 := by
              rw [hcount]; simp [hb', hc0]
            rw [hpre1, List.filter_append, List.filter_append, f1, f2, List.append_nil,
              List.reverse_append, List.reverse_singleton, List.singleton_append, unmixFrom,
              terminalTotal_append, terminalTotal_singleton, hof, hcnt]
            constructor
            · rw [c1]
              simp only [List.append_assoc, Nat.cast_one]
            · rw [c2]
              push_cast
              ring
          · -- terminal, terminal
            simp only [hTN, if_false, hmint, bind, Except.bind] at hloop
            have hb' : r.rhs.at 0 ∈ g.terminals := by
              rcases hb with h | h
              · exact h
              · exfalso
                have h1 := (symbolIsNonterminal_eq_true g _).2 h
                rcases hc with h' | h'
                · exact hNT ⟨h1, (symbolIsTerminal_eq_true g _).2 h'⟩
                · exact absurd ((symbolIsNonterminal_eq_true g _).2 h') (hnotNN h1)
            have hc' : r.rhs.at 1 ∈ g.terminals := by
              rcases hc with h | h
              · exact h
              · exfalso
                exact hTN ⟨(symbolIsTerminal_eq_true g _).2 hb',
                  (symbolIsNonterminal_eq_true g _).2 h⟩
            have hm2 : ¬ (g.maxSymbol + 1 = Symbol.maxValue) ∨
                g.maxSymbol + 1 = Symbol.maxValue := by tauto
            rcases hm2 with hm2 | hm2
            · have hmint2 : Grammar.addNewNonterminal ⟨g.terminals,
                  g.nonterminals.insert (g.maxSymbol + 1), g.startSymbol, g.rules,
                  g.maxSymbol + 1⟩ = Except.ok (g.maxSymbol + 1 + 1,
                    ⟨g.terminals, (g.nonterminals.insert (g.maxSymbol + 1)).insert
                      (g.maxSymbol + 1 + 1), g.startSymbol, g.rules, g.maxSymbol + 1 + 1⟩) := by
                rw [addNewNonterminal_eq]; simp [hm2]
              simp only [hmint2] at hloop
              have hr5 : (g.rules ++ [(⟨[g.maxSymbol + 1], [r.rhs.at 0]⟩ : Rule)] ++
                  [(⟨[g.maxSymbol + 1 + 1], [r.rhs.at 1]⟩ : Rule)] ++
                  [(⟨r.lhs, [g.maxSymbol + 1, g.maxSymbol + 1 + 1]⟩ : Rule)]).eraseIdx i =
                    pre1 ++ (post ++ [⟨[g.maxSymbol + 1], [r.rhs.at 0]⟩,
                      ⟨[g.maxSymbol + 1 + 1], [r.rhs.at 1]⟩,
                      ⟨r.lhs, [g.maxSymbol + 1, g.maxSymbol + 1 + 1]⟩]) := by
                rw [hrules', ← hlen1]
                simp only [List.append_assoc, List.cons_append, List.nil_append,
                  List.singleton_append, List.append_nil]
                exact eraseIdx_append_length pre1 _ r
              have hloop' : removeMixedRules.loop i ⟨g.terminals,
                  (g.nonterminals.insert (g.maxSymbol + 1)).insert (g.maxSymbol + 1 + 1),
                  g.startSymbol,
                  pre1 ++ (post ++ [⟨[g.maxSymbol + 1], [r.rhs.at 0]⟩,
                    ⟨[g.maxSymbol + 1 + 1], [r.rhs.at 1]⟩,
                    ⟨r.lhs, [g.maxSymbol + 1, g.maxSymbol + 1 + 1]⟩]),
                  g.maxSymbol + 1 + 1⟩ = Except.ok g' := by
                rw [← hr5]
                simpa [pushRule, Word.at_cons_zero, Word.at_cons_succ] using hloop
              have hvalid3 : ∀ r ∈ pre1, r.rhs.length ≤ 2 ∧
                  ∀ x ∈ r.rhs, x ∈ g.terminals ∨
                    x ∈ (g.nonterminals.insert (g.maxSymbol + 1)).insert
                      (g.maxSymbol + 1 + 1) := by
                intro r1 hr1
                obtain ⟨h1, h2⟩ := hvalid2 r1 hr1
                refine ⟨h1, fun x hx => ?_⟩
                rcases h2 x hx with h | h
                · exact Or.inl h
                · exact Or.inr (List.mem_insert_of_mem h)
              obtain ⟨c1, c2⟩ := ih _ g' pre1 _ rfl hlen1 hvalid3
                (disjoint_mint (disjoint_mint hdisj)) hloop'
              simp only at c1 c2
              have hof : unmixOf g.terminals r (g.maxSymbol + 1) =
                  [⟨[g.maxSymbol + 1], [r.rhs.at 0]⟩, ⟨[g.maxSymbol + 1 + 1], [r.rhs.at 1]⟩,
                    ⟨r.lhs, [g.maxSymbol + 1, g.maxSymbol + 1 + 1]⟩] := by
                simp [unmixOf, hb', hc']
              have hcnt : terminalCount g.terminals r = 2 := by
                rw [hcount]; simp [hb', hc']
              rw [hpre1, List.filter_append, List.filter_append, f1, f2, List.append_nil,
                List.reverse_append, List.reverse_singleton, List.singleton_append, unmixFrom,
                terminalTotal_append, terminalTotal_singleton, hof, hcnt]
              constructor
              · rw [c1]
                have : g.maxSymbol + 1 + 1 + 1 = g.maxSymbol + 1 + ((2 : Nat) : Int) := by
                  push_cast
                  ring
                rw [this]
                simp only [List.append_assoc]
              · rw [c2]
                push_cast
                ring
            · exfalso
              simp [addNewNonterminal_eq, hm2] at hloop

/-- The rules and the symbol counter after `removeMixedRules` on a valid grammar. -/
theorem removeMixedRules_eq_unmix {g g' : Grammar} (hg : WellFormed g)
    (hshort : ∀ r ∈ g.rules, r.rhs.length ≤ 2) (h : removeMixedRules g = Except.ok g') :
    g'.rules = g.rules.filter (fun r => !hasTerminalInPair g.terminals r) ++
        unmixFrom g.terminals (g.rules.filter (hasTerminalInPair g.terminals)).reverse
          (g.maxSymbol + 1) ∧
      g'.maxSymbol = g.maxSymbol +
        (terminalTotal g.terminals (g.rules.filter (hasTerminalInPair g.terminals)) : Int) := by
  have hlong : hasLongRules g = false := (hasLongRules_false_iff g).2 hshort
  unfold removeMixedRules at h
  simp only [hlong, Bool.false_eq_true, if_false] at h
  have := removeMixedRules_loop_rules g.rules.length g g' g.rules [] (by simp) rfl
    (fun r hr => ⟨hshort r hr, hg.rule_rhs r hr⟩)
    (fun x hx => ⟨hg.disjoint x hx, hg.le_max x (Or.inl hx)⟩) h
  simpa using this

/-! ## The symbols that `removeMixedRules` mints -/

/-- A symbol outside the range of the new symbols of `unmixOf ts r n`, and above the old
symbols, is the lhs of none of its rules and occurs in none of its rhs. -/
theorem unmixOf_out {ts : Alphabet} {r : Rule} {a m n x : Symbol} (hlhs : r.lhs = [a])
    (ha : a ≤ m) (hb : r.rhs.at 0 ≤ m) (hc : r.rhs.at 1 ≤ m)
    (hpair : hasTerminalInPair ts r = true) (hmx : m < x)
    (hx : ¬ (n ≤ x ∧ x < n + (terminalCount ts r : Int))) :
    (unmixOf ts r n).filter (fun r1 => decide (r1.lhs = [x])) = [] ∧
      ((unmixOf ts r n).flatMap (fun r1 => r1.rhs)).count x = 0 := by
  obtain ⟨hlen, hT⟩ := (hasTerminalInPair_iff ts r).1 hpair
  rw [terminalCount_pair ts hlen] at hx
  have hax : ¬ a = x := fun h => by rw [h] at ha; linarith
  have hbx : ¬ r.rhs.at 0 = x := fun h => by rw [h] at hb; linarith
  have hcx : ¬ r.rhs.at 1 = x := fun h => by rw [h] at hc; linarith
  by_cases h0 : r.rhs.at 0 ∈ ts
  · by_cases h1 : r.rhs.at 1 ∈ ts
    · simp only [h0, h1, if_true, Nat.reduceAdd, Nat.cast_ofNat] at hx
      have hnx : ¬ n = x := fun h => hx ⟨by rw [h], by rw [h]; linarith⟩
      have hnx1 : ¬ n + 1 = x := fun h => hx ⟨by rw [← h]; linarith, by rw [← h]; linarith⟩
      simp [unmixOf, h0, h1, hlhs, hax, hbx, hcx, hnx, hnx1, List.filter_cons,
        List.count_cons]
    · simp only [h0, h1, if_true, if_false, Nat.add_zero, Nat.cast_one] at hx
      have hnx : ¬ n = x := fun h => hx ⟨by rw [h], by rw [h]; linarith⟩
      simp [unmixOf, h0, h1, hlhs, hax, hbx, hcx, hnx, List.filter_cons, List.count_cons]
  · have h1 : r.rhs.at 1 ∈ ts := hT.resolve_left h0
    simp only [h0, h1, if_true, if_false, Nat.zero_add, Nat.cast_one] at hx
    have hnx : ¬ n = x := fun h => hx ⟨by rw [h], by rw [h]; linarith⟩
    simp [unmixOf, h0, hlhs, hax, hbx, hcx, hnx, List.filter_cons, List.count_cons]

/-- A new symbol of `unmixOf ts r n` is the lhs of one of its rules, whose rhs is a
terminal, and occurs once in its rhs. -/
theorem unmixOf_in {ts : Alphabet} {r : Rule} {a m n x : Symbol} (hlhs : r.lhs = [a])
    (ha : a ≤ m) (hb : r.rhs.at 0 ≤ m) (hc : r.rhs.at 1 ≤ m)
    (hpair : hasTerminalInPair ts r = true) (hmn : m < n)
    (hx1 : n ≤ x) (hx2 : x < n + (terminalCount ts r : Int)) :
    (∃ t ∈ ts, (unmixOf ts r n).filter (fun r1 => decide (r1.lhs = [x])) = [⟨[x], [t]⟩]) ∧
      ((unmixOf ts r n).flatMap (fun r1 => r1.rhs)).count x = 1 := by
  obtain ⟨hlen, hT⟩ := (hasTerminalInPair_iff ts r).1 hpair
  rw [terminalCount_pair ts hlen] at hx2
  have han : ¬ a = n := fun h => by rw [h] at ha; linarith
  have hbn : ¬ r.rhs.at 0 = n := fun h => by rw [h] at hb; linarith
  have hcn : ¬ r.rhs.at 1 = n := fun h => by rw [h] at hc; linarith
  have han1 : ¬ a = n + 1 := fun h => by rw [h] at ha; linarith
  have hbn1 : ¬ r.rhs.at 0 = n + 1 := fun h => by rw [h] at hb; linarith
  have hcn1 : ¬ r.rhs.at 1 = n + 1 := fun h => by rw [h] at hc; linarith
  have hn1 : ¬ n + 1 = n := fun h => by linarith
  have hn2 : ¬ n = n + 1 := fun h => by linarith
  by_cases h0 : r.rhs.at 0 ∈ ts
  · by_cases h1 : r.rhs.at 1 ∈ ts
    · simp only [h0, h1, if_true, Nat.reduceAdd, Nat.cast_ofNat] at hx2
      have hcases : x = n ∨ x = n + 1 := by
        rcases lt_or_eq_of_le hx1 with h | h
        · right
          exact le_antisymm (Int.lt_add_one_iff.1 (by linarith)) (Int.add_one_le_of_lt h)
        · exact Or.inl h.symm
      rcases hcases with hx | hx
      · subst hx
        refine ⟨⟨r.rhs.at 0, h0, ?_⟩, ?_⟩
        · simp [unmixOf, h0, h1, hlhs, han, hn1, List.filter_cons]
        · simp [unmixOf, h0, h1, hbn, hcn, hn1, List.count_cons]
      · subst hx
        refine ⟨⟨r.rhs.at 1, h1, ?_⟩, ?_⟩
        · simp [unmixOf, h0, h1, hlhs, han1, hn2, List.filter_cons]
        · simp [unmixOf, h0, h1, hbn1, hcn1, hn2, List.count_cons]
    · simp only [h0, h1, if_true, if_false, Nat.add_zero, Nat.cast_one] at hx2
      have hx : x = n := le_antisymm (Int.lt_add_one_iff.1 hx2) hx1
      subst hx
      refine ⟨⟨r.rhs.at 0, h0, ?_⟩, ?_⟩
      · simp [unmixOf, h0, h1, hlhs, han, List.filter_cons]
      · simp [unmixOf, h0, h1, hbn, hcn, List.count_cons]
  · have h1 : r.rhs.at 1 ∈ ts := hT.resolve_left h0
    simp only [h0, h1, if_true, if_false, Nat.zero_add, Nat.cast_one] at hx2
    have hx : x = n := le_antisymm (Int.lt_add_one_iff.1 hx2) hx1
    subst hx
    refine ⟨⟨r.rhs.at 1, h1, ?_⟩, ?_⟩
    · simp [unmixOf, h0, hlhs, han, List.filter_cons]
    · simp [unmixOf, h0, hbn, hcn, List.count_cons]

/-- The new symbols of `unmixFrom ts l n` are those from `n` on, as many as there are
occurrences of terminals in the rhs of `l`. Each of them is the lhs of one rule, whose rhs
is a terminal, and occurs once in the rhs; the other symbols above the old ones are the lhs
of no rule and occur in no rhs. -/
theorem unmixFrom_minted {ts : Alphabet} {m : Symbol} :
    ∀ (l : List Rule) (n x : Symbol),
      (∀ r ∈ l, (∃ a, r.lhs = [a] ∧ a ≤ m) ∧ r.rhs.at 0 ≤ m ∧ r.rhs.at 1 ≤ m ∧
        hasTerminalInPair ts r = true) →
      m < n → m < x →
      ((n ≤ x ∧ x < n + (terminalTotal ts l : Int)) →
        (∃ t ∈ ts, (unmixFrom ts l n).filter (fun r1 => decide (r1.lhs = [x])) =
          [⟨[x], [t]⟩]) ∧
        ((unmixFrom ts l n).flatMap (fun r1 => r1.rhs)).count x = 1) ∧
      (¬ (n ≤ x ∧ x < n + (terminalTotal ts l : Int)) →
        (unmixFrom ts l n).filter (fun r1 => decide (r1.lhs = [x])) = [] ∧
        ((unmixFrom ts l n).flatMap (fun r1 => r1.rhs)).count x = 0) := by
  intro l
  induction l with
  | nil =>
    intro n x _ _ _
    constructor
    · rintro ⟨h1, h2⟩
      simp only [terminalTotal, List.map_nil, List.sum_nil, Nat.cast_zero, add_zero] at h2
      linarith
    · intro _
      simp [unmixFrom]
  | cons r rest ih =>
    intro n x hall hmn hmx
    obtain ⟨⟨a, hlhs, ha⟩, hb, hc, hpair⟩ := hall r (List.mem_cons_self r rest)
    have hrest := fun r1 hr1 => hall r1 (List.mem_cons_of_mem r hr1)
    have hcnt0 : (0 : Int) ≤ (terminalCount ts r : Int) := Int.ofNat_nonneg _
    have htot0 : (0 : Int) ≤ (terminalTotal ts rest : Int) := Int.ofNat_nonneg _
    have htotal : (terminalTotal ts (r :: rest) : Int) =
        (terminalCount ts r : Int) + (terminalTotal ts rest : Int) := by
      simp [terminalTotal]
    obtain ⟨ihin, ihout⟩ := ih (n + (terminalCount ts r : Int)) x hrest (by linarith) hmx
    rw [htotal, unmixFrom]
    simp only [List.filter_append, List.flatMap_append, List.count_append]
    constructor
    · rintro ⟨h1, h2⟩
      by_cases hsplit : x < n + (terminalCount ts r : Int)
      · obtain ⟨⟨t, ht, e1⟩, e2⟩ := unmixOf_in hlhs ha hb hc hpair hmn h1 hsplit
        obtain ⟨e3, e4⟩ := ihout (fun hcon => by linarith [hcon.1])
        refine ⟨⟨t, ht, ?_⟩, ?_⟩
        · rw [e1, e3, List.append_nil]
        · rw [e2, e4]
      · obtain ⟨e1, e2⟩ := unmixOf_out (n := n) hlhs ha hb hc hpair hmx
          (fun hcon => hsplit hcon.2)
        obtain ⟨⟨t, ht, e3⟩, e4⟩ := ihin ⟨by linarith, by linarith⟩
        refine ⟨⟨t, ht, ?_⟩, ?_⟩
        · rw [e1, e3, List.nil_append]
        · rw [e2, e4]
    · intro hout
      obtain ⟨e1, e2⟩ := unmixOf_out (n := n) hlhs ha hb hc hpair hmx
        (fun hcon => hout ⟨hcon.1, by linarith [hcon.2]⟩)
      obtain ⟨e3, e4⟩ := ihout (fun hcon => hout ⟨by linarith [hcon.1], by linarith [hcon.2]⟩)
      rw [e1, e2, e3, e4]
      simp

/-- On the rules of a valid grammar, `hasTerminalInPair` is false exactly on the rules with
an rhs of fewer than two symbols or of two nonterminals. -/
theorem hasTerminalInPair_eq_false_iff {g : Grammar} (hg : WellFormed g)
    (hshort : ∀ r ∈ g.rules, r.rhs.length ≤ 2) {r : Rule} (hr : r ∈ g.rules) :
    hasTerminalInPair g.terminals r = false ↔
      (r.rhs.length < 2 ∨ ∃ b ∈ g.nonterminals, ∃ c ∈ g.nonterminals, r.rhs = [b, c]) := by
  rw [Bool.eq_false_iff, Ne, hasTerminalInPair_iff]
  constructor
  · intro h
    by_cases hlen : r.rhs.length < 2
    · exact Or.inl hlen
    · right
      have hlen2 : r.rhs.length = 2 := le_antisymm (hshort r hr) (by omega)
      have hT : ¬ (r.rhs.at 0 ∈ g.terminals ∨ r.rhs.at 1 ∈ g.terminals) :=
        fun hcon => h ⟨hlen2, hcon⟩
      push_neg at hT
      have hb := (hg.rule_rhs r hr _ (Word.at_mem (w := r.rhs) (i := 0) (by omega))).resolve_left
        hT.1
      have hc := (hg.rule_rhs r hr _ (Word.at_mem (w := r.rhs) (i := 1) (by omega))).resolve_left
        hT.2
      exact ⟨_, hb, _, hc, two_of_length_ge (by omega) (by omega)⟩
  · rintro (hlen | ⟨b, hb, c, hc, hrhs⟩)
    · intro hcon
      omega
    · rintro ⟨-, hT⟩
      rw [hrhs] at hT
      simp only [Word.at_cons_zero, Word.at_cons_succ] at hT
      rcases hT with hT | hT
      · exact hg.disjoint _ hT hb
      · exact hg.disjoint _ hT hc

/-- C29: let `removeMixedRules` succeed on a valid context-free grammar `g` with no long
rule, with result `g1`. Every rule of `g1` with an rhs of two symbols has two nonterminals of
`g1` as rhs. The rules of `g1` are the rules of `g` with an rhs of fewer than two symbols or
of two nonterminals, unchanged and in their order, followed by the replacements `unmixOf` of
the other rules (the last such rule first): in `A → X Y` every terminal among `X`, `Y` is
replaced by a new symbol `N`, and the rule `N → that terminal` is added. As many symbols are
minted as there are occurrences of terminals in these rules. The minted symbols are the
nonterminals that `g1` has in addition; none was a symbol of `g`; each is the lhs of exactly
one rule of `g1`, whose rhs is a terminal, and occurs exactly once in the rhs of the rules of
`g1`. Terminals and start symbol are unchanged. -/
theorem removeMixedRules_unmix {g g1 : Grammar} (hg : WellFormed g)
    (hshort : ∀ r ∈ g.rules, r.rhs.length ≤ 2) (h : removeMixedRules g = Except.ok g1) :
    (∀ r ∈ g1.rules, r.rhs.length = 2 →
      ∃ b ∈ g1.nonterminals, ∃ c ∈ g1.nonterminals, r.rhs = [b, c]) ∧
    g1.rules = g.rules.filter (fun r => !hasTerminalInPair g.terminals r) ++
      unmixFrom g.terminals (g.rules.filter (hasTerminalInPair g.terminals)).reverse
        (g.maxSymbol + 1) ∧
    (∀ r ∈ g.rules, hasTerminalInPair g.terminals r = false ↔
      (r.rhs.length < 2 ∨ ∃ b ∈ g.nonterminals, ∃ c ∈ g.nonterminals, r.rhs = [b, c])) ∧
    g1.maxSymbol = g.maxSymbol +
      (terminalTotal g.terminals (g.rules.filter (hasTerminalInPair g.terminals)) : Int) ∧
    (∀ x, x ∈ g1.nonterminals ↔
      x ∈ g.nonterminals ∨ (g.maxSymbol < x ∧ x ≤ g1.maxSymbol)) ∧
    (∀ x, g.maxSymbol < x → x ≤ g1.maxSymbol →
      x ∉ g.terminals ∧ x ∉ g.nonterminals ∧
      (∃ t ∈ g.terminals,
        g1.rules.filter (fun r => decide (r.lhs = [x])) = [⟨[x], [t]⟩]) ∧
      (g1.rules.flatMap (fun r => r.rhs)).count x = 1) ∧
    g1.terminals = g.terminals ∧ g1.startSymbol = g.startSymbol := by
  obtain ⟨-, hext, -, -, hpairs, -, -⟩ := removeMixedRules_spec hg hshort h
  obtain ⟨hrules, hmax⟩ := removeMixedRules_eq_unmix hg hshort h
  refine ⟨?_, hrules, fun r hr => hasTerminalInPair_eq_false_iff hg hshort hr, hmax,
    hext.mem_nonterminals, ?_, hext.terminals_eq, hext.start_eq⟩
  · intro r hr hlen
    obtain ⟨hb, hc⟩ := hpairs r hr hlen
    exact ⟨_, hb, _, hc, two_of_length_ge (by omega) (by omega)⟩
  · intro x hx1 hx2
    have hall : ∀ r ∈ (g.rules.filter (hasTerminalInPair g.terminals)).reverse,
        (∃ a, r.lhs = [a] ∧ a ≤ g.maxSymbol) ∧ r.rhs.at 0 ≤ g.maxSymbol ∧
          r.rhs.at 1 ≤ g.maxSymbol ∧ hasTerminalInPair g.terminals r = true := by
      intro r hr
      obtain ⟨hr0, hpair⟩ := List.mem_filter.1 (List.mem_reverse.1 hr)
      obtain ⟨hlen, -⟩ := (hasTerminalInPair_iff _ _).1 hpair
      obtain ⟨a, ha, hl⟩ := hg.rule_lhs r hr0
      refine ⟨⟨a, hl, hg.le_max a (Or.inr ha)⟩, ?_, ?_, hpair⟩
      · exact hg.le_max _ (hg.rule_rhs r hr0 _ (Word.at_mem (by omega)))
      · exact hg.le_max _ (hg.rule_rhs r hr0 _ (Word.at_mem (by omega)))
    have hin := (@unmixFrom_minted g.terminals g.maxSymbol _ (g.maxSymbol + 1) x
      hall (by linarith) hx1).1 ⟨Int.add_one_le_of_lt hx1, by
        rw [terminalTotal_reverse]
        linarith⟩
    obtain ⟨⟨t, ht, e1⟩, e2⟩ := hin
    have hkept1 : (g.rules.filter (fun r => !hasTerminalInPair g.terminals r)).filter
        (fun r => decide (r.lhs = [x])) = [] := by
      rw [List.filter_eq_nil_iff]
      intro r hr hdec
      have hr0 := (List.mem_filter.1 hr).1
      obtain ⟨a, ha, hl⟩ := hg.rule_lhs r hr0
      have hlx : r.lhs = [x] := by simpa using hdec
      rw [hl] at hlx
      have hax : a = x := by simpa using hlx
      have := hg.le_max a (Or.inr ha)
      rw [hax] at this
      linarith
    have hkept2 : ((g.rules.filter (fun r => !hasTerminalInPair g.terminals r)).flatMap
        (fun r => r.rhs)).count x = 0 := by
      rw [List.count_eq_zero]
      intro hmem
      obtain ⟨r, hr, hxr⟩ := List.mem_flatMap.1 hmem
      have hr0 := (List.mem_filter.1 hr).1
      have := hg.le_max x (hg.rule_rhs r hr0 x hxr)
      linarith
    refine ⟨?_, ?_, ⟨t, ht, ?_⟩, ?_⟩
    · intro hh
      have := hg.le_max x (Or.inl hh)
      linarith
    · intro hh
      have := hg.le_max x (Or.inr hh)
      linarith
    · rw [hrules, List.filter_append, hkept1, e1, List.nil_append]
    · rw [hrules, List.flatMap_append, List.count_append, hkept2, e2]

theorem removeMixedRules_unmix_witness :
    WellFormed exampleMixed ∧ (∀ r ∈ exampleMixed.rules, r.rhs.length ≤ 2) ∧
      removeMixedRules exampleMixed = Except.ok exampleMixedResult ∧
      ((∀ r ∈ exampleMixedResult.rules, r.rhs.length = 2 →
        ∃ b ∈ exampleMixedResult.nonterminals, ∃ c ∈ exampleMixedResult.nonterminals,
          r.rhs = [b, c]) ∧
      exampleMixedResult.rules =
        exampleMixed.rules.filter (fun r => !hasTerminalInPair exampleMixed.terminals r) ++
        unmixFrom exampleMixed.terminals
          (exampleMixed.rules.filter (hasTerminalInPair exampleMixed.terminals)).reverse
          (exampleMixed.maxSymbol + 1) ∧
      (∀ r ∈ exampleMixed.rules, hasTerminalInPair exampleMixed.terminals r = false ↔
        (r.rhs.length < 2 ∨
          ∃ b ∈ exampleMixed.nonterminals, ∃ c ∈ exampleMixed.nonterminals, r.rhs = [b, c])) ∧
      exampleMixedResult.maxSymbol = exampleMixed.maxSymbol +
        (terminalTotal exampleMixed.terminals
          (exampleMixed.rules.filter (hasTerminalInPair exampleMixed.terminals)) : Int) ∧
      (∀ x, x ∈ exampleMixedResult.nonterminals ↔
        x ∈ exampleMixed.nonterminals ∨
          (exampleMixed.maxSymbol < x ∧ x ≤ exampleMixedResult.maxSymbol)) ∧
      (∀ x, exampleMixed.maxSymbol < x → x ≤ exampleMixedResult.maxSymbol →
        x ∉ exampleMixed.terminals ∧ x ∉ exampleMixed.nonterminals ∧
        (∃ t ∈ exampleMixed.terminals,
          exampleMixedResult.rules.filter (fun r => decide (r.lhs = [x])) = [⟨[x], [t]⟩]) ∧
        (exampleMixedResult.rules.flatMap (fun r => r.rhs)).count x = 1) ∧
      exampleMixedResult.terminals = exampleMixed.terminals ∧
      exampleMixedResult.startSymbol = exampleMixed.startSymbol) :=
  ⟨@wellFormed_of_new [97, 98] [83, 65, 66] 83 exampleMixed.rules exampleMixed (by rfl),
    by decide, by rfl,
    removeMixedRules_unmix
      (@wellFormed_of_new [97, 98] [83, 65, 66] 83 exampleMixed.rules exampleMixed (by rfl))
      (by decide) (by rfl)⟩

/-! ## The start symbol in the right-hand sides, pass by pass -/

theorem StartFree.of_rhsFrom {g g1 : Grammar} {m : Symbol} (h : StartFree g)
    (hs : g1.startSymbol = g.startSymbol) (hle : g.startSymbol ≤ m)
    (hfrom : RhsFrom m g.rules g1.rules) : StartFree g1 := by
  intro r hr hmem
  rw [hs] at hmem
  rcases hfrom r hr _ hmem with ⟨r1, hr1, hx⟩ | hlt
  · exact h r1 hr1 hx
  · linarith

theorem RhsFrom.of_subset {m : Symbol} {rules1 rules2 : List Rule}
    (h : ∀ r ∈ rules2, r ∈ rules1) : RhsFrom m rules1 rules2 :=
  fun r hr _ hx => Or.inl ⟨r, h r hr, hx⟩

theorem chainsFrom_rhsFrom (m : Symbol) :
    ∀ (l : List Rule) (n : Symbol), (∀ r ∈ l, 3 ≤ r.rhs.length) → m < n →
      RhsFrom m l (chainsFrom l n) := by
  intro l
  induction l with
  | nil =>
    intro n _ _ r hr
    simp [chainsFrom] at hr
  | cons r rest ih =>
    intro n hlong hmn r2 hr2 x hx
    rw [chainsFrom, List.mem_append] at hr2
    rcases hr2 with hr2 | hr2
    · rw [← binarize_eq_chainOf r.rhs r.lhs n (hlong r (List.mem_cons_self r rest))] at hr2
      obtain ⟨-, horigin, -⟩ := binarize_mem r.rhs r.lhs n r2 hr2
      rcases horigin x hx with h | ⟨h, -⟩
      · exact Or.inl ⟨r, List.mem_cons_self r rest, h⟩
      · exact Or.inr (by linarith)
    · have hk : (0 : Int) ≤ ((r.rhs.length - 2 : Nat) : Int) := Int.ofNat_nonneg _
      rcases ih (n + ((r.rhs.length - 2 : Nat) : Int))
        (fun r1 hr1 => hlong r1 (List.mem_cons_of_mem r hr1)) (by linarith) r2 hr2 x hx with
        ⟨r1, hr1, h⟩ | h
      · exact Or.inl ⟨r1, List.mem_cons_of_mem r hr1, h⟩
      · exact Or.inr h

/-- The symbols of the right-hand sides after `removeLongRules` are symbols of the
right-hand sides before, or new. -/
theorem removeLongRules_rhsFrom {g g1 : Grammar} (h : removeLongRules g = Except.ok g1) :
    RhsFrom g.maxSymbol g.rules g1.rules := by
  obtain ⟨hrules, -⟩ := removeLongRules_rules h
  intro r2 hr2 x hx
  rw [hrules, List.mem_append] at hr2
  rcases hr2 with hr2 | hr2
  · exact Or.inl ⟨r2, (List.mem_filter.1 hr2).1, hx⟩
  · rcases chainsFrom_rhsFrom g.maxSymbol _ (g.maxSymbol + 1) (by
        intro r hr
        have := (List.mem_filter.1 (List.mem_reverse.1 hr)).2
        simp only [decide_eq_true_eq] at this
        omega) (by linarith) r2 hr2 x hx with ⟨r1, hr1, h1⟩ | h1
    · exact Or.inl ⟨r1, (List.mem_filter.1 (List.mem_reverse.1 hr1)).1, h1⟩
    · exact Or.inr h1

/-- After `removeEmptyRules` the start symbol is new exactly when the former start symbol
derives the empty word; the start symbol occurs in no rhs then, and also when the former
start symbol occurred in no rhs. -/
theorem removeEmptyRules_startFree {g g1 : Grammar} (hg : WellFormed g)
    (hshort : ∀ r ∈ g.rules, r.rhs.length ≤ 2) (h : removeEmptyRules g = Except.ok g1) :
    (g1.startSymbol ≠ g.startSymbol ↔ Derives g.rules [g.startSymbol] []) ∧
      (Derives g.rules [g.startSymbol] [] ∨ StartFree g → StartFree g1) := by
  obtain ⟨E, hE, hiff⟩ := findEpsilonGenerators_spec hg hshort
  have horigin := removeEmptyRules_loop_origin E g.rules
  rw [removeEmptyRules_eq hshort hE] at h
  by_cases hs : g.startSymbol ∈ E
  · simp only [hs, if_true] at h
    by_cases hmax : g.maxSymbol = Symbol.maxValue
    · simp only [hmax, if_true] at h
      exact absurd h (by simp)
    · simp only [hmax, if_false] at h
      have hg1 := Except.ok.inj h
      subst hg1
      have hd := (hiff _).1 hs
      refine ⟨⟨fun _ => hd, fun _ heq => ?_⟩, fun _ => ?_⟩
      · have hle := hg.start_le
        simp only at heq
        linarith
      · intro r hr hmem
        simp only [List.mem_append, List.mem_cons, List.mem_singleton, List.not_mem_nil,
          or_false] at hr
        simp only at hmem
        rcases hr with hr | hr | hr
        · obtain ⟨r0, hr0, -, hsub, -, -⟩ := horigin r hr
          have := hg.le_max _ (hg.rule_rhs r0 hr0 _ (hsub _ hmem))
          linarith
        · rw [hr] at hmem
          simp at hmem
        · rw [hr] at hmem
          simp only [List.mem_singleton] at hmem
          have := hg.start_le
          linarith
  · simp only [hs, if_false] at h
    have hg1 := Except.ok.inj h
    subst hg1
    have hnd : ¬ Derives g.rules [g.startSymbol] [] := fun hd => hs ((hiff _).2 hd)
    refine ⟨⟨fun hne => absurd rfl hne, fun hd => absurd hd hnd⟩, ?_⟩
    rintro (hd | hfree)
    · exact absurd hd hnd
    · intro r hr hmem
      obtain ⟨r0, hr0, -, hsub, -, -⟩ := horigin r hr
      exact hfree r0 hr0 (hsub _ hmem)

theorem removeChainRules_startFree {g : Grammar} (h : StartFree g) :
    StartFree (removeChainRules g) := by
  intro r1 hr1 hmem
  rcases (removeChainRules_mem g r1).1 hr1 with ⟨hr, -⟩ | ⟨a, b, -, r, hr, -, -, heq⟩
  · exact h r1 hr hmem
  · rw [heq] at hmem
    exact h r hr hmem

theorem mem_unmixOf_rhs (ts : Alphabet) (r : Rule) (n : Symbol) :
    ∀ r2 ∈ unmixOf ts r n, ∀ x ∈ r2.rhs,
      x = r.rhs.at 0 ∨ x = r.rhs.at 1 ∨ x = n ∨ x = n + 1 := by
  unfold unmixOf
  split_ifs <;> simp

theorem unmixFrom_rhsFrom (ts : Alphabet) (m : Symbol) :
    ∀ (l : List Rule) (n : Symbol), (∀ r ∈ l, r.rhs.length = 2) → m < n →
      RhsFrom m l (unmixFrom ts l n) := by
  intro l
  induction l with
  | nil =>
    intro n _ _ r hr
    simp [unmixFrom] at hr
  | cons r rest ih =>
    intro n hlen hmn r2 hr2 x hx
    have hr_mem : r ∈ r :: rest := List.mem_cons_self r rest
    have h0 : r.rhs.at 0 ∈ r.rhs := Word.at_mem (by have := hlen r hr_mem; omega)
    have h1 : r.rhs.at 1 ∈ r.rhs := Word.at_mem (by have := hlen r hr_mem; omega)
    rw [unmixFrom, List.mem_append] at hr2
    rcases hr2 with hr2 | hr2
    · have hcases : x = r.rhs.at 0 ∨ x = r.rhs.at 1 ∨ x = n ∨ x = n + 1 :=
        mem_unmixOf_rhs ts r n r2 hr2 x hx
      rcases hcases with h | h | h | h
      · exact Or.inl ⟨r, hr_mem, by rw [h]; exact h0⟩
      · exact Or.inl ⟨r, hr_mem, by rw [h]; exact h1⟩
      · exact Or.inr (by rw [h]; exact hmn)
      · exact Or.inr (by rw [h]; linarith)
    · have hk : (0 : Int) ≤ (terminalCount ts r : Int) := Int.ofNat_nonneg _
      rcases ih (n + (terminalCount ts r : Int))
        (fun r1 hr1 => hlen r1 (List.mem_cons_of_mem r hr1)) (by linarith) r2 hr2 x hx with
        ⟨r1, hr1, h⟩ | h
      · exact Or.inl ⟨r1, List.mem_cons_of_mem r hr1, h⟩
      · exact Or.inr h

/-- The symbols of the right-hand sides after `removeMixedRules` are symbols of the
right-hand sides before, or new. -/
theorem removeMixedRules_rhsFrom {g g1 : Grammar} (hg : WellFormed g)
    (hshort : ∀ r ∈ g.rules, r.rhs.length ≤ 2) (h : removeMixedRules g = Except.ok g1) :
    RhsFrom g.maxSymbol g.rules g1.rules := by
  obtain ⟨hrules, -⟩ := removeMixedRules_eq_unmix hg hshort h
  intro r2 hr2 x hx
  rw [hrules, List.mem_append] at hr2
  rcases hr2 with hr2 | hr2
  · exact Or.inl ⟨r2, (List.mem_filter.1 hr2).1, hx⟩
  · rcases unmixFrom_rhsFrom g.terminals g.maxSymbol _ (g.maxSymbol + 1) (by
        intro r hr
        exact ((hasTerminalInPair_iff _ _).1
          (List.mem_filter.1 (List.mem_reverse.1 hr)).2).1) (by linarith) r2 hr2 x hx with
      ⟨r1, hr1, h1⟩ | h1
    · exact Or.inl ⟨r1, (List.mem_filter.1 (List.mem_reverse.1 hr1)).1, h1⟩
    · exact Or.inr h1

/-! ## `isNormalized` on the result of `normalized` -/

/-- A grammar of Chomsky shape whose start symbol occurs in no rhs passes `isNormalized`. -/
theorem isNormalized_of_shape {g : Grammar} (hg : ChomskyShape g) (hfree : StartFree g) :
    isNormalized g = true := by
  unfold isNormalized
  rw [List.all_eq_true]
  intro r hr
  rw [Bool.not_eq_true', violates_false_iff hg.wellFormed hr]
  rcases (hg.rule_shape hr).2 with h | ⟨b, hb, c, hc, hrhs⟩ | h
  · exact Or.inl h
  · right; left
    have hnot := hfree r hr
    rw [hrhs] at hnot
    simp only [List.mem_cons, List.mem_singleton, List.not_mem_nil, or_false, not_or] at hnot
    exact ⟨b, hb, c, hc, hrhs, fun hcon => hnot.1 hcon.symm, fun hcon => hnot.2 hcon.symm⟩
  · exact Or.inr (Or.inr h)

/-- The start symbol along the passes of `normalize`, on a grammar that is not normalized
yet: it changes exactly when it derives the empty word, and it occurs in no rhs of the
result when it derives the empty word or occurred in no rhs. -/
theorem normalize_startFree {g g1 : Grammar} (hg : WellFormed g)
    (hnorm : isNormalized g = false) (h : ContextFreeGrammar.normalize g = Except.ok g1) :
    (g1.startSymbol ≠ g.startSymbol ↔ Derives g.rules [g.startSymbol] []) ∧
      (Derives g.rules [g.startSymbol] [] ∨ StartFree g → StartFree g1) := by
  unfold ContextFreeGrammar.normalize at h
  simp only [hnorm, Bool.false_eq_true, if_false, bind, Except.bind] at h
  cases h1 : removeLongRules g with
  | error e => rw [h1] at h; simp at h
  | ok g2 =>
    rw [h1] at h
    simp only at h
    obtain ⟨wf1, ext1, short1, eq1⟩ := removeLongRules_spec hg h1
    have hd1 : Derives g2.rules [g2.startSymbol] [] ↔ Derives g.rules [g.startSymbol] [] := by
      rw [ext1.start_eq]
      exact eq1 [g.startSymbol] [] (by
        intro x hx
        rw [List.mem_singleton.1 hx]
        exact hg.start_le) (by simp)
    have free1 : StartFree g → StartFree g2 := fun hf =>
      hf.of_rhsFrom ext1.start_eq hg.start_le (removeLongRules_rhsFrom h1)
    cases h2 : removeEmptyRules g2 with
    | error e => rw [h2] at h; simp at h
    | ok g3 =>
      rw [h2] at h
      simp only at h
      obtain ⟨wf2, short2, eps2, -⟩ := removeEmptyRules_spec wf1 short1 h2
      obtain ⟨hne2, free2⟩ := removeEmptyRules_startFree wf1 short1 h2
      obtain ⟨wf3, short3, -, -, -⟩ := removeChainRules_spec wf2 short2 eps2
      obtain ⟨g4, h4, t4, n4, s4, m4, sub4, -⟩ := removeNonGeneratingRules_spec wf3 short3
      rw [h4] at h
      simp only at h
      have wf4 : WellFormed g4 := wf3.of_rules_subset t4 n4 s4 m4 sub4
      have short4 : ∀ r ∈ g4.rules, r.rhs.length ≤ 2 := fun r hr => short3 r (sub4 r hr)
      obtain ⟨sub5, -⟩ := removeNonReachableRules_spec wf4
      have wf5 : WellFormed (removeNonReachableRules g4) :=
        wf4.of_rules_subset rfl rfl rfl rfl sub5
      have short5 : ∀ r ∈ (removeNonReachableRules g4).rules, r.rhs.length ≤ 2 :=
        fun r hr => short4 r (sub5 r hr)
      obtain ⟨-, ext6, -, -, -, -, -⟩ := removeMixedRules_spec wf5 short5 h
      have hstart : g1.startSymbol = g3.startSymbol := by
        rw [ext6.start_eq]
        exact s4
      constructor
      · rw [hstart, ← hd1, ← ext1.start_eq]
        exact hne2
      · intro hcase
        have free3 : StartFree g3 := by
          apply free2
          rcases hcase with hd | hf
          · exact Or.inl (hd1.2 hd)
          · exact Or.inr (free1 hf)
        have free4 : StartFree g4 := by
          intro r hr hmem
          rw [s4] at hmem
          exact removeChainRules_startFree free3 r (sub4 r hr) hmem
        have free5 : StartFree (removeNonReachableRules g4) :=
          fun r hr hmem => free4 r (sub5 r hr) hmem
        exact free5.of_rhsFrom ext6.start_eq wf5.start_le
          (removeMixedRules_rhsFrom wf5 short5 h)

/-- C31: let `normalized()` succeed on a valid context-free grammar `g`, with result `g1`.
If the start symbol of `g` derives the empty word, or occurs in the rhs of no rule of `g`,
then `isNormalized()` is true on `g1`. The start symbol of `g1` differs from the start
symbol of `g` exactly when `g` is not normalized already and its start symbol derives the
empty word. -/
theorem normalized_isNormalized {g g1 : Grammar} (hg : WellFormed g)
    (h : normalized g = Except.ok g1) :
    ((g.StartDerives [] ∨ ∀ r ∈ g.rules, g.startSymbol ∉ r.rhs) → isNormalized g1 = true) ∧
      (g1.startSymbol ≠ g.startSymbol ↔ (isNormalized g = false ∧ g.StartDerives [])) := by
  have h1 : ContextFreeGrammar.normalize g = Except.ok g1 := h
  by_cases hnorm : isNormalized g = true
  · have hgg : g1 = g := by
      unfold ContextFreeGrammar.normalize at h1
      simp only [hnorm, if_true, pure, Except.pure, Except.ok.injEq] at h1
      exact h1.symm
    subst hgg
    refine ⟨fun _ => hnorm, ⟨fun hne => absurd rfl hne, fun hcon => ?_⟩⟩
    rw [hnorm] at hcon
    exact absurd hcon.1 (by simp)
  · have hfalse : isNormalized g = false := by simpa using hnorm
    obtain ⟨hne, hfree⟩ := normalize_startFree hg hfalse h1
    obtain ⟨hshape, -⟩ := normalize_spec hg h1
    refine ⟨fun hcase => isNormalized_of_shape hshape (hfree hcase), ?_⟩
    rw [hne]
    exact ⟨fun hd => ⟨hfalse, hd⟩, fun hd => hd.2⟩

set_option maxRecDepth 10000 in
theorem normalized_isNormalized_witness :
    WellFormed exampleParentheses ∧
      normalized exampleParentheses = Except.ok exampleParenthesesNormalized ∧
      isNormalized exampleParentheses = false ∧
      isNormalized exampleParenthesesNormalized = true ∧
      (((exampleParentheses.StartDerives [] ∨
          ∀ r ∈ exampleParentheses.rules, exampleParentheses.startSymbol ∉ r.rhs) →
        isNormalized exampleParenthesesNormalized = true) ∧
      (exampleParenthesesNormalized.startSymbol ≠ exampleParentheses.startSymbol ↔
        (isNormalized exampleParentheses = false ∧ exampleParentheses.StartDerives []))) :=
  ⟨@wellFormed_of_new [40, 41] [83] 83 exampleParentheses.rules exampleParentheses (by rfl),
    by rfl, by rfl, by rfl,
    normalized_isNormalized
      (@wellFormed_of_new [40, 41] [83] 83 exampleParentheses.rules exampleParentheses (by rfl))
      (by rfl)⟩

end FL
